import Mathlib

/-!
brainfix: tape allocator and target-code synthesis

A shallow embedding of the brainfix compiler core (`src/memory.{h,cc}`,
`src/compiler.cc`) together with the tape machine its output runs on, and
theorems about the primitive-op text the synthesizer emits.

Conventions of the embedding
* `std::string` of primitive ops is `Code = List Char`.
* Cell values of the target machine are `Nat` with explicit `% 256`.
* Addresses are `Int` in the synthesizer (`int` in the source) and list
  indices in the allocator's tape.
* Undefined behaviour, failed assertions and compile errors are results of
  type `Err`; every operation returns `Except Err`.
* Statement order follows the source; a chain `a << f() << g()` evaluates
  `f` before `g`.
* Sizes that the source holds in a `uint8_t` are taken `% 256` where they
  enter; an `int` counter that leaves its range is undefined behaviour.
* A `std::string` of source text is the list of its bytes; `char` is signed,
  as on x86-64.
* The function map, which the source keeps in the compiler object, is passed
  to `call` explicitly; thunks are values of type `Gen Int`.
-/

namespace BrainFix

/-! ## The target machine -/

/-- Primitive-op text as emitted into the code buffer. -/
abbrev Code := List Char

/-- A tape of cells unbounded in both directions and the data pointer. -/
structure Machine where
  tape : Int → Nat
  ptr : Int

/-- Overwrite one cell of a tape. -/
def setCell (t : Int → Nat) (p : Int) (v : Nat) : Int → Nat :=
  fun i => if i = p then v else t i

/-- Bracket-structured programs: each constructor carries its continuation. -/
inductive Prog where
  | halt : Prog
  | right (k : Prog) : Prog
  | left (k : Prog) : Prog
  | inc (k : Prog) : Prog
  | dec (k : Prog) : Prog
  | loop (body k : Prog) : Prog

/-- Sequential composition of structured programs. -/
def Prog.append : Prog → Prog → Prog
  | .halt, q => q
  | .right k, q => .right (k.append q)
  | .left k, q => .left (k.append q)
  | .inc k, q => .inc (k.append q)
  | .dec k, q => .dec (k.append q)
  | .loop b k, q => .loop b (k.append q)

/-- One character of the text, read right to left: the state is the program
parsed so far at the current nesting level and the stack of enclosing
continuations.  Characters other than the six primitive ops are skipped. -/
def parseStep (c : Char) (st : Prog × List Prog) : Option (Prog × List Prog) :=
  if c = '>' then some (.right st.1, st.2)
  else if c = '<' then some (.left st.1, st.2)
  else if c = '+' then some (.inc st.1, st.2)
  else if c = '-' then some (.dec st.1, st.2)
  else if c = ']' then some (.halt, st.1 :: st.2)
  else if c = '[' then
    match st.2 with
    | [] => none
    | q :: r => some (.loop st.1 q, r)
  else some st

/-- Parse a text in front of an already parsed continuation. -/
def parseFrom : Code → Prog × List Prog → Option (Prog × List Prog)
  | [], st => some st
  | c :: cs, st => (parseFrom cs st).bind (parseStep c)

/-- Parse a whole text; `none` when the brackets do not match. -/
def parse (code : Code) : Option Prog :=
  match parseFrom code (.halt, []) with
  | some (p, []) => some p
  | _ => none

/-- Fuel-bounded execution: 8-bit wrapping cells, loop while the current
cell is nonzero. -/
def exec : Nat → Prog → Machine → Option Machine
  | 0, _, _ => none
  | _ + 1, .halt, s => some s
  | f + 1, .right k, s => exec f k { s with ptr := s.ptr + 1 }
  | f + 1, .left k, s => exec f k { s with ptr := s.ptr - 1 }
  | f + 1, .inc k, s =>
      exec f k { s with tape := setCell s.tape s.ptr ((s.tape s.ptr + 1) % 256) }
  | f + 1, .dec k, s =>
      exec f k { s with tape := setCell s.tape s.ptr ((s.tape s.ptr + 255) % 256) }
  | f + 1, .loop b k, s =>
      if s.tape s.ptr = 0 then exec f k s
      else
        match exec f b s with
        | none => none
        | some s1 => exec f (.loop b k) s1

/-- Run a text with the given fuel. -/
def runCode (fuel : Nat) (code : Code) (s : Machine) : Option Machine :=
  match parse code with
  | none => none
  | some p => exec fuel p s

/-- The text is well bracketed and its run from `s` terminates in `s1`. -/
def Runs (code : Code) (s s1 : Machine) : Prop :=
  ∃ fuel, runCode fuel code s = some s1

/-- The text is well bracketed. -/
def Balanced (code : Code) : Prop := (parse code).isSome = true

/-- Every cell holds a byte. -/
def Bytes (t : Int → Nat) : Prop := ∀ a, t a < 256

/-- Put a parser state on top of a continuation `k` and an outer stack. -/
def liftState : Prog × List Prog → Prog → List Prog → Prog × List Prog
  | (p, []), k, stk => (p.append k, stk)
  | (p, q :: qs), k, stk => (p, (liftState (q, qs) k stk).1 :: (liftState (q, qs) k stk).2)

/-! ## Results -/

/-- Ways an operation of the compiler can fail to return. -/
inductive Err where
  /-- Out-of-bounds `operator[]`, `back()`/`top()` of an empty container. -/
  | undefinedBehaviour : Err
  /-- A failed `assert`. -/
  | assertion : Err
  /-- A user-facing diagnostic raised by `errorIf`. -/
  | compileError : Err
  /-- A recursion that does not return. -/
  | diverges : Err
  deriving DecidableEq, Repr

/-! ## Type catalog (`typesystem.h`) -/

namespace TypeSystem

/-- `TypeSystem::Type`: the kind tag together with the `std::variant` payload. -/
inductive TSType where
  | null : TSType
  | int (sz : Nat) : TSType
  | struct (name : String) : TSType
  deriving DecidableEq, Repr

/-- `StructDefinition::Field`. -/
structure Field where
  name : String
  offset : Nat
  type : TSType
  deriving DecidableEq, Repr

/-- `TypeSystem::StructDefinition`. -/
structure StructDefinition where
  d_size : Nat
  d_name : String
  d_fields : List Field
  deriving DecidableEq, Repr

/-- The static `typeMap`, passed explicitly. -/
abbrev TypeMap := List (String × StructDefinition)

/-- Modelled from the spec: `Type::definition()` is declared in `typesystem.h`
only; a struct type resolves by name against the type catalog. -/
def TSType.definition (tm : TypeMap) : TSType → Option StructDefinition
  | .struct n => tm.lookup n
  | _ => none

/-- Modelled from the spec: `Type::size()` is declared in `typesystem.h` only;
an integer type has its declared width, a struct the size computed at
registration, the null type no cells. -/
def TSType.size (tm : TypeMap) : TSType → Nat
  | .null => 0
  | .int n => n
  | .struct n => match tm.lookup n with
    | some d => d.d_size
    | none => 0

/-- Modelled from the spec: `Type::defined()`, the type is not the null type. -/
def TSType.defined : TSType → Bool
  | .null => false
  | _ => true

/-- Kind test `Type::isIntType()`. -/
def TSType.isIntType : TSType → Bool
  | .int _ => true
  | _ => false

/-- Kind test `Type::isStructType()`. -/
def TSType.isStructType : TSType → Bool
  | .struct _ => true
  | _ => false

end TypeSystem

open TypeSystem

/-! ## Tape allocator (`memory.h`, `memory.cc`) -/

namespace Memory

/-- `Memory::Content`. -/
inductive Content where
  | EMPTY | NAMED | TEMP | REFERENCED | PROTECTED
  deriving DecidableEq, Repr

/-- `Cell::Members`, the tuple saved by `backup`. -/
abbrev Members := String × String × Content × TSType

/-- `Memory::Cell`. -/
structure Cell where
  identifier : String
  scope : String
  content : Content
  type : TSType
  d_backupStack : List Members
  deriving DecidableEq, Repr

/-- The default-constructed cell `Cell()`. -/
def Cell.mk0 : Cell :=
  { identifier := "", scope := "", content := .EMPTY, type := .null, d_backupStack := [] }

/-- `Cell::empty`. -/
def Cell.empty (c : Cell) : Bool := c.content == .EMPTY

/-- `Cell::size`. -/
def Cell.size (tm : TypeMap) (c : Cell) : Nat := c.type.size tm

/-- `Cell::clear`. -/
def Cell.clear (c : Cell) : Except Err Cell :=
  if c.content = .PROTECTED then .error .assertion
  else .ok { c with identifier := "", scope := "", content := .EMPTY, type := .null }

/-- `Cell::backup`. -/
def Cell.backup (c : Cell) : Cell :=
  { c with d_backupStack := (c.identifier, c.scope, c.content, c.type) :: c.d_backupStack,
           content := .PROTECTED }

/-- `Cell::restore`. -/
def Cell.restore (c : Cell) : Except Err Cell :=
  match c.d_backupStack with
  | [] => .error .assertion
  | m :: rest =>
    .ok { identifier := m.1, scope := m.2.1, content := m.2.2.1, type := m.2.2.2,
          d_backupStack := rest }

end Memory

/-- `class Memory`: the tape and the protect stack. -/
structure Memory where
  d_memory : List Memory.Cell
  d_protectedStack : List Int
  deriving DecidableEq, Repr

namespace Memory

/-- The constructor `Memory(size_t sz)`. -/
def init (sz : Nat) : Memory :=
  { d_memory := List.replicate sz Cell.mk0, d_protectedStack := [] }

/-- `Memory::size`. -/
def size (m : Memory) : Nat := m.d_memory.length

/-- `d_memory[i]` for reading. -/
def cellAt (cells : List Cell) (i : Nat) : Except Err Cell :=
  match cells[i]? with
  | some c => .ok c
  | none => .error .undefinedBehaviour

/-- The inner loop of `findFree`: `offset` runs from its start up to `sz`,
stopping at the first non-empty cell.  The first argument counts the
iterations left. -/
def isFreeRun (cells : List Cell) (start : Nat) : Nat → Nat → Except Err Bool
  | 0, _ => .ok true
  | n + 1, offset =>
    match cellAt cells (start + offset) with
    | .error e => .error e
    | .ok cell =>
      if !cell.empty then .ok false
      else isFreeRun cells start n (offset + 1)

/-- The outer loop of `findFree`: `start` runs until it equals `bound`.  The
first argument bounds the iterations (the loop leaves the tape after at most
`size + 1` of them). -/
def scanFrom (cells : List Cell) (sz bound : Nat) : Nat → Nat → Except Err (Option Nat)
  | 0, _ => .error .diverges
  | fuel + 1, start =>
    if start = bound then .ok none
    else
      match isFreeRun cells start sz 0 with
      | .error e => .error e
      | .ok true => .ok (some start)
      | .ok false => scanFrom cells sz bound fuel (start + 1)

/-- The loop bound `d_memory.size() - sz` in `size_t` arithmetic: the size of
a vector is below `2 ^ 64`, so the difference wraps around exactly when `sz`
exceeds it. -/
def scanBound (len sz : Nat) : Nat :=
  if sz ≤ len then len - sz else 2 ^ 64 - (sz - len)

/-- One pass of the scan over the whole tape. -/
def scan (cells : List Cell) (sz : Nat) : Except Err (Option Nat) :=
  scanFrom cells sz (scanBound cells.length sz) (cells.length + 2) 0

/-- `Memory::findFree`, the first argument being the number of recursive
calls still allowed. -/
def findFreeAux (sz : Nat) : Nat → List Cell → Except Err (Nat × List Cell)
  | 0, _ => .error .diverges
  | fuel + 1, cells =>
    match scan cells sz with
    | .error e => .error e
    | .ok (some start) => .ok (start, cells)
    | .ok none => findFreeAux sz fuel (cells ++ List.replicate sz Cell.mk0)

/-- `Memory::findFree`.  The recursion is followed for three passes, which
is as far as a request that fits the tape goes (`findFreeAux_ok`). -/
def findFree (m : Memory) (sz : Nat) : Except Err (Nat × Memory) :=
  match findFreeAux sz 3 m.d_memory with
  | .error e => .error e
  | .ok (a, cells) => .ok (a, { m with d_memory := cells })

/-- The loop `for (int i = 1; i != n; ++i)` of `place` that clears the cells
after the first and marks them referenced.  The first argument bounds the
iterations. -/
def markReferenced (addr n : Nat) : Nat → Nat → List Cell → Except Err (List Cell)
  | 0, _, _ => .error .diverges
  | fuel + 1, i, cells =>
    if i = n then .ok cells
    else
      match cellAt cells (addr + i) with
      | .error e => .error e
      | .ok cell =>
        match cell.clear with
        | .error e => .error e
        | .ok cell1 =>
          markReferenced addr n fuel (i + 1)
            (cells.set (addr + i) { cell1 with content := .REFERENCED })

/-- `Memory::place`; the first argument bounds the nesting of struct fields. -/
def place (tm : TypeMap) : Nat → List Cell → String → String → TSType → Nat →
    Except Err (List Cell)
  | depth, cells, ident, scope, type, addr =>
    match cellAt cells addr with
    | .error e => .error e
    | .ok cell =>
      match cell.clear with
      | .error e => .error e
      | .ok cell1 =>
        let cell2 : Cell :=
          { cell1 with
            identifier := ident, scope := scope, type := type,
            content := if scope.isEmpty then .REFERENCED
                       else if ident.isEmpty then .TEMP else .NAMED }
        let cells1 := cells.set addr cell2
        if type.isIntType then
          markReferenced addr (type.size tm) (cells1.length + 1) 1 cells1
        else
          match type.definition tm with
          | none => .error .undefinedBehaviour
          | some definition =>
            definition.d_fields.foldlM
              (fun (cs : List Cell) (f : Field) =>
                if f.type.isStructType then
                  match depth with
                  | 0 => .error .diverges
                  | d + 1 => place tm d cs "" "" f.type (addr + f.offset)
                else
                  match cellAt cs (addr + f.offset) with
                  | .error e => .error e
                  | .ok fc =>
                    match fc.clear with
                    | .error e => .error e
                    | .ok fc1 =>
                      markReferenced (addr + f.offset) (f.type.size tm) (cs.length + 1) 1
                        (cs.set (addr + f.offset)
                          { fc1 with type := f.type, content := .REFERENCED }))
              cells1

/-- `Memory::find`: the first cell whose scope is a prefix of the query scope
(`scope.find(cell.scope) == 0`) and whose identifier matches; `-1` if none. -/
def find (m : Memory) (ident scope : String) : Int :=
  match m.d_memory.findIdx?
      (fun cell => cell.scope.toList.isPrefixOf scope.toList && cell.identifier == ident) with
  | some i => (i : Int)
  | none => -1

/-- `Memory::allocate`. -/
def allocate (tm : TypeMap) (m : Memory) (ident scope : String) (type : TSType) :
    Except Err (Int × Memory) :=
  if !type.defined then .error .assertion
  else if !ident.isEmpty && find m ident scope != -1 then .ok (-1, m)
  else
    match findFree m (type.size tm) with
    | .error e => .error e
    | .ok (addr, m1) =>
      match place tm tm.length m1.d_memory ident scope type addr with
      | .error e => .error e
      | .ok cells => .ok ((addr : Int), { m1 with d_memory := cells })

/-- `Memory::getTemp(scope, type)`. -/
def getTempT (tm : TypeMap) (m : Memory) (scope : String) (type : TSType) :
    Except Err (Int × Memory) :=
  allocate tm m "" scope type

/-- `Memory::getTemp(scope, sz)`. -/
def getTemp (tm : TypeMap) (m : Memory) (scope : String) (sz : Nat) :
    Except Err (Int × Memory) :=
  getTempT tm m scope (.int sz)

/-- `Memory::sizeOf(addr)`. -/
def sizeOf (tm : TypeMap) (m : Memory) (addr : Int) : Except Err Nat :=
  if addr < 0 ∨ (m.d_memory.length : Int) ≤ addr then .error .assertion
  else
    match m.d_memory[addr.toNat]? with
    | none => .error .assertion
    | some cell => if cell.empty then .error .assertion else .ok (cell.size tm)

end Memory

namespace Memory

/-- The inner loop of `freeIf`, `for (int offset = 1; offset < cell.size(); ++offset)`:
the cells behind the one at `idx` are cleared.  The first argument counts the
iterations left. -/
def clearFollowers (idx : Nat) : Nat → Nat → List Cell → Except Err (List Cell)
  | 0, _, cells => .ok cells
  | k + 1, offset, cells =>
    match cellAt cells (idx + offset) with
    | .error e => .error e
    | .ok referenced =>
      match referenced.clear with
      | .error e => .error e
      | .ok cleared => clearFollowers idx k (offset + 1) (cells.set (idx + offset) cleared)

/-- The outer loop of `freeIf`, `idx` running over the tape.  The first
argument counts the iterations left. -/
def freeIfLoop (tm : TypeMap) (pred : Cell → Bool) :
    Nat → Nat → List Cell → Except Err (List Cell)
  | 0, _, cells => .ok cells
  | k + 1, idx, cells =>
    match cellAt cells idx with
    | .error e => .error e
    | .ok cell =>
      if pred cell then
        match clearFollowers idx (cell.size tm - 1) 1 cells with
        | .error e => .error e
        | .ok cells1 =>
          match cell.clear with
          | .error e => .error e
          | .ok cleared => freeIfLoop tm pred k (idx + 1) (cells1.set idx cleared)
      else freeIfLoop tm pred k (idx + 1) cells

/-- `Memory::freeIf`. -/
def freeIf (tm : TypeMap) (m : Memory) (pred : Cell → Bool) : Except Err Memory :=
  match freeIfLoop tm pred m.d_memory.length 0 m.d_memory with
  | .error e => .error e
  | .ok cells => .ok { m with d_memory := cells }

/-- `Memory::freeTemps`. -/
def freeTemps (tm : TypeMap) (m : Memory) (scope : String) : Except Err Memory :=
  freeIf tm m (fun cell => cell.content == .TEMP && cell.scope == scope)

/-- `Memory::freeLocals`. -/
def freeLocals (tm : TypeMap) (m : Memory) (scope : String) : Except Err Memory :=
  freeIf tm m (fun cell => cell.scope == scope)

/-- `Memory::push`. -/
def push (m : Memory) (addr : Int) : Except Err Memory :=
  if addr < 0 ∨ (m.d_memory.length : Int) ≤ addr then .error .assertion
  else
    match m.d_memory[addr.toNat]? with
    | none => .error .assertion
    | some cell =>
      .ok { d_memory := m.d_memory.set addr.toNat cell.backup,
            d_protectedStack := addr :: m.d_protectedStack }

/-- `Memory::pop`. -/
def pop (m : Memory) : Except Err (Int × Memory) :=
  match m.d_protectedStack with
  | [] => .error .undefinedBehaviour
  | addr :: rest =>
    if addr < 0 then .error .undefinedBehaviour
    else
      match cellAt m.d_memory addr.toNat with
      | .error e => .error e
      | .ok cell =>
        match cell.restore with
        | .error e => .error e
        | .ok restored =>
          .ok (addr, { d_memory := m.d_memory.set addr.toNat restored,
                       d_protectedStack := rest })

/-- `Memory::isTemp`. -/
def isTemp (m : Memory) (addr : Int) : Except Err Bool :=
  if addr < 0 ∨ (m.d_memory.length : Int) ≤ addr then .error .assertion
  else
    match m.d_memory[addr.toNat]? with
    | none => .error .assertion
    | some cell => .ok (cell.content == .TEMP)

/-- `Memory::identifier`. -/
def identifier (m : Memory) (addr : Int) : Except Err String :=
  if addr < 0 ∨ (m.d_memory.length : Int) ≤ addr then .error .assertion
  else
    match m.d_memory[addr.toNat]? with
    | none => .error .assertion
    | some cell => .ok cell.identifier

/-- `Memory::scope`. -/
def scope (m : Memory) (addr : Int) : Except Err String :=
  if addr < 0 ∨ (m.d_memory.length : Int) ≤ addr then .error .assertion
  else
    match m.d_memory[addr.toNat]? with
    | none => .error .assertion
    | some cell => .ok cell.scope

/-- `Memory::type(addr)`. -/
def type (m : Memory) (addr : Int) : Except Err TSType :=
  if addr < 0 ∨ (m.d_memory.length : Int) ≤ addr then .error .assertion
  else
    match m.d_memory[addr.toNat]? with
    | none => .error .assertion
    | some cell => .ok cell.type

end Memory

namespace Memory

/-- The loop of `getTempBlock`, `for (int i = 0; i != sz; ++i)`: every cell of
the block is cleared and made a one-cell temporary of the scope.  The first
argument counts the iterations left. -/
def getTempBlockLoop (scope : String) (start : Nat) :
    Nat → Nat → List Cell → Except Err (List Cell)
  | 0, _, cells => .ok cells
  | k + 1, i, cells =>
    match cellAt cells (start + i) with
    | .error e => .error e
    | .ok cell =>
      match cell.clear with
      | .error e => .error e
      | .ok cleared =>
        let cell1 : Cell := { cleared with scope := scope, type := .int 1, content := .TEMP }
        getTempBlockLoop scope start k (i + 1) (cells.set (start + i) cell1)

/-- `Memory::getTempBlock`. -/
def getTempBlock (m : Memory) (scope : String) (sz : Nat) : Except Err (Int × Memory) :=
  match findFree m sz with
  | .error e => .error e
  | .ok (start, m1) =>
    match getTempBlockLoop scope start sz 0 m1.d_memory with
    | .error e => .error e
    | .ok cells => .ok ((start : Int), { m1 with d_memory := cells })

/-- `Memory::markAsTemp`. -/
def markAsTemp (m : Memory) (addr : Int) : Except Err Memory :=
  if addr < 0 ∨ (m.d_memory.length : Int) ≤ addr then .error .assertion
  else
    match m.d_memory[addr.toNat]? with
    | none => .error .assertion
    | some cell =>
      if cell.content = .PROTECTED then .error .assertion
      else
        let cell1 : Cell := { cell with identifier := "", content := .TEMP }
        .ok { m with d_memory := m.d_memory.set addr.toNat cell1 }

/-- `Memory::rename`. -/
def rename (m : Memory) (addr : Int) (ident scope : String) : Except Err Memory :=
  if addr < 0 ∨ (m.d_memory.length : Int) ≤ addr then .error .assertion
  else
    match m.d_memory[addr.toNat]? with
    | none => .error .assertion
    | some cell =>
      let cell1 : Cell :=
        { cell with
          identifier := ident, scope := scope,
          content := if cell.content = .PROTECTED then cell.content else .NAMED }
      .ok { m with d_memory := m.d_memory.set addr.toNat cell1 }

/-- `push(a1)` .. `push(ak)`, in this order. -/
def pushAll (m : Memory) : List Int → Except Err Memory
  | [] => .ok m
  | a :: rest =>
    match push m a with
    | .error e => .error e
    | .ok m1 => pushAll m1 rest

/-- `n` calls of `pop()`; the addresses they return, in the order of the
calls. -/
def popN (m : Memory) : Nat → Except Err (List Int × Memory)
  | 0 => .ok ([], m)
  | n + 1 =>
    match pop m with
    | .error e => .error e
    | .ok (a, m1) =>
      match popN m1 n with
      | .error e => .error e
      | .ok (l, m2) => .ok (a :: l, m2)

end Memory

/-! ## Target-code synthesizer (`compiler.cc`) -/

/-- The part of `class Compiler` the synthesis engine works on: the pointer
cursor, the allocator, the call stack, the output buffer, the type catalog
the allocator consults and the evaluation stack `d_stack` of `pushStack`. -/
structure Compiler where
  d_pointer : Int
  d_memory : Memory
  d_callStack : List String
  d_codeBuffer : Code
  typeMap : TypeSystem.TypeMap
  d_stack : List Int

/-- A member function of `Compiler` returning `α`. -/
def Gen (α : Type) : Type := Compiler → Except Err (α × Compiler)

instance : Monad Gen where
  pure a := fun c => .ok (a, c)
  bind x f := fun c =>
    match x c with
    | .ok (a, c1) => f a c1
    | .error e => .error e

namespace Compiler

/-- Abort with the given failure. -/
def fail {α : Type} (e : Err) : Gen α := fun _ => .error e

/-- `errorIf(cond, ...)`. -/
def errorIf (cond : Bool) : Gen Unit :=
  if cond then fail .compileError else pure ()

/-- Read `d_pointer`. -/
def getPointer : Gen Int := fun c => .ok (c.d_pointer, c)

/-- `d_pointer = addr`. -/
def setPointer (addr : Int) : Gen Unit :=
  fun c => .ok ((), { c with d_pointer := addr })

/-- Modelled from the spec: `MAX_ARRAY_SIZE` is defined in the missing
`compiler.h`; the value is the cap the specification records. -/
def MAX_ARRAY_SIZE : Nat := 255

/-- Modelled from the spec: `validateAddr` is declared in the missing
`compiler.h`; addresses are cell indices, so it rejects a negative argument. -/
def validateAddr (addrs : List Int) : Gen Unit :=
  if addrs.all (fun a => decide (0 ≤ a)) then pure () else fail .assertion

/-- `d_codeBuffer << ops`. -/
def emit (ops : Code) : Gen Unit :=
  fun c => .ok ((), { c with d_codeBuffer := c.d_codeBuffer ++ ops })

/-- `Compiler::allocateTemp`; the parameter is a `uint8_t` (a call without
argument passes 1). -/
def allocateTemp (sz : Nat) : Gen Int := fun c =>
  match c.d_callStack.getLast? with
  | none => .error .undefinedBehaviour
  | some scope =>
    match Memory.getTemp c.typeMap c.d_memory scope (sz % 256) with
    | .error e => .error e
    | .ok (addr, m) => .ok (addr, { c with d_memory := m })

/-- `d_memory.sizeOf(addr)`. -/
def sizeOf (addr : Int) : Gen Nat := fun c =>
  match Memory.sizeOf c.typeMap c.d_memory addr with
  | .error e => .error e
  | .ok n => .ok (n, c)

/-- Modelled from the spec: `Memory::findLocal` and `Memory::findGlobal` are
not among the sources; the name resolution of the specification,
`find(identifier, scope)`, stands in for both, the global scope being `""`. -/
def addressOf (ident : String) : Gen Int := fun c =>
  let scope := c.d_callStack.getLast?.getD ""
  let addr := Memory.find c.d_memory ident scope
  let addr := if addr = -1 then Memory.find c.d_memory ident "" else addr
  .ok (addr, c)

/-- `Compiler::bf_movePtr`. -/
def bf_movePtr (addr : Int) : Gen Code := do
  validateAddr [addr]
  let diff := addr - (← getPointer)
  setPointer addr
  return if diff ≥ 0 then List.replicate diff.toNat '>' else List.replicate (-diff).toNat '<'

/-- `Compiler::bf_setToValue(addr, val)`. -/
def bf_setToValue (addr val : Int) : Gen Code := do
  validateAddr [addr, val]
  let ops : Code := []
  let ops := ops ++ (← bf_movePtr addr)
  let ops := ops ++ ['[', '-', ']']
  let ops := ops ++ List.replicate val.toNat '+'
  return ops

/-- The loop of `bf_setToValue(start, val, n)`: `k` iterations left, index `i`. -/
def bf_setToValueLoop (start val : Int) : Nat → Nat → Code → Gen Code
  | 0, _, ops => pure ops
  | k + 1, i, ops => do
    let ops := ops ++ (← bf_setToValue (start + i) val)
    bf_setToValueLoop start val k (i + 1) ops

/-- `Compiler::bf_setToValue(start, val, n)`. -/
def bf_setToValueN (start val : Int) (n : Nat) : Gen Code := do
  validateAddr [start, val]
  bf_setToValueLoop start val n 0 []

/-- `Compiler::bf_assign(lhs, rhs)`. -/
def bf_assign (lhs rhs : Int) : Gen Code := do
  validateAddr [lhs, rhs]
  let tmp ← allocateTemp 1
  let ops : Code := []
  let ops := ops ++ ((← bf_movePtr lhs) ++ ['[', '-', ']'])
  let ops := ops ++ ((← bf_movePtr tmp) ++ ['[', '-', ']'])
  let ops := ops ++ (← bf_movePtr rhs)
  let ops := ops ++ ['[', '-']
  let ops := ops ++ (← bf_movePtr lhs)
  let ops := ops ++ ['+']
  let ops := ops ++ (← bf_movePtr tmp)
  let ops := ops ++ ['+']
  let ops := ops ++ (← bf_movePtr rhs)
  let ops := ops ++ [']']
  let ops := ops ++ (← bf_movePtr tmp)
  let ops := ops ++ ['[', '-']
  let ops := ops ++ (← bf_movePtr rhs)
  let ops := ops ++ ['+']
  let ops := ops ++ (← bf_movePtr tmp)
  let ops := ops ++ [']']
  let ops := ops ++ (← bf_movePtr lhs)
  return ops

/-- The loop of `bf_assign(dest, src, n)`: `k` iterations left, index `idx`. -/
def bf_assignLoop (dest src : Int) : Nat → Nat → Code → Gen Code
  | 0, _, result => pure result
  | k + 1, idx, result => do
    let result := result ++ (← bf_assign (dest + idx) (src + idx))
    bf_assignLoop dest src k (idx + 1) result

/-- `Compiler::bf_assign(dest, src, n)`. -/
def bf_assignN (dest src : Int) (n : Nat) : Gen Code := do
  validateAddr [dest, src]
  bf_assignLoop dest src n 0 []

/-- `Compiler::bf_addTo`. -/
def bf_addTo (target rhs : Int) : Gen Code := do
  validateAddr [target, rhs]
  let result : Code := []
  let tmp ← allocateTemp 1
  let result := result ++ (← bf_assign tmp rhs)
  let result := result ++ (← bf_movePtr tmp)
  let result := result ++ ['[', '-']
  let result := result ++ (← bf_movePtr target)
  let result := result ++ ['+']
  let result := result ++ (← bf_movePtr tmp)
  let result := result ++ [']']
  let result := result ++ (← bf_movePtr target)
  return result

/-- `Compiler::bf_subtractFrom`. -/
def bf_subtractFrom (target rhs : Int) : Gen Code := do
  validateAddr [target, rhs]
  let result : Code := []
  let tmp ← allocateTemp 1
  let result := result ++ (← bf_assign tmp rhs)
  let result := result ++ (← bf_movePtr tmp)
  let result := result ++ ['[', '-']
  let result := result ++ (← bf_movePtr target)
  let result := result ++ ['-']
  let result := result ++ (← bf_movePtr tmp)
  let result := result ++ [']']
  let result := result ++ (← bf_movePtr target)
  return result

/-- `Compiler::bf_incr`. -/
def bf_incr (target : Int) : Gen Code := do
  validateAddr [target]
  return (← bf_movePtr target) ++ ['+']

/-- `Compiler::bf_decr`. -/
def bf_decr (target : Int) : Gen Code := do
  validateAddr [target]
  return (← bf_movePtr target) ++ ['-']

/-- `Compiler::bf_multiply`. -/
def bf_multiply (lhs rhs result : Int) : Gen Code := do
  validateAddr [lhs, rhs, result]
  let ops : Code := []
  let tmp ← allocateTemp 1
  let ops := ops ++ (← bf_setToValue result 0)
  let ops := ops ++ (← bf_assign tmp rhs)
  let ops := ops ++ ['[', '-']
  let ops := ops ++ (← bf_addTo result lhs)
  let ops := ops ++ (← bf_movePtr tmp)
  let ops := ops ++ [']']
  let ops := ops ++ (← bf_movePtr result)
  return ops

/-- `Compiler::bf_not`. -/
def bf_not (addr result : Int) : Gen Code := do
  validateAddr [addr, result]
  let ops : Code := []
  let tmp ← allocateTemp 1
  let ops := ops ++ (← bf_setToValue result 1)
  let ops := ops ++ (← bf_assign tmp addr)
  let ops := ops ++ ['[']
  let ops := ops ++ (← bf_setToValue result 0)
  let ops := ops ++ (← bf_setToValue tmp 0)
  let ops := ops ++ [']']
  let ops := ops ++ (← bf_movePtr result)
  return ops

/-- `Compiler::bf_and`. -/
def bf_and (lhs rhs result : Int) : Gen Code := do
  validateAddr [lhs, rhs, result]
  let x ← allocateTemp 1
  let y ← allocateTemp 1
  let ops : Code := []
  let ops := ops ++ (← bf_setToValue result 0)
  let ops := ops ++ (← bf_assign y rhs)
  let ops := ops ++ (← bf_assign x lhs)
  let ops := ops ++ ['[']
  let ops := ops ++ (← bf_movePtr y)
  let ops := ops ++ ['[']
  let ops := ops ++ (← bf_setToValue result 1)
  let ops := ops ++ (← bf_setToValue y 0)
  let ops := ops ++ [']']
  let ops := ops ++ (← bf_setToValue x 0)
  let ops := ops ++ [']']
  let ops := ops ++ (← bf_movePtr result)
  return ops

/-- `Compiler::bf_or`. -/
def bf_or (lhs rhs result : Int) : Gen Code := do
  validateAddr [lhs, rhs, result]
  let x ← allocateTemp 1
  let y ← allocateTemp 1
  let ops : Code := []
  let ops := ops ++ (← bf_setToValue result 0)
  let ops := ops ++ (← bf_assign x lhs)
  let ops := ops ++ ['[']
  let ops := ops ++ (← bf_setToValue result 1)
  let ops := ops ++ (← bf_setToValue x 0)
  let ops := ops ++ [']']
  let ops := ops ++ (← bf_assign y rhs)
  let ops := ops ++ ['[']
  let ops := ops ++ (← bf_setToValue result 1)
  let ops := ops ++ (← bf_setToValue y 0)
  let ops := ops ++ [']']
  let ops := ops ++ (← bf_movePtr result)
  return ops

/-- `Compiler::bf_equal`. -/
def bf_equal (lhs rhs result : Int) : Gen Code := do
  validateAddr [lhs, rhs, result]
  let ops : Code := []
  let tmpL ← allocateTemp 1
  let tmpR ← allocateTemp 1
  let ops := ops ++ (← bf_setToValue result 1)
  let ops := ops ++ (← bf_assign tmpR rhs)
  let ops := ops ++ (← bf_assign tmpL lhs)
  let ops := ops ++ ['[']
  let ops := ops ++ (← bf_decr tmpR)
  let ops := ops ++ (← bf_decr tmpL)
  let ops := ops ++ [']']
  let ops := ops ++ (← bf_movePtr tmpR)
  let ops := ops ++ ['[']
  let ops := ops ++ (← bf_setToValue result 0)
  let ops := ops ++ (← bf_setToValue tmpR 0)
  let ops := ops ++ [']']
  let ops := ops ++ (← bf_movePtr result)
  return ops

/-- `Compiler::bf_notEqual`. -/
def bf_notEqual (lhs rhs result : Int) : Gen Code := do
  validateAddr [lhs, rhs, result]
  let ops : Code := []
  let result2 ← allocateTemp 1
  let ops := ops ++ (← bf_equal lhs rhs result2)
  let ops := ops ++ (← bf_not result2 result)
  return ops

/-- `Compiler::bf_greater`. -/
def bf_greater (lhs rhs result : Int) : Gen Code := do
  validateAddr [lhs, rhs, result]
  let x ← allocateTemp 1
  let y ← allocateTemp 1
  let tmp1 ← allocateTemp 1
  let tmp2 ← allocateTemp 1
  let ops : Code := []
  let ops := ops ++ (← bf_setToValue tmp1 0)
  let ops := ops ++ (← bf_setToValue tmp2 0)
  let ops := ops ++ (← bf_setToValue result 0)
  let ops := ops ++ (← bf_assign y rhs)
  let ops := ops ++ (← bf_assign x lhs)
  let ops := ops ++ ['[']
  let ops := ops ++ (← bf_incr tmp1)
  let ops := ops ++ (← bf_movePtr y)
  let ops := ops ++ ['[']
  let ops := ops ++ (← bf_setToValue tmp1 0)
  let ops := ops ++ (← bf_incr tmp2)
  let ops := ops ++ (← bf_decr y)
  let ops := ops ++ [']']
  let ops := ops ++ (← bf_movePtr tmp1)
  let ops := ops ++ ['[']
  let ops := ops ++ (← bf_incr result)
  let ops := ops ++ (← bf_decr tmp1)
  let ops := ops ++ [']']
  let ops := ops ++ (← bf_movePtr tmp2)
  let ops := ops ++ ['[']
  let ops := ops ++ (← bf_incr y)
  let ops := ops ++ (← bf_decr tmp2)
  let ops := ops ++ [']']
  let ops := ops ++ (← bf_decr y)
  let ops := ops ++ (← bf_decr x)
  let ops := ops ++ [']']
  let ops := ops ++ (← bf_movePtr result)
  return ops

/-- `Compiler::bf_less`. -/
def bf_less (lhs rhs result : Int) : Gen Code := do
  validateAddr [lhs, rhs, result]
  bf_greater rhs lhs result

/-- `Compiler::bf_greaterOrEqual`. -/
def bf_greaterOrEqual (lhs rhs result : Int) : Gen Code := do
  validateAddr [lhs, rhs, result]
  let isEqual ← allocateTemp 1
  let isGreater ← allocateTemp 1
  let ops : Code := []
  let ops := ops ++ (← bf_equal lhs rhs isEqual)
  let ops := ops ++ (← bf_greater lhs rhs isGreater)
  let ops := ops ++ (← bf_or isEqual isGreater result)
  let ops := ops ++ (← bf_movePtr result)
  return ops

/-- `Compiler::bf_lessOrEqual`. -/
def bf_lessOrEqual (lhs rhs result : Int) : Gen Code := do
  validateAddr [lhs, rhs, result]
  bf_greaterOrEqual rhs lhs result

/-- `Compiler::constVal`. -/
def constVal (num : Nat) : Gen Int := do
  let tmp ← allocateTemp 1
  emit (← bf_setToValue tmp ((num % 256 : Nat) : Int))
  return tmp

/-- The fill loop of `Compiler::assign`: `k` iterations left, index `i`. -/
def assignFillLoop (lhs rhs : Int) : Nat → Nat → Gen Unit
  | 0, _ => pure ()
  | k + 1, i => do
    emit (← bf_assign (lhs + i) rhs)
    assignFillLoop lhs rhs k (i + 1)

/-- `Compiler::assign`. -/
def assign (lhs rhs : Int) : Gen Int := do
  let leftSize ← sizeOf lhs
  let rightSize ← sizeOf rhs
  if leftSize > 1 ∧ rightSize = 1 then
    assignFillLoop lhs rhs leftSize 0
  else if leftSize = rightSize then
    emit (← bf_assignN lhs rhs leftSize)
  else
    errorIf true
  return lhs

/-- `Compiler::add`. -/
def add (lhs rhs : Int) : Gen Int := do
  let ret ← allocateTemp 1
  emit (← bf_assign ret lhs)
  emit (← bf_addTo ret rhs)
  return ret

/-- `Compiler::equal`. -/
def equal (lhs rhs : Int) : Gen Int := do
  let result ← allocateTemp 1
  emit (← bf_equal lhs rhs result)
  return result

/-- `Compiler::notEqual`. -/
def notEqual (lhs rhs : Int) : Gen Int := do
  let result ← allocateTemp 1
  emit (← bf_notEqual lhs rhs result)
  return result

/-- `Compiler::less`. -/
def less (lhs rhs : Int) : Gen Int := do
  let result ← allocateTemp 1
  emit (← bf_less lhs rhs result)
  return result

/-- `Compiler::greater`. -/
def greater (lhs rhs : Int) : Gen Int := do
  let result ← allocateTemp 1
  emit (← bf_greater lhs rhs result)
  return result

/-- `Compiler::lessOrEqual`. -/
def lessOrEqual (lhs rhs : Int) : Gen Int := do
  let result ← allocateTemp 1
  emit (← bf_lessOrEqual lhs rhs result)
  return result

/-- `Compiler::greaterOrEqual`. -/
def greaterOrEqual (lhs rhs : Int) : Gen Int := do
  let result ← allocateTemp 1
  emit (← bf_greaterOrEqual lhs rhs result)
  return result

/-- `Compiler::divModPair`. -/
def divModPair (num denom : Int) : Gen (Int × Int) := do
  let tmp ← allocateTemp 4
  let tmp_loopflag := tmp + 0
  let tmp_zeroflag := tmp + 1
  let tmp_num := tmp + 2
  let tmp_denom := tmp + 3
  let result_div ← allocateTemp 1
  let result_mod ← allocateTemp 1
  emit (← bf_setToValue result_div 0)
  emit (← bf_setToValue result_mod 0)
  emit (← bf_assign tmp_num num)
  emit (← bf_assign tmp_denom denom)
  emit (← bf_setToValue tmp_loopflag 1)
  emit (← bf_not denom tmp_zeroflag)
  emit ['[']
  emit (← bf_setToValue tmp_loopflag 0)
  emit (← bf_setToValue result_div 255)
  emit (← bf_setToValue result_mod 255)
  emit (← bf_setToValue tmp_zeroflag 0)
  emit [']']
  emit (← bf_not num tmp_zeroflag)
  emit ['[']
  emit (← bf_setToValue tmp_loopflag 0)
  emit (← bf_setToValue result_div 0)
  emit (← bf_setToValue result_mod 0)
  emit (← bf_setToValue tmp_zeroflag 0)
  emit [']']
  emit (← bf_movePtr tmp_loopflag)
  emit ['[']
  emit (← bf_decr tmp_num)
  emit (← bf_decr tmp_denom)
  emit (← bf_incr result_mod)
  emit (← bf_not tmp_denom tmp_zeroflag)
  emit ['[']
  emit (← bf_incr result_div)
  emit (← bf_assign tmp_denom denom)
  emit (← bf_setToValue result_mod 0)
  emit (← bf_setToValue tmp_zeroflag 0)
  emit [']']
  emit (← bf_not tmp_num tmp_zeroflag)
  emit ['[']
  emit (← bf_setToValue tmp_loopflag 0)
  emit (← bf_setToValue tmp_zeroflag 0)
  emit [']']
  emit (← bf_movePtr tmp_loopflag)
  emit [']']
  return (result_div, result_mod)

/-- The strings `arr2buf` and `buf2arr`: `std::string(std::abs(dist), ch)`. -/
def distString (dist : Int) (ch : Char) : Code := List.replicate dist.natAbs ch

/-- The `size_t` a loop count becomes when an `int` is passed for it. -/
def toSizeT (n : Int) : Nat := (n % (2 ^ 64 : Int)).toNat

/-- `Compiler::fetchElement`. -/
def fetchElement (ident : String) (index : Int) : Gen Int := do
  let dynamicMoveRight : Code := "[>[->+<]<[->+<]>-]".toList
  let dynamicMoveLeft : Code := "[<[-<+>]>[-<+>]<-]<".toList
  let arr ← addressOf ident
  let sz := (← sizeOf arr) % 256
  let bufSize : Nat := sz + 2
  let buf ← allocateTemp bufSize
  let dist := buf - arr
  let arr2buf := distString dist (if dist > 0 then '>' else '<')
  let buf2arr := distString dist (if dist > 0 then '<' else '>')
  emit (← bf_assign (buf + 0) index)
  emit (← bf_assign (buf + 1) buf)
  emit (← bf_setToValueN (buf + 2) 0 (toSizeT ((bufSize : Int) - 2)))
  emit (← bf_movePtr buf)
  emit dynamicMoveRight
  emit buf2arr
  emit ['[', '-']
  emit arr2buf
  emit ">>+<<".toList
  emit buf2arr
  emit [']']
  emit arr2buf
  emit ">>[-<<+".toList
  emit buf2arr
  emit ['+']
  emit arr2buf
  emit ">>]<".toList
  emit dynamicMoveLeft
  let ret ← allocateTemp 1
  emit (← bf_assign ret buf)
  return ret

/-- `Compiler::assignElement`. -/
def assignElement (ident : String) (index rhs : Int) : Gen Int := do
  let dynamicMoveRight : Code := "[>>[->+<]<[->+<]<[->+<]>-]".toList
  let dynamicMoveLeft : Code := "[[-<+>]<-]<".toList
  let arr ← addressOf ident
  let sz := (← sizeOf arr) % 256
  let bufSize : Nat := sz + 2
  let buf ← allocateTemp bufSize
  let dist := buf - arr
  let arr2buf := distString dist (if dist > 0 then '>' else '<')
  let buf2arr := distString dist (if dist > 0 then '<' else '>')
  emit (← bf_assign buf index)
  emit (← bf_assign (buf + 1) buf)
  emit (← bf_assign (buf + 2) rhs)
  emit (← bf_setToValueN (buf + 3) 0 (toSizeT ((bufSize : Int) - 3)))
  emit (← bf_movePtr buf)
  emit dynamicMoveRight
  emit buf2arr
  emit ['[', '-', ']']
  emit arr2buf
  emit ">>[-<<".toList
  emit buf2arr
  emit ['+']
  emit arr2buf
  emit ">>]<".toList
  emit dynamicMoveLeft
  return rhs

/-- `Compiler::applyUnaryFunctionToElement`. -/
def applyUnaryFunctionToElement (arrayIdent : String) (index : Int)
    (func : Int → Gen Int) : Gen Int := do
  let fetchedAddr ← fetchElement arrayIdent index
  let returnAddr ← func fetchedAddr
  let _ ← assignElement arrayIdent index fetchedAddr
  return returnAddr

/-- `Compiler::applyBinaryFunctionToElement`. -/
def applyBinaryFunctionToElement (arrayIdent : String) (index rhs : Int)
    (func : Int → Int → Gen Int) : Gen Int := do
  let fetchedAddr ← fetchElement arrayIdent index
  let returnAddr ← func fetchedAddr rhs
  let _ ← assignElement arrayIdent index fetchedAddr
  return returnAddr

end Compiler

namespace Compiler

/-- The instruction sequence of the statement `x = a + b;` for two literals:
`assign(x, add(constVal(a), constVal(b)))`, operands evaluated left to
right. -/
def assignSum (x : Int) (a b : Nat) : Gen Int := do
  let lhs ← constVal a
  let rhs ← constVal b
  let sum ← add lhs rhs
  assign x sum

end Compiler

namespace Memory

/-- Modelled from the spec: `Memory::stack` is not among the sources; the
`push(addr)` of the specification, the backup of the cell onto the protect
stack that `memory.cc` has as `Memory::push`, stands in for it. -/
def stack (m : Memory) (addr : Int) : Except Err Memory := push m addr

/-- Modelled from the spec: `Memory::unstack` is not among the sources; the
`pop()` of the specification, the restore of the cell on top of the protect
stack that `memory.cc` has as `Memory::pop`, stands in for it.  Cells are
restored in strict LIFO order, so the address on top has to be the one
asked for. -/
def unstack (m : Memory) (addr : Int) : Except Err Memory :=
  match pop m with
  | .error e => .error e
  | .ok (top, m1) => if top = addr then .ok m1 else .error .assertion

end Memory

namespace Compiler

/-- An `Instruction`: a deferred member-function call returning an address
(or -1 for no value). -/
abbrev Instruction := Gen Int

/-- `Compiler::pushStack`. -/
def pushStack (addr : Int) : Gen Unit := fun c =>
  match Memory.stack c.d_memory addr with
  | .error e => .error e
  | .ok m => .ok ((), { c with d_memory := m, d_stack := addr :: c.d_stack })

/-- `Compiler::popStack`; `d_stack.top()` on an empty stack is undefined. -/
def popStack : Gen Int := fun c =>
  match c.d_stack with
  | [] => .error .undefinedBehaviour
  | addr :: rest =>
    match Memory.unstack c.d_memory addr with
    | .error e => .error e
    | .ok m => .ok (addr, { c with d_memory := m, d_stack := rest })

/-- `Compiler::logicalNot`. -/
def logicalNot (arg : Int) : Gen Int := do
  let result ← allocateTemp 1
  emit (← bf_not arg result)
  return result

/-- `Compiler::ifStatement`. -/
def ifStatement (condition ifBody elseBody : Instruction) : Gen Int := do
  let cond ← condition
  let elseCond ← logicalNot cond
  pushStack cond
  pushStack elseCond
  emit (← bf_movePtr cond)
  emit ['[']
  let _ ← ifBody
  emit (← bf_setToValue cond 0)
  emit [']']
  emit (← bf_movePtr elseCond)
  emit ['[']
  let _ ← elseBody
  emit (← bf_setToValue elseCond 0)
  emit [']']
  let _ ← popStack
  let _ ← popStack
  return -1

/-- `Compiler::mergeInstructions`. -/
def mergeInstructions (instr1 instr2 : Instruction) : Gen Int := do
  let _ ← instr1
  let _ ← instr2
  return -1

/-- `Compiler::forStatement`. -/
def forStatement (init condition increment body : Instruction) : Gen Int := do
  let _ ← init
  let cond1 ← condition
  pushStack cond1
  emit (← bf_movePtr cond1)
  emit ['[']
  let _ ← body
  let _ ← increment
  let cond2 ← condition
  emit (← bf_assign cond1 cond2)
  emit [']']
  let _ ← popStack
  return -1

/-- `Compiler::whileStatement`. -/
def whileStatement (condition body : Instruction) : Gen Int := do
  let cond1 ← condition
  pushStack cond1
  emit (← bf_movePtr cond1)
  emit ['[']
  let _ ← body
  let cond2 ← condition
  emit (← bf_assign cond1 cond2)
  emit [']']
  let _ ← popStack
  return -1

end Compiler

namespace Memory

/-- Modelled from the spec: `Memory::allocateLocalSafe` is not among the
sources; the `allocate(identifier, scope, type)` of the specification stands
in for it, the "already defined" answer -1 being an internal failure. -/
def allocateLocalSafe (tm : TypeSystem.TypeMap) (m : Memory) (ident scope : String) (sz : Nat) :
    Except Err (Int × Memory) :=
  match allocate tm m ident scope (.int sz) with
  | .error e => .error e
  | .ok (addr, m1) => if addr < 0 then .error .assertion else .ok (addr, m1)

/-- Modelled from the spec: `Memory::allocateLocalUnsafe` is not among the
sources; the `allocate(identifier, scope, type)` of the specification stands
in for it. -/
def allocateLocalUnsafe (tm : TypeSystem.TypeMap) (m : Memory) (ident scope : String) (sz : Nat) :
    Except Err (Int × Memory) :=
  allocate tm m ident scope (.int sz)

/-- Modelled from the spec: `Memory::changeScope` is not among the sources;
the cell is re-scoped, its other attributes stay. -/
def changeScope (m : Memory) (addr : Int) (scope : String) : Except Err Memory :=
  if addr < 0 ∨ (m.d_memory.length : Int) ≤ addr then .error .assertion
  else
    match m.d_memory[addr.toNat]? with
    | none => .error .assertion
    | some cell =>
      let cell1 : Cell := { cell with scope := scope }
      .ok { m with d_memory := m.d_memory.set addr.toNat cell1 }

end Memory

namespace Compiler

/-- Modelled from the spec: `class BFXFunction` is not among the sources; a
declared function has a name, the names of its parameters, the name of its
return variable and the thunk of its body. -/
structure BFXFunction where
  name : String
  params : List String
  returnVariable : String
  body : Instruction

/-- Modelled from the spec: `BFXFunction::VOID`, the return variable of a
function without return value. -/
def BFXFunction.VOID : String := ""

/-- The map `d_functionMap`, filled by `addFunction` under the names of the
functions and only read during code generation; it is passed explicitly. -/
abbrev FunctionMap := List BFXFunction

/-- `d_functionMap.find(functionName)`. -/
def findFunction (fm : FunctionMap) (functionName : String) : Option BFXFunction :=
  fm.find? (fun func => func.name == functionName)

/-- The map `d_constMap`, filled while parsing; it is passed explicitly. -/
abbrev ConstMap := List (String × Nat)

/-- `Parser::lex`, the value of a `NUM` token:
`static_cast<uint8_t>(std::stoi(matched))`. -/
def lexNum (matched : Nat) : Nat := matched % 256

/-- The largest value of an `int`. -/
def INT_MAX : Int := 2147483647

/-- The smallest value of an `int`. -/
def INT_MIN : Int := -2147483648

/-- The loop of `Compiler::validateInlineBF` over the characters of the
fragment, with the counter `current` and the stack `countStack`.  The counter
is an `int`: leaving its range is undefined, and so is `top()` on an empty
stack. -/
def validateInlineBFLoop : Code → Int → List Int → Except Err Bool
  | [], current, _ => .ok (decide (current = 0))
  | c :: rest, current, countStack =>
    if c = '>' then
      if current + 1 > INT_MAX then .error .undefinedBehaviour
      else validateInlineBFLoop rest (current + 1) countStack
    else if c = '<' then
      if current - 1 < INT_MIN then .error .undefinedBehaviour
      else validateInlineBFLoop rest (current - 1) countStack
    else if c = '[' then validateInlineBFLoop rest 0 (current :: countStack)
    else if c = ']' then
      if current ≠ 0 then .ok false
      else
        match countStack with
        | [] => .error .undefinedBehaviour
        | top :: stack => validateInlineBFLoop rest top stack
    else validateInlineBFLoop rest current countStack

/-- `Compiler::validateInlineBF`. -/
def validateInlineBF (code : Code) : Except Err Bool := validateInlineBFLoop code 0 []

/-- `Compiler::inlineBF`. -/
def inlineBF (code : Code) : Gen Int := do
  match validateInlineBF code with
  | .error e => fail e
  | .ok valid =>
    errorIf (!valid)
    emit code
    return -1

/-- The lambda `flush` of `cancelOppositeCommands`. -/
def cancelFlush (up down : Char) (count : Int) (result : Code) : Code :=
  let result := if count > 0 then result ++ List.replicate count.toNat up else result
  if count < 0 then result ++ List.replicate (-count).toNat down else result

/-- The loop of the lambda `cancel` over the characters of the input, with the
counter `count` and the text `result` built so far.  The counter is an `int`:
leaving its range is undefined. -/
def cancelLoop (up down : Char) : Code → Int → Code → Except Err Code
  | [], count, result => .ok (cancelFlush up down count result)
  | c :: rest, count, result =>
    if c = up then
      if count + 1 > INT_MAX then .error .undefinedBehaviour
      else cancelLoop up down rest (count + 1) result
    else if c = down then
      if count - 1 < INT_MIN then .error .undefinedBehaviour
      else cancelLoop up down rest (count - 1) result
    else cancelLoop up down rest 0 (cancelFlush up down count result ++ [c])

/-- The lambda `cancel` of `cancelOppositeCommands`. -/
def cancel (input : Code) (up down : Char) : Except Err Code := cancelLoop up down input 0 []

/-- `Compiler::cancelOppositeCommands`. -/
def cancelOppositeCommands (bf : Code) : Except Err Code :=
  match cancel bf '>' '<' with
  | .error e => .error e
  | .ok result => cancel result '+' '-'

/-- `Compiler::allocateOrGet`. -/
def allocateOrGet (ident : String) (sz : Nat) : Gen Int := fun c =>
  let scope := c.d_callStack.getLast?.getD ""
  match addressOf ident c with
  | .error e => .error e
  | .ok (addr, c1) =>
    if addr ≠ -1 then .ok (addr, c1)
    else
      match Memory.allocateLocalUnsafe c1.typeMap c1.d_memory ident scope (sz % 256) with
      | .error e => .error e
      | .ok (a, m) => .ok (a, { c1 with d_memory := m })

/-- The loop of `arrayFromSizeStaticValue`: `k` iterations left, index `idx`. -/
def arrayFillLoop (arr : Int) (val : Nat) : Nat → Nat → Gen Unit
  | 0, _ => pure ()
  | k + 1, idx => do
    emit (← bf_setToValue (arr + idx) (val : Int))
    arrayFillLoop arr val k (idx + 1)

/-- `Compiler::arrayFromSizeStaticValue`; both parameters are `uint8_t`. -/
def arrayFromSizeStaticValue (sz val : Nat) : Gen Int := do
  let sz := sz % 256
  let val := val % 256
  errorIf (decide (sz > MAX_ARRAY_SIZE))
  let arr ← allocateTemp sz
  arrayFillLoop arr val sz 0
  return arr

/-- `Compiler::arrayFromSizeDynamicValue`; the size parameter is a
`uint8_t`. -/
def arrayFromSizeDynamicValue (sz : Nat) (val : Int) : Gen Int := do
  let sz := sz % 256
  errorIf (decide (sz > MAX_ARRAY_SIZE))
  let size ← sizeOf val
  errorIf (decide (size > 1))
  let arr ← allocateTemp sz
  assign arr val

/-- The loop of `arrayFromList`: the elements left and the index `idx`. -/
def arrayListLoop (start : Int) : Nat → List Instruction → Nat → Gen Unit
  | 0, _, _ => pure ()
  | _ + 1, [], _ => fail .undefinedBehaviour
  | k + 1, element :: rest, idx => do
    let value ← element
    emit (← bf_assign (start + idx) value)
    arrayListLoop start k rest (idx + 1)

/-- `Compiler::arrayFromList`; `sz` is a `uint8_t`. -/
def arrayFromList (list : List Instruction) : Gen Int := do
  let sz := list.length % 256
  errorIf (decide (sz > MAX_ARRAY_SIZE))
  let start ← allocateTemp sz
  arrayListLoop start sz list 0
  return start

/-- The value of a `char` holding the byte `b` when it is passed as an `int`;
`char` is signed, as on x86-64, so a byte above 127 is a negative number. -/
def charToInt (b : Nat) : Int :=
  if b % 256 < 128 then ((b % 256 : Nat) : Int) else ((b % 256 : Nat) : Int) - 256

/-- The loop of `arrayFromString`: the bytes left and the index `idx`. -/
def arrayStringLoop (start : Int) : Nat → List Nat → Nat → Gen Unit
  | 0, _, _ => pure ()
  | _ + 1, [], _ => fail .undefinedBehaviour
  | k + 1, ch :: rest, idx => do
    emit (← bf_setToValue (start + idx) (charToInt ch))
    arrayStringLoop start k rest (idx + 1)

/-- `Compiler::arrayFromString`; the `std::string` is the list of its bytes,
and `sz` is a `uint8_t`. -/
def arrayFromString (str : List Nat) : Gen Int := do
  let sz := str.length % 256
  errorIf (decide (sz > MAX_ARRAY_SIZE))
  let start ← allocateTemp sz
  arrayStringLoop start sz str 0
  return start

/-- The loop of `call` over the arguments: each is evaluated, a parameter of
its size is allocated in the scope of the function and assigned to. -/
def callArgs (func : BFXFunction) : List String → List Instruction → Gen Unit
  | p :: params, arg :: args => do
    let argAddr ← arg
    errorIf (decide (argAddr < 0))
    let sz := (← sizeOf argAddr) % 256
    let paramAddr ← (fun c =>
      match Memory.allocateLocalSafe c.typeMap c.d_memory p func.name sz with
      | .error e => .error e
      | .ok (a, m) => .ok (a, { c with d_memory := m }) : Gen Int)
    let _ ← assign paramAddr argAddr
    callArgs func params args
  | _, _ => pure ()

/-- `d_callStack.push_back(name)`. -/
def pushCall (name : String) : Gen Unit := fun c =>
  .ok ((), { c with d_callStack := c.d_callStack ++ [name] })

/-- `d_callStack.pop_back()`; undefined on an empty stack. -/
def popCall : Gen Unit := fun c =>
  if c.d_callStack = [] then .error .undefinedBehaviour
  else .ok ((), { c with d_callStack := c.d_callStack.dropLast })

/-- The end of `call`: the return variable is pulled into the scope of the
caller as a temporary, and the locals of the function are freed.  As in
`addressOf`, `find(identifier, scope)` stands in for `Memory::findLocal`. -/
def callReturn (func : BFXFunction) : Gen Int := fun c =>
  if func.returnVariable ≠ BFXFunction.VOID then
    let ret := Memory.find c.d_memory func.returnVariable func.name
    if ret = -1 then .error .compileError
    else
      match c.d_callStack.getLast? with
      | none => .error .undefinedBehaviour
      | some caller =>
        match Memory.changeScope c.d_memory ret caller with
        | .error e => .error e
        | .ok m1 =>
          match Memory.markAsTemp m1 ret with
          | .error e => .error e
          | .ok m2 =>
            match Memory.freeLocals c.typeMap m2 func.name with
            | .error e => .error e
            | .ok m3 => .ok (ret, { c with d_memory := m3 })
  else
    match Memory.freeLocals c.typeMap c.d_memory func.name with
    | .error e => .error e
    | .ok m3 => .ok (-1, { c with d_memory := m3 })

/-- Read `d_callStack`. -/
def getCallStack : Gen (List String) := fun c => .ok (c.d_callStack, c)

/-- `Compiler::call`. -/
def call (fm : FunctionMap) (functionName : String) (args : List Instruction) : Gen Int := do
  errorIf (findFunction fm functionName).isNone
  errorIf (decide (functionName ∈ (← getCallStack)))
  match findFunction fm functionName with
  | none => fail .undefinedBehaviour
  | some func =>
    errorIf (func.params.length != args.length)
    callArgs func func.params args
    pushCall func.name
    let _ ← func.body
    popCall
    callReturn func

end Compiler

/-- `Compiler::variable`; the size parameter is a `uint8_t`, and the size of
the cell is asked for only when `checkSize` is set (`&&` short-circuits). -/
def Compiler.variable (consts : Compiler.ConstMap) (ident : String) (sz : Nat) (checkSize : Bool) :
    Gen Int :=
  match consts.lookup ident with
  | some num => Compiler.constVal num
  | none => do
    let sz := sz % 256
    Compiler.errorIf (sz == 0)
    Compiler.errorIf (decide (sz > Compiler.MAX_ARRAY_SIZE))
    let arr ← Compiler.allocateOrGet ident sz
    if checkSize then
      let size ← Compiler.sizeOf arr
      Compiler.errorIf (size != sz)
    return arr

/-! ## Vocabulary of the proofs -/

/-- The text `bf_movePtr` returns when the cursor is at `p`. -/
def mvCode (p a : Int) : Code :=
  if a - p ≥ 0 then List.replicate (a - p).toNat '>' else List.replicate (-(a - p)).toNat '<'

/-- A bracketed region. -/
def loopC (body : Code) : Code := '[' :: (body ++ [']'])

/-- The cell at `a` is allocated: inside the tape and not empty. -/
def Memory.isLive (m : Memory) (a : Int) : Bool :=
  decide (0 ≤ a) &&
    match m.d_memory[a.toNat]? with
    | some cell => !cell.empty
    | none => false

/-- The cell at `a` is allocated in the compiler's tape. -/
def Compiler.Live (c : Compiler) (a : Int) : Prop := c.d_memory.isLive a = true

/-- A state in which temporaries can be requested: some function is active and
the tape has at least `k` cells. -/
def Compiler.Ready (c : Compiler) (k : Nat) : Prop :=
  c.d_callStack ≠ [] ∧ k ≤ c.d_memory.d_memory.length

/-- The allocator state of `c1` extends that of `c`: same scope stack and
catalog, no cell of `c` released or retyped. -/
def Compiler.Ext (c c1 : Compiler) : Prop :=
  c1.d_callStack = c.d_callStack ∧ c1.typeMap = c.typeMap ∧
  c.d_memory.d_memory.length ≤ c1.d_memory.d_memory.length ∧
  ∀ a, c.Live a → c1.Live a ∧ c1.d_memory.d_memory[a.toNat]? = c.d_memory.d_memory[a.toNat]?

/-- The contract of a three-address emitter `op(lhs, rhs, result)`: called on
allocated cells with `result` different from both operands, it returns a text
that runs from the cursor to `result`, leaves `f` of the two operand values
there, and changes no other cell that was allocated before the call. -/
def Compiler.BinSpec (op : Int → Int → Int → Gen Code) (f : Nat → Nat → Nat) : Prop :=
  ∀ (c : Compiler) (lhs rhs result : Int), c.Ready 1 → c.Live lhs → c.Live rhs →
    c.Live result → lhs ≠ result → rhs ≠ result →
    ∃ code c1, op lhs rhs result c = .ok (code, c1) ∧ c.Ext c1 ∧
      c1.d_codeBuffer = c.d_codeBuffer ∧ c1.d_pointer = result ∧
      ∀ t, Bytes t → ∃ t1, Runs code ⟨t, c.d_pointer⟩ ⟨t1, result⟩ ∧
        t1 result = f (t lhs) (t rhs) ∧
        (∀ a, a ≠ result → (c.Live a ∨ ¬ c1.Live a) → t1 a = t a)

/-- The contract of a binary operator `op(lhs, rhs)` of the synthesizer in
state `c`: it returns a result cell and appends a text to the code buffer; run
from the cursor on a tape of bytes, the text terminates with the data pointer
on the new cursor, `f` of the two operand values in the result cell, and the
operand cells unchanged. -/
def Compiler.Computes (op : Int → Int → Gen Int) (f : Nat → Nat → Nat) (c : Compiler)
    (lhs rhs : Int) : Prop :=
  ∃ result code c1, op lhs rhs c = .ok (result, c1) ∧
    c1.d_codeBuffer = c.d_codeBuffer ++ code ∧
    ∀ t, Bytes t → ∃ t1, Runs code ⟨t, c.d_pointer⟩ ⟨t1, c1.d_pointer⟩ ∧
      t1 result = f (t lhs) (t rhs) ∧ t1 lhs = t lhs ∧ t1 rhs = t rhs

/-- The member function does not look at the code buffer: run with another
buffer it returns the same value and the same state, the buffer apart. -/
def Compiler.Oblivious {α : Type} (x : Gen α) : Prop :=
  ∀ (c : Compiler) (b : Code), x { c with d_codeBuffer := b } =
    match x c with
    | .ok (a, c1) => .ok (a, { c1 with d_codeBuffer := b })
    | .error e => .error e

/-- The test of the lambda in `Memory::find`, as a proposition: the recorded
scope of the cell is a prefix of the query scope and the identifiers agree. -/
def Memory.Cell.Matches (cell : Memory.Cell) (ident scope : String) : Prop :=
  cell.scope.toList <+: scope.toList ∧ cell.identifier = ident

/-- The `size` cells from `a` on lie inside the tape and are all empty. -/
def Memory.FreeRun (cells : List Memory.Cell) (a size : Nat) : Prop :=
  a + size ≤ cells.length ∧
    ∀ i, i < size → ∃ cell, cells[a + i]? = some cell ∧ cell.empty = true

/-- The bracketed region around `body`, entered in the state `s`, is left in
the state `s1` after exactly `n` rounds of `body`: the cell under the data
pointer is nonzero before each round and zero after the last. -/
def Rounds (body : Code) : Nat → Machine → Machine → Prop
  | 0, s, s1 => s.tape s.ptr = 0 ∧ s1 = s
  | n + 1, s, s1 => s.tape s.ptr ≠ 0 ∧ ∃ s2, Runs body s s2 ∧ Rounds body n s2 s1

/-- The contract of a branch thunk with respect to the cells `keep`: called in
a state with an active function in which the cells of `keep` are allocated,
it returns, only appends to the code buffer, and leaves the scope stack, the
evaluation stack, the protect stack and the records of the cells of `keep` as
they are; the text it appends, run from the cursor on a tape of bytes,
terminates with the data pointer on the new cursor and with the cells of
`keep` holding what they held. -/
def Compiler.Keeps (x : Compiler.Instruction) (keep : List Int) : Prop :=
  ∀ c : Compiler, c.d_callStack ≠ [] → (∀ a, a ∈ keep → c.Live a) →
    ∃ (r : Int) (code : Code) (c1 : Compiler), x c = .ok (r, c1) ∧
      c1.d_codeBuffer = c.d_codeBuffer ++ code ∧ c1.d_callStack = c.d_callStack ∧
      c1.d_stack = c.d_stack ∧
      c1.d_memory.d_protectedStack = c.d_memory.d_protectedStack ∧
      (∀ a, a ∈ keep → c1.d_memory.d_memory[a.toNat]? = c.d_memory.d_memory[a.toNat]?) ∧
      ∀ t, Bytes t → ∃ t1, Runs code ⟨t, c.d_pointer⟩ ⟨t1, c1.d_pointer⟩ ∧
        ∀ a, a ∈ keep → t1 a = t a

/-- What `Cell::clear` leaves of a cell. -/
def Memory.Cell.cleared (c : Memory.Cell) : Memory.Cell :=
  { c with identifier := "", scope := "", content := .EMPTY, type := .null }

/-- The cell is the first cell of a value: it is tagged named, temporary or
protected. -/
def Memory.Cell.isHead (c : Memory.Cell) : Bool :=
  c.content == .NAMED || c.content == .TEMP || c.content == .PROTECTED

/-- The layout invariant of the tape: every first cell of a value of `n` cells
is followed by `n - 1` cells tagged referenced, and the ranges of two values
do not overlap. -/
def Memory.Layout (tm : TypeSystem.TypeMap) (cells : List Memory.Cell) : Prop :=
  (∀ (i : Nat) (cell : Memory.Cell), cells[i]? = some cell → cell.isHead = true →
    ∀ j, 1 ≤ j → j < cell.size tm →
      ∃ c, cells[i + j]? = some c ∧ c.content = .REFERENCED) ∧
  (∀ (i j : Nat) (ci cj : Memory.Cell), cells[i]? = some ci → cells[j]? = some cj →
    ci.isHead = true → cj.isHead = true → i < j → i + ci.size tm ≤ j)

/-- The saved records of a cell fit the cell: a cell with a saved record is
protected, every saved record has the type of the cell, a record saved under
a scope is that of a first cell, and the records below the top were saved
from a protected cell. -/
def Memory.WellBacked : Memory.Content → TypeSystem.TSType → List Memory.Members → Prop
  | _, _, [] => True
  | content, type, e :: rest =>
    content = .PROTECTED ∧ e.2.2.2 = type ∧
    (e.2.1 ≠ "" → (e.2.2.1 = .NAMED ∨ e.2.2.1 = .TEMP ∨ e.2.2.1 = .PROTECTED)) ∧
    Memory.WellBacked e.2.2.1 type rest

/-- The cell starts a value: it is tagged named, temporary or protected, or it
is tagged referenced and carries a type, as the first cell of a value
allocated under the global scope does (a continuation cell carries none). -/
def Memory.Cell.isValue (c : Memory.Cell) : Prop :=
  c.isHead = true ∨ (c.content = .REFERENCED ∧ c.type ≠ .null)

/-- The invariant the allocator keeps, cell by cell: the saved records fit,
a cell registered under a scope is a first cell, and a cell that starts a
value of `n` cells is followed by `n - 1` continuation cells, tagged
referenced and without a type. -/
def Memory.Sound (tm : TypeSystem.TypeMap) (cells : List Memory.Cell) : Prop :=
  ∀ (i : Nat) (cell : Memory.Cell), cells[i]? = some cell →
    Memory.WellBacked cell.content cell.type cell.d_backupStack ∧
    (cell.scope ≠ "" → cell.isHead = true) ∧
    (cell.isValue → ∀ j, 1 ≤ j → j < cell.size tm →
      ∃ c, cells[i + j]? = some c ∧ c.content = .REFERENCED ∧ c.type = .null)

/-- The cell at `addr` starts a value. -/
def Memory.valueAt (m : Memory) (addr : Int) : Prop :=
  0 ≤ addr ∧ ∃ cell, m.d_memory[addr.toNat]? = some cell ∧ cell.isValue

/-- The allocator states that are reached from an all-empty tape by calls that
return: `allocate`, `getTemp` and `getTempBlock` over integer types, `pop`,
`freeTemps`, `freeLocals` of a non-empty scope, and `push`, `markAsTemp` and
`rename` applied to the address of a cell that starts a value. -/
inductive Memory.Reach (tm : TypeSystem.TypeMap) : Memory → Prop
  | init (sz : Nat) : Memory.Reach tm (Memory.init sz)
  | allocate {m m1 : Memory} {ident scope : String} {N : Nat} {a : Int} :
      Memory.Reach tm m → Memory.allocate tm m ident scope (.int N) = .ok (a, m1) →
      Memory.Reach tm m1
  | getTemp {m m1 : Memory} {scope : String} {N : Nat} {a : Int} :
      Memory.Reach tm m → Memory.getTemp tm m scope N = .ok (a, m1) → Memory.Reach tm m1
  | getTempBlock {m m1 : Memory} {scope : String} {N : Nat} {a : Int} :
      Memory.Reach tm m → Memory.getTempBlock m scope N = .ok (a, m1) → Memory.Reach tm m1
  | push {m m1 : Memory} {addr : Int} :
      Memory.Reach tm m → m.valueAt addr → Memory.push m addr = .ok m1 → Memory.Reach tm m1
  | pop {m m1 : Memory} {a : Int} :
      Memory.Reach tm m → Memory.pop m = .ok (a, m1) → Memory.Reach tm m1
  | freeTemps {m m1 : Memory} {scope : String} :
      Memory.Reach tm m → Memory.freeTemps tm m scope = .ok m1 → Memory.Reach tm m1
  | freeLocals {m m1 : Memory} {scope : String} :
      Memory.Reach tm m → scope ≠ "" → Memory.freeLocals tm m scope = .ok m1 →
      Memory.Reach tm m1
  | markAsTemp {m m1 : Memory} {addr : Int} :
      Memory.Reach tm m → m.valueAt addr → Memory.markAsTemp m addr = .ok m1 →
      Memory.Reach tm m1
  | rename {m m1 : Memory} {addr : Int} {ident scope : String} :
      Memory.Reach tm m → m.valueAt addr → Memory.rename m addr ident scope = .ok m1 →
      Memory.Reach tm m1

/-- The net pointer displacement of a region: the number of `>` minus the
number of `<` directly inside it, nested regions contributing zero. -/
def Prog.shift : Prog → Int
  | .halt => 0
  | .right k => 1 + k.shift
  | .left k => -1 + k.shift
  | .inc k => k.shift
  | .dec k => k.shift
  | .loop _ k => k.shift

/-- Within every bracketed region the net pointer displacement is zero. -/
def Prog.regionsNeutral : Prog → Bool
  | .halt => true
  | .right k => k.regionsNeutral
  | .left k => k.regionsNeutral
  | .inc k => k.regionsNeutral
  | .dec k => k.regionsNeutral
  | .loop b k => decide (b.shift = 0) && b.regionsNeutral && k.regionsNeutral

/-- The answer of the validation of a text that closes the regions `pending`
after its first part `p`, started with the counter `current` and the saved
counters `saved`: every region, the open ones included, is neutral. -/
def Prog.neutralChain : Prog → List Prog → Int → List Int → Bool
  | p, [], current, _ => p.regionsNeutral && decide (current + p.shift = 0)
  | _, _ :: _, _, [] => false
  | p, q :: pending, current, top :: saved =>
    p.regionsNeutral && decide (current + p.shift = 0) &&
      Prog.neutralChain q pending top saved

/-- No occurrence of `up` stands immediately next to an occurrence of `down`
in the text, in either order. -/
def noAdjacent (up down : Char) : Code → Bool
  | a :: b :: rest =>
    !((a == up && b == down) || (a == down && b == up)) && noAdjacent up down (b :: rest)
  | _ => true

/-- The emitter returns in state `c`; its text ends on `target`, terminates on
every tape of bytes from the cursor of `c`, and changes no cell that was
allocated before the call, `target` apart. -/
def Compiler.Writes (x : Gen Code) (c : Compiler) (target : Int) : Prop :=
  ∃ code c1, x c = .ok (code, c1) ∧ c.Ext c1 ∧ c1.d_codeBuffer = c.d_codeBuffer ∧
    c1.d_pointer = target ∧
    ∀ t, Bytes t → ∃ t1, Runs code ⟨t, c.d_pointer⟩ ⟨t1, target⟩ ∧
      ∀ a, a ≠ target → (c.Live a ∨ ¬ c1.Live a) → t1 a = t a

/-- Cursor synchronisation of an emitter in state `c`: it returns a
well-bracketed text that, run on any tape of bytes from a data pointer equal
to the cursor before the call, terminates with the data pointer equal to the
cursor after the call. -/
def Compiler.InSync (x : Gen Code) (c : Compiler) : Prop :=
  ∃ code c1, x c = .ok (code, c1) ∧ Balanced code ∧
    ∀ t, Bytes t → ∃ t1, Runs code ⟨t, c.d_pointer⟩ ⟨t1, c1.d_pointer⟩

/-- The member function leaves the call stack as it found it when it
returns. -/
def Compiler.StackNeutral {α : Type} (x : Gen α) : Prop :=
  ∀ (c : Compiler) (a : α) (c1 : Compiler), x c = .ok (a, c1) → c1.d_callStack = c.d_callStack

/-- The text built so far by `cancel`: no opposite neighbours, and its last
symbol is neither `up` nor `down`. -/
def CancelInv (up down : Char) (result : Code) : Prop :=
  List.Chain' (fun a b => ¬ ((a = up ∧ b = down) ∨ (a = down ∧ b = up))) result ∧
  ∀ x, x ∈ result.getLast? → x ≠ up ∧ x ≠ down

/-- The program terminates from the state `s` in the state `s1`. -/
def Halts (p : Prog) (s s1 : Machine) : Prop := ∃ fuel, exec fuel p s = some s1

/-- Two programs have the same meaning: from every state of a machine whose
cells hold bytes, one terminates if and only if the other does, and then in
the same state. -/
def Prog.Equiv (p q : Prog) : Prop :=
  ∀ s s1 : Machine, Bytes s.tape → (Halts p s s1 ↔ Halts q s s1)

/-- Two outcomes of the parser that agree up to the meaning of the programs
they hold: both fail, or both are at the same nesting depth with programs of
the same meaning at every level. -/
def ParseRel : Option (Prog × List Prog) → Option (Prog × List Prog) → Prop
  | none, none => True
  | some st, some st1 => Prog.Equiv st.1 st1.1 ∧ List.Forall₂ Prog.Equiv st.2 st1.2
  | _, _ => False

/-- The type can be laid out by `Memory::place` with at most `depth` levels of
nested structs below it: an integer type has at least one cell; a struct type
is registered in the catalog, has at least one cell, and each of its fields
lies inside it and is an integer type of at least one cell or, one level
down, a struct type of the same kind. -/
def TypeSystem.TSType.placeable (tm : TypeSystem.TypeMap) :
    Nat → TypeSystem.TSType → Bool
  | _, .null => false
  | _, .int k => decide (1 ≤ k)
  | depth, .struct name =>
    match tm.lookup name with
    | none => false
    | some d =>
      decide (1 ≤ d.d_size) &&
      d.d_fields.all (fun f =>
        decide (f.offset + f.type.size tm ≤ d.d_size) &&
          if f.type.isStructType then
            match depth with
            | 0 => false
            | dd + 1 => TypeSystem.TSType.placeable tm dd f.type
          else
            match f.type with
            | .int k => decide (1 ≤ k)
            | _ => false)

/-- The `n` cells from `addr` on lie inside the tape and none of them is
protected. -/
def Memory.Unprotected (cells : List Memory.Cell) (addr n : Nat) : Prop :=
  addr + n ≤ cells.length ∧
  ∀ j, j < n → ∃ cell, cells[addr + j]? = some cell ∧ cell.content ≠ .PROTECTED

/-- The tape `cells1` is the tape `cells` with the `n` cells from `addr` on
written anew: the length is the same, the cells outside the window are the
same, and no cell of the window is protected. -/
def Memory.Rewritten (cells cells1 : List Memory.Cell) (addr n : Nat) : Prop :=
  cells1.length = cells.length ∧
  (∀ x, (x < addr ∨ addr + n ≤ x) → cells1[x]? = cells[x]?) ∧
  ∀ j, j < n → ∃ cell, cells1[addr + j]? = some cell ∧ cell.content ≠ .PROTECTED

/-- The contract of a branch thunk in the state `c` in which it is invoked,
with respect to the cells `keep`: it returns, only appends to the code buffer,
and leaves the scope stack, the evaluation stack, the protect stack and the
records of the cells of `keep` as they are; the text it appends, run from the
cursor of `c` on a tape of bytes, terminates with the data pointer on the new
cursor and with the cells of `keep` holding what they held. -/
def Compiler.KeepsAt (x : Compiler.Instruction) (keep : List Int) (c : Compiler) : Prop :=
  ∃ (r : Int) (code : Code) (c1 : Compiler), x c = .ok (r, c1) ∧
    c1.d_codeBuffer = c.d_codeBuffer ++ code ∧ c1.d_callStack = c.d_callStack ∧
    c1.d_stack = c.d_stack ∧
    c1.d_memory.d_protectedStack = c.d_memory.d_protectedStack ∧
    (∀ a, a ∈ keep → c1.d_memory.d_memory[a.toNat]? = c.d_memory.d_memory[a.toNat]?) ∧
    ∀ t, Bytes t → ∃ t1, Runs code ⟨t, c.d_pointer⟩ ⟨t1, c1.d_pointer⟩ ∧
      ∀ a, a ∈ keep → t1 a = t a

/-- The statements of `Compiler::ifStatement` between the condition and the
true branch: the negated condition is computed, both condition cells are
protected, and the guard of the true branch is opened.  The value is the cell
`elseCond`. -/
def Compiler.ifEntry (cond : Int) : Gen Int := do
  let elseCond ← logicalNot cond
  pushStack cond
  pushStack elseCond
  emit (← bf_movePtr cond)
  emit ['[']
  return elseCond

/-- The statements of `Compiler::ifStatement` between the two branches: the
guard of the true branch is closed and that of the false branch is opened. -/
def Compiler.ifBetween (cond elseCond : Int) : Gen Unit := do
  emit (← bf_setToValue cond 0)
  emit [']']
  emit (← bf_movePtr elseCond)
  emit ['[']

/-- The statements of `Compiler::ifStatement` after the false branch: its
guard is closed and the protection of the condition cells is lifted. -/
def Compiler.ifExit (elseCond : Int) : Gen Int := do
  emit (← bf_setToValue elseCond 0)
  emit [']']
  let _ ← popStack
  let _ ← popStack
  return -1

/-- The member function leaves the evaluation stack and the protect stack as
it found them when it returns. -/
def Compiler.StacksKept {α : Type} (x : Gen α) : Prop :=
  ∀ (c : Compiler) (a : α) (c1 : Compiler), x c = .ok (a, c1) →
    c1.d_stack = c.d_stack ∧ c1.d_memory.d_protectedStack = c.d_memory.d_protectedStack

/-! ## Example states -/

/-- A tape of bytes given by its first cells, zero elsewhere. -/
def tapeOf (l : List Nat) : Int → Nat :=
  fun a => if 0 ≤ a then (l.getD a.toNat 0) % 256 else 0

/-- A one-cell variable of the function `main`. -/
def namedCell (ident : String) : Memory.Cell :=
  { identifier := ident, scope := "main", content := .NAMED, type := .int 1,
    d_backupStack := [] }

/-- The cells of a variable `arr` of `n` cells of the function `main`, as
`place` lays them out: the first cell carries the name and the type, the
others are marked referenced. -/
def arrayCells (n : Nat) : List Memory.Cell :=
  { identifier := "arr", scope := "main", content := .NAMED, type := .int n,
    d_backupStack := [] } ::
  List.replicate (n - 1)
    { identifier := "", scope := "", content := .REFERENCED, type := .null,
      d_backupStack := [] }

/-- Inside `main`, with the one-cell variables `x`, `y`, `z`, `w` at the
addresses 0 to 3, twenty-eight free cells behind them, the cursor on cell 0
and nothing emitted yet. -/
def exampleState : Compiler :=
  { d_pointer := 0,
    d_memory :=
      { d_memory := [namedCell "x", namedCell "y", namedCell "z", namedCell "w"] ++
          List.replicate 28 Memory.Cell.mk0,
        d_protectedStack := [] },
    d_callStack := ["main"],
    d_codeBuffer := [],
    typeMap := [],
    d_stack := [] }

/-- Inside `main`, with an array `arr` of `n` cells at address 0, the one-cell
variables `i` and `v` behind it at `n` and `n + 1`, and `n + 8` free cells. -/
def arrayState (n : Nat) : Compiler :=
  { d_pointer := 0,
    d_memory :=
      { d_memory := arrayCells n ++ [namedCell "i", namedCell "v"] ++
          List.replicate (n + 8) Memory.Cell.mk0,
        d_protectedStack := [] },
    d_callStack := ["main"],
    d_codeBuffer := [],
    typeMap := [],
    d_stack := [] }

/-- Modelled from the spec: `TypeSystem::add` is not among the sources; the
catalog holds what the specification has registration leave for a struct `S`
with one byte field `f`: size 1, offsets cumulative in declaration order, so
the first field at offset 0. -/
def structMap : TypeSystem.TypeMap :=
  [("S", { d_size := 1, d_name := "S",
           d_fields := [{ name := "f", offset := 0, type := .int 1 }] })]

/-- A tape of four cells whose first cell holds the one-cell variable `x` of
the function `f`, as `allocate("x", "f", 1)` leaves it on an empty tape. -/
def localTape : Memory :=
  { d_memory :=
      [{ identifier := "x", scope := "f", content := .NAMED, type := .int 1,
         d_backupStack := [] },
       Memory.Cell.mk0, Memory.Cell.mk0, Memory.Cell.mk0],
    d_protectedStack := [] }

/-- A tape of two cells: the variable `x` of the function `f` at address 0 and
the global variable `x` at address 1. -/
def shadowTape : Memory :=
  { d_memory :=
      [{ identifier := "x", scope := "f", content := .NAMED, type := .int 1,
         d_backupStack := [] },
       { identifier := "x", scope := "", content := .REFERENCED, type := .int 1,
         d_backupStack := [] }],
    d_protectedStack := [] }

/-- The thunk of a statement `a = v;` for a cell `a` and a constant `v`: it
emits the text of `bf_setToValue(a, v)` and has no value. -/
def setThunk (a v : Int) : Compiler.Instruction := do
  Compiler.emit (← Compiler.bf_setToValue a v)
  return -1

/-- A tape of four cells: the variable `x` of the function `f` at address 0
and a temporary of two cells of `f` at addresses 1 and 2, as
`getTemp("f", 2)` leaves it on `localTape`. -/
def tempTape : Memory :=
  { d_memory :=
      [{ identifier := "x", scope := "f", content := .NAMED, type := .int 1,
         d_backupStack := [] },
       { identifier := "", scope := "f", content := .TEMP, type := .int 2,
         d_backupStack := [] },
       { identifier := "", scope := "", content := .REFERENCED, type := .null,
         d_backupStack := [] },
       Memory.Cell.mk0],
    d_protectedStack := [] }

/-- Inside `main`, with a free cell at address 0 in front of the one-cell
variable `y` at address 1, two free cells behind it, the cursor on cell 0 and
nothing emitted yet. -/
def gapState : Compiler :=
  { d_pointer := 0,
    d_memory :=
      { d_memory := [Memory.Cell.mk0, namedCell "y", Memory.Cell.mk0, Memory.Cell.mk0],
        d_protectedStack := [] },
    d_callStack := ["main"],
    d_codeBuffer := [],
    typeMap := [],
    d_stack := [] }

/-- Two functions without parameters and return value: the body of `f`
evaluates the constant 1, the body of `g` is empty. -/
def siblingMap : Compiler.FunctionMap :=
  [{ name := "f", params := [], returnVariable := Compiler.BFXFunction.VOID,
     body := Compiler.constVal 1 },
   { name := "g", params := [], returnVariable := Compiler.BFXFunction.VOID,
     body := pure (-1) }]

/-- A function `f` whose body calls `f`. -/
def selfMap : Compiler.FunctionMap :=
  [{ name := "f", params := [], returnVariable := Compiler.BFXFunction.VOID,
     body := Compiler.call
       [{ name := "f", params := [], returnVariable := Compiler.BFXFunction.VOID,
          body := pure (-1) }] "f" [] }]

/-- Two functions `f` and `g`: the body of `f` calls `g` and the body of `g`
calls `f`. -/
def mutualMap : Compiler.FunctionMap :=
  [{ name := "f", params := [], returnVariable := Compiler.BFXFunction.VOID,
     body := Compiler.call
       [{ name := "g", params := [], returnVariable := Compiler.BFXFunction.VOID,
          body := Compiler.call
            [{ name := "f", params := [], returnVariable := Compiler.BFXFunction.VOID,
               body := pure (-1) }] "f" [] }] "g" [] }]

/-- The fragment `[>+<-]`, which moves the current cell into its right
neighbour. -/
def moveLoop : Code := ['[', '>', '+', '<', '-', ']']

/-- A machine with the value 2 under the data pointer and zeros elsewhere. -/
def moveStart : Machine := ⟨fun a => if a = 0 then 2 else 0, 0⟩

/-- The machine `moveStart` after `moveLoop`: the value 2 stands one cell to
the right, the data pointer is back where it was. -/
def moveEnd : Machine :=
  ⟨setCell (setCell (setCell (setCell moveStart.tape 1 1) 0 1) 1 2) 0 0, 0⟩

/-- Modelled from the spec: `TypeSystem::add` is not among the sources; the
catalog holds the struct `S` of `structMap` and a struct `P` of three cells
with a two-cell field `a` at offset 0 and a field `s` of type `S` at offset 2,
offsets cumulative in declaration order. -/
def pairMap : TypeSystem.TypeMap :=
  [("S", { d_size := 1, d_name := "S",
           d_fields := [{ name := "f", offset := 0, type := .int 1 }] }),
   ("P", { d_size := 3, d_name := "P",
           d_fields := [{ name := "a", offset := 0, type := .int 2 },
                        { name := "s", offset := 2, type := .struct "S" }] })]

/-- The thunk of a statement `x = v;` for the variable at address `x` and a
literal `v`: `assign(x, constVal(v))`. -/
def assignConst (x : Int) (v : Nat) : Compiler.Instruction := do
  let rhs ← Compiler.constVal v
  Compiler.assign x rhs

/-- The state in which a member function leaves the compiler, the state
itself if the function does not return. -/
def stateAfter {α : Type} (x : Gen α) (c : Compiler) : Compiler :=
  match x c with
  | .ok (_, c1) => c1
  | .error _ => c

/-- The state `exampleState` after the condition of `if (1)`: the literal 1
has been put into a temporary, the cell 4. -/
def condState : Compiler := stateAfter (Compiler.constVal 1) exampleState

/-! ## The machine: parsing and running composed texts -/

theorem Prog.append_halt (p : Prog) : p.append .halt = p := by
  induction p with
  | halt => rfl
  | right k ih => simp [Prog.append, ih]
  | left k ih => simp [Prog.append, ih]
  | inc k ih => simp [Prog.append, ih]
  | dec k ih => simp [Prog.append, ih]
  | loop b k _ ih => simp [Prog.append, ih]

theorem exec_succ {f : Nat} {p : Prog} {s s1 : Machine} (h : exec f p s = some s1) :
    exec (f + 1) p s = some s1 := by
  induction f generalizing p s s1 with
  | zero => simp [exec] at h
  | succ f ih =>
    cases p with
    | halt => simpa [exec] using h
    | right k => simp only [exec] at h ⊢; exact ih h
    | left k => simp only [exec] at h ⊢; exact ih h
    | inc k => simp only [exec] at h ⊢; exact ih h
    | dec k => simp only [exec] at h ⊢; exact ih h
    | loop b k =>
      rw [exec] at h
      rw [exec]
      by_cases hz : s.tape s.ptr = 0
      · rw [if_pos hz] at h ⊢; exact ih h
      · rw [if_neg hz] at h ⊢
        cases hb : exec f b s with
        | none => rw [hb] at h; simp at h
        | some s2 =>
          rw [hb] at h
          rw [ih hb]
          exact ih h

theorem exec_mono {f g : Nat} {p : Prog} {s s1 : Machine} (h : exec f p s = some s1)
    (hfg : f ≤ g) : exec g p s = some s1 := by
  induction hfg with
  | refl => exact h
  | step _ ih => exact exec_succ ih

theorem exec_append {f g : Nat} {p q : Prog} {s s1 s2 : Machine}
    (h1 : exec f p s = some s1) (h2 : exec g q s1 = some s2) :
    exec (f + g) (p.append q) s = some s2 := by
  induction f generalizing p s s1 with
  | zero => simp [exec] at h1
  | succ f ih =>
    cases p with
    | halt =>
      simp only [exec, Option.some.injEq] at h1
      subst h1
      exact exec_mono h2 (by omega)
    | right k =>
      simp only [exec] at h1
      rw [show f + 1 + g = (f + g) + 1 by omega]
      simp only [Prog.append, exec]
      exact ih h1 h2
    | left k =>
      simp only [exec] at h1
      rw [show f + 1 + g = (f + g) + 1 by omega]
      simp only [Prog.append, exec]
      exact ih h1 h2
    | inc k =>
      simp only [exec] at h1
      rw [show f + 1 + g = (f + g) + 1 by omega]
      simp only [Prog.append, exec]
      exact ih h1 h2
    | dec k =>
      simp only [exec] at h1
      rw [show f + 1 + g = (f + g) + 1 by omega]
      simp only [Prog.append, exec]
      exact ih h1 h2
    | loop b k =>
      rw [exec] at h1
      rw [show f + 1 + g = (f + g) + 1 by omega]
      simp only [Prog.append]
      rw [exec]
      by_cases hz : s.tape s.ptr = 0
      · rw [if_pos hz] at h1 ⊢; exact ih h1 h2
      · rw [if_neg hz] at h1 ⊢
        cases hb : exec f b s with
        | none => rw [hb] at h1; simp at h1
        | some s3 =>
          rw [hb] at h1
          rw [exec_mono hb (by omega : f ≤ f + g)]
          have := ih (p := .loop b k) h1 h2
          simpa [Prog.append] using this

theorem parseStep_lift {c : Char} {st st1 : Prog × List Prog} (k : Prog) (stk : List Prog)
    (h : parseStep c st = some st1) :
    parseStep c (liftState st k stk) = some (liftState st1 k stk) := by
  obtain ⟨p, qs⟩ := st
  unfold parseStep at h ⊢
  cases qs with
  | nil =>
    simp only [liftState] at h ⊢
    split_ifs at h ⊢
    all_goals (simp only [Option.some.injEq] at h; subst h; simp [liftState, Prog.append])
  | cons q qs =>
    cases qs with
    | nil =>
      simp only [liftState] at h ⊢
      split_ifs at h ⊢
      all_goals (simp only [Option.some.injEq] at h; subst h; simp [liftState, Prog.append])
    | cons q2 qs =>
      simp only [liftState] at h ⊢
      split_ifs at h ⊢
      all_goals (simp only [Option.some.injEq] at h; subst h; simp [liftState, Prog.append])

theorem parseFrom_lift {code : Code} {st : Prog × List Prog} (k : Prog) (stk : List Prog)
    (h : parseFrom code (.halt, []) = some st) :
    parseFrom code (k, stk) = some (liftState st k stk) := by
  induction code generalizing st with
  | nil =>
    simp only [parseFrom, Option.some.injEq] at h
    subst h
    simp [parseFrom, liftState, Prog.append]
  | cons c cs ih =>
    simp only [parseFrom] at h ⊢
    cases hcs : parseFrom cs (.halt, []) with
    | none => rw [hcs] at h; simp at h
    | some st0 =>
      rw [hcs] at h
      rw [ih hcs]
      simp only [Option.bind] at h ⊢
      exact parseStep_lift k stk h

theorem parseFrom_append (a b : Code) (st : Prog × List Prog) :
    parseFrom (a ++ b) st = (parseFrom b st).bind (parseFrom a) := by
  induction a with
  | nil =>
    show parseFrom b st = (parseFrom b st).bind (parseFrom [])
    cases parseFrom b st <;> rfl
  | cons c cs ih =>
    show (parseFrom (cs ++ b) st).bind (parseStep c) = _
    rw [ih]
    cases parseFrom b st <;> rfl

theorem parse_eq_some {code : Code} {p : Prog} :
    parse code = some p ↔ parseFrom code (.halt, []) = some (p, []) := by
  unfold parse
  constructor
  · intro h
    split at h
    · simp only [Option.some.injEq] at h; subst h; assumption
    · simp at h
  · intro h; rw [h]

theorem parse_nil : parse [] = some .halt := rfl

theorem parse_append {a b : Code} {p q : Prog} (ha : parse a = some p) (hb : parse b = some q) :
    parse (a ++ b) = some (p.append q) := by
  rw [parse_eq_some] at ha hb ⊢
  rw [parseFrom_append, hb]
  simp only [Option.bind]
  rw [parseFrom_lift q [] ha]
  simp [liftState]

theorem parse_loopC {body : Code} {p : Prog} (h : parse body = some p) :
    parse (loopC body) = some (.loop p .halt) := by
  rw [parse_eq_some] at h ⊢
  unfold loopC
  simp only [parseFrom]
  rw [parseFrom_append]
  have h1 : parseFrom [']'] (Prog.halt, []) = some (.halt, [.halt]) := by
    simp [parseFrom, parseStep]
  rw [h1]
  simp only [Option.bind]
  rw [parseFrom_lift .halt [.halt] h]
  simp [liftState, parseStep, Prog.append_halt]

theorem parse_right : parse ['>'] = some (.right .halt) := by
  simp [parse, parseFrom, parseStep]

theorem parse_left : parse ['<'] = some (.left .halt) := by
  simp [parse, parseFrom, parseStep]

theorem parse_inc : parse ['+'] = some (.inc .halt) := by
  simp [parse, parseFrom, parseStep]

theorem parse_dec : parse ['-'] = some (.dec .halt) := by
  simp [parse, parseFrom, parseStep]

/-! ## Composition rules for runs -/

theorem setCell_same (t : Int → Nat) (p : Int) (v : Nat) : setCell t p v p = v := by
  simp [setCell]

theorem setCell_other (t : Int → Nat) {p a : Int} (v : Nat) (h : a ≠ p) :
    setCell t p v a = t a := by
  simp [setCell, h]

theorem setCell_self (t : Int → Nat) (p : Int) : setCell t p (t p) = t := by
  funext a
  by_cases h : a = p
  · subst h; simp [setCell]
  · simp [setCell, h]

theorem setCell_setCell (t : Int → Nat) (p : Int) (v w : Nat) :
    setCell (setCell t p v) p w = setCell t p w := by
  funext a
  by_cases h : a = p <;> simp [setCell, h]

theorem Bytes.setCell {t : Int → Nat} (h : Bytes t) (p : Int) {v : Nat} (hv : v < 256) :
    Bytes (setCell t p v) := by
  intro a
  by_cases ha : a = p
  · subst ha; simpa [BrainFix.setCell] using hv
  · simpa [BrainFix.setCell, ha] using h a

theorem exec_bytes {f : Nat} {p : Prog} {s s1 : Machine} (h : exec f p s = some s1)
    (hb : Bytes s.tape) : Bytes s1.tape := by
  induction f generalizing p s s1 with
  | zero => simp [exec] at h
  | succ f ih =>
    cases p with
    | halt => simp only [exec, Option.some.injEq] at h; subst h; exact hb
    | right k => simp only [exec] at h; exact ih h hb
    | left k => simp only [exec] at h; exact ih h hb
    | inc k =>
      simp only [exec] at h
      exact ih h (hb.setCell _ (Nat.mod_lt _ (by norm_num)))
    | dec k =>
      simp only [exec] at h
      exact ih h (hb.setCell _ (Nat.mod_lt _ (by norm_num)))
    | loop b k =>
      rw [exec] at h
      by_cases hz : s.tape s.ptr = 0
      · rw [if_pos hz] at h; exact ih h hb
      · rw [if_neg hz] at h
        cases hbd : exec f b s with
        | none => rw [hbd] at h; simp at h
        | some s2 =>
          rw [hbd] at h
          exact ih h (ih hbd hb)

theorem Runs.bytes {code : Code} {s s1 : Machine} (h : Runs code s s1) (hb : Bytes s.tape) :
    Bytes s1.tape := by
  obtain ⟨f, hf⟩ := h
  unfold runCode at hf
  split at hf
  · simp at hf
  · exact exec_bytes hf hb

theorem Runs.iff_exec {code : Code} {s s1 : Machine} :
    Runs code s s1 ↔ ∃ p, parse code = some p ∧ ∃ f, exec f p s = some s1 := by
  unfold Runs runCode
  constructor
  · rintro ⟨f, hf⟩
    cases hp : parse code with
    | none => rw [hp] at hf; simp at hf
    | some p => rw [hp] at hf; exact ⟨p, rfl, f, hf⟩
  · rintro ⟨p, hp, f, hf⟩
    exact ⟨f, by rw [hp]; exact hf⟩

theorem Runs.balanced {code : Code} {s s1 : Machine} (h : Runs code s s1) : Balanced code := by
  obtain ⟨p, hp, _⟩ := Runs.iff_exec.mp h
  simp [Balanced, hp]

theorem Balanced.iff {code : Code} : Balanced code ↔ ∃ p, parse code = some p := by
  unfold Balanced
  cases parse code <;> simp

theorem Runs.nil (s : Machine) : Runs [] s s := ⟨1, rfl⟩

theorem Runs.append {a b : Code} {s s1 s2 : Machine} (h1 : Runs a s s1) (h2 : Runs b s1 s2) :
    Runs (a ++ b) s s2 := by
  obtain ⟨p, hp, f, hf⟩ := Runs.iff_exec.mp h1
  obtain ⟨q, hq, g, hg⟩ := Runs.iff_exec.mp h2
  exact Runs.iff_exec.mpr ⟨_, parse_append hp hq, _, exec_append hf hg⟩

theorem Runs.cons {c : Char} {b : Code} {s s1 s2 : Machine} (h1 : Runs [c] s s1)
    (h2 : Runs b s1 s2) : Runs (c :: b) s s2 := Runs.append h1 h2

theorem Balanced.empty : Balanced [] := by simp [Balanced, parse_nil]

theorem Balanced.seq {a b : Code} (ha : Balanced a) (hb : Balanced b) : Balanced (a ++ b) := by
  obtain ⟨p, hp⟩ := Balanced.iff.mp ha
  obtain ⟨q, hq⟩ := Balanced.iff.mp hb
  exact Balanced.iff.mpr ⟨_, parse_append hp hq⟩

theorem Balanced.loopC {a : Code} (ha : Balanced a) : Balanced (loopC a) := by
  obtain ⟨p, hp⟩ := Balanced.iff.mp ha
  exact Balanced.iff.mpr ⟨_, parse_loopC hp⟩

theorem Runs.right (s : Machine) : Runs ['>'] s ⟨s.tape, s.ptr + 1⟩ :=
  Runs.iff_exec.mpr ⟨_, parse_right, 2, rfl⟩

theorem Runs.left (s : Machine) : Runs ['<'] s ⟨s.tape, s.ptr - 1⟩ :=
  Runs.iff_exec.mpr ⟨_, parse_left, 2, rfl⟩

theorem Runs.inc (s : Machine) :
    Runs ['+'] s ⟨setCell s.tape s.ptr ((s.tape s.ptr + 1) % 256), s.ptr⟩ :=
  Runs.iff_exec.mpr ⟨_, parse_inc, 2, rfl⟩

theorem Runs.dec (s : Machine) :
    Runs ['-'] s ⟨setCell s.tape s.ptr ((s.tape s.ptr + 255) % 256), s.ptr⟩ :=
  Runs.iff_exec.mpr ⟨_, parse_dec, 2, rfl⟩

theorem Balanced.single {c : Char} (h1 : c ≠ '[') (h2 : c ≠ ']') : Balanced [c] := by
  unfold Balanced parse
  simp only [parseFrom, parseStep, Option.bind]
  split_ifs <;> simp_all

theorem Balanced.replicate (n : Nat) {c : Char} (h1 : c ≠ '[') (h2 : c ≠ ']') :
    Balanced (List.replicate n c) := by
  induction n with
  | zero => exact Balanced.empty
  | succ n ih =>
    rw [List.replicate_succ]
    exact (Balanced.single h1 h2).seq ih

theorem Balanced.mvCode (p a : Int) : Balanced (mvCode p a) := by
  unfold BrainFix.mvCode
  split_ifs
  · exact Balanced.replicate _ (by decide) (by decide)
  · exact Balanced.replicate _ (by decide) (by decide)

theorem Runs.loop_skip {body : Code} {s : Machine} (hb : Balanced body)
    (hz : s.tape s.ptr = 0) : Runs (loopC body) s s := by
  obtain ⟨p, hp⟩ := Balanced.iff.mp hb
  refine Runs.iff_exec.mpr ⟨_, parse_loopC hp, 2, ?_⟩
  simp [exec, hz]

theorem Runs.loop_step {body : Code} {s s1 s2 : Machine} (hnz : s.tape s.ptr ≠ 0)
    (h1 : Runs body s s1) (h2 : Runs (loopC body) s1 s2) : Runs (loopC body) s s2 := by
  obtain ⟨p, hp, f, hf⟩ := Runs.iff_exec.mp h1
  obtain ⟨q, hq, g, hg⟩ := Runs.iff_exec.mp h2
  rw [parse_loopC hp] at hq
  simp only [Option.some.injEq] at hq
  subst hq
  refine Runs.iff_exec.mpr ⟨_, parse_loopC hp, (f + g) + 1, ?_⟩
  rw [exec, if_neg hnz, exec_mono hf (by omega : f ≤ f + g)]
  exact exec_mono hg (by omega)

/-- The while rule: an invariant kept by the body and a measure the body
decreases give a terminating loop that ends on a zero cell. -/
theorem Runs.while_loop {body : Code} (hb : Balanced body) (I : Machine → Prop)
    (μ : Machine → Nat)
    (hstep : ∀ s, I s → s.tape s.ptr ≠ 0 → ∃ s1, Runs body s s1 ∧ I s1 ∧ μ s1 < μ s) :
    ∀ s, I s → ∃ s1, Runs (loopC body) s s1 ∧ I s1 ∧ s1.tape s1.ptr = 0 := by
  intro s
  generalize hn : μ s = n
  induction n using Nat.strong_induction_on generalizing s with
  | _ n ih =>
    intro hI
    subst hn
    by_cases hz : s.tape s.ptr = 0
    · exact ⟨s, Runs.loop_skip hb hz, hI, hz⟩
    · obtain ⟨s1, hr, hI1, hlt⟩ := hstep s hI hz
      obtain ⟨s2, hr2, hI2, hz2⟩ := ih (μ s1) (by omega) s1 rfl hI1
      exact ⟨s2, Runs.loop_step hz hr hr2, hI2, hz2⟩

/-- A guarded block: the body runs at most once because it leaves the tested
cell at zero. -/
theorem Runs.if_loop {body : Code} (hb : Balanced body) (Q : Machine → Prop) (s : Machine)
    (hz : s.tape s.ptr = 0 → Q s)
    (hnz : s.tape s.ptr ≠ 0 → ∃ s1, Runs body s s1 ∧ s1.tape s1.ptr = 0 ∧ Q s1) :
    ∃ s1, Runs (loopC body) s s1 ∧ Q s1 := by
  by_cases h : s.tape s.ptr = 0
  · exact ⟨s, Runs.loop_skip hb h, hz h⟩
  · obtain ⟨s1, hr, hz1, hq⟩ := hnz h
    exact ⟨s1, Runs.loop_step h hr (Runs.loop_skip hb hz1), hq⟩

theorem Runs.replicate_right (n : Nat) (t : Int → Nat) (p : Int) :
    Runs (List.replicate n '>') ⟨t, p⟩ ⟨t, p + n⟩ := by
  induction n generalizing p with
  | zero => simpa using Runs.nil ⟨t, p⟩
  | succ n ih =>
    rw [List.replicate_succ]
    have h := Runs.cons (Runs.right ⟨t, p⟩) (ih (p + 1))
    have e : p + 1 + (n : Int) = p + ((n + 1 : Nat) : Int) := by push_cast; ring
    rw [e] at h
    exact h

theorem Runs.replicate_left (n : Nat) (t : Int → Nat) (p : Int) :
    Runs (List.replicate n '<') ⟨t, p⟩ ⟨t, p - n⟩ := by
  induction n generalizing p with
  | zero => simpa using Runs.nil ⟨t, p⟩
  | succ n ih =>
    rw [List.replicate_succ]
    have h := Runs.cons (Runs.left ⟨t, p⟩) (ih (p - 1))
    have e : p - 1 - (n : Int) = p - ((n + 1 : Nat) : Int) := by push_cast; ring
    rw [e] at h
    exact h

theorem Runs.mv (t : Int → Nat) (p a : Int) : Runs (mvCode p a) ⟨t, p⟩ ⟨t, a⟩ := by
  unfold mvCode
  split_ifs with h
  · have := Runs.replicate_right (a - p).toNat t p
    rwa [Int.toNat_of_nonneg h, show p + (a - p) = a by ring] at this
  · have := Runs.replicate_left (-(a - p)).toNat t p
    rwa [Int.toNat_of_nonneg (by omega), show p - -(a - p) = a by ring] at this

theorem Runs.replicate_inc (n : Nat) (t : Int → Nat) (p : Int) (h : t p < 256) :
    Runs (List.replicate n '+') ⟨t, p⟩ ⟨setCell t p ((t p + n) % 256), p⟩ := by
  induction n generalizing t with
  | zero =>
    have e : setCell t p ((t p + 0) % 256) = t := by
      rw [Nat.add_zero, Nat.mod_eq_of_lt h, setCell_self]
    rw [e]
    simpa using Runs.nil ⟨t, p⟩
  | succ n ih =>
    rw [List.replicate_succ]
    have h1 := Runs.inc ⟨t, p⟩
    have h2 := ih (setCell t p ((t p + 1) % 256)) (by rw [setCell_same]; exact Nat.mod_lt _ (by norm_num))
    rw [setCell_setCell, setCell_same] at h2
    have e : ((t p + 1) % 256 + n) % 256 = (t p + (n + 1)) % 256 := by omega
    rw [e] at h2
    exact Runs.cons h1 h2

theorem Runs.zero (t : Int → Nat) (p : Int) (h : t p < 256) :
    Runs ['[', '-', ']'] ⟨t, p⟩ ⟨setCell t p 0, p⟩ := by
  have hb : Balanced ['-'] := Balanced.single (by decide) (by decide)
  show Runs (loopC ['-']) _ _
  generalize hn : t p = n
  induction n using Nat.strong_induction_on generalizing t with
  | _ n ih =>
    subst hn
    by_cases hz : t p = 0
    · have e : setCell t p 0 = t := by rw [← hz, setCell_self]
      rw [e]
      exact Runs.loop_skip hb hz
    · have h1 := Runs.dec ⟨t, p⟩
      have hv : (t p + 255) % 256 = t p - 1 := by omega
      have h2 := ih (t p - 1) (by omega) (setCell t p ((t p + 255) % 256))
        (by rw [setCell_same]; omega) (by rw [setCell_same]; omega)
      rw [setCell_setCell] at h2
      exact Runs.loop_step hz h1 h2

/-- The while rule for a body that returns the pointer to where it started. -/
theorem Runs.while_at {body : Code} (hb : Balanced body) (p : Int) (I : (Int → Nat) → Prop)
    (μ : (Int → Nat) → Nat)
    (hstep : ∀ t, I t → t p ≠ 0 → ∃ t1, Runs body ⟨t, p⟩ ⟨t1, p⟩ ∧ I t1 ∧ μ t1 < μ t) :
    ∀ t, I t → ∃ t1, Runs (loopC body) ⟨t, p⟩ ⟨t1, p⟩ ∧ I t1 ∧ t1 p = 0 := by
  intro t hI
  obtain ⟨s1, hr, ⟨hp, hI1⟩, hz⟩ := Runs.while_loop hb (fun s => s.ptr = p ∧ I s.tape)
    (fun s => μ s.tape)
    (by
      rintro ⟨t0, p0⟩ ⟨hp0, hI0⟩ hnz
      simp only at hp0 hI0 hnz
      subst hp0
      obtain ⟨t1, h1, h2, h3⟩ := hstep t0 hI0 hnz
      exact ⟨⟨t1, p0⟩, h1, ⟨rfl, h2⟩, h3⟩)
    ⟨t, p⟩ ⟨rfl, hI⟩
  obtain ⟨t1, p1⟩ := s1
  simp only at hp hI1 hz
  subst hp
  exact ⟨t1, hr, hI1, hz⟩

/-- A guarded block whose body returns the pointer to where it started. -/
theorem Runs.if_at {body : Code} (hb : Balanced body) (p : Int) (Q : (Int → Nat) → Prop)
    (t : Int → Nat) (hz : t p = 0 → Q t)
    (hnz : t p ≠ 0 → ∃ t1, Runs body ⟨t, p⟩ ⟨t1, p⟩ ∧ t1 p = 0 ∧ Q t1) :
    ∃ t1, Runs (loopC body) ⟨t, p⟩ ⟨t1, p⟩ ∧ Q t1 := by
  by_cases h : t p = 0
  · exact ⟨t, Runs.loop_skip hb h, hz h⟩
  · obtain ⟨t1, hr, hz1, hq⟩ := hnz h
    exact ⟨t1, Runs.loop_step h hr (Runs.loop_skip hb hz1), hq⟩

theorem exec_det {f g : Nat} {p : Prog} {s s1 s2 : Machine} (h1 : exec f p s = some s1)
    (h2 : exec g p s = some s2) : s1 = s2 := by
  have a := exec_mono h1 (Nat.le_max_left f g)
  have b := exec_mono h2 (Nat.le_max_right f g)
  rw [a] at b
  exact Option.some.inj b

/-- A text has at most one outcome. -/
theorem Runs.det {code : Code} {s s1 s2 : Machine} (h1 : Runs code s s1) (h2 : Runs code s s2) :
    s1 = s2 := by
  obtain ⟨p, hp, f, hf⟩ := Runs.iff_exec.mp h1
  obtain ⟨q, hq, g, hg⟩ := Runs.iff_exec.mp h2
  rw [hp] at hq
  cases hq
  exact exec_det hf hg

open TypeSystem Memory

/-! ## The allocator hands out unused cells -/

theorem Memory.isFreeRun_ok (cells : List Cell) (start : Nat) :
    ∀ (n offset : Nat), start + offset + n ≤ cells.length →
      ∃ b, isFreeRun cells start n offset = .ok b ∧
        (b = true → ∀ i, i < n → ∃ cell, cells[start + offset + i]? = some cell ∧
          cell.empty = true) ∧
        (b = false → ∃ i, i < n ∧ ∃ cell, cells[start + offset + i]? = some cell ∧
          cell.empty = false) := by
  intro n
  induction n with
  | zero =>
    intro offset _
    exact ⟨true, rfl, fun _ i hi => absurd hi (Nat.not_lt_zero i), fun h => by simp at h⟩
  | succ n ih =>
    intro offset hlen
    have hlt : start + offset < cells.length := by omega
    simp only [isFreeRun, cellAt, List.getElem?_eq_getElem hlt]
    by_cases he : (cells[start + offset]).empty = true
    · obtain ⟨b, hb, ht, hf⟩ := ih (offset + 1) (by omega)
      refine ⟨b, by simpa [he] using hb, ?_, ?_⟩
      · intro hbt i hi
        cases i with
        | zero => exact ⟨_, by simp [List.getElem?_eq_getElem hlt], he⟩
        | succ i =>
          obtain ⟨cell, hc, hce⟩ := ht hbt i (by omega)
          exact ⟨cell, by rw [← hc]; congr 1; omega, hce⟩
      · intro hbf
        obtain ⟨i, hi, cell, hc, hce⟩ := hf hbf
        exact ⟨i + 1, by omega, cell, by rw [← hc]; congr 1; omega, hce⟩
    · refine ⟨false, by simp [he], by simp, ?_⟩
      intro _
      exact ⟨0, by omega, cells[start + offset], by simp [List.getElem?_eq_getElem hlt], by simpa using he⟩

theorem Memory.scanFrom_ok (cells : List Cell) (sz bound : Nat) (hb : bound + sz ≤ cells.length) :
    ∀ (fuel start : Nat), start ≤ bound → bound - start < fuel →
      (∃ a, scanFrom cells sz bound fuel start = .ok (some a) ∧ start ≤ a ∧ a < bound ∧
        ∀ i, i < sz → ∃ cell, cells[a + i]? = some cell ∧ cell.empty = true) ∨
      (scanFrom cells sz bound fuel start = .ok none ∧
        ∀ a, start ≤ a → a < bound → ∃ i, i < sz ∧ ∃ cell, cells[a + i]? = some cell ∧
          cell.empty = false) := by
  intro fuel
  induction fuel with
  | zero => intro start _ h; omega
  | succ fuel ih =>
    intro start hs hf
    rw [scanFrom]
    by_cases he : start = bound
    · rw [if_pos he]
      exact Or.inr ⟨rfl, fun a h1 h2 => by omega⟩
    · rw [if_neg he]
      obtain ⟨b, hrun, ht, hfl⟩ := Memory.isFreeRun_ok cells start sz 0 (by omega)
      rw [hrun]
      cases b with
      | true =>
        refine Or.inl ⟨start, rfl, le_refl _, by omega, ?_⟩
        intro i hi
        simpa using ht rfl i hi
      | false =>
        rcases ih (start + 1) (by omega) (by omega) with ⟨a, h1, h2, h3, h4⟩ | ⟨h1, h2⟩
        · exact Or.inl ⟨a, h1, by omega, h3, h4⟩
        · refine Or.inr ⟨h1, ?_⟩
          intro a ha1 ha2
          by_cases hsa : a = start
          · subst hsa
            simpa using hfl rfl
          · exact h2 a (by omega) ha2

theorem Memory.scanBound_eq {len sz : Nat} (h : sz ≤ len) : scanBound len sz = len - sz := by
  unfold scanBound
  rw [if_pos h]

theorem Memory.scan_ok (cells : List Cell) (sz : Nat) (h : sz ≤ cells.length) :
    (∃ a, scan cells sz = .ok (some a) ∧ a + sz < cells.length ∧
      ∀ i, i < sz → ∃ cell, cells[a + i]? = some cell ∧ cell.empty = true) ∨
    (scan cells sz = .ok none ∧
      ∀ a, a + sz < cells.length → ∃ i, i < sz ∧ ∃ cell, cells[a + i]? = some cell ∧
        cell.empty = false) := by
  unfold scan
  rw [Memory.scanBound_eq h]
  rcases Memory.scanFrom_ok cells sz (cells.length - sz) (by omega) (cells.length + 2) 0
      (by omega) (by omega) with ⟨a, h1, _, h3, h4⟩ | ⟨h1, h2⟩
  · exact Or.inl ⟨a, h1, by omega, h4⟩
  · exact Or.inr ⟨h1, fun a ha => h2 a (by omega) (by omega)⟩

theorem Memory.mk0_empty : Cell.mk0.empty = true := rfl

theorem Memory.getElem?_append_replicate (cells : List Cell) (k j : Nat)
    (h1 : cells.length ≤ j) (h2 : j < cells.length + k) :
    (cells ++ List.replicate k Cell.mk0)[j]? = some Cell.mk0 := by
  rw [List.getElem?_append_right h1, List.getElem?_replicate]
  simp; omega

/-- The outcome of `findFree` on a tape at least as long as the request: a run
of empty cells inside a tape that extends the old one by empty cells. -/
theorem Memory.findFreeAux_ok (cells : List Cell) (sz : Nat) (hsz : 0 < sz)
    (h : sz ≤ cells.length) :
    ∃ a k, findFreeAux sz 3 cells = .ok (a, cells ++ List.replicate k Cell.mk0) ∧
      a + sz ≤ cells.length + k ∧
      ∀ i, i < sz → ∃ cell, (cells ++ List.replicate k Cell.mk0)[a + i]? = some cell ∧
        cell.empty = true := by
  rcases Memory.scan_ok cells sz h with ⟨a, h1, h2, h3⟩ | ⟨h1, _⟩
  · refine ⟨a, 0, by simp [findFreeAux, h1], by omega, ?_⟩
    simpa using h3
  · obtain ⟨cells1, hc1⟩ : ∃ x, x = cells ++ List.replicate sz Cell.mk0 := ⟨_, rfl⟩
    have hl1 : cells1.length = cells.length + sz := by simp [hc1]
    have hA : findFreeAux sz 3 cells = findFreeAux sz 2 cells1 := by
      rw [findFreeAux, h1, hc1]
    rcases Memory.scan_ok cells1 sz (by omega) with ⟨a, h1a, h2a, h3a⟩ | ⟨h1a, _⟩
    · refine ⟨a, sz, ?_, by omega, ?_⟩
      · rw [hA, findFreeAux, h1a, hc1]
      · rw [← hc1]; exact h3a
    · obtain ⟨cells2, hc2⟩ : ∃ x, x = cells1 ++ List.replicate sz Cell.mk0 := ⟨_, rfl⟩
      have hl2 : cells2.length = cells.length + sz + sz := by simp [hc2, hl1]
      have e2 : cells2 = cells ++ List.replicate (sz + sz) Cell.mk0 := by
        rw [hc2, hc1, List.append_assoc, List.replicate_add]
      have hB : findFreeAux sz 2 cells1 = findFreeAux sz 1 cells2 := by
        rw [findFreeAux, h1a, hc2]
      rcases Memory.scan_ok cells2 sz (by omega) with ⟨a, h1b, h2b, h3b⟩ | ⟨_, h2b⟩
      · refine ⟨a, sz + sz, ?_, by omega, ?_⟩
        · rw [hA, hB, findFreeAux, h1b, e2]
        · rw [← e2]; exact h3b
      · exfalso
        obtain ⟨i, hi, cell, hc, hce⟩ := h2b cells.length (by omega)
        rw [e2, Memory.getElem?_append_replicate cells (sz + sz) (cells.length + i) (by omega)
          (by omega)] at hc
        simp only [Option.some.injEq] at hc
        subst hc
        simp [Memory.mk0_empty] at hce

theorem Memory.markReferenced_ok (addr n : Nat) :
    ∀ (fuel i : Nat) (cells : List Cell), i ≤ n → n - i < fuel → addr + n ≤ cells.length →
      (∀ j, i ≤ j → j < n → ∃ cell, cells[addr + j]? = some cell ∧ cell.empty = true) →
      ∃ cells1, markReferenced addr n fuel i cells = .ok cells1 ∧
        cells1.length = cells.length ∧
        (∀ x, (x < addr + i ∨ addr + n ≤ x) → cells1[x]? = cells[x]?) ∧
        (∀ j, i ≤ j → j < n → ∃ cell, cells1[addr + j]? = some cell ∧
          cell.content = .REFERENCED) := by
  intro fuel
  induction fuel with
  | zero => intro i cells _ h; omega
  | succ fuel ih =>
    intro i cells hin hf hlen hemp
    rw [markReferenced]
    by_cases he : i = n
    · rw [if_pos he]
      exact ⟨cells, rfl, rfl, fun _ _ => rfl, fun j h1 h2 => by omega⟩
    · rw [if_neg he]
      obtain ⟨cell, hc, hce⟩ := hemp i (le_refl _) (by omega)
      have hnp : cell.content ≠ .PROTECTED := by
        intro h
        simp [Cell.empty, h] at hce
      simp only [cellAt, hc, Cell.clear, if_neg hnp]
      obtain ⟨cells1, h1, h2, h3, h4⟩ := ih (i + 1)
        (cells.set (addr + i)
          { identifier := "", scope := "", content := .REFERENCED, type := .null,
            d_backupStack := cell.d_backupStack })
        (by omega) (by omega) (by simpa using hlen)
        (by
          intro j hj1 hj2
          obtain ⟨cj, hcj, hcje⟩ := hemp j (by omega) hj2
          refine ⟨cj, ?_, hcje⟩
          rw [List.getElem?_set_ne (by omega)]
          exact hcj)
      refine ⟨cells1, h1, by simpa using h2, ?_, ?_⟩
      · intro x hx
        rw [h3 x (by omega), List.getElem?_set_ne (by omega)]
      · intro j hj1 hj2
        by_cases hji : j = i
        · subst hji
          rw [h3 (addr + j) (by omega)]
          exact ⟨_, List.getElem?_set_self (by omega), rfl⟩
        · exact h4 j (by omega) hj2

theorem Memory.isLive_iff (m : Memory) (a : Int) :
    m.isLive a = true ↔ 0 ≤ a ∧ ∃ cell, m.d_memory[a.toNat]? = some cell ∧ cell.empty = false := by
  unfold Memory.isLive
  cases h : m.d_memory[a.toNat]? with
  | none => simp
  | some cell => simp

theorem Memory.isLive_false_of_empty (m : Memory) (a : Nat) (cell : Cell)
    (h : m.d_memory[a]? = some cell) (he : cell.empty = true) : m.isLive (a : Int) = false := by
  cases hl : m.isLive (a : Int) with
  | false => rfl
  | true =>
    obtain ⟨_, c, hc, hce⟩ := (Memory.isLive_iff m a).mp hl
    simp only [Int.toNat_ofNat, h, Option.some.injEq] at hc
    subst hc
    simp [he] at hce

theorem Memory.isLive_lt (m : Memory) (a : Int) (h : m.isLive a = true) :
    0 ≤ a ∧ a.toNat < m.d_memory.length := by
  obtain ⟨h0, c, hc, _⟩ := (Memory.isLive_iff m a).mp h
  refine ⟨h0, ?_⟩
  by_contra hlt
  rw [List.getElem?_eq_none (by omega)] at hc
  simp at hc

/-- What `getTemp(scope, sz)` returns on a tape of at least `sz` cells: the
address of `sz` cells that were not allocated before and are afterwards, the
first typed `int sz`, every other cell of the old tape untouched. -/
theorem Memory.getTemp_ok (tm : TypeMap) (m : Memory) (scope : String) (sz : Nat)
    (hsz : 0 < sz) (hlen : sz ≤ m.d_memory.length) :
    ∃ (a : Nat) (m1 : Memory), getTemp tm m scope sz = .ok ((a : Int), m1) ∧
      m.d_memory.length ≤ m1.d_memory.length ∧
      m1.d_protectedStack = m.d_protectedStack ∧
      a + sz ≤ m1.d_memory.length ∧
      (∀ i, i < sz → m.isLive ((a + i : Nat) : Int) = false) ∧
      (∀ i, i < sz → m1.isLive ((a + i : Nat) : Int) = true) ∧
      (∀ x : Nat, x < m.d_memory.length → (x < a ∨ a + sz ≤ x) →
        m1.d_memory[x]? = m.d_memory[x]?) ∧
      (∀ x : Nat, m.d_memory.length ≤ x → (x < a ∨ a + sz ≤ x) →
        m1.isLive (x : Int) = false) ∧
      (∃ cell, m1.d_memory[a]? = some cell ∧ cell.type = .int sz ∧ cell.identifier = "" ∧
        cell.scope = scope ∧ cell.empty = false) := by
  obtain ⟨a, k, hff, hak, hrun⟩ := Memory.findFreeAux_ok m.d_memory sz hsz hlen
  obtain ⟨cells0, hc0⟩ : ∃ x, x = m.d_memory ++ List.replicate k Cell.mk0 := ⟨_, rfl⟩
  rw [← hc0] at hff hrun
  have hl0 : cells0.length = m.d_memory.length + k := by simp [hc0]
  obtain ⟨cell, hcell, hcelle⟩ := hrun 0 hsz
  simp only [Nat.add_zero] at hcell
  have hnp : cell.content ≠ .PROTECTED := by
    intro h
    simp [Cell.empty, h] at hcelle
  obtain ⟨cell2, hcell2⟩ : ∃ x : Cell, x =
      { identifier := "", scope := scope,
        content := if scope.isEmpty then Content.REFERENCED
                   else if "".isEmpty then Content.TEMP else Content.NAMED,
        type := TSType.int sz, d_backupStack := cell.d_backupStack } := ⟨_, rfl⟩
  have hc2e : cell2.empty = false := by
    rw [hcell2]
    have he : ("" : String).isEmpty = true := rfl
    by_cases hs : scope.isEmpty = true <;> simp [Cell.empty, hs, he]
  obtain ⟨cells1, hm1, hm2, hm3, hm4⟩ := Memory.markReferenced_ok a sz
    ((cells0.set a cell2).length + 1) 1 (cells0.set a cell2) hsz
    (by simp only [List.length_set]; omega) (by simp only [List.length_set]; omega)
    (by
      intro j hj1 hj2
      obtain ⟨cj, hcj, hcje⟩ := hrun j hj2
      exact ⟨cj, by rw [List.getElem?_set_ne (by omega)]; exact hcj, hcje⟩)
  have hget : getTemp tm m scope sz =
      .ok ((a : Int), { d_memory := cells1, d_protectedStack := m.d_protectedStack }) := by
    unfold getTemp getTempT allocate
    have hd : (TSType.int sz).defined = true := rfl
    have he : ("" : String).isEmpty = true := rfl
    simp only [hd, he, Bool.not_true, Bool.false_and, Bool.false_eq_true, if_false, TSType.size,
      findFree, hff]
    rw [place]
    simp only [cellAt, hcell, Cell.clear, if_neg hnp, TSType.isIntType, if_true, TSType.size]
    rw [← hcell2, hm1]
  have hlen1 : cells1.length = m.d_memory.length + k := by
    rw [hm2]; simpa using hl0
  have ha0 : cells1[a]? = some cell2 := by
    rw [hm3 a (by omega)]
    exact List.getElem?_set_self (by omega)
  refine ⟨a, _, hget, ?_, rfl, ?_, ?_, ?_, ?_, ?_, ?_⟩
  · show m.d_memory.length ≤ cells1.length
    omega
  · show a + sz ≤ cells1.length
    omega
  · intro i hi
    obtain ⟨ci, hci, hcie⟩ := hrun i hi
    by_cases hin : a + i < m.d_memory.length
    · rw [hc0, List.getElem?_append_left hin] at hci
      exact Memory.isLive_false_of_empty m (a + i) ci hci hcie
    · cases hl : m.isLive ((a + i : Nat) : Int) with
      | false => rfl
      | true =>
        have := (Memory.isLive_lt m _ hl).2
        simp only [Int.toNat_ofNat] at this
        omega
  · intro i hi
    rw [Memory.isLive_iff]
    refine ⟨by omega, ?_⟩
    simp only [Int.toNat_ofNat]
    cases i with
    | zero => exact ⟨cell2, ha0, hc2e⟩
    | succ i =>
      obtain ⟨ci, hci, hcic⟩ := hm4 (i + 1) (by omega) hi
      exact ⟨ci, hci, by simp [Cell.empty, hcic]⟩
  · intro x hx hxa
    show cells1[x]? = m.d_memory[x]?
    rw [hm3 x (by omega), List.getElem?_set_ne (by omega), hc0, List.getElem?_append_left hx]
  · intro x hx hxa
    by_cases hxl : x < cells1.length
    · have : cells1[x]? = some Cell.mk0 := by
        rw [hm3 x (by omega), List.getElem?_set_ne (by omega), hc0]
        exact Memory.getElem?_append_replicate _ _ _ hx (by omega)
      exact Memory.isLive_false_of_empty _ x _ this Memory.mk0_empty
    · cases hl : Memory.isLive { d_memory := cells1, d_protectedStack := m.d_protectedStack }
          (x : Int) with
      | false => rfl
      | true =>
        have := (Memory.isLive_lt _ _ hl).2
        simp only [Int.toNat_ofNat] at this
        omega
  · exact ⟨cell2, ha0, by rw [hcell2], by rw [hcell2], by rw [hcell2], hc2e⟩

open TypeSystem Memory Compiler

/-! ## Running the synthesizer's member functions -/

@[simp] theorem Gen.run_pure {α : Type} (a : α) (c : Compiler) :
    (pure a : Gen α) c = .ok (a, c) := rfl

@[simp] theorem Gen.run_bind {α β : Type} (x : Gen α) (f : α → Gen β) (c : Compiler) :
    (x >>= f) c = match x c with
      | .ok (a, c1) => f a c1
      | .error e => .error e := rfl

@[simp] theorem Compiler.getPointer_run (c : Compiler) :
    getPointer c = .ok (c.d_pointer, c) := rfl

@[simp] theorem Compiler.setPointer_run (a : Int) (c : Compiler) :
    setPointer a c = .ok ((), { c with d_pointer := a }) := rfl

@[simp] theorem Compiler.emit_run (ops : Code) (c : Compiler) :
    emit ops c = .ok ((), { c with d_codeBuffer := c.d_codeBuffer ++ ops }) := rfl

theorem Compiler.validateAddr1_run {a : Int} (h : 0 ≤ a) (c : Compiler) :
    validateAddr [a] c = .ok ((), c) := by
  simp [validateAddr, h]

theorem Compiler.validateAddr2_run {a b : Int} (ha : 0 ≤ a) (hb : 0 ≤ b) (c : Compiler) :
    validateAddr [a, b] c = .ok ((), c) := by
  simp [validateAddr, ha, hb]

theorem Compiler.validateAddr3_run {a b d : Int} (ha : 0 ≤ a) (hb : 0 ≤ b) (hd : 0 ≤ d)
    (c : Compiler) : validateAddr [a, b, d] c = .ok ((), c) := by
  simp [validateAddr, ha, hb, hd]

theorem Compiler.bf_movePtr_run {a : Int} (h : 0 ≤ a) (c : Compiler) :
    bf_movePtr a c = .ok (mvCode c.d_pointer a, { c with d_pointer := a }) := by
  simp [bf_movePtr, Compiler.validateAddr1_run h, mvCode]

theorem Compiler.bf_setToValue_run {a v : Int} (h : 0 ≤ a) (hv : 0 ≤ v) (c : Compiler) :
    bf_setToValue a v c =
      .ok (mvCode c.d_pointer a ++ ['[', '-', ']'] ++ List.replicate v.toNat '+',
           { c with d_pointer := a }) := by
  simp [bf_setToValue, Compiler.validateAddr2_run h hv, Compiler.bf_movePtr_run h]

theorem Compiler.bf_incr_run {a : Int} (h : 0 ≤ a) (c : Compiler) :
    bf_incr a c = .ok (mvCode c.d_pointer a ++ ['+'], { c with d_pointer := a }) := by
  simp [bf_incr, Compiler.validateAddr1_run h, Compiler.bf_movePtr_run h]

theorem Compiler.bf_decr_run {a : Int} (h : 0 ≤ a) (c : Compiler) :
    bf_decr a c = .ok (mvCode c.d_pointer a ++ ['-'], { c with d_pointer := a }) := by
  simp [bf_decr, Compiler.validateAddr1_run h, Compiler.bf_movePtr_run h]

/-- The text of `bf_assign` for cursor `p` and temporary `tmp`. -/
theorem Compiler.bf_assign_run {lhs rhs tmp : Int} {c c1 : Compiler}
    (hl : 0 ≤ lhs) (hr : 0 ≤ rhs) (ht : 0 ≤ tmp)
    (hal : allocateTemp 1 c = .ok (tmp, c1)) (hp : c1.d_pointer = c.d_pointer) :
    bf_assign lhs rhs c =
      .ok (mvCode c.d_pointer lhs ++ ['[', '-', ']'] ++ (mvCode lhs tmp ++ ['[', '-', ']']) ++
            mvCode tmp rhs ++
            loopC (['-'] ++ mvCode rhs lhs ++ ['+'] ++ mvCode lhs tmp ++ ['+'] ++ mvCode tmp rhs) ++
            mvCode rhs tmp ++
            loopC (['-'] ++ mvCode tmp rhs ++ ['+'] ++ mvCode rhs tmp) ++
            mvCode tmp lhs,
           { c1 with d_pointer := lhs }) := by
  simp [bf_assign, Compiler.validateAddr2_run hl hr, hal, Compiler.bf_movePtr_run hl,
    Compiler.bf_movePtr_run hr, Compiler.bf_movePtr_run ht, hp, loopC]

/-! ## Semantics of the straight-line texts and the drain loops -/

theorem Runs.setToValue (t : Int → Nat) (p a : Int) (v : Nat) (h : Bytes t) :
    Runs (mvCode p a ++ ['[', '-', ']'] ++ List.replicate v '+') ⟨t, p⟩
      ⟨setCell t a (v % 256), a⟩ := by
  have h1 := Runs.mv t p a
  have h2 := Runs.zero t a (h a)
  have h3 := Runs.replicate_inc v (setCell t a 0) a (by rw [setCell_same]; norm_num)
  rw [setCell_setCell, setCell_same, Nat.zero_add] at h3
  exact (h1.append h2).append h3

theorem Runs.incr (t : Int → Nat) (p a : Int) :
    Runs (mvCode p a ++ ['+']) ⟨t, p⟩ ⟨setCell t a ((t a + 1) % 256), a⟩ :=
  (Runs.mv t p a).append (Runs.inc ⟨t, a⟩)

theorem Runs.decr (t : Int → Nat) (p a : Int) :
    Runs (mvCode p a ++ ['-']) ⟨t, p⟩ ⟨setCell t a ((t a + 255) % 256), a⟩ :=
  (Runs.mv t p a).append (Runs.dec ⟨t, a⟩)

/-- Drain the cell at `a` into the cell at `b`. -/
theorem Runs.drain1 (a b : Int) (hab : a ≠ b) (t : Int → Nat) (ha : t a < 256) (hb : t b < 256) :
    Runs (loopC (['-'] ++ mvCode a b ++ ['+'] ++ mvCode b a)) ⟨t, a⟩
      ⟨setCell (setCell t b ((t b + t a) % 256)) a 0, a⟩ := by
  have hbal : Balanced (['-'] ++ mvCode a b ++ ['+'] ++ mvCode b a) :=
    (((Balanced.single (by decide) (by decide)).seq (Balanced.mvCode _ _)).seq
      (Balanced.single (by decide) (by decide))).seq (Balanced.mvCode _ _)
  generalize hn : t a = n
  induction n using Nat.strong_induction_on generalizing t with
  | _ n ih =>
    subst hn
    by_cases hz : t a = 0
    · have e : setCell (setCell t b ((t b + t a) % 256)) a 0 = t := by
        funext x
        simp only [setCell]
        split_ifs with h1 h2
        · subst h1; exact hz.symm
        · subst h2; rw [hz]; omega
        · rfl
      rw [e]
      exact Runs.loop_skip hbal hz
    · have r1 := Runs.dec ⟨t, a⟩
      have r2 := Runs.mv (setCell t a ((t a + 255) % 256)) a b
      have r3 := Runs.inc ⟨setCell t a ((t a + 255) % 256), b⟩
      have r4 := Runs.mv (setCell (setCell t a ((t a + 255) % 256)) b
        ((setCell t a ((t a + 255) % 256) b + 1) % 256)) b a
      have body := ((r1.append r2).append r3).append r4
      have hba : b ≠ a := fun h => hab h.symm
      rw [setCell_other _ _ hba] at body
      obtain ⟨t1, ht1⟩ : ∃ t1, t1 = setCell (setCell t a ((t a + 255) % 256)) b
          ((t b + 1) % 256) := ⟨_, rfl⟩
      rw [← ht1] at body
      have h1a : t1 a = t a - 1 := by
        rw [ht1, setCell_other _ _ hab, setCell_same]; omega
      have h1b : t1 b = (t b + 1) % 256 := by rw [ht1, setCell_same]
      have rest := ih (t a - 1) (by omega) t1 (by omega) (by rw [h1b]; omega) h1a
      have e : setCell (setCell t1 b ((t1 b + (t a - 1)) % 256)) a 0 =
          setCell (setCell t b ((t b + t a) % 256)) a 0 := by
        funext x
        simp only [setCell, h1b]
        split_ifs with h1 h2
        · rfl
        · omega
        · rw [ht1]; simp [setCell, h1, h2]
      rw [e] at rest
      exact Runs.loop_step hz body rest

/-- Drain the cell at `a` into the cells at `b` and `d`. -/
theorem Runs.drain2 (a b d : Int) (hab : a ≠ b) (had : a ≠ d) (hbd : b ≠ d) (t : Int → Nat)
    (ha : t a < 256) (hb : t b < 256) (hd : t d < 256) :
    Runs (loopC (['-'] ++ mvCode a b ++ ['+'] ++ mvCode b d ++ ['+'] ++ mvCode d a)) ⟨t, a⟩
      ⟨setCell (setCell (setCell t b ((t b + t a) % 256)) d ((t d + t a) % 256)) a 0, a⟩ := by
  have hs : Balanced ['-'] := Balanced.single (by decide) (by decide)
  have hp : Balanced ['+'] := Balanced.single (by decide) (by decide)
  have hbal : Balanced (['-'] ++ mvCode a b ++ ['+'] ++ mvCode b d ++ ['+'] ++ mvCode d a) :=
    (((((hs.seq (Balanced.mvCode _ _)).seq hp).seq (Balanced.mvCode _ _)).seq
      hp).seq (Balanced.mvCode _ _))
  generalize hn : t a = n
  induction n using Nat.strong_induction_on generalizing t with
  | _ n ih =>
    subst hn
    by_cases hz : t a = 0
    · have e : setCell (setCell (setCell t b ((t b + t a) % 256)) d ((t d + t a) % 256)) a 0
          = t := by
        funext x
        simp only [setCell]
        split_ifs with h1 h2 h3
        · subst h1; exact hz.symm
        · subst h2; rw [hz]; omega
        · subst h3; rw [hz]; omega
        · rfl
      rw [e]
      exact Runs.loop_skip hbal hz
    · have hba : b ≠ a := fun h => hab h.symm
      have hda : d ≠ a := fun h => had h.symm
      have hdb : d ≠ b := fun h => hbd h.symm
      obtain ⟨t1, ht1⟩ : ∃ t1, t1 = setCell (setCell (setCell t a ((t a + 255) % 256)) b
          ((t b + 1) % 256)) d ((t d + 1) % 256) := ⟨_, rfl⟩
      have body : Runs (['-'] ++ mvCode a b ++ ['+'] ++ mvCode b d ++ ['+'] ++ mvCode d a)
          ⟨t, a⟩ ⟨t1, a⟩ := by
        have r1 := Runs.dec ⟨t, a⟩
        have r2 := Runs.mv (setCell t a ((t a + 255) % 256)) a b
        have r3 := Runs.inc ⟨setCell t a ((t a + 255) % 256), b⟩
        have r4 := Runs.mv (setCell (setCell t a ((t a + 255) % 256)) b
          ((setCell t a ((t a + 255) % 256) b + 1) % 256)) b d
        have r5 := Runs.inc ⟨(setCell (setCell t a ((t a + 255) % 256)) b
          ((setCell t a ((t a + 255) % 256) b + 1) % 256)), d⟩
        have r6 := Runs.mv (setCell (setCell (setCell t a ((t a + 255) % 256)) b
          ((setCell t a ((t a + 255) % 256) b + 1) % 256)) d
          (((setCell (setCell t a ((t a + 255) % 256)) b
          ((setCell t a ((t a + 255) % 256) b + 1) % 256)) d + 1) % 256)) d a
        have body := ((((r1.append r2).append r3).append r4).append r5).append r6
        simp only [setCell_other _ _ hba, setCell_other _ _ hda, setCell_other _ _ hdb] at body
        rw [ht1]
        exact body
      have h1a : t1 a = t a - 1 := by
        rw [ht1, setCell_other _ _ had, setCell_other _ _ hab, setCell_same]; omega
      have h1b : t1 b = (t b + 1) % 256 := by rw [ht1, setCell_other _ _ hbd, setCell_same]
      have h1d : t1 d = (t d + 1) % 256 := by rw [ht1, setCell_same]
      have rest := ih (t a - 1) (by omega) t1 (by omega) (by rw [h1b]; omega)
        (by rw [h1d]; omega) h1a
      have e : setCell (setCell (setCell t1 b ((t1 b + (t a - 1)) % 256)) d
            ((t1 d + (t a - 1)) % 256)) a 0
          = setCell (setCell (setCell t b ((t b + t a) % 256)) d ((t d + t a) % 256)) a 0 := by
        funext x
        simp only [setCell, h1b, h1d]
        split_ifs with h1 h2 h3
        · rfl
        · omega
        · omega
        · rw [ht1]; simp [setCell, h1, h2, h3]
      rw [e] at rest
      exact Runs.loop_step hz body rest

/-- The text of `bf_assign` copies `rhs` to `lhs` through `tmp`. -/
theorem Runs.assign (p lhs rhs tmp : Int) (h1 : lhs ≠ rhs) (h2 : tmp ≠ lhs) (h3 : tmp ≠ rhs)
    (t : Int → Nat) (hb : Bytes t) :
    Runs (mvCode p lhs ++ ['[', '-', ']'] ++ (mvCode lhs tmp ++ ['[', '-', ']']) ++
            mvCode tmp rhs ++
            loopC (['-'] ++ mvCode rhs lhs ++ ['+'] ++ mvCode lhs tmp ++ ['+'] ++ mvCode tmp rhs) ++
            mvCode rhs tmp ++
            loopC (['-'] ++ mvCode tmp rhs ++ ['+'] ++ mvCode rhs tmp) ++
            mvCode tmp lhs) ⟨t, p⟩
      ⟨setCell (setCell t tmp 0) lhs (t rhs), lhs⟩ := by
  have r1 := (Runs.mv t p lhs).append (Runs.zero t lhs (hb lhs))
  have hb1 : Bytes (setCell t lhs 0) := hb.setCell _ (by norm_num)
  have r2 := (Runs.mv (setCell t lhs 0) lhs tmp).append (Runs.zero _ tmp (hb1 tmp))
  have hb2 : Bytes (setCell (setCell t lhs 0) tmp 0) := hb1.setCell _ (by norm_num)
  obtain ⟨t2, ht2⟩ : ∃ t2, t2 = setCell (setCell t lhs 0) tmp 0 := ⟨_, rfl⟩
  rw [← ht2] at r2 hb2
  have r3 := Runs.mv t2 tmp rhs
  have r4 := Runs.drain2 rhs lhs tmp (fun h => h1 h.symm) (fun h => h3 h.symm)
    (fun h => h2 h.symm) t2 (hb2 _) (hb2 _) (hb2 _)
  have e2r : t2 rhs = t rhs := by
    rw [ht2, setCell_other _ _ (fun h => h3 h.symm), setCell_other _ _ (fun h => h1 h.symm)]
  have e2l : t2 lhs = 0 := by rw [ht2, setCell_other _ _ (fun h => h2 h.symm), setCell_same]
  have e2t : t2 tmp = 0 := by rw [ht2, setCell_same]
  rw [e2r, e2l, e2t, Nat.zero_add, Nat.mod_eq_of_lt (hb rhs)] at r4
  obtain ⟨t3, ht3⟩ : ∃ t3, t3 = setCell (setCell (setCell t2 lhs (t rhs)) tmp (t rhs)) rhs 0 :=
    ⟨_, rfl⟩
  rw [← ht3] at r4
  have hb3 : Bytes t3 := by
    rw [ht3]
    exact ((hb2.setCell _ (hb rhs)).setCell _ (hb rhs)).setCell _ (by norm_num)
  have r5 := Runs.mv t3 rhs tmp
  have r6 := Runs.drain1 tmp rhs h3 t3 (hb3 _) (hb3 _)
  have e3r : t3 rhs = 0 := by rw [ht3, setCell_same]
  have e3t : t3 tmp = t rhs := by rw [ht3, setCell_other _ _ h3, setCell_same]
  rw [e3r, e3t, Nat.zero_add, Nat.mod_eq_of_lt (hb rhs)] at r6
  have r7 := Runs.mv (setCell (setCell t3 rhs (t rhs)) tmp 0) tmp lhs
  have e : setCell (setCell t3 rhs (t rhs)) tmp 0 = setCell (setCell t tmp 0) lhs (t rhs) := by
    funext x
    rw [ht3, ht2]
    simp only [setCell]
    split_ifs <;> simp_all
  rw [e] at r6 r7
  exact ((((((r1.append r2).append r3).append r4).append r5).append r6).append r7)

/-- Count the cell at `a` down to zero, decrementing the cell at `b` in step. -/
theorem Runs.drainSub (a b : Int) (hab : a ≠ b) (t : Int → Nat) (ha : t a < 256)
    (hb : t b < 256) :
    Runs (loopC (mvCode a b ++ ['-'] ++ (mvCode b a ++ ['-']))) ⟨t, a⟩
      ⟨setCell (setCell t b ((t b + 256 - t a) % 256)) a 0, a⟩ := by
  have hs : Balanced ['-'] := Balanced.single (by decide) (by decide)
  have hbal : Balanced (mvCode a b ++ ['-'] ++ (mvCode b a ++ ['-'])) :=
    ((Balanced.mvCode _ _).seq hs).seq ((Balanced.mvCode _ _).seq hs)
  generalize hn : t a = n
  induction n using Nat.strong_induction_on generalizing t with
  | _ n ih =>
    subst hn
    by_cases hz : t a = 0
    · have e : setCell (setCell t b ((t b + 256 - t a) % 256)) a 0 = t := by
        funext x
        simp only [setCell]
        split_ifs with h1 h2
        · subst h1; exact hz.symm
        · subst h2; rw [hz]; omega
        · rfl
      rw [e]
      exact Runs.loop_skip hbal hz
    · have hba : b ≠ a := fun h => hab h.symm
      obtain ⟨t1, ht1⟩ : ∃ t1, t1 = setCell (setCell t b ((t b + 255) % 256)) a
          ((t a + 255) % 256) := ⟨_, rfl⟩
      have body : Runs (mvCode a b ++ ['-'] ++ (mvCode b a ++ ['-'])) ⟨t, a⟩ ⟨t1, a⟩ := by
        have r1 := Runs.decr t a b
        have r2 := Runs.decr (setCell t b ((t b + 255) % 256)) b a
        rw [setCell_other _ _ hab] at r2
        rw [ht1]
        exact r1.append r2
      have h1a : t1 a = t a - 1 := by rw [ht1, setCell_same]; omega
      have h1b : t1 b = (t b + 255) % 256 := by
        rw [ht1, setCell_other _ _ hba, setCell_same]
      have rest := ih (t a - 1) (by omega) t1 (by omega) (by rw [h1b]; omega) h1a
      have e : setCell (setCell t1 b ((t1 b + 256 - (t a - 1)) % 256)) a 0 =
          setCell (setCell t b ((t b + 256 - t a) % 256)) a 0 := by
        funext x
        simp only [setCell, h1b]
        split_ifs with h1 h2
        · rfl
        · omega
        · rw [ht1]; simp [setCell, h1, h2]
      rw [e] at rest
      exact Runs.loop_step hz body rest

/-! ## Allocation states along a synthesis -/

theorem Compiler.Ext.refl (c : Compiler) : c.Ext c :=
  ⟨rfl, rfl, le_refl _, fun _ h => ⟨h, rfl⟩⟩

theorem Compiler.Ext.trans {c c1 c2 : Compiler} (h1 : c.Ext c1) (h2 : c1.Ext c2) : c.Ext c2 := by
  obtain ⟨a1, b1, l1, f1⟩ := h1
  obtain ⟨a2, b2, l2, f2⟩ := h2
  refine ⟨a2.trans a1, b2.trans b1, le_trans l1 l2, ?_⟩
  intro a ha
  obtain ⟨h3, h4⟩ := f1 a ha
  obtain ⟨h5, h6⟩ := f2 a h3
  exact ⟨h5, h6.trans h4⟩

theorem Compiler.Ext.live {c c1 : Compiler} (h : c.Ext c1) {a : Int} (ha : c.Live a) :
    c1.Live a := (h.2.2.2 a ha).1

theorem Compiler.Ext.not_live {c c1 : Compiler} (h : c.Ext c1) {a : Int} (ha : ¬ c1.Live a) :
    ¬ c.Live a := fun h1 => ha (h.live h1)

theorem Compiler.Ext.ready {c c1 : Compiler} (h : c.Ext c1) {k : Nat} (hr : c.Ready k) :
    c1.Ready k := by
  obtain ⟨h1, h2⟩ := hr
  exact ⟨by rw [h.1]; exact h1, le_trans h2 h.2.2.1⟩

theorem Compiler.Ready.mono {c : Compiler} {k j : Nat} (hr : c.Ready k) (h : j ≤ k) :
    c.Ready j := ⟨hr.1, le_trans h hr.2⟩

/-- Frame conditions pass to the middle of a chain of allocation states. -/
theorem Compiler.Ext.mid {c c1 c2 c3 : Compiler} (h1 : c.Ext c1) (h3 : c2.Ext c3) {a : Int}
    (h : c.Live a ∨ ¬ c3.Live a) : c1.Live a ∨ ¬ c2.Live a := by
  rcases h with h | h
  · exact Or.inl (h1.live h)
  · exact Or.inr (h3.not_live h)

theorem Compiler.Live.nonneg {c : Compiler} {a : Int} (h : c.Live a) : 0 ≤ a :=
  (Memory.isLive_lt _ _ h).1

theorem Compiler.Live.ne {c : Compiler} {a b : Int} (ha : c.Live a) (hb : ¬ c.Live b) : a ≠ b :=
  fun h => hb (h ▸ ha)

/-- What `sizeOf` answers for an allocated cell does not change along an
extension. -/
theorem Compiler.Ext.sizeOf {c c1 : Compiler} (h : c.Ext c1) {a : Int} (ha : c.Live a) :
    Memory.sizeOf c1.typeMap c1.d_memory a = Memory.sizeOf c.typeMap c.d_memory a := by
  obtain ⟨_, htm, _, hf⟩ := h
  obtain ⟨hl1, he⟩ := hf a ha
  have b1 := Memory.isLive_lt _ _ hl1
  have b0 := Memory.isLive_lt _ _ ha
  unfold Memory.sizeOf
  rw [htm, he]
  have i1 : ¬ (a < 0 ∨ (c1.d_memory.d_memory.length : Int) ≤ a) := by omega
  have i0 : ¬ (a < 0 ∨ (c.d_memory.d_memory.length : Int) ≤ a) := by omega
  rw [if_neg i1, if_neg i0]

/-- A request for `sz` temporaries (1 to 255) in a ready state: the block is
new, allocated afterwards, and nothing else changes. -/
theorem Compiler.allocateTemp_spec (c : Compiler) (sz : Nat) (h0 : 0 < sz) (h1 : sz < 256)
    (hr : c.Ready sz) :
    ∃ (a : Int) (c1 : Compiler), allocateTemp sz c = .ok (a, c1) ∧ 0 ≤ a ∧ c.Ext c1 ∧
      c1.d_pointer = c.d_pointer ∧ c1.d_codeBuffer = c.d_codeBuffer ∧
      (∀ i : Nat, i < sz → ¬ c.Live (a + i)) ∧ (∀ i : Nat, i < sz → c1.Live (a + i)) ∧
      (∀ x, c1.Live x → ¬ c.Live x → a ≤ x ∧ x < a + sz) ∧
      Memory.sizeOf c1.typeMap c1.d_memory a = .ok sz := by
  obtain ⟨hcs, hlen⟩ := hr
  obtain ⟨scope, hscope⟩ : ∃ s, c.d_callStack.getLast? = some s := by
    cases hl : c.d_callStack.getLast? with
    | none => rw [List.getLast?_eq_none_iff] at hl; exact absurd hl hcs
    | some s => exact ⟨s, rfl⟩
  obtain ⟨a, m1, hget, hlen1, _, hin, hfresh, hlive, hsame, hnew, cell, hcell, hty, _, _, hce⟩ :=
    Memory.getTemp_ok c.typeMap c.d_memory scope sz h0 hlen
  refine ⟨(a : Int), { c with d_memory := m1 }, ?_, by omega, ?_, rfl, rfl, ?_, ?_, ?_, ?_⟩
  · simp only [allocateTemp, hscope, Nat.mod_eq_of_lt h1, hget]
  · refine ⟨rfl, rfl, hlen1, ?_⟩
    intro x hx
    have hx0 := Memory.isLive_lt _ _ hx
    have hxs : m1.d_memory[x.toNat]? = c.d_memory.d_memory[x.toNat]? := by
      apply hsame x.toNat hx0.2
      by_contra hcon
      have hfr := hfresh (x.toNat - a) (by omega)
      rw [show ((a + (x.toNat - a) : Nat) : Int) = x by omega] at hfr
      rw [Compiler.Live, hfr] at hx
      exact absurd hx (by simp)
    refine ⟨?_, hxs⟩
    show m1.isLive x = true
    rw [Memory.isLive_iff, hxs]
    exact (Memory.isLive_iff _ _).mp hx
  · intro i hi
    have := hfresh i hi
    show ¬ c.d_memory.isLive ((a : Int) + i) = true
    rw [show ((a : Int) + (i : Int)) = ((a + i : Nat) : Int) by push_cast; ring, this]
    simp
  · intro i hi
    have := hlive i hi
    show m1.isLive ((a : Int) + i) = true
    rw [show ((a : Int) + (i : Int)) = ((a + i : Nat) : Int) by push_cast; ring]
    exact this
  · intro x hx1 hx0
    have hx1' : m1.isLive x = true := hx1
    have b1 := Memory.isLive_lt _ _ hx1'
    by_contra hcon
    by_cases hxl : x.toNat < c.d_memory.d_memory.length
    · have hxs := hsame x.toNat hxl (by omega)
      apply hx0
      show c.d_memory.isLive x = true
      rw [Memory.isLive_iff, ← hxs]
      exact (Memory.isLive_iff _ _).mp hx1'
    · have := hnew x.toNat (by omega) (by omega)
      rw [show ((x.toNat : Nat) : Int) = x by omega] at this
      rw [this] at hx1'
      exact absurd hx1' (by simp)
  · show Memory.sizeOf c.typeMap m1 (a : Int) = .ok sz
    unfold Memory.sizeOf
    have i1 : ¬ ((a : Int) < 0 ∨ (m1.d_memory.length : Int) ≤ (a : Int)) := by omega
    rw [if_neg i1]
    simp only [Int.toNat_ofNat, hcell, hce, Cell.size, hty, TSType.size]
    simp

/-! ## `bf_assign` -/

/-- `bf_assign(lhs, rhs)` on two different allocated cells: the emitted text
ends on `lhs`, which then holds the value of `rhs`; the temporary ends at 0
and every other cell, `rhs` included, keeps its value. -/
theorem Compiler.bf_assign_spec (c : Compiler) (lhs rhs : Int) (hr : c.Ready 1)
    (hl : c.Live lhs) (hrh : c.Live rhs) (hne : lhs ≠ rhs) :
    ∃ code c1, bf_assign lhs rhs c = .ok (code, c1) ∧ c.Ext c1 ∧
      c1.d_codeBuffer = c.d_codeBuffer ∧ c1.d_pointer = lhs ∧
      ∀ t, Bytes t → ∃ t1, Runs code ⟨t, c.d_pointer⟩ ⟨t1, lhs⟩ ∧ t1 lhs = t rhs ∧
        (∀ a, a ≠ lhs → (c.Live a ∨ ¬ c1.Live a) → t1 a = t a) ∧
        (∀ a, ¬ c.Live a → c1.Live a → t1 a = 0) := by
  obtain ⟨tmp, c1, hal, ht0, hext, hp, hcb, hfresh, hlive, hnew, _⟩ :=
    Compiler.allocateTemp_spec c 1 (by norm_num) (by norm_num) hr
  have hfr : ¬ c.Live tmp := by simpa using hfresh 0 (by norm_num)
  have hlv : c1.Live tmp := by simpa using hlive 0 (by norm_num)
  have h2 : tmp ≠ lhs := (hl.ne hfr).symm
  have h3 : tmp ≠ rhs := (hrh.ne hfr).symm
  refine ⟨_, _, Compiler.bf_assign_run hl.nonneg hrh.nonneg ht0 hal hp, hext, hcb, rfl, ?_⟩
  intro t hb
  refine ⟨_, Runs.assign c.d_pointer lhs rhs tmp hne h2 h3 t hb, ?_, ?_, ?_⟩
  · rw [setCell_same]
  · intro a ha hla
    have hat : a ≠ tmp := by
      rcases hla with h | h
      · exact h.ne hfr
      · exact fun e => h (e ▸ hlv)
    rw [setCell_other _ _ ha, setCell_other _ _ hat]
  · intro a ha0 ha1
    obtain ⟨b1, b2⟩ := hnew a ha1 ha0
    have hat : a = tmp := by omega
    subst hat
    rw [setCell_other _ _ h2, setCell_same]

/-- `bf_setToValue(addr, v)`: a run from the cursor that ends on `addr`. -/
theorem Compiler.bf_setToValue_sem (c : Compiler) (addr : Int) (v : Nat) (t : Int → Nat)
    (hb : Bytes t) :
    Runs (mvCode c.d_pointer addr ++ ['[', '-', ']'] ++ List.replicate v '+')
      ⟨t, c.d_pointer⟩ ⟨setCell t addr (v % 256), addr⟩ :=
  Runs.setToValue t c.d_pointer addr v hb

/-! ## `bf_not` -/

/-- `bf_not(addr, result)` on two different allocated cells: the text ends on
`result`, which then holds 1 if the cell at `addr` was 0 and 0 otherwise; no
cell that was allocated before the call changes, `result` apart. -/
theorem Compiler.bf_not_spec (c : Compiler) (addr result : Int) (hr : c.Ready 1)
    (ha : c.Live addr) (hres : c.Live result) (hne : addr ≠ result) :
    ∃ code c1, bf_not addr result c = .ok (code, c1) ∧ c.Ext c1 ∧
      c1.d_codeBuffer = c.d_codeBuffer ∧ c1.d_pointer = result ∧
      ∀ t, Bytes t → ∃ t1, Runs code ⟨t, c.d_pointer⟩ ⟨t1, result⟩ ∧
        t1 result = (if t addr = 0 then 1 else 0) ∧
        (∀ a, a ≠ result → (c.Live a ∨ ¬ c1.Live a) → t1 a = t a) := by
  obtain ⟨tmp, c1, hal, ht0, e01, hp1, hcb1, hfresh, hlive, hnew, _⟩ :=
    Compiler.allocateTemp_spec c 1 (by norm_num) (by norm_num) hr
  have hfr : ¬ c.Live tmp := by simpa using hfresh 0 (by norm_num)
  have hlv : c1.Live tmp := by simpa using hlive 0 (by norm_num)
  obtain ⟨codeA, c2, hA, e12, hcb2, hp2, semA⟩ :=
    Compiler.bf_assign_spec { c1 with d_pointer := result } tmp addr (e01.ready hr) hlv
      (e01.live ha) (ha.ne hfr).symm
  have h0a := ha.nonneg
  have h0r := hres.nonneg
  have heq : bf_not addr result c = .ok
      (mvCode c.d_pointer result ++ ['[', '-', ']'] ++ List.replicate 1 '+' ++ codeA ++
        loopC (mvCode tmp result ++ ['[', '-', ']'] ++ List.replicate 0 '+' ++
          (mvCode result tmp ++ ['[', '-', ']'] ++ List.replicate 0 '+')) ++
        mvCode tmp result, { c2 with d_pointer := result }) := by
    simp [bf_not, Compiler.validateAddr2_run h0a h0r, hal, Compiler.bf_setToValue_run h0r,
      Compiler.bf_setToValue_run ht0, hA, hp1, hp2, Compiler.bf_movePtr_run h0r, loopC]
  have e02 : c.Ext c2 := e01.trans e12
  refine ⟨_, _, heq, e02, by rw [← hcb1, ← hcb2], rfl, ?_⟩
  intro t hb
  have r1 := Runs.setToValue t c.d_pointer result 1 hb
  have hb1 : Bytes (setCell t result 1) := hb.setCell _ (by norm_num)
  obtain ⟨t2, r2, v2, f2, _⟩ := semA _ hb1
  have hb2 : Bytes t2 := r2.bytes hb1
  have htr : tmp ≠ result := (hres.ne hfr).symm
  have v2' : t2 tmp = t addr := by rw [v2, setCell_other _ _ hne]
  have hres2 : t2 result = 1 := by
    rw [f2 result htr.symm (Or.inl (e01.live hres)), setCell_same]
  have hbal : Balanced (mvCode tmp result ++ ['[', '-', ']'] ++ List.replicate 0 '+' ++
      (mvCode result tmp ++ ['[', '-', ']'] ++ List.replicate 0 '+')) :=
    ((Runs.setToValue t2 tmp result 0 hb2).append
      (Runs.setToValue _ result tmp 0 (hb2.setCell _ (by norm_num)))).balanced
  obtain ⟨t3, r3, hv3, hf3⟩ := Runs.if_at hbal tmp
    (fun s => s result = (if t addr = 0 then 1 else 0) ∧
      ∀ a, a ≠ result → a ≠ tmp → s a = t2 a) t2
    (by
      intro hz
      rw [v2'] at hz
      exact ⟨by simp [hz, hres2], fun _ _ _ => rfl⟩)
    (by
      intro hnz
      rw [v2'] at hnz
      refine ⟨_, (Runs.setToValue t2 tmp result 0 hb2).append
        (Runs.setToValue _ result tmp 0 (hb2.setCell _ (by norm_num))), ?_, ?_, ?_⟩
      · simp [setCell_same]
      · simp [setCell_other _ _ htr.symm, setCell_same, hnz]
      · intro a h1 h2
        simp [setCell_other _ _ h1, setCell_other _ _ h2])
  have r4 := Runs.mv t3 tmp result
  refine ⟨t3, ((r1.append r2).append r3).append r4, hv3, ?_⟩
  intro a har hla
  have hat : a ≠ tmp := by
    rcases hla with h | h
    · exact h.ne hfr
    · exact fun e => h (e ▸ e12.live hlv)
  rw [hf3 a har hat, f2 a hat (Compiler.Ext.mid e01 (Compiler.Ext.refl c2) hla),
    setCell_other _ _ har]

/-! ## `bf_equal` -/

/-- `bf_equal(lhs, rhs, result)`: `result` receives 1 when the two operand
cells hold the same value and 0 otherwise; no other cell that was allocated
before the call changes. -/
theorem Compiler.bf_equal_spec (c : Compiler) (lhs rhs result : Int) (hr : c.Ready 1)
    (hl : c.Live lhs) (hrh : c.Live rhs) (hres : c.Live result) (h1 : lhs ≠ result)
    (h2 : rhs ≠ result) :
    ∃ code c1, bf_equal lhs rhs result c = .ok (code, c1) ∧ c.Ext c1 ∧
      c1.d_codeBuffer = c.d_codeBuffer ∧ c1.d_pointer = result ∧
      ∀ t, Bytes t → ∃ t1, Runs code ⟨t, c.d_pointer⟩ ⟨t1, result⟩ ∧
        t1 result = (if t lhs = t rhs then 1 else 0) ∧
        (∀ a, a ≠ result → (c.Live a ∨ ¬ c1.Live a) → t1 a = t a) := by
  obtain ⟨tmpL, c1, halL, hL0, e01, hp1, hcb1, hfreshL, hliveL, _, _⟩ :=
    Compiler.allocateTemp_spec c 1 (by norm_num) (by norm_num) hr
  have hfrL : ¬ c.Live tmpL := by simpa using hfreshL 0 (by norm_num)
  have hlvL : c1.Live tmpL := by simpa using hliveL 0 (by norm_num)
  obtain ⟨tmpR, c2, halR, hR0, e12, hp2, hcb2, hfreshR, hliveR, _, _⟩ :=
    Compiler.allocateTemp_spec c1 1 (by norm_num) (by norm_num) (e01.ready hr)
  have hfrR : ¬ c1.Live tmpR := by simpa using hfreshR 0 (by norm_num)
  have hlvR : c2.Live tmpR := by simpa using hliveR 0 (by norm_num)
  have e02 := e01.trans e12
  obtain ⟨codeA, c3, hA, e23, hcb3, hp3, semA⟩ :=
    Compiler.bf_assign_spec { c2 with d_pointer := result } tmpR rhs (e02.ready hr) hlvR
      (e02.live hrh) ((e01.live hrh).ne hfrR).symm
  have e03 := e02.trans e23
  obtain ⟨codeB, c4, hB, e34, hcb4, hp4, semB⟩ :=
    Compiler.bf_assign_spec c3 tmpL lhs (e03.ready hr) (e23.live (e12.live hlvL))
      (e03.live hl) (hl.ne hfrL).symm
  have e04 := e03.trans e34
  have h0l := hl.nonneg
  have h0r := hrh.nonneg
  have h0x := hres.nonneg
  have heq : bf_equal lhs rhs result c = .ok
      (mvCode c.d_pointer result ++ ['[', '-', ']'] ++ List.replicate 1 '+' ++ codeA ++ codeB ++
        loopC (mvCode tmpL tmpR ++ ['-'] ++ (mvCode tmpR tmpL ++ ['-'])) ++
        mvCode tmpL tmpR ++
        loopC (mvCode tmpR result ++ ['[', '-', ']'] ++ List.replicate 0 '+' ++
          (mvCode result tmpR ++ ['[', '-', ']'] ++ List.replicate 0 '+')) ++
        mvCode tmpR result, { c4 with d_pointer := result }) := by
    simp [bf_equal, Compiler.validateAddr3_run h0l h0r h0x, halL, halR,
      Compiler.bf_setToValue_run h0x, Compiler.bf_setToValue_run hR0, hA, hB, hp1, hp2, hp3, hp4,
      Compiler.bf_movePtr_run h0x, Compiler.bf_movePtr_run hR0, Compiler.bf_decr_run hR0,
      Compiler.bf_decr_run hL0, loopC]
  refine ⟨_, _, heq, e04, by rw [hcb4, hcb3, ← hcb1, ← hcb2], rfl, ?_⟩
  intro t hb
  have hLR : tmpL ≠ tmpR := hlvL.ne hfrR
  have hLx : tmpL ≠ result := (hres.ne hfrL).symm
  have hRx : tmpR ≠ result := ((e01.live hres).ne hfrR).symm
  have r1 := Runs.setToValue t c.d_pointer result 1 hb
  have hb1 : Bytes (setCell t result 1) := hb.setCell _ (by norm_num)
  obtain ⟨t2, r2, v2, f2, _⟩ := semA _ hb1
  have hb2 : Bytes t2 := r2.bytes hb1
  obtain ⟨t3, r3, v3, f3, _⟩ := semB _ hb2
  have hb3 : Bytes t3 := r3.bytes hb2
  rw [hp3] at r3
  have v3L : t3 tmpL = t lhs := by
    rw [v3, f2 lhs ((e01.live hl).ne hfrR) (Or.inl (e02.live hl)), setCell_other _ _ h1]
  have v3R : t3 tmpR = t rhs := by
    rw [f3 tmpR hLR.symm (Or.inl (e23.live hlvR)), v2, setCell_other _ _ h2]
  have v3x : t3 result = 1 := by
    rw [f3 result hLx.symm (Or.inl (e03.live hres)),
      f2 result hRx.symm (Or.inl (e02.live hres)), setCell_same]
  have r4 := Runs.drainSub tmpL tmpR hLR t3 (hb3 _) (hb3 _)
  rw [v3L, v3R] at r4
  obtain ⟨t4, ht4⟩ : ∃ t4, t4 = setCell (setCell t3 tmpR ((t rhs + 256 - t lhs) % 256)) tmpL 0 :=
    ⟨_, rfl⟩
  rw [← ht4] at r4
  have hb4 : Bytes t4 := r4.bytes hb3
  have r5 := Runs.mv t4 tmpL tmpR
  have v4R : t4 tmpR = (t rhs + 256 - t lhs) % 256 := by
    rw [ht4, setCell_other _ _ hLR.symm, setCell_same]
  have v4x : t4 result = 1 := by
    rw [ht4, setCell_other _ _ hLx.symm, setCell_other _ _ hRx.symm, v3x]
  have hbl := hb lhs
  have hbr := hb rhs
  have hbal : Balanced (mvCode tmpR result ++ ['[', '-', ']'] ++ List.replicate 0 '+' ++
      (mvCode result tmpR ++ ['[', '-', ']'] ++ List.replicate 0 '+')) :=
    ((Runs.setToValue t4 tmpR result 0 hb4).append
      (Runs.setToValue _ result tmpR 0 (hb4.setCell _ (by norm_num)))).balanced
  obtain ⟨t5, r6, hv5, hf5⟩ := Runs.if_at hbal tmpR
    (fun s => s result = (if t lhs = t rhs then 1 else 0) ∧
      ∀ a, a ≠ result → a ≠ tmpR → s a = t4 a) t4
    (by
      intro hz
      rw [v4R] at hz
      have : t lhs = t rhs := by omega
      exact ⟨by simp [this, v4x], fun _ _ _ => rfl⟩)
    (by
      intro hnz
      rw [v4R] at hnz
      have : t lhs ≠ t rhs := by
        intro h
        rw [h] at hnz
        omega
      refine ⟨_, (Runs.setToValue t4 tmpR result 0 hb4).append
        (Runs.setToValue _ result tmpR 0 (hb4.setCell _ (by norm_num))), ?_, ?_, ?_⟩
      · simp [setCell_same]
      · simp [setCell_other _ _ hRx.symm, setCell_same, this]
      · intro a h1 h2
        simp [setCell_other _ _ h1, setCell_other _ _ h2])
  have r7 := Runs.mv t5 tmpR result
  refine ⟨t5, ((((((r1.append r2).append r3).append r4).append r5).append r6).append r7), hv5, ?_⟩
  intro a har hla
  have haL : a ≠ tmpL := by
    rcases hla with h | h
    · exact h.ne hfrL
    · exact fun e => h (e ▸ e34.live (e23.live (e12.live hlvL)))
  have haR : a ≠ tmpR := by
    rcases hla with h | h
    · exact (e01.live h).ne hfrR
    · exact fun e => h (e ▸ e34.live (e23.live hlvR))
  rw [hf5 a har haR, ht4, setCell_other _ _ haL, setCell_other _ _ haR,
    f3 a haL (Compiler.Ext.mid e03 (Compiler.Ext.refl c4) hla),
    f2 a haR (Compiler.Ext.mid e02 e34 hla), setCell_other _ _ har]

/-! ## `bf_or` -/

/-- A guarded block `[ set(result, v) set(x, 0) ]` entered on `x`: when the
cell at `x` is nonzero `result` becomes `v`, and `x` ends at zero. -/
theorem Runs.guard_set (x result : Int) (v : Nat) (hv : v < 256) (hx : x ≠ result)
    (t : Int → Nat) (hb : Bytes t) :
    ∃ t1, Runs (loopC (mvCode x result ++ ['[', '-', ']'] ++ List.replicate v '+' ++
        (mvCode result x ++ ['[', '-', ']'] ++ List.replicate 0 '+'))) ⟨t, x⟩ ⟨t1, x⟩ ∧
      t1 result = (if t x = 0 then t result else v) ∧ t1 x = 0 ∧
      ∀ a, a ≠ result → a ≠ x → t1 a = t a := by
  have hbody := (Runs.setToValue t x result v hb).append
    (Runs.setToValue _ result x 0 (hb.setCell _ (Nat.mod_lt _ (by norm_num))))
  obtain ⟨t1, r, h1, h2, h3⟩ := Runs.if_at hbody.balanced x
    (fun s => s result = (if t x = 0 then t result else v) ∧ s x = 0 ∧
      ∀ a, a ≠ result → a ≠ x → s a = t a) t
    (by
      intro hz
      exact ⟨by simp [hz], hz, fun _ _ _ => rfl⟩)
    (by
      intro hnz
      refine ⟨_, hbody, ?_, ?_, ?_, ?_⟩
      · simp [setCell_same]
      · simp [setCell_other _ _ hx.symm, setCell_same, hnz, Nat.mod_eq_of_lt hv]
      · simp [setCell_same]
      · intro a h1 h2
        simp [setCell_other _ _ h1, setCell_other _ _ h2])
  exact ⟨t1, r, h1, h2, h3⟩

/-- `bf_or(lhs, rhs, result)`: `result` receives 1 when one of the operand
cells is nonzero and 0 otherwise; no other cell that was allocated before the
call changes. -/
theorem Compiler.bf_or_spec (c : Compiler) (lhs rhs result : Int) (hr : c.Ready 1)
    (hl : c.Live lhs) (hrh : c.Live rhs) (hres : c.Live result) (h1 : lhs ≠ result)
    (h2 : rhs ≠ result) :
    ∃ code c1, bf_or lhs rhs result c = .ok (code, c1) ∧ c.Ext c1 ∧
      c1.d_codeBuffer = c.d_codeBuffer ∧ c1.d_pointer = result ∧
      ∀ t, Bytes t → ∃ t1, Runs code ⟨t, c.d_pointer⟩ ⟨t1, result⟩ ∧
        t1 result = (if t lhs = 0 ∧ t rhs = 0 then 0 else 1) ∧
        (∀ a, a ≠ result → (c.Live a ∨ ¬ c1.Live a) → t1 a = t a) := by
  obtain ⟨x, c1, halX, hX0, e01, hp1, hcb1, hfreshX, hliveX, _, _⟩ :=
    Compiler.allocateTemp_spec c 1 (by norm_num) (by norm_num) hr
  have hfrX : ¬ c.Live x := by simpa using hfreshX 0 (by norm_num)
  have hlvX : c1.Live x := by simpa using hliveX 0 (by norm_num)
  obtain ⟨y, c2, halY, hY0, e12, hp2, hcb2, hfreshY, hliveY, _, _⟩ :=
    Compiler.allocateTemp_spec c1 1 (by norm_num) (by norm_num) (e01.ready hr)
  have hfrY : ¬ c1.Live y := by simpa using hfreshY 0 (by norm_num)
  have hlvY : c2.Live y := by simpa using hliveY 0 (by norm_num)
  have e02 := e01.trans e12
  obtain ⟨codeA, c3, hA, e23, hcb3, hp3, semA⟩ :=
    Compiler.bf_assign_spec { c2 with d_pointer := result } x lhs (e02.ready hr)
      (e12.live hlvX) (e02.live hl) (hl.ne hfrX).symm
  have e03 := e02.trans e23
  obtain ⟨codeB, c4, hB, e34, hcb4, hp4, semB⟩ :=
    Compiler.bf_assign_spec { c3 with d_pointer := x } y rhs (e03.ready hr)
      (e23.live hlvY) (e03.live hrh) ((e01.live hrh).ne hfrY).symm
  have e04 := e03.trans e34
  have h0l := hl.nonneg
  have h0r := hrh.nonneg
  have h0x := hres.nonneg
  have heq : bf_or lhs rhs result c = .ok
      (mvCode c.d_pointer result ++ ['[', '-', ']'] ++ List.replicate 0 '+' ++ codeA ++
        loopC (mvCode x result ++ ['[', '-', ']'] ++ List.replicate 1 '+' ++
          (mvCode result x ++ ['[', '-', ']'] ++ List.replicate 0 '+')) ++
        codeB ++
        loopC (mvCode y result ++ ['[', '-', ']'] ++ List.replicate 1 '+' ++
          (mvCode result y ++ ['[', '-', ']'] ++ List.replicate 0 '+')) ++
        mvCode y result, { c4 with d_pointer := result }) := by
    simp [bf_or, Compiler.validateAddr3_run h0l h0r h0x, halX, halY,
      Compiler.bf_setToValue_run h0x, Compiler.bf_setToValue_run hX0,
      Compiler.bf_setToValue_run hY0, hA, hB, hp1, hp2, hp3, hp4,
      Compiler.bf_movePtr_run h0x, loopC]
  refine ⟨_, _, heq, e04, by rw [hcb4, hcb3, ← hcb1, ← hcb2], rfl, ?_⟩
  intro t hb
  have hXY : x ≠ y := hlvX.ne hfrY
  have hXr : x ≠ result := (hres.ne hfrX).symm
  have hYr : y ≠ result := ((e01.live hres).ne hfrY).symm
  have r1 := Runs.setToValue t c.d_pointer result 0 hb
  have hb1 : Bytes (setCell t result 0) := hb.setCell _ (by norm_num)
  obtain ⟨t2, r2, v2, f2, _⟩ := semA _ hb1
  have hb2 : Bytes t2 := r2.bytes hb1
  rw [hp3] at *
  obtain ⟨t3, r3, v3, z3, f3⟩ := Runs.guard_set x result 1 (by norm_num) hXr t2 hb2
  have hb3 : Bytes t3 := r3.bytes hb2
  obtain ⟨t4, r4, v4, f4, _⟩ := semB _ hb3
  have hb4 : Bytes t4 := r4.bytes hb3
  obtain ⟨t5, r5, v5, z5, f5⟩ := Runs.guard_set y result 1 (by norm_num) hYr t4 hb4
  have r6 := Runs.mv t5 y result
  have a2x : t2 x = t lhs := by rw [v2, setCell_other _ _ h1]
  have a2r : t2 result = 0 := by
    rw [f2 result hXr.symm (Or.inl (e02.live hres)), setCell_same]
  have a4y : t4 y = t rhs := by
    rw [v4, f3 rhs h2 (hrh.ne hfrX),
      f2 rhs (hrh.ne hfrX) (Or.inl (e02.live hrh)), setCell_other _ _ h2]
  have a4r : t4 result = t3 result := f4 result hYr.symm (Or.inl (e03.live hres))
  refine ⟨t5, ((((((r1.append r2).append r3).append r4).append r5).append r6)), ?_, ?_⟩
  · rw [v5, a4y, a4r, v3, a2x, a2r]
    by_cases hz1 : t lhs = 0 <;> by_cases hz2 : t rhs = 0 <;> simp [hz1, hz2]
  · intro a har hla
    have haX : a ≠ x := by
      rcases hla with h | h
      · exact h.ne hfrX
      · exact fun e => h (e ▸ e34.live (e23.live (e12.live hlvX)))
    have haY : a ≠ y := by
      rcases hla with h | h
      · exact (e01.live h).ne hfrY
      · exact fun e => h (e ▸ e34.live (e23.live hlvY))
    rw [f5 a har haY, f4 a haY (Compiler.Ext.mid e03 (Compiler.Ext.refl c4) hla),
      f3 a har haX, f2 a haX (Compiler.Ext.mid e02 e34 hla), setCell_other _ _ har]

/-! ## `bf_greater` -/

/-- Drain the cell at `a` into the cell at `b`, in the shape
`[ incr(b) decr(a) ]`. -/
theorem Runs.drainInc (a b : Int) (hab : a ≠ b) (t : Int → Nat) (ha : t a < 256)
    (hb : t b < 256) :
    Runs (loopC (mvCode a b ++ ['+'] ++ (mvCode b a ++ ['-']))) ⟨t, a⟩
      ⟨setCell (setCell t b ((t b + t a) % 256)) a 0, a⟩ := by
  have hbal : Balanced (mvCode a b ++ ['+'] ++ (mvCode b a ++ ['-'])) :=
    ((Balanced.mvCode _ _).seq (Balanced.single (by decide) (by decide))).seq
      ((Balanced.mvCode _ _).seq (Balanced.single (by decide) (by decide)))
  generalize hn : t a = n
  induction n using Nat.strong_induction_on generalizing t with
  | _ n ih =>
    subst hn
    by_cases hz : t a = 0
    · have e : setCell (setCell t b ((t b + t a) % 256)) a 0 = t := by
        funext x
        simp only [setCell]
        split_ifs with h1 h2
        · subst h1; exact hz.symm
        · subst h2; rw [hz]; omega
        · rfl
      rw [e]
      exact Runs.loop_skip hbal hz
    · have hba : b ≠ a := fun h => hab h.symm
      obtain ⟨t1, ht1⟩ : ∃ t1, t1 = setCell (setCell t b ((t b + 1) % 256)) a
          ((t a + 255) % 256) := ⟨_, rfl⟩
      have body : Runs (mvCode a b ++ ['+'] ++ (mvCode b a ++ ['-'])) ⟨t, a⟩ ⟨t1, a⟩ := by
        have r1 := Runs.incr t a b
        have r2 := Runs.decr (setCell t b ((t b + 1) % 256)) b a
        rw [setCell_other _ _ hab] at r2
        rw [ht1]
        exact r1.append r2
      have h1a : t1 a = t a - 1 := by rw [ht1, setCell_same]; omega
      have h1b : t1 b = (t b + 1) % 256 := by
        rw [ht1, setCell_other _ _ hba, setCell_same]
      have rest := ih (t a - 1) (by omega) t1 (by omega) (by rw [h1b]; omega) h1a
      have e : setCell (setCell t1 b ((t1 b + (t a - 1)) % 256)) a 0 =
          setCell (setCell t b ((t b + t a) % 256)) a 0 := by
        funext x
        simp only [setCell, h1b]
        split_ifs with h1 h2
        · rfl
        · omega
        · rw [ht1]; simp [setCell, h1, h2]
      rw [e] at rest
      exact Runs.loop_step hz body rest

/-- The first inner loop of `bf_greater`, entered on `y`: it moves `y` into
`tmp2` and clears `tmp1` when `y` is nonzero, and does nothing otherwise. -/
theorem Runs.greater_inner (y tmp1 tmp2 : Int) (h1 : y ≠ tmp1) (h2 : y ≠ tmp2)
    (h3 : tmp1 ≠ tmp2) (t : Int → Nat) (hb : Bytes t) :
    ∃ t1, Runs (loopC (mvCode y tmp1 ++ ['[', '-', ']'] ++ List.replicate 0 '+' ++
        (mvCode tmp1 tmp2 ++ ['+']) ++ (mvCode tmp2 y ++ ['-']))) ⟨t, y⟩ ⟨t1, y⟩ ∧
      t1 y = 0 ∧ t1 tmp2 = (t tmp2 + t y) % 256 ∧
      t1 tmp1 = (if t y = 0 then t tmp1 else 0) ∧
      ∀ a, a ≠ tmp1 → a ≠ tmp2 → a ≠ y → t1 a = t a := by
  have step : ∀ s : Int → Nat, Bytes s →
      Runs (mvCode y tmp1 ++ ['[', '-', ']'] ++ List.replicate 0 '+' ++
        (mvCode tmp1 tmp2 ++ ['+']) ++ (mvCode tmp2 y ++ ['-'])) ⟨s, y⟩
        ⟨setCell (setCell (setCell s tmp1 0) tmp2 ((s tmp2 + 1) % 256)) y
          ((s y + 255) % 256), y⟩ := by
    intro s hs
    have r1 := Runs.setToValue s y tmp1 0 hs
    have r2 := Runs.incr (setCell s tmp1 (0 % 256)) tmp1 tmp2
    have r3 := Runs.decr (setCell (setCell s tmp1 (0 % 256)) tmp2
      ((setCell s tmp1 (0 % 256) tmp2 + 1) % 256)) tmp2 y
    have := (r1.append r2).append r3
    simpa [setCell_other _ _ h3.symm, setCell_other _ _ h2, setCell_other _ _ h1] using this
  obtain ⟨t1, r, ⟨hI1, hI2, hI3, hI4, hI5, hI6⟩, hz⟩ := Runs.while_at (step t hb).balanced y
    (fun s => Bytes s ∧ s y ≤ t y ∧ s tmp2 = (t tmp2 + (t y - s y)) % 256 ∧
      (s y < t y → s tmp1 = 0) ∧ (s y = t y → s tmp1 = t tmp1) ∧
      ∀ a, a ≠ tmp1 → a ≠ tmp2 → a ≠ y → s a = t a)
    (fun s => s y)
    (by
      rintro s ⟨hs, i2, i3, i4, i5, i6⟩ hnz
      have hsy := hs y
      refine ⟨_, step s hs, ⟨?_, ?_, ?_, ?_, ?_, ?_⟩, ?_⟩
      · exact ((hs.setCell _ (by norm_num)).setCell _ (Nat.mod_lt _ (by norm_num))).setCell _
          (Nat.mod_lt _ (by norm_num))
      · rw [setCell_same]; omega
      · rw [setCell_same, setCell_other _ _ h2.symm, setCell_same, i3]; omega
      · intro _
        rw [setCell_other _ _ h1.symm, setCell_other _ _ h3, setCell_same]
      · intro h
        rw [setCell_same] at h
        omega
      · intro a a1 a2 a3
        rw [setCell_other _ _ a3, setCell_other _ _ a2, setCell_other _ _ a1, i6 a a1 a2 a3]
      · dsimp only
        rw [setCell_same]; omega)
    t ⟨hb, le_refl _, by simp [Nat.mod_eq_of_lt (hb tmp2)], fun h => absurd h (lt_irrefl _),
      fun _ => rfl, fun _ _ _ _ => rfl⟩
  refine ⟨t1, r, hz, ?_, ?_, hI6⟩
  · rw [hI3, hz, Nat.sub_zero]
  · by_cases h : t y = 0
    · rw [if_pos h]; exact hI5 (by omega)
    · rw [if_neg h]; exact hI4 (by omega)

/-- One pass through the body of the main loop of `bf_greater`. -/
theorem Runs.greater_body (x y tmp1 tmp2 result : Int) (hxy : x ≠ y) (hx1 : x ≠ tmp1)
    (hx2 : x ≠ tmp2) (hxr : x ≠ result) (hy1 : y ≠ tmp1) (hy2 : y ≠ tmp2) (hyr : y ≠ result)
    (h12 : tmp1 ≠ tmp2) (h1r : tmp1 ≠ result) (h2r : tmp2 ≠ result) (s : Int → Nat)
    (hs : Bytes s) (z1 : s tmp1 = 0) (z2 : s tmp2 = 0) :
    ∃ s1, Runs (mvCode x tmp1 ++ ['+'] ++ mvCode tmp1 y ++
        loopC (mvCode y tmp1 ++ ['[', '-', ']'] ++ List.replicate 0 '+' ++
          (mvCode tmp1 tmp2 ++ ['+']) ++ (mvCode tmp2 y ++ ['-'])) ++
        mvCode y tmp1 ++
        loopC (mvCode tmp1 result ++ ['+'] ++ (mvCode result tmp1 ++ ['-'])) ++
        mvCode tmp1 tmp2 ++
        loopC (mvCode tmp2 y ++ ['+'] ++ (mvCode y tmp2 ++ ['-'])) ++
        (mvCode tmp2 y ++ ['-']) ++ (mvCode y x ++ ['-'])) ⟨s, x⟩ ⟨s1, x⟩ ∧
      s1 tmp1 = 0 ∧ s1 tmp2 = 0 ∧ s1 x = (s x + 255) % 256 ∧ s1 y = (s y + 255) % 256 ∧
      s1 result = (if s y = 0 then (s result + 1) % 256 else s result) ∧
      ∀ a, a ≠ x → a ≠ y → a ≠ tmp1 → a ≠ tmp2 → a ≠ result → s1 a = s a := by
  have r1 := Runs.incr s x tmp1
  rw [z1] at r1
  obtain ⟨sa, hsa⟩ : ∃ sa, sa = setCell s tmp1 ((0 + 1) % 256) := ⟨_, rfl⟩
  rw [← hsa] at r1
  have hba : Bytes sa := by rw [hsa]; exact hs.setCell _ (by norm_num)
  have r2 := Runs.mv sa tmp1 y
  obtain ⟨sb, rA, b1, b2, b3, b4⟩ := Runs.greater_inner y tmp1 tmp2 hy1 hy2 h12 sa hba
  have hbb : Bytes sb := rA.bytes hba
  have e_ay : sa y = s y := by rw [hsa, setCell_other _ _ hy1]
  have e_a2 : sa tmp2 = 0 := by rw [hsa, setCell_other _ _ h12.symm, z2]
  have e_a1 : sa tmp1 = 1 := by rw [hsa, setCell_same]
  rw [e_ay, e_a2, Nat.zero_add, Nat.mod_eq_of_lt (hs y)] at b2
  rw [e_ay, e_a1] at b3
  have r3 := Runs.mv sb y tmp1
  have rB := Runs.drainInc tmp1 result h1r sb (hbb _) (hbb _)
  obtain ⟨sc, hsc⟩ : ∃ sc, sc = setCell (setCell sb result ((sb result + sb tmp1) % 256)) tmp1 0 :=
    ⟨_, rfl⟩
  rw [← hsc] at rB
  have hbc : Bytes sc := rB.bytes hbb
  have r4 := Runs.mv sc tmp1 tmp2
  have rC := Runs.drainInc tmp2 y hy2.symm sc (hbc _) (hbc _)
  obtain ⟨sd, hsd⟩ : ∃ sd, sd = setCell (setCell sc y ((sc y + sc tmp2) % 256)) tmp2 0 :=
    ⟨_, rfl⟩
  rw [← hsd] at rC
  have r5 := Runs.decr sd tmp2 y
  have r6 := Runs.decr (setCell sd y ((sd y + 255) % 256)) y x
  have e_br : sb result = s result := by
    rw [b4 result h1r.symm h2r.symm hyr.symm, hsa, setCell_other _ _ h1r.symm]
  have e_bx : sb x = s x := by
    rw [b4 x hx1 hx2 hxy, hsa, setCell_other _ _ hx1]
  have e_cy : sc y = 0 := by
    rw [hsc, setCell_other _ _ hy1, setCell_other _ _ hyr, b1]
  have e_c2 : sc tmp2 = s y := by
    rw [hsc, setCell_other _ _ h12.symm, setCell_other _ _ h2r, b2]
  have e_dy : sd y = s y := by
    rw [hsd, setCell_other _ _ hy2, setCell_same, e_cy, e_c2, Nat.zero_add,
      Nat.mod_eq_of_lt (hs y)]
  refine ⟨_, (((((((r1.append r2).append rA).append r3).append rB).append r4).append
    rC).append r5).append r6, ?_, ?_, ?_, ?_, ?_, ?_⟩
  · rw [setCell_other _ _ hx1.symm, setCell_other _ _ hy1.symm, hsd,
      setCell_other _ _ h12, setCell_other _ _ hy1.symm, hsc, setCell_same]
  · rw [setCell_other _ _ hx2.symm, setCell_other _ _ hy2.symm, hsd, setCell_same]
  · rw [setCell_same, setCell_other _ _ hxy, hsd, setCell_other _ _ hx2,
      setCell_other _ _ hxy, hsc, setCell_other _ _ hx1, setCell_other _ _ hxr, e_bx]
  · rw [setCell_other _ _ hxy.symm, setCell_same, e_dy]
  · rw [setCell_other _ _ hxr.symm, setCell_other _ _ hyr.symm, hsd,
      setCell_other _ _ h2r.symm, setCell_other _ _ hyr.symm, hsc,
      setCell_other _ _ h1r.symm, setCell_same, e_br, b3]
    by_cases hz : s y = 0
    · simp [hz]
    · simp [hz, Nat.mod_eq_of_lt (hs result)]
  · intro a ax ay a1 a2 ar
    rw [setCell_other _ _ ax, setCell_other _ _ ay, hsd, setCell_other _ _ a2,
      setCell_other _ _ ay, hsc, setCell_other _ _ a1, setCell_other _ _ ar,
      b4 a a1 a2 ay, hsa, setCell_other _ _ a1]

/-- The main loop of `bf_greater`, entered on `x` with `tmp1`, `tmp2` and
`result` at zero: `result` ends at 1 exactly when `x` held more than `y`. -/
theorem Runs.greater_loop (x y tmp1 tmp2 result : Int) (hxy : x ≠ y) (hx1 : x ≠ tmp1)
    (hx2 : x ≠ tmp2) (hxr : x ≠ result) (hy1 : y ≠ tmp1) (hy2 : y ≠ tmp2) (hyr : y ≠ result)
    (h12 : tmp1 ≠ tmp2) (h1r : tmp1 ≠ result) (h2r : tmp2 ≠ result) (t : Int → Nat)
    (hb : Bytes t) (z1 : t tmp1 = 0) (z2 : t tmp2 = 0) (zr : t result = 0) :
    ∃ t1, Runs (loopC (mvCode x tmp1 ++ ['+'] ++ mvCode tmp1 y ++
        loopC (mvCode y tmp1 ++ ['[', '-', ']'] ++ List.replicate 0 '+' ++
          (mvCode tmp1 tmp2 ++ ['+']) ++ (mvCode tmp2 y ++ ['-'])) ++
        mvCode y tmp1 ++
        loopC (mvCode tmp1 result ++ ['+'] ++ (mvCode result tmp1 ++ ['-'])) ++
        mvCode tmp1 tmp2 ++
        loopC (mvCode tmp2 y ++ ['+'] ++ (mvCode y tmp2 ++ ['-'])) ++
        (mvCode tmp2 y ++ ['-']) ++ (mvCode y x ++ ['-']))) ⟨t, x⟩ ⟨t1, x⟩ ∧
      t1 result = (if t y < t x then 1 else 0) ∧
      ∀ a, a ≠ x → a ≠ y → a ≠ tmp1 → a ≠ tmp2 → a ≠ result → t1 a = t a := by
  obtain ⟨_, rb0, _⟩ := Runs.greater_body x y tmp1 tmp2 result hxy hx1 hx2 hxr hy1 hy2 hyr h12
    h1r h2r t hb z1 z2
  have hX := hb x
  have hY := hb y
  obtain ⟨t1, r, ⟨_, _, _, i4, _, i6, i7⟩, hz⟩ := Runs.while_at rb0.balanced x
    (fun s => Bytes s ∧ s tmp1 = 0 ∧ s tmp2 = 0 ∧ s x ≤ t x ∧
      s y = (t y + 256 - (t x - s x)) % 256 ∧
      s result = (if t y < t x - s x then 1 else 0) ∧
      ∀ a, a ≠ x → a ≠ y → a ≠ tmp1 → a ≠ tmp2 → a ≠ result → s a = t a)
    (fun s => s x)
    (by
      rintro s ⟨hs, i1, i2, i3, i4, i5, i6⟩ hnz
      obtain ⟨s1, rb, o1, o2, o3, o4, o5, o6⟩ := Runs.greater_body x y tmp1 tmp2 result hxy hx1
        hx2 hxr hy1 hy2 hyr h12 h1r h2r s hs i1 i2
      have hsx := hs x
      refine ⟨s1, rb, ⟨rb.bytes hs, o1, o2, ?_, ?_, ?_, ?_⟩, ?_⟩
      · rw [o3]; omega
      · rw [o4, o3, i4]; omega
      · rw [o5, o3, i5, i4]
        by_cases hk : t y = t x - s x
        · have e1 : (t y + 256 - (t x - s x)) % 256 = 0 := by omega
          have e2 : ¬ t y < t x - s x := by omega
          have e3 : t y < t x - (s x + 255) % 256 := by omega
          simp [e1, e2, e3]
        · have e1 : (t y + 256 - (t x - s x)) % 256 ≠ 0 := by omega
          rw [if_neg e1]
          by_cases hlt : t y < t x - s x
          · have e3 : t y < t x - (s x + 255) % 256 := by omega
            simp [hlt, e3]
          · have e3 : ¬ t y < t x - (s x + 255) % 256 := by omega
            simp [hlt, e3]
      · intro a ax ay a1 a2 ar
        rw [o6 a ax ay a1 a2 ar, i6 a ax ay a1 a2 ar]
      · dsimp only
        rw [o3]; omega)
    t ⟨hb, z1, z2, le_refl _, by omega, by simp [zr], fun _ _ _ _ _ _ => rfl⟩
  refine ⟨t1, r, ?_, i7⟩
  rw [i6, hz, Nat.sub_zero]

/-- `bf_greater(lhs, rhs, result)`: `result` receives 1 when the cell at `lhs`
holds more than the cell at `rhs` and 0 otherwise; no other cell that was
allocated before the call changes. -/
theorem Compiler.bf_greater_spec (c : Compiler) (lhs rhs result : Int) (hr : c.Ready 1)
    (hl : c.Live lhs) (hrh : c.Live rhs) (hres : c.Live result) (h1 : lhs ≠ result)
    (h2 : rhs ≠ result) :
    ∃ code c1, bf_greater lhs rhs result c = .ok (code, c1) ∧ c.Ext c1 ∧
      c1.d_codeBuffer = c.d_codeBuffer ∧ c1.d_pointer = result ∧
      ∀ t, Bytes t → ∃ t1, Runs code ⟨t, c.d_pointer⟩ ⟨t1, result⟩ ∧
        t1 result = (if t rhs < t lhs then 1 else 0) ∧
        (∀ a, a ≠ result → (c.Live a ∨ ¬ c1.Live a) → t1 a = t a) := by
  obtain ⟨x, c1, halX, hX0, e01, hp1, hcb1, hfreshX, hliveX, _, _⟩ :=
    Compiler.allocateTemp_spec c 1 (by norm_num) (by norm_num) hr
  have hfrX : ¬ c.Live x := by simpa using hfreshX 0 (by norm_num)
  have hlvX : c1.Live x := by simpa using hliveX 0 (by norm_num)
  obtain ⟨y, c2, halY, hY0, e12, hp2, hcb2, hfreshY, hliveY, _, _⟩ :=
    Compiler.allocateTemp_spec c1 1 (by norm_num) (by norm_num) (e01.ready hr)
  have hfrY : ¬ c1.Live y := by simpa using hfreshY 0 (by norm_num)
  have hlvY : c2.Live y := by simpa using hliveY 0 (by norm_num)
  have e02 := e01.trans e12
  obtain ⟨tmp1, c3, hal1, h10, e23, hp3, hcb3, hfresh1, hlive1, _, _⟩ :=
    Compiler.allocateTemp_spec c2 1 (by norm_num) (by norm_num) (e02.ready hr)
  have hfr1 : ¬ c2.Live tmp1 := by simpa using hfresh1 0 (by norm_num)
  have hlv1 : c3.Live tmp1 := by simpa using hlive1 0 (by norm_num)
  have e03 := e02.trans e23
  obtain ⟨tmp2, c4, hal2, h20, e34, hp4, hcb4, hfresh2, hlive2, _, _⟩ :=
    Compiler.allocateTemp_spec c3 1 (by norm_num) (by norm_num) (e03.ready hr)
  have hfr2 : ¬ c3.Live tmp2 := by simpa using hfresh2 0 (by norm_num)
  have hlv2 : c4.Live tmp2 := by simpa using hlive2 0 (by norm_num)
  have e04 := e03.trans e34
  obtain ⟨codeA, c5, hA, e45, hcb5, hp5, semA⟩ :=
    Compiler.bf_assign_spec { c4 with d_pointer := result } y rhs (e04.ready hr)
      (e34.live (e23.live hlvY)) (e04.live hrh) ((e01.live hrh).ne hfrY).symm
  have e05 := e04.trans e45
  obtain ⟨codeB, c6, hB, e56, hcb6, hp6, semB⟩ :=
    Compiler.bf_assign_spec c5 x lhs (e05.ready hr)
      (e45.live (e34.live (e23.live (e12.live hlvX)))) (e05.live hl) (hl.ne hfrX).symm
  have e06 := e05.trans e56
  have h0l := hl.nonneg
  have h0r := hrh.nonneg
  have h0x := hres.nonneg
  have heq : bf_greater lhs rhs result c = .ok
      (mvCode c.d_pointer tmp1 ++ ['[', '-', ']'] ++ List.replicate 0 '+' ++
        (mvCode tmp1 tmp2 ++ ['[', '-', ']'] ++ List.replicate 0 '+') ++
        (mvCode tmp2 result ++ ['[', '-', ']'] ++ List.replicate 0 '+') ++ codeA ++ codeB ++
        loopC (mvCode x tmp1 ++ ['+'] ++ mvCode tmp1 y ++
          loopC (mvCode y tmp1 ++ ['[', '-', ']'] ++ List.replicate 0 '+' ++
            (mvCode tmp1 tmp2 ++ ['+']) ++ (mvCode tmp2 y ++ ['-'])) ++
          mvCode y tmp1 ++
          loopC (mvCode tmp1 result ++ ['+'] ++ (mvCode result tmp1 ++ ['-'])) ++
          mvCode tmp1 tmp2 ++
          loopC (mvCode tmp2 y ++ ['+'] ++ (mvCode y tmp2 ++ ['-'])) ++
          (mvCode tmp2 y ++ ['-']) ++ (mvCode y x ++ ['-'])) ++
        mvCode x result, { c6 with d_pointer := result }) := by
    simp [bf_greater, Compiler.validateAddr3_run h0l h0r h0x, halX, halY, hal1, hal2,
      Compiler.bf_setToValue_run h0x, Compiler.bf_setToValue_run h10,
      Compiler.bf_setToValue_run h20, hA, hB, hp1, hp2, hp3, hp4, hp5, hp6,
      Compiler.bf_movePtr_run h0x, Compiler.bf_movePtr_run hY0, Compiler.bf_movePtr_run h10,
      Compiler.bf_movePtr_run h20, Compiler.bf_incr_run h10, Compiler.bf_incr_run h20,
      Compiler.bf_incr_run h0x, Compiler.bf_incr_run hY0, Compiler.bf_decr_run hY0,
      Compiler.bf_decr_run h10, Compiler.bf_decr_run h20, Compiler.bf_decr_run hX0, loopC]
  refine ⟨_, _, heq, e06, by rw [hcb6, hcb5, ← hcb1, ← hcb2, ← hcb3, ← hcb4], rfl, ?_⟩
  intro t hb
  have l1X : c1.Live x := hlvX
  have l2X : c2.Live x := e12.live hlvX
  have l3X : c3.Live x := e23.live l2X
  have l3Y : c3.Live y := e23.live hlvY
  have l3r : c3.Live result := e03.live hres
  have l2r : c2.Live result := e02.live hres
  have l1r : c1.Live result := e01.live hres
  have hxy : x ≠ y := hlvX.ne hfrY
  have hx1 : x ≠ tmp1 := l2X.ne hfr1
  have hx2 : x ≠ tmp2 := l3X.ne hfr2
  have hxr : x ≠ result := (hres.ne hfrX).symm
  have hy1 : y ≠ tmp1 := hlvY.ne hfr1
  have hy2 : y ≠ tmp2 := l3Y.ne hfr2
  have hyr : y ≠ result := (l1r.ne hfrY).symm
  have h12 : tmp1 ≠ tmp2 := hlv1.ne hfr2
  have h1r : tmp1 ≠ result := (l2r.ne hfr1).symm
  have h2r : tmp2 ≠ result := (l3r.ne hfr2).symm
  have r1 := Runs.setToValue t c.d_pointer tmp1 0 hb
  obtain ⟨ta, hta⟩ : ∃ ta, ta = setCell t tmp1 (0 % 256) := ⟨_, rfl⟩
  rw [← hta] at r1
  have hba : Bytes ta := r1.bytes hb
  have r2 := Runs.setToValue ta tmp1 tmp2 0 hba
  obtain ⟨tb, htb⟩ : ∃ tb, tb = setCell ta tmp2 (0 % 256) := ⟨_, rfl⟩
  rw [← htb] at r2
  have hbb : Bytes tb := r2.bytes hba
  have r3 := Runs.setToValue tb tmp2 result 0 hbb
  obtain ⟨tc, htc⟩ : ∃ tc, tc = setCell tb result (0 % 256) := ⟨_, rfl⟩
  rw [← htc] at r3
  have hbc : Bytes tc := r3.bytes hbb
  obtain ⟨td, r4, v4, f4, _⟩ := semA _ hbc
  have hbd : Bytes td := r4.bytes hbc
  obtain ⟨te, r5, v5, f5, _⟩ := semB _ hbd
  have hbe : Bytes te := r5.bytes hbd
  rw [hp5] at r5
  have tcv : ∀ a, a ≠ tmp1 → a ≠ tmp2 → a ≠ result → tc a = t a := by
    intro a a1 a2 a3
    rw [htc, setCell_other _ _ a3, htb, setCell_other _ _ a2, hta, setCell_other _ _ a1]
  have tc1 : tc tmp1 = 0 := by
    rw [htc, setCell_other _ _ h1r, htb, setCell_other _ _ h12, hta, setCell_same]
  have tc2 : tc tmp2 = 0 := by
    rw [htc, setCell_other _ _ h2r, htb, setCell_same]
  have tcr : tc result = 0 := by rw [htc, setCell_same]
  have l4 : ∀ {a}, c3.Live a → c4.Live a := fun h => e34.live h
  have tex : te x = t lhs := by
    rw [v5, f4 lhs ((e01.live hl).ne hfrY) (Or.inl (e04.live hl)),
      tcv lhs ((e02.live hl).ne hfr1) ((e03.live hl).ne hfr2) h1]
  have tey : te y = t rhs := by
    rw [f5 y hxy.symm (Or.inl (e45.live (l4 l3Y))), v4,
      tcv rhs ((e02.live hrh).ne hfr1) ((e03.live hrh).ne hfr2) h2]
  have te1 : te tmp1 = 0 := by
    rw [f5 tmp1 hx1.symm (Or.inl (e45.live (l4 hlv1))),
      f4 tmp1 hy1.symm (Or.inl (l4 hlv1)), tc1]
  have te2 : te tmp2 = 0 := by
    rw [f5 tmp2 hx2.symm (Or.inl (e45.live hlv2)), f4 tmp2 hy2.symm (Or.inl hlv2), tc2]
  have ter : te result = 0 := by
    rw [f5 result hxr.symm (Or.inl (e45.live (l4 l3r))),
      f4 result hyr.symm (Or.inl (l4 l3r)), tcr]
  obtain ⟨tf, r6, v6, f6⟩ := Runs.greater_loop x y tmp1 tmp2 result hxy hx1 hx2 hxr hy1 hy2 hyr
    h12 h1r h2r te hbe te1 te2 ter
  have r7 := Runs.mv tf x result
  refine ⟨tf, ((((((r1.append r2).append r3).append r4).append r5).append r6).append r7), ?_, ?_⟩
  · rw [v6, tex, tey]
  · intro a har hla
    have haX : a ≠ x := by
      rcases hla with h | h
      · exact h.ne hfrX
      · exact fun e => h (e ▸ e56.live (e45.live (l4 l3X)))
    have haY : a ≠ y := by
      rcases hla with h | h
      · exact (e01.live h).ne hfrY
      · exact fun e => h (e ▸ e56.live (e45.live (l4 l3Y)))
    have ha1 : a ≠ tmp1 := by
      rcases hla with h | h
      · exact (e02.live h).ne hfr1
      · exact fun e => h (e ▸ e56.live (e45.live (l4 hlv1)))
    have ha2 : a ≠ tmp2 := by
      rcases hla with h | h
      · exact (e03.live h).ne hfr2
      · exact fun e => h (e ▸ e56.live (e45.live hlv2))
    rw [f6 a haX haY ha1 ha2 har, f5 a haX (Compiler.Ext.mid e05 (Compiler.Ext.refl c6) hla),
      f4 a haY (Compiler.Ext.mid e04 e56 hla), tcv a ha1 ha2 har]

/-! ## The comparison operators -/

theorem Compiler.bf_equal_binSpec : BinSpec bf_equal (fun a b => if a = b then 1 else 0) :=
  fun c lhs rhs result hr hl hrh hres h1 h2 =>
    Compiler.bf_equal_spec c lhs rhs result hr hl hrh hres h1 h2

theorem Compiler.bf_greater_binSpec : BinSpec bf_greater (fun a b => if b < a then 1 else 0) :=
  fun c lhs rhs result hr hl hrh hres h1 h2 =>
    Compiler.bf_greater_spec c lhs rhs result hr hl hrh hres h1 h2

theorem Compiler.bf_less_binSpec : BinSpec bf_less (fun a b => if a < b then 1 else 0) := by
  intro c lhs rhs result hr hl hrh hres h1 h2
  obtain ⟨code, c1, h, rest⟩ := Compiler.bf_greater_spec c rhs lhs result hr hrh hl hres h2 h1
  refine ⟨code, c1, ?_, rest⟩
  simp [bf_less, Compiler.validateAddr3_run hl.nonneg hrh.nonneg hres.nonneg, h]

theorem Compiler.bf_notEqual_binSpec :
    BinSpec bf_notEqual (fun a b => if a = b then 0 else 1) := by
  intro c lhs rhs result hr hl hrh hres h1 h2
  obtain ⟨r2, c1, hal, hr0, e01, hp1, hcb1, hfresh, hlive, _, _⟩ :=
    Compiler.allocateTemp_spec c 1 (by norm_num) (by norm_num) hr
  have hfr : ¬ c.Live r2 := by simpa using hfresh 0 (by norm_num)
  have hlv : c1.Live r2 := by simpa using hlive 0 (by norm_num)
  obtain ⟨codeA, c2, hA, e12, hcb2, hp2, semA⟩ :=
    Compiler.bf_equal_spec c1 lhs rhs r2 (e01.ready hr) (e01.live hl) (e01.live hrh) hlv
      (hl.ne hfr) (hrh.ne hfr)
  have e02 := e01.trans e12
  obtain ⟨codeB, c3, hB, e23, hcb3, hp3, semB⟩ :=
    Compiler.bf_not_spec c2 r2 result (e02.ready hr) (e12.live hlv) (e02.live hres)
      (hres.ne hfr).symm
  have e03 := e02.trans e23
  refine ⟨codeA ++ codeB, c3, ?_, e03, by rw [hcb3, hcb2, hcb1], hp3, ?_⟩
  · simp [bf_notEqual, Compiler.validateAddr3_run hl.nonneg hrh.nonneg hres.nonneg, hal, hA, hB]
  · intro t hb
    rw [hp1] at semA
    obtain ⟨t1, r1, v1, f1⟩ := semA t hb
    rw [hp2] at semB
    obtain ⟨t2, r2', v2, f2⟩ := semB t1 (r1.bytes hb)
    refine ⟨t2, r1.append r2', ?_, ?_⟩
    · rw [v2, v1]
      by_cases h : t lhs = t rhs <;> simp [h]
    · intro a har hla
      have ha2 : a ≠ r2 := by
        rcases hla with h | h
        · exact h.ne hfr
        · exact fun e => h (e ▸ e23.live (e12.live hlv))
      rw [f2 a har (Compiler.Ext.mid e02 (Compiler.Ext.refl c3) hla),
        f1 a ha2 (Compiler.Ext.mid e01 e23 hla)]

theorem Compiler.bf_greaterOrEqual_binSpec :
    BinSpec bf_greaterOrEqual (fun a b => if b ≤ a then 1 else 0) := by
  intro c lhs rhs result hr hl hrh hres h1 h2
  obtain ⟨ie, c1, halE, hE0, e01, hp1, hcb1, hfreshE, hliveE, _, _⟩ :=
    Compiler.allocateTemp_spec c 1 (by norm_num) (by norm_num) hr
  have hfrE : ¬ c.Live ie := by simpa using hfreshE 0 (by norm_num)
  have hlvE : c1.Live ie := by simpa using hliveE 0 (by norm_num)
  obtain ⟨ig, c2, halG, hG0, e12, hp2, hcb2, hfreshG, hliveG, _, _⟩ :=
    Compiler.allocateTemp_spec c1 1 (by norm_num) (by norm_num) (e01.ready hr)
  have hfrG : ¬ c1.Live ig := by simpa using hfreshG 0 (by norm_num)
  have hlvG : c2.Live ig := by simpa using hliveG 0 (by norm_num)
  have e02 := e01.trans e12
  obtain ⟨codeA, c3, hA, e23, hcb3, hp3, semA⟩ :=
    Compiler.bf_equal_spec c2 lhs rhs ie (e02.ready hr) (e02.live hl) (e02.live hrh)
      (e12.live hlvE) (hl.ne hfrE) (hrh.ne hfrE)
  have e03 := e02.trans e23
  obtain ⟨codeB, c4, hB, e34, hcb4, hp4, semB⟩ :=
    Compiler.bf_greater_spec c3 lhs rhs ig (e03.ready hr) (e03.live hl) (e03.live hrh)
      (e23.live hlvG) ((e01.live hl).ne hfrG) ((e01.live hrh).ne hfrG)
  have e04 := e03.trans e34
  obtain ⟨codeC, c5, hC, e45, hcb5, hp5, semC⟩ :=
    Compiler.bf_or_spec c4 ie ig result (e04.ready hr) (e34.live (e23.live (e12.live hlvE)))
      (e34.live (e23.live hlvG)) (e04.live hres) (hres.ne hfrE).symm
      ((e01.live hres).ne hfrG).symm
  have e05 := e04.trans e45
  refine ⟨codeA ++ codeB ++ codeC ++ mvCode result result, { c5 with d_pointer := result },
    ?_, e05, by rw [← hcb1, ← hcb2, ← hcb3, ← hcb4, ← hcb5], rfl, ?_⟩
  · simp [bf_greaterOrEqual, Compiler.validateAddr3_run hl.nonneg hrh.nonneg hres.nonneg,
      halE, halG, hA, hB, hC, Compiler.bf_movePtr_run hres.nonneg, hp5]
  · intro t hb
    have hEG : ie ≠ ig := hlvE.ne hfrG
    rw [hp2, hp1] at semA
    obtain ⟨t1, r1, v1, f1⟩ := semA t hb
    rw [hp3] at semB
    obtain ⟨t2, r2, v2, f2⟩ := semB t1 (r1.bytes hb)
    rw [hp4] at semC
    obtain ⟨t3, r3, v3, f3⟩ := semC t2 ((r1.append r2).bytes hb)
    have r4 := Runs.mv t3 result result
    have a1l : t1 lhs = t lhs := f1 lhs (hl.ne hfrE) (Or.inl (e02.live hl))
    have a1r : t1 rhs = t rhs := f1 rhs (hrh.ne hfrE) (Or.inl (e02.live hrh))
    have a2e : t2 ie = t1 ie := f2 ie hEG (Or.inl (e23.live (e12.live hlvE)))
    refine ⟨t3, ((r1.append r2).append r3).append r4, ?_, ?_⟩
    · rw [v3, v2, a2e, v1, a1l, a1r]
      by_cases h : t lhs = t rhs
      · simp [h]
      · by_cases h' : t rhs < t lhs
        · have : t rhs ≤ t lhs := by omega
          simp [h, h', this]
        · have : ¬ t rhs ≤ t lhs := by omega
          simp [h, h', this]
    · intro a har hla
      have haE : a ≠ ie := by
        rcases hla with h | h
        · exact h.ne hfrE
        · exact fun e => h (e ▸ e45.live (e34.live (e23.live (e12.live hlvE))))
      have haG : a ≠ ig := by
        rcases hla with h | h
        · exact (e01.live h).ne hfrG
        · exact fun e => h (e ▸ e45.live (e34.live (e23.live hlvG)))
      rw [f3 a har (Compiler.Ext.mid e04 (Compiler.Ext.refl c5) hla),
        f2 a haG (Compiler.Ext.mid e03 e45 hla),
        f1 a haE (Compiler.Ext.mid e02 (e34.trans e45) hla)]

theorem Compiler.bf_lessOrEqual_binSpec :
    BinSpec bf_lessOrEqual (fun a b => if a ≤ b then 1 else 0) := by
  intro c lhs rhs result hr hl hrh hres h1 h2
  obtain ⟨code, c1, h, rest⟩ :=
    Compiler.bf_greaterOrEqual_binSpec c rhs lhs result hr hrh hl hres h2 h1
  refine ⟨code, c1, ?_, rest⟩
  simp [bf_lessOrEqual, Compiler.validateAddr3_run hl.nonneg hrh.nonneg hres.nonneg, h]

/-- A binary operator that requests a result cell and emits the text of a
three-address emitter into it inherits the emitter's contract. -/
theorem Compiler.BinSpec.computes {op : Int → Int → Int → Gen Code} {f : Nat → Nat → Nat}
    (h : BinSpec op f) (c : Compiler) (lhs rhs : Int) (hr : c.Ready 1) (hl : c.Live lhs)
    (hrh : c.Live rhs) :
    Computes (fun l r => do
      let result ← allocateTemp 1
      emit (← op l r result)
      return result) f c lhs rhs := by
  obtain ⟨res, c1, hal, h0, e01, hp1, hcb1, hfresh, hlive, _, _⟩ :=
    Compiler.allocateTemp_spec c 1 (by norm_num) (by norm_num) hr
  have hfr : ¬ c.Live res := by simpa using hfresh 0 (by norm_num)
  have hlv : c1.Live res := by simpa using hlive 0 (by norm_num)
  obtain ⟨code, c2, hA, e12, hcb2, hp2, sem⟩ :=
    h c1 lhs rhs res (e01.ready hr) (e01.live hl) (e01.live hrh) hlv (hl.ne hfr) (hrh.ne hfr)
  refine ⟨res, code, { c2 with d_codeBuffer := c2.d_codeBuffer ++ code }, ?_, ?_, ?_⟩
  · simp [hal, hA]
  · show c2.d_codeBuffer ++ code = c.d_codeBuffer ++ code
    rw [hcb2, hcb1]
  · intro t hb
    rw [hp1] at sem
    obtain ⟨t1, r1, v1, f1⟩ := sem t hb
    refine ⟨t1, ?_, v1, f1 lhs (hl.ne hfr) (Or.inl (e01.live hl)),
      f1 rhs (hrh.ne hfr) (Or.inl (e01.live hrh))⟩
    show Runs code ⟨t, c.d_pointer⟩ ⟨t1, c2.d_pointer⟩
    rw [hp2]
    exact r1

/-! ## `divModPair`: the counting loop -/

theorem divmod_succ (k D : Nat) (hD : 0 < D) :
    (k % D + 1 = D → (k + 1) % D = 0 ∧ (k + 1) / D = k / D + 1) ∧
    (k % D + 1 ≠ D → (k + 1) % D = k % D + 1 ∧ (k + 1) / D = k / D) := by
  have hm := Nat.mod_lt k hD
  have hdm := Nat.div_add_mod k D
  constructor
  · intro h
    have : (k + 1) / D = k / D + 1 ∧ (k + 1) % D = 0 := by
      rw [Nat.div_mod_unique hD]
      constructor
      · rw [Nat.mul_add]; omega
      · exact hD
    exact ⟨this.2, this.1⟩
  · intro h
    have : (k + 1) / D = k / D ∧ (k + 1) % D = k % D + 1 := by
      rw [Nat.div_mod_unique hD]
      constructor
      · omega
      · omega
    exact ⟨this.2, this.1⟩

/-- The counting loop of `divModPair`, for any texts of the three nested
calls that meet their contracts on the cells `P` protects: entered with the
flag set, the copies of numerator `N` and denominator `D` in place and the
results at zero, it ends with quotient and remainder in `rd` and `rm`. -/
theorem Runs.divmod_loop (lf zf tn td rd rm denom : Int) (P : Int → Prop)
    (codeN1 codeA codeN2 : Code)
    (hnd : [lf, zf, tn, td, rd, rm, denom].Nodup)
    (hP : ∀ a ∈ [lf, zf, tn, td, rd, rm, denom], P a)
    (hN1 : ∀ t, Bytes t → ∃ t1, Runs codeN1 ⟨t, rm⟩ ⟨t1, zf⟩ ∧
      t1 zf = (if t td = 0 then 1 else 0) ∧ ∀ a, a ≠ zf → P a → t1 a = t a)
    (hA : ∀ t, Bytes t → ∃ t1, Runs codeA ⟨t, rd⟩ ⟨t1, td⟩ ∧
      t1 td = t denom ∧ ∀ a, a ≠ td → P a → t1 a = t a)
    (hN2 : ∀ t, Bytes t → ∃ t1, Runs codeN2 ⟨t, zf⟩ ⟨t1, zf⟩ ∧
      t1 zf = (if t tn = 0 then 1 else 0) ∧ ∀ a, a ≠ zf → P a → t1 a = t a)
    (N D : Nat) (hN : 0 < N) (hD : 0 < D) (t : Int → Nat) (hb : Bytes t)
    (i_lf : t lf = 1) (i_zf : t zf = 0) (i_tn : t tn = N) (i_td : t td = D) (i_rd : t rd = 0)
    (i_rm : t rm = 0) (i_dn : t denom = D) :
    ∃ t1, Runs (loopC ((mvCode lf tn ++ ['-']) ++ (mvCode tn td ++ ['-']) ++
        (mvCode td rm ++ ['+']) ++ codeN1 ++
        loopC ((mvCode zf rd ++ ['+']) ++ codeA ++
          (mvCode td rm ++ ['[', '-', ']'] ++ List.replicate 0 '+') ++
          (mvCode rm zf ++ ['[', '-', ']'] ++ List.replicate 0 '+')) ++
        codeN2 ++
        loopC ((mvCode zf lf ++ ['[', '-', ']'] ++ List.replicate 0 '+') ++
          (mvCode lf zf ++ ['[', '-', ']'] ++ List.replicate 0 '+')) ++
        mvCode zf lf)) ⟨t, lf⟩ ⟨t1, lf⟩ ∧
      t1 rd = N / D ∧ t1 rm = N % D ∧
      ∀ a, P a → a ∉ [lf, zf, tn, td, rd, rm] → t1 a = t a := by
  simp only [List.nodup_cons, List.mem_cons, List.mem_singleton, not_or, List.not_mem_nil,
    not_false_eq_true, List.nodup_nil, and_true] at hnd
  obtain ⟨⟨n01, n02, n03, n04, n05, n0d⟩, ⟨n12, n13, n14, n15, n1d⟩, ⟨n23, n24, n25, n2d⟩,
    ⟨n34, n35, n3d⟩, ⟨n45, n4d⟩, n5d⟩ := hnd
  have P_lf : P lf := hP lf (by simp)
  have P_zf : P zf := hP zf (by simp)
  have P_tn : P tn := hP tn (by simp)
  have P_td : P td := hP td (by simp)
  have P_rd : P rd := hP rd (by simp)
  have P_rm : P rm := hP rm (by simp)
  have P_dn : P denom := hP denom (by simp)
  have hND := hb tn
  have hDD := hb denom
  rw [i_tn] at hND
  rw [i_dn] at hDD
  -- one pass through the body
  have body : ∀ s, Bytes s → s zf = 0 → s tn ≠ 0 → s tn ≤ N → s lf = 1 →
      s rm = (N - s tn) % D → s rd = (N - s tn) / D → s td = D - (N - s tn) % D →
      s denom = D →
      ∃ s1, Runs ((mvCode lf tn ++ ['-']) ++ (mvCode tn td ++ ['-']) ++
        (mvCode td rm ++ ['+']) ++ codeN1 ++
        loopC ((mvCode zf rd ++ ['+']) ++ codeA ++
          (mvCode td rm ++ ['[', '-', ']'] ++ List.replicate 0 '+') ++
          (mvCode rm zf ++ ['[', '-', ']'] ++ List.replicate 0 '+')) ++
        codeN2 ++
        loopC ((mvCode zf lf ++ ['[', '-', ']'] ++ List.replicate 0 '+') ++
          (mvCode lf zf ++ ['[', '-', ']'] ++ List.replicate 0 '+')) ++
        mvCode zf lf) ⟨s, lf⟩ ⟨s1, lf⟩ ∧
        s1 zf = 0 ∧ s1 tn = s tn - 1 ∧ s1 lf = (if s tn - 1 = 0 then 0 else 1) ∧
        s1 rm = (N - (s tn - 1)) % D ∧ s1 rd = (N - (s tn - 1)) / D ∧
        s1 td = D - (N - (s tn - 1)) % D ∧ s1 denom = D ∧
        ∀ a, P a → a ∉ [lf, zf, tn, td, rd, rm] → s1 a = s a := by
    intro s hs z_zf z_tn z_le z_lf z_rm z_rd z_td z_dn
    have hmod := Nat.mod_lt (N - s tn) hD
    obtain ⟨ds1, ds2⟩ := divmod_succ (N - s tn) D hD
    have hk : N - (s tn - 1) = N - s tn + 1 := by omega
    have r1 := Runs.decr s lf tn
    obtain ⟨s1, hs1⟩ : ∃ s1, s1 = setCell s tn ((s tn + 255) % 256) := ⟨_, rfl⟩
    rw [← hs1] at r1
    have r2 := Runs.decr s1 tn td
    obtain ⟨s2, hs2⟩ : ∃ s2, s2 = setCell s1 td ((s1 td + 255) % 256) := ⟨_, rfl⟩
    rw [← hs2] at r2
    have r3 := Runs.incr s2 td rm
    obtain ⟨s3, hs3⟩ : ∃ s3, s3 = setCell s2 rm ((s2 rm + 1) % 256) := ⟨_, rfl⟩
    rw [← hs3] at r3
    have b3 : Bytes s3 := ((r1.append r2).append r3).bytes hs
    have hstn := hs tn
    -- values after the three steps
    have v3 : ∀ a, a ≠ tn → a ≠ td → a ≠ rm → s3 a = s a := by
      intro a a1 a2 a3
      rw [hs3, setCell_other _ _ a3, hs2, setCell_other _ _ a2, hs1, setCell_other _ _ a1]
    have v3tn : s3 tn = s tn - 1 := by
      rw [hs3, setCell_other _ _ n25, hs2, setCell_other _ _ n23, hs1, setCell_same]; omega
    have v3td : s3 td = D - (N - s tn) % D - 1 := by
      rw [hs3, setCell_other _ _ n35, hs2, setCell_same, hs1, setCell_other _ _ (Ne.symm n23), z_td]
      omega
    have v3rm : s3 rm = (N - s tn) % D + 1 := by
      rw [hs3, setCell_same, hs2, setCell_other _ _ (Ne.symm n35), hs1,
        setCell_other _ _ (Ne.symm n25), z_rm]
      omega
    obtain ⟨s4, r4, v4, f4⟩ := hN1 s3 b3
    have b4 : Bytes s4 := r4.bytes b3
    -- the first guarded block
    have hbalA : Balanced ((mvCode zf rd ++ ['+']) ++ codeA ++
        (mvCode td rm ++ ['[', '-', ']'] ++ List.replicate 0 '+') ++
        (mvCode rm zf ++ ['[', '-', ']'] ++ List.replicate 0 '+')) := by
      obtain ⟨_, ra, _⟩ := hA (fun _ => 0) (fun _ => by norm_num)
      exact ((((Balanced.mvCode _ _).seq (Balanced.single (by decide) (by decide))).seq
        ra.balanced).seq (Runs.setToValue (fun _ => 0) td rm 0
          (fun _ => by norm_num)).balanced).seq (Runs.setToValue (fun _ => 0) rm zf 0
          (fun _ => by norm_num)).balanced
    obtain ⟨s5, r5, q5zf, q5rd, q5td, q5rm, q5f⟩ := Runs.if_at hbalA zf
      (fun u => u zf = 0 ∧ u rd = (N - (s tn - 1)) / D ∧ u td = D - (N - (s tn - 1)) % D ∧
        u rm = (N - (s tn - 1)) % D ∧ ∀ a, P a → a ≠ zf → a ≠ rd → a ≠ td → a ≠ rm → u a = s4 a)
      s4
      (by
        intro hz
        rw [v4] at hz
        have htd : s3 td ≠ 0 := by
          intro h
          rw [if_pos h] at hz
          exact absurd hz (by norm_num)
        rw [v3td] at htd
        obtain ⟨e1, e2⟩ := ds2 (by omega)
        refine ⟨by rw [v4, if_neg (by rw [v3td]; exact htd)], ?_, ?_, ?_, fun _ _ _ _ _ _ => rfl⟩
        · rw [f4 rd (Ne.symm n14) P_rd, v3 rd (Ne.symm n24) (Ne.symm n34) n45, z_rd, hk, e2]
        · rw [f4 td (Ne.symm n13) P_td, v3td, hk, e1]; omega
        · rw [f4 rm (Ne.symm n15) P_rm, v3rm, hk, e1])
      (by
        intro hnz
        rw [v4] at hnz
        have htd : s3 td = 0 := by
          by_contra h
          rw [if_neg h] at hnz
          exact hnz rfl
        rw [v3td] at htd
        obtain ⟨e1, e2⟩ := ds1 (by omega)
        have ra := Runs.incr s4 zf rd
        obtain ⟨u1, hu1⟩ : ∃ u1, u1 = setCell s4 rd ((s4 rd + 1) % 256) := ⟨_, rfl⟩
        rw [← hu1] at ra
        have bu1 : Bytes u1 := ra.bytes b4
        obtain ⟨u2, rb, vb, fb⟩ := hA u1 bu1
        have bu2 : Bytes u2 := rb.bytes bu1
        have rc := Runs.setToValue u2 td rm 0 bu2
        have rd' := Runs.setToValue (setCell u2 rm (0 % 256)) rm zf 0
          (bu2.setCell _ (by norm_num))
        have hrdb : (N - s tn) / D + 1 < 256 := by
          have := Nat.div_le_self (N - (s tn - 1)) D
          rw [hk, e2] at this
          omega
        refine ⟨_, ((ra.append rb).append rc).append rd', ?_, ?_, ?_, ?_, ?_, ?_⟩
        · rw [setCell_same]
        · rw [setCell_same]
        · rw [setCell_other _ _ (Ne.symm n14), setCell_other _ _ n45, fb rd (Ne.symm n34) P_rd, hu1,
            setCell_same, f4 rd (Ne.symm n14) P_rd, v3 rd (Ne.symm n24) (Ne.symm n34) n45, z_rd, hk, e2]
          omega
        · rw [setCell_other _ _ (Ne.symm n13), setCell_other _ _ n35, vb, hu1,
            setCell_other _ _ (Ne.symm n4d), f4 denom (Ne.symm n1d) P_dn,
            v3 denom (Ne.symm n2d) (Ne.symm n3d) (Ne.symm n5d), z_dn, hk, e1]
          omega
        · rw [setCell_other _ _ (Ne.symm n15), setCell_same, hk, e1]
        · intro a pa a1 a2 a3 a4
          rw [setCell_other _ _ a1, setCell_other _ _ a4, fb a a3 pa, hu1,
            setCell_other _ _ a2])
    have b5 : Bytes s5 := r5.bytes b4
    obtain ⟨s6, r6, v6, f6⟩ := hN2 s5 b5
    have b6 : Bytes s6 := r6.bytes b5
    obtain ⟨s7, r7, v7lf, v7zf, f7⟩ := Runs.guard_set zf lf 0 (by norm_num) (Ne.symm n01) s6 b6
    have r8 := Runs.mv s7 zf lf
    have v5tn : s5 tn = s tn - 1 := by
      rw [q5f tn P_tn (Ne.symm n12) n24 n23 n25, f4 tn (Ne.symm n12) P_tn, v3tn]
    have v5lf : s5 lf = 1 := by
      rw [q5f lf P_lf n01 n04 n03 n05, f4 lf n01 P_lf, v3 lf n02 n03 n05, z_lf]
    refine ⟨s7, ((((((r1.append r2).append r3).append r4).append r5).append r6).append
      r7).append r8, v7zf, ?_, ?_, ?_, ?_, ?_, ?_, ?_⟩
    · rw [f7 tn (Ne.symm n02) (Ne.symm n12), f6 tn (Ne.symm n12) P_tn, v5tn]
    · rw [v7lf, v6, v5tn, f6 lf n01 P_lf, v5lf]
      by_cases h : s tn - 1 = 0 <;> simp [h]
    · rw [f7 rm (Ne.symm n05) (Ne.symm n15), f6 rm (Ne.symm n15) P_rm, q5rm]
    · rw [f7 rd (Ne.symm n04) (Ne.symm n14), f6 rd (Ne.symm n14) P_rd, q5rd]
    · rw [f7 td (Ne.symm n03) (Ne.symm n13), f6 td (Ne.symm n13) P_td, q5td]
    · rw [f7 denom (Ne.symm n0d) (Ne.symm n1d), f6 denom (Ne.symm n1d) P_dn,
        q5f denom P_dn (Ne.symm n1d) (Ne.symm n4d) (Ne.symm n3d) (Ne.symm n5d), f4 denom (Ne.symm n1d) P_dn,
        v3 denom (Ne.symm n2d) (Ne.symm n3d) (Ne.symm n5d), z_dn]
    · intro a pa hmem
      simp only [List.mem_cons, List.mem_singleton, not_or, List.not_mem_nil,
        not_false_eq_true, and_true] at hmem
      obtain ⟨a0, a1, a2, a3, a4, a5⟩ := hmem
      rw [f7 a a0 a1, f6 a a1 pa, q5f a pa a1 a4 a3 a5, f4 a a1 pa, v3 a a2 a3 a5]
  -- the loop
  obtain ⟨_, rb0, _⟩ := body t hb i_zf (by rw [i_tn]; omega) (by rw [i_tn])
    i_lf (by rw [i_rm, i_tn]; simp) (by rw [i_rd, i_tn]; simp) (by rw [i_td, i_tn]; simp) i_dn
  obtain ⟨t1, r, ⟨_, _, j3, j4, j5, j6, _, _, j9⟩, hz⟩ := Runs.while_at rb0.balanced lf
    (fun s => Bytes s ∧ s zf = 0 ∧ s tn ≤ N ∧ s lf = (if s tn = 0 then 0 else 1) ∧
      s rm = (N - s tn) % D ∧ s rd = (N - s tn) / D ∧ s td = D - (N - s tn) % D ∧
      s denom = D ∧ ∀ a, P a → a ∉ [lf, zf, tn, td, rd, rm] → s a = t a)
    (fun s => s tn)
    (by
      rintro s ⟨hs, k1, k2, k3, k4, k5, k6, k7, k8⟩ hnz
      have htn : s tn ≠ 0 := by
        intro h
        rw [k3, if_pos h] at hnz
        exact hnz rfl
      rw [if_neg htn] at k3
      obtain ⟨s1, rb, o1, o2, o3, o4, o5, o6, o7, o8⟩ := body s hs k1 htn k2 k3 k4 k5 k6 k7
      refine ⟨s1, rb, ⟨rb.bytes hs, o1, by rw [o2]; omega, by rw [o3, o2], by rw [o4, o2],
        by rw [o5, o2], by rw [o6, o2], o7, ?_⟩, ?_⟩
      · intro a pa hmem
        rw [o8 a pa hmem, k8 a pa hmem]
      · dsimp only
        rw [o2]; omega)
    t ⟨hb, i_zf, by rw [i_tn], by rw [i_lf, i_tn, if_neg (by omega)],
      by rw [i_rm, i_tn]; simp, by rw [i_rd, i_tn]; simp, by rw [i_td, i_tn]; simp, i_dn,
      fun _ _ _ => rfl⟩
  have htn0 : t1 tn = 0 := by
    by_contra h
    rw [j4, if_neg h] at hz
    exact absurd hz (by norm_num)
  refine ⟨t1, r, ?_, ?_, j9⟩
  · rw [j6, htn0, Nat.sub_zero]
  · rw [j5, htn0, Nat.sub_zero]

/-! ## Emitters do not look at the code buffer -/

theorem Compiler.Oblivious.pure {α : Type} (a : α) : Oblivious (pure a : Gen α) :=
  fun _ _ => rfl

theorem Compiler.Oblivious.bind {α β : Type} {x : Gen α} {f : α → Gen β} (hx : Oblivious x)
    (hf : ∀ a, Oblivious (f a)) : Oblivious (x >>= f) := by
  intro c b
  simp only [Gen.run_bind]
  rw [hx c b]
  cases h : x c with
  | error e => rfl
  | ok r =>
    obtain ⟨a, c1⟩ := r
    exact hf a c1 b

theorem Compiler.Oblivious.validateAddr (l : List Int) : Oblivious (validateAddr l) := by
  intro c b
  unfold Compiler.validateAddr
  split_ifs <;> rfl

theorem Compiler.Oblivious.getPointer : Oblivious getPointer := fun _ _ => rfl

theorem Compiler.Oblivious.setPointer (a : Int) : Oblivious (setPointer a) := fun _ _ => rfl

theorem Compiler.Oblivious.allocateTemp (sz : Nat) : Oblivious (allocateTemp sz) := by
  intro c b
  unfold Compiler.allocateTemp
  cases c.d_callStack.getLast? with
  | none => rfl
  | some scope =>
    simp only
    cases Memory.getTemp c.typeMap c.d_memory scope (sz % 256) with
    | error e => rfl
    | ok r => rfl

theorem Compiler.Oblivious.bf_movePtr (a : Int) : Oblivious (bf_movePtr a) := by
  unfold Compiler.bf_movePtr
  repeat' first
    | exact Oblivious.pure _
    | exact Oblivious.validateAddr _
    | exact Oblivious.getPointer
    | exact Oblivious.setPointer _
    | apply Oblivious.bind
    | intro _

theorem Compiler.Oblivious.bf_setToValue (a v : Int) : Oblivious (bf_setToValue a v) := by
  unfold Compiler.bf_setToValue
  repeat' first
    | exact Oblivious.pure _
    | exact Oblivious.validateAddr _
    | exact Oblivious.bf_movePtr _
    | apply Oblivious.bind
    | intro _

theorem Compiler.Oblivious.bf_assign (lhs rhs : Int) : Oblivious (bf_assign lhs rhs) := by
  unfold Compiler.bf_assign
  repeat' first
    | exact Oblivious.pure _
    | exact Oblivious.validateAddr _
    | exact Oblivious.allocateTemp _
    | exact Oblivious.bf_movePtr _
    | apply Oblivious.bind
    | intro _

theorem Compiler.Oblivious.bf_not (addr result : Int) : Oblivious (bf_not addr result) := by
  unfold Compiler.bf_not
  repeat' first
    | exact Oblivious.pure _
    | exact Oblivious.validateAddr _
    | exact Oblivious.allocateTemp _
    | exact Oblivious.bf_movePtr _
    | exact Oblivious.bf_setToValue _ _
    | exact Oblivious.bf_assign _ _
    | apply Oblivious.bind
    | intro _

theorem Compiler.Oblivious.bf_addTo (target rhs : Int) : Oblivious (bf_addTo target rhs) := by
  unfold Compiler.bf_addTo
  repeat' first
    | exact Oblivious.pure _
    | exact Oblivious.validateAddr _
    | exact Oblivious.allocateTemp _
    | exact Oblivious.bf_movePtr _
    | exact Oblivious.bf_assign _ _
    | apply Oblivious.bind
    | intro _

/-- Transfer of an outcome to a state with another code buffer. -/
theorem Compiler.Oblivious.run {α : Type} {x : Gen α} (hx : Oblivious x) {c c1 : Compiler}
    {a : α} (h : x c = .ok (a, c1)) (b : Code) :
    x { c with d_codeBuffer := b } = .ok (a, { c1 with d_codeBuffer := b }) := by
  rw [hx c b, h]

/-! ## `divModPair` -/

/-- A guarded block of `divModPair`, `[ set(lf, 0) set(rd, v) set(rm, v)
set(zf, 0) ]` entered on `zf`. -/
theorem Runs.guard_div (lf zf rd rm : Int) (v : Nat) (hv : v < 256)
    (hnd : [lf, zf, rd, rm].Nodup) (t : Int → Nat) (hb : Bytes t) :
    ∃ t1, Runs (loopC ((mvCode zf lf ++ ['[', '-', ']'] ++ List.replicate 0 '+') ++
        (mvCode lf rd ++ ['[', '-', ']'] ++ List.replicate v '+') ++
        (mvCode rd rm ++ ['[', '-', ']'] ++ List.replicate v '+') ++
        (mvCode rm zf ++ ['[', '-', ']'] ++ List.replicate 0 '+'))) ⟨t, zf⟩ ⟨t1, zf⟩ ∧
      t1 zf = 0 ∧ t1 lf = (if t zf = 0 then t lf else 0) ∧
      t1 rd = (if t zf = 0 then t rd else v) ∧ t1 rm = (if t zf = 0 then t rm else v) ∧
      ∀ a, a ≠ lf → a ≠ zf → a ≠ rd → a ≠ rm → t1 a = t a := by
  simp only [List.nodup_cons, List.mem_cons, List.mem_singleton, not_or, List.not_mem_nil,
    not_false_eq_true, List.nodup_nil, and_true] at hnd
  obtain ⟨⟨n01, n02, n03⟩, ⟨n12, n13⟩, n23⟩ := hnd
  have q1 := Runs.setToValue t zf lf 0 hb
  have b1 : Bytes (setCell t lf (0 % 256)) := q1.bytes hb
  have q2 := Runs.setToValue _ lf rd v b1
  have b2 := q2.bytes b1
  have q3 := Runs.setToValue _ rd rm v b2
  have b3 := q3.bytes b2
  have q4 := Runs.setToValue _ rm zf 0 b3
  have hbody := ((q1.append q2).append q3).append q4
  obtain ⟨t1, r, h1, h2, h3, h4, h5⟩ := Runs.if_at hbody.balanced zf
    (fun u => u zf = 0 ∧ u lf = (if t zf = 0 then t lf else 0) ∧
      u rd = (if t zf = 0 then t rd else v) ∧ u rm = (if t zf = 0 then t rm else v) ∧
      ∀ a, a ≠ lf → a ≠ zf → a ≠ rd → a ≠ rm → u a = t a) t
    (by
      intro hz
      exact ⟨hz, by simp [hz], by simp [hz], by simp [hz], fun _ _ _ _ _ => rfl⟩)
    (by
      intro hnz
      refine ⟨_, hbody, ?_, ?_, ?_, ?_, ?_, ?_⟩
      all_goals dsimp only
      · simp [setCell_same]
      · simp [setCell_same]
      · rw [setCell_other _ _ n01, setCell_other _ _ n03, setCell_other _ _ n02,
          setCell_same, if_neg hnz]
      · rw [setCell_other _ _ (Ne.symm n12), setCell_other _ _ n23, setCell_same, if_neg hnz,
          Nat.mod_eq_of_lt hv]
      · rw [setCell_other _ _ (Ne.symm n13), setCell_same, if_neg hnz, Nat.mod_eq_of_lt hv]
      · intro a a0 a1 a2 a3
        rw [setCell_other _ _ a1, setCell_other _ _ a3, setCell_other _ _ a2,
          setCell_other _ _ a0])
  exact ⟨t1, r, h1, h2, h3, h4, h5⟩

/-- The body of the counting loop is well bracketed when the texts of the
nested calls are. -/
theorem divmod_body_balanced (lf zf tn td rd rm : Int) (codeN1 codeA codeN2 : Code)
    (h1 : Balanced codeN1) (h2 : Balanced codeA) (h3 : Balanced codeN2) :
    Balanced ((mvCode lf tn ++ ['-']) ++ (mvCode tn td ++ ['-']) ++
        (mvCode td rm ++ ['+']) ++ codeN1 ++
        loopC ((mvCode zf rd ++ ['+']) ++ codeA ++
          (mvCode td rm ++ ['[', '-', ']'] ++ List.replicate 0 '+') ++
          (mvCode rm zf ++ ['[', '-', ']'] ++ List.replicate 0 '+')) ++
        codeN2 ++
        loopC ((mvCode zf lf ++ ['[', '-', ']'] ++ List.replicate 0 '+') ++
          (mvCode lf zf ++ ['[', '-', ']'] ++ List.replicate 0 '+')) ++
        mvCode zf lf) := by
  have hm : ∀ p a, Balanced (mvCode p a ++ ['-']) := fun p a => (Runs.decr (fun _ => 0) p a).balanced
  have hp : ∀ p a, Balanced (mvCode p a ++ ['+']) := fun p a => (Runs.incr (fun _ => 0) p a).balanced
  have hset : ∀ p a, Balanced (mvCode p a ++ ['[', '-', ']'] ++ List.replicate 0 '+') :=
    fun p a => (Runs.setToValue (fun _ => 0) p a 0 (fun _ => by norm_num)).balanced
  exact (((((((hm _ _).seq (hm _ _)).seq (hp _ _)).seq h1).seq
    ((((hp _ _).seq h2).seq (hset _ _)).seq (hset _ _)).loopC).seq h3).seq
    (((hset _ _).seq (hset _ _)).loopC)).seq (Balanced.mvCode _ _)

set_option maxRecDepth 100000 in
/-- `divModPair(num, denom)` on allocated operand cells, in a state whose tape
has room for the four-cell block: the call returns two fresh cells and appends
a text that, run from the cursor, terminates on the new cursor with
* quotient and remainder 0 when the numerator is 0,
* both 255 when the numerator is not 0 and the denominator is 0,
* `n / d` and `n % d` otherwise,
and changes no cell that was allocated before the call. -/
theorem Compiler.divModPair_spec (c : Compiler) (num denom : Int) (hr : c.Ready 4)
    (hn : c.Live num) (hd : c.Live denom) :
    ∃ q r code c1, divModPair num denom c = .ok ((q, r), c1) ∧ c.Ext c1 ∧
      c1.d_codeBuffer = c.d_codeBuffer ++ code ∧ c1.Live q ∧ c1.Live r ∧ ¬ c.Live q ∧
      ¬ c.Live r ∧ q ≠ r ∧
      ∀ t, Bytes t → ∃ t1, Runs code ⟨t, c.d_pointer⟩ ⟨t1, c1.d_pointer⟩ ∧
        t1 q = (if t num = 0 then 0 else if t denom = 0 then 255 else t num / t denom) ∧
        t1 r = (if t num = 0 then 0 else if t denom = 0 then 255 else t num % t denom) ∧
        (∀ a, (c.Live a ∨ ¬ c1.Live a) → t1 a = t a) := by
  have hr1 : c.Ready 1 := hr.mono (by norm_num)
  obtain ⟨lf, c1, hal0, hlf0, e01, hp1, hcb1, hfresh0, hlive0, _, _⟩ :=
    Compiler.allocateTemp_spec c 4 (by norm_num) (by norm_num) hr
  obtain ⟨rd, c2, hal1, hrd0, e12, hp2, hcb2, hfresh1, hlive1, _, _⟩ :=
    Compiler.allocateTemp_spec c1 1 (by norm_num) (by norm_num) (e01.ready hr1)
  have e02 := e01.trans e12
  obtain ⟨rm, c3, hal2, hrm0, e23, hp3, hcb3, hfresh2, hlive2, _, _⟩ :=
    Compiler.allocateTemp_spec c2 1 (by norm_num) (by norm_num) (e02.ready hr1)
  have e03 := e02.trans e23
  -- liveness of the working cells
  have f_lf : ¬ c.Live lf := by simpa using hfresh0 0 (by norm_num)
  have f_zf : ¬ c.Live (lf + 1) := by simpa using hfresh0 1 (by norm_num)
  have f_tn : ¬ c.Live (lf + 2) := by simpa using hfresh0 2 (by norm_num)
  have f_td : ¬ c.Live (lf + 3) := by simpa using hfresh0 3 (by norm_num)
  have l1_lf : c1.Live lf := by simpa using hlive0 0 (by norm_num)
  have l1_zf : c1.Live (lf + 1) := by simpa using hlive0 1 (by norm_num)
  have l1_tn : c1.Live (lf + 2) := by simpa using hlive0 2 (by norm_num)
  have l1_td : c1.Live (lf + 3) := by simpa using hlive0 3 (by norm_num)
  have f_rd : ¬ c1.Live rd := by simpa using hfresh1 0 (by norm_num)
  have l2_rd : c2.Live rd := by simpa using hlive1 0 (by norm_num)
  have f_rm : ¬ c2.Live rm := by simpa using hfresh2 0 (by norm_num)
  have l3_rm : c3.Live rm := by simpa using hlive2 0 (by norm_num)
  have e13 := e12.trans e23
  have l3_lf := e13.live l1_lf
  have l3_zf := e13.live l1_zf
  have l3_tn := e13.live l1_tn
  have l3_td := e13.live l1_td
  have l3_rd := e23.live l2_rd
  have l3_num := e03.live hn
  have l3_den := e03.live hd
  have hr3 := e03.ready hr1
  -- the nested calls
  obtain ⟨cA1, c4, hA1, e34, _, hp4, semA1⟩ :=
    Compiler.bf_assign_spec { c3 with d_pointer := rm } (lf + 2) num hr3 l3_tn l3_num
      (hn.ne f_tn).symm
  obtain ⟨cA2, c5, hA2, e45, _, hp5, semA2⟩ :=
    Compiler.bf_assign_spec { c4 with d_pointer := lf + 2 } (lf + 3) denom (e34.ready hr3)
      (e34.live l3_td) (e34.live l3_den) (hd.ne f_td).symm
  have e35 : c3.Ext c5 := e34.trans e45
  obtain ⟨cN0, c6, hN0, e56, _, hp6, semN0⟩ :=
    Compiler.bf_not_spec { c5 with d_pointer := lf } denom (lf + 1) (e35.ready hr3)
      (e35.live l3_den) (e35.live l3_zf) (hd.ne f_zf)
  have e36 : c3.Ext c6 := e35.trans e56
  obtain ⟨cNn, c7, hNn, e67, _, hp7, semNn⟩ :=
    Compiler.bf_not_spec { c6 with d_pointer := lf + 1 } num (lf + 1) (e36.ready hr3)
      (e36.live l3_num) (e36.live l3_zf) (hn.ne f_zf)
  have e37 : c3.Ext c7 := e36.trans e67
  obtain ⟨cN1, c8, hN1, e78, _, hp8, semN1⟩ :=
    Compiler.bf_not_spec { c7 with d_pointer := rm } (lf + 3) (lf + 1) (e37.ready hr3)
      (e37.live l3_td) (e37.live l3_zf) (by omega)
  have e38 : c3.Ext c8 := e37.trans e78
  obtain ⟨cA, c9, hA, e89, _, hp9, semA⟩ :=
    Compiler.bf_assign_spec { c8 with d_pointer := rd } (lf + 3) denom (e38.ready hr3)
      (e38.live l3_td) (e38.live l3_den) (hd.ne f_td).symm
  have e39 : c3.Ext c9 := e38.trans e89
  obtain ⟨cN2, c10, hN2, e910, _, hp10, semN2⟩ :=
    Compiler.bf_not_spec { c9 with d_pointer := lf + 1 } (lf + 2) (lf + 1) (e39.ready hr3)
      (e39.live l3_tn) (e39.live l3_zf) (by omega)
  have e310 : c3.Ext c10 := e39.trans e910
  have hA1' := fun b => (Compiler.Oblivious.bf_assign (lf + 2) num).run hA1 b
  have hA2' := fun b => (Compiler.Oblivious.bf_assign (lf + 3) denom).run hA2 b
  have hN0' := fun b => (Compiler.Oblivious.bf_not denom (lf + 1)).run hN0 b
  have hNn' := fun b => (Compiler.Oblivious.bf_not num (lf + 1)).run hNn b
  have hN1' := fun b => (Compiler.Oblivious.bf_not (lf + 3) (lf + 1)).run hN1 b
  have hA' := fun b => (Compiler.Oblivious.bf_assign (lf + 3) denom).run hA b
  have hN2' := fun b => (Compiler.Oblivious.bf_not (lf + 2) (lf + 1)).run hN2 b
  have n0 : (0 : Int) ≤ lf + 1 := by omega
  have n1 : (0 : Int) ≤ lf + 2 := by omega
  have n2 : (0 : Int) ≤ lf + 3 := by omega
  have heq : divModPair num denom c = .ok ((rd, rm),
      { c10 with
        d_pointer := lf
        d_codeBuffer := c.d_codeBuffer ++
          ((mvCode c.d_pointer rd ++ ['[', '-', ']'] ++ List.replicate 0 '+') ++
          (mvCode rd rm ++ ['[', '-', ']'] ++ List.replicate 0 '+') ++ cA1 ++ cA2 ++
          (mvCode (lf + 3) lf ++ ['[', '-', ']'] ++ List.replicate 1 '+') ++ cN0 ++
          loopC ((mvCode (lf + 1) lf ++ ['[', '-', ']'] ++ List.replicate 0 '+') ++
            (mvCode lf rd ++ ['[', '-', ']'] ++ List.replicate 255 '+') ++
            (mvCode rd rm ++ ['[', '-', ']'] ++ List.replicate 255 '+') ++
            (mvCode rm (lf + 1) ++ ['[', '-', ']'] ++ List.replicate 0 '+')) ++
          cNn ++
          loopC ((mvCode (lf + 1) lf ++ ['[', '-', ']'] ++ List.replicate 0 '+') ++
            (mvCode lf rd ++ ['[', '-', ']'] ++ List.replicate 0 '+') ++
            (mvCode rd rm ++ ['[', '-', ']'] ++ List.replicate 0 '+') ++
            (mvCode rm (lf + 1) ++ ['[', '-', ']'] ++ List.replicate 0 '+')) ++
          mvCode (lf + 1) lf ++
          loopC ((mvCode lf (lf + 2) ++ ['-']) ++ (mvCode (lf + 2) (lf + 3) ++ ['-']) ++
            (mvCode (lf + 3) rm ++ ['+']) ++ cN1 ++
            loopC ((mvCode (lf + 1) rd ++ ['+']) ++ cA ++
              (mvCode (lf + 3) rm ++ ['[', '-', ']'] ++ List.replicate 0 '+') ++
              (mvCode rm (lf + 1) ++ ['[', '-', ']'] ++ List.replicate 0 '+')) ++
            cN2 ++
            loopC ((mvCode (lf + 1) lf ++ ['[', '-', ']'] ++ List.replicate 0 '+') ++
              (mvCode lf (lf + 1) ++ ['[', '-', ']'] ++ List.replicate 0 '+')) ++
            mvCode (lf + 1) lf)) }) := by
    simp [-List.reduceReplicate, divModPair, hal0, hal1, hal2, hp1, hp2, hp3, hp4, hp5, hp6, hp7, hp8, hp9, hp10,
      hcb1, hcb2, hcb3,
      Compiler.bf_setToValue_run hrd0, Compiler.bf_setToValue_run hrm0,
      Compiler.bf_setToValue_run hlf0, Compiler.bf_setToValue_run n0,
      Compiler.bf_movePtr_run hlf0, Compiler.bf_incr_run hrm0, Compiler.bf_incr_run hrd0,
      Compiler.bf_decr_run n1, Compiler.bf_decr_run n2,
      hA1', hA2', hN0', hNn', hN1', hA', hN2', loopC]
  have e010 : c.Ext c10 := e03.trans e310
  -- distinctness of the working cells
  have d_rd_lf : rd ≠ lf := (l1_lf.ne f_rd).symm
  have d_rd_zf : rd ≠ lf + 1 := (l1_zf.ne f_rd).symm
  have d_rd_tn : rd ≠ lf + 2 := (l1_tn.ne f_rd).symm
  have d_rd_td : rd ≠ lf + 3 := (l1_td.ne f_rd).symm
  have d_rm_lf : rm ≠ lf := ((e12.live l1_lf).ne f_rm).symm
  have d_rm_zf : rm ≠ lf + 1 := ((e12.live l1_zf).ne f_rm).symm
  have d_rm_tn : rm ≠ lf + 2 := ((e12.live l1_tn).ne f_rm).symm
  have d_rm_td : rm ≠ lf + 3 := ((e12.live l1_td).ne f_rm).symm
  have d_rm_rd : rm ≠ rd := (l2_rd.ne f_rm).symm
  have d_dn_lf : denom ≠ lf := hd.ne f_lf
  have d_dn_zf : denom ≠ lf + 1 := hd.ne f_zf
  have d_dn_tn : denom ≠ lf + 2 := hd.ne f_tn
  have d_dn_td : denom ≠ lf + 3 := hd.ne f_td
  have d_dn_rd : denom ≠ rd := (e01.live hd).ne f_rd
  have d_dn_rm : denom ≠ rm := (e02.live hd).ne f_rm
  have d_nm_lf : num ≠ lf := hn.ne f_lf
  have d_nm_zf : num ≠ lf + 1 := hn.ne f_zf
  have d_nm_tn : num ≠ lf + 2 := hn.ne f_tn
  have d_nm_td : num ≠ lf + 3 := hn.ne f_td
  have d_nm_rd : num ≠ rd := (e01.live hn).ne f_rd
  have d_nm_rm : num ≠ rm := (e02.live hn).ne f_rm
  have a1 : lf ≠ lf + 1 := by omega
  have a2 : lf ≠ lf + 2 := by omega
  have a3 : lf ≠ lf + 3 := by omega
  have a4 : lf + 1 ≠ lf + 2 := by omega
  have a5 : lf + 1 ≠ lf + 3 := by omega
  have a6 : lf + 2 ≠ lf + 3 := by omega
  refine ⟨rd, rm, _, _, heq, e010, rfl, e310.live l3_rd, e310.live l3_rm,
    fun h => f_rd (e01.live h), fun h => f_rm (e02.live h), d_rm_rd.symm, ?_⟩
  intro t hb
  -- every cell outside the working set and the temporaries is preserved by each step
  have side : ∀ a, (c.Live a ∨ ¬ c10.Live a) →
      a ≠ lf ∧ a ≠ lf + 1 ∧ a ≠ lf + 2 ∧ a ≠ lf + 3 ∧ a ≠ rd ∧ a ≠ rm := by
    intro a ha
    rcases ha with h | h
    · exact ⟨h.ne f_lf, h.ne f_zf, h.ne f_tn, h.ne f_td, (e01.live h).ne f_rd,
        (e02.live h).ne f_rm⟩
    · exact ⟨fun e => h (e ▸ e310.live l3_lf), fun e => h (e ▸ e310.live l3_zf),
        fun e => h (e ▸ e310.live l3_tn), fun e => h (e ▸ e310.live l3_td),
        fun e => h (e ▸ e310.live l3_rd), fun e => h (e ▸ e310.live l3_rm)⟩
  have r1 := Runs.setToValue t c.d_pointer rd 0 hb
  obtain ⟨ta, hta⟩ : ∃ ta, ta = setCell t rd (0 % 256) := ⟨_, rfl⟩
  rw [← hta] at r1
  have ba : Bytes ta := r1.bytes hb
  have r2 := Runs.setToValue ta rd rm 0 ba
  obtain ⟨tb, htb⟩ : ∃ tb, tb = setCell ta rm (0 % 256) := ⟨_, rfl⟩
  rw [← htb] at r2
  have bb : Bytes tb := r2.bytes ba
  have vb : ∀ a, a ≠ rd → a ≠ rm → tb a = t a := by
    intro a h1 h2
    rw [htb, setCell_other _ _ h2, hta, setCell_other _ _ h1]
  have vb_rd : tb rd = 0 := by rw [htb, setCell_other _ _ d_rm_rd.symm, hta, setCell_same]
  have vb_rm : tb rm = 0 := by rw [htb, setCell_same]
  obtain ⟨tc, r3, v3, f3, _⟩ := semA1 tb bb
  have bc : Bytes tc := r3.bytes bb
  obtain ⟨td, r4, v4, f4, _⟩ := semA2 tc bc
  have bd : Bytes td := r4.bytes bc
  have r5 := Runs.setToValue td (lf + 3) lf 1 bd
  obtain ⟨te, hte⟩ : ∃ te, te = setCell td lf (1 % 256) := ⟨_, rfl⟩
  rw [← hte] at r5
  have be : Bytes te := r5.bytes bd
  obtain ⟨tf, r6, v6, f6⟩ := semN0 te be
  have bf : Bytes tf := r6.bytes be
  -- values after the initialisation
  have l4 : ∀ {a}, c3.Live a → c4.Live a := fun h => e34.live h
  have l5 : ∀ {a}, c3.Live a → c5.Live a := fun h => e35.live h
  have ve : ∀ a, c3.Live a → a ≠ lf → a ≠ lf + 2 → a ≠ lf + 3 → te a = tb a := by
    intro a la h0 h2 h3
    rw [hte, setCell_other _ _ h0, f4 a h3 (Or.inl (l4 la)), f3 a h2 (Or.inl la)]
  have ve_tn : te (lf + 2) = t num := by
    rw [hte, setCell_other _ _ a2.symm, f4 _ a6 (Or.inl (l4 l3_tn)), v3,
      vb num d_nm_rd d_nm_rm]
  have ve_td : te (lf + 3) = t denom := by
    rw [hte, setCell_other _ _ a3.symm, v4, f3 denom d_dn_tn (Or.inl l3_den),
      vb denom d_dn_rd d_dn_rm]
  have ve_lf : te lf = 1 := by rw [hte, setCell_same]
  have ve_dn : te denom = t denom := by
    rw [ve denom l3_den d_dn_lf d_dn_tn d_dn_td, vb denom d_dn_rd d_dn_rm]
  have vf : ∀ a, c3.Live a → a ≠ lf + 1 → tf a = te a :=
    fun a la h1 => f6 a h1 (Or.inl (l5 la))
  rw [ve_dn] at v6
  obtain ⟨tg, r7, g_zf, g_lf, g_rd, g_rm, g_f⟩ := Runs.guard_div lf (lf + 1) rd rm 255
    (by norm_num) (by simp [a1, d_rd_lf.symm, d_rm_lf.symm, d_rd_zf.symm, d_rm_zf.symm,
      d_rm_rd.symm]) tf bf
  have bg : Bytes tg := r7.bytes bf
  obtain ⟨th, r8, v8, f8⟩ := semNn tg bg
  have bh : Bytes th := r8.bytes bg
  have l6 : ∀ {a}, c3.Live a → c6.Live a := fun h => e36.live h
  have vh : ∀ a, c3.Live a → a ≠ lf + 1 → th a = tg a :=
    fun a la h1 => f8 a h1 (Or.inl (l6 la))
  have vg_num : tg num = t num := by
    rw [g_f num d_nm_lf d_nm_zf d_nm_rd d_nm_rm, vf num l3_num d_nm_zf,
      ve num l3_num d_nm_lf d_nm_tn d_nm_td, vb num d_nm_rd d_nm_rm]
  rw [vg_num] at v8
  obtain ⟨ti, r9, i_zf, i_lf, i_rd, i_rm, i_f⟩ := Runs.guard_div lf (lf + 1) rd rm 0
    (by norm_num) (by simp [a1, d_rd_lf.symm, d_rm_lf.symm, d_rd_zf.symm, d_rm_zf.symm,
      d_rm_rd.symm]) th bh
  have bi : Bytes ti := r9.bytes bh
  have r10 := Runs.mv ti (lf + 1) lf
  -- values at the head of the counting loop
  have w_lf : ti lf = (if t num = 0 then 0 else if t denom = 0 then 0 else 1) := by
    rw [i_lf, v8, vh lf l3_lf a1, g_lf, v6, vf lf l3_lf a1, ve_lf]
    by_cases h1 : t num = 0 <;> by_cases h2 : t denom = 0 <;> simp [h1, h2]
  have w_rd : ti rd = (if t num = 0 then 0 else if t denom = 0 then 255 else 0) := by
    rw [i_rd, v8, vh rd l3_rd d_rd_zf, g_rd, v6, vf rd l3_rd d_rd_zf,
      ve rd l3_rd d_rd_lf d_rd_tn d_rd_td, vb_rd]
    by_cases h1 : t num = 0 <;> by_cases h2 : t denom = 0 <;> simp [h1, h2]
  have w_rm : ti rm = (if t num = 0 then 0 else if t denom = 0 then 255 else 0) := by
    rw [i_rm, v8, vh rm l3_rm d_rm_zf, g_rm, v6, vf rm l3_rm d_rm_zf,
      ve rm l3_rm d_rm_lf d_rm_tn d_rm_td, vb_rm]
    by_cases h1 : t num = 0 <;> by_cases h2 : t denom = 0 <;> simp [h1, h2]
  have w_tn : ti (lf + 2) = t num := by
    rw [i_f _ a2.symm a4.symm d_rd_tn.symm d_rm_tn.symm, vh _ l3_tn a4.symm,
      g_f _ a2.symm a4.symm d_rd_tn.symm d_rm_tn.symm, vf _ l3_tn a4.symm, ve_tn]
  have w_td : ti (lf + 3) = t denom := by
    rw [i_f _ a3.symm a5.symm d_rd_td.symm d_rm_td.symm, vh _ l3_td a5.symm,
      g_f _ a3.symm a5.symm d_rd_td.symm d_rm_td.symm, vf _ l3_td a5.symm, ve_td]
  have w_dn : ti denom = t denom := by
    rw [i_f _ d_dn_lf d_dn_zf d_dn_rd d_dn_rm, vh _ l3_den d_dn_zf,
      g_f _ d_dn_lf d_dn_zf d_dn_rd d_dn_rm, vf _ l3_den d_dn_zf, ve_dn]
  have w_frame : ∀ a, (c.Live a ∨ ¬ c10.Live a) → ti a = t a := by
    intro a ha
    obtain ⟨s0, s1, s2, s3, s4, s5⟩ := side a ha
    rw [i_f a s0 s1 s4 s5, f8 a s1 (Compiler.Ext.mid (e03.trans e36) (e78.trans (e89.trans e910)) ha),
      g_f a s0 s1 s4 s5, f6 a s1 (Compiler.Ext.mid (e03.trans e35) (e67.trans (e78.trans (e89.trans e910))) ha),
      hte, setCell_other _ _ s0,
      f4 a s3 (Compiler.Ext.mid (e03.trans e34) (e56.trans (e67.trans (e78.trans (e89.trans e910)))) ha),
      f3 a s2 (Compiler.Ext.mid e03 (e45.trans (e56.trans (e67.trans (e78.trans (e89.trans e910))))) ha),
      vb a s4 s5]
  -- the counting loop
  have P_of : ∀ a, c3.Live a → (c7.Live a ∨ ¬ c10.Live a) := fun a h => Or.inl (e37.live h)
  have hN1L : ∀ u, Bytes u → ∃ u1, Runs cN1 ⟨u, rm⟩ ⟨u1, lf + 1⟩ ∧
      u1 (lf + 1) = (if u (lf + 3) = 0 then 1 else 0) ∧
      ∀ a, a ≠ lf + 1 → (c7.Live a ∨ ¬ c10.Live a) → u1 a = u a := by
    intro u hu
    obtain ⟨u1, q1, q2, q3⟩ := semN1 u hu
    exact ⟨u1, q1, q2, fun a h1 h2 =>
      q3 a h1 (Compiler.Ext.mid (Compiler.Ext.refl c7) (e89.trans e910) h2)⟩
  have hAL : ∀ u, Bytes u → ∃ u1, Runs cA ⟨u, rd⟩ ⟨u1, lf + 3⟩ ∧
      u1 (lf + 3) = u denom ∧
      ∀ a, a ≠ lf + 3 → (c7.Live a ∨ ¬ c10.Live a) → u1 a = u a := by
    intro u hu
    obtain ⟨u1, q1, q2, q3, _⟩ := semA u hu
    exact ⟨u1, q1, q2, fun a h1 h2 => q3 a h1 (Compiler.Ext.mid e78 e910 h2)⟩
  have hN2L : ∀ u, Bytes u → ∃ u1, Runs cN2 ⟨u, lf + 1⟩ ⟨u1, lf + 1⟩ ∧
      u1 (lf + 1) = (if u (lf + 2) = 0 then 1 else 0) ∧
      ∀ a, a ≠ lf + 1 → (c7.Live a ∨ ¬ c10.Live a) → u1 a = u a := by
    intro u hu
    obtain ⟨u1, q1, q2, q3⟩ := semN2 u hu
    exact ⟨u1, q1, q2, fun a h1 h2 =>
      q3 a h1 (Compiler.Ext.mid (e78.trans e89) (Compiler.Ext.refl c10) h2)⟩
  have hnd : [lf, lf + 1, lf + 2, lf + 3, rd, rm, denom].Nodup := by
    simp [a1, a2, a3, a4, a5, a6, d_rd_lf.symm, d_rd_zf.symm, d_rd_tn.symm, d_rd_td.symm,
      d_rm_lf.symm, d_rm_zf.symm, d_rm_tn.symm, d_rm_td.symm, d_rm_rd.symm, d_dn_lf.symm,
      d_dn_zf.symm, d_dn_tn.symm, d_dn_td.symm, d_dn_rd.symm, d_dn_rm.symm]
  have hPW : ∀ a ∈ [lf, lf + 1, lf + 2, lf + 3, rd, rm, denom], (c7.Live a ∨ ¬ c10.Live a) := by
    intro a ha
    simp only [List.mem_cons, List.mem_singleton, List.not_mem_nil, or_false] at ha
    rcases ha with h | h | h | h | h | h | h <;> subst h
    · exact P_of _ l3_lf
    · exact P_of _ l3_zf
    · exact P_of _ l3_tn
    · exact P_of _ l3_td
    · exact P_of _ l3_rd
    · exact P_of _ l3_rm
    · exact P_of _ l3_den
  have hbalBody := divmod_body_balanced lf (lf + 1) (lf + 2) (lf + 3) rd rm cN1 cA cN2
    (by obtain ⟨_, q, _⟩ := hN1L (fun _ => 0) (fun _ => by norm_num); exact q.balanced)
    (by obtain ⟨_, q, _⟩ := hAL (fun _ => 0) (fun _ => by norm_num); exact q.balanced)
    (by obtain ⟨_, q, _⟩ := hN2L (fun _ => 0) (fun _ => by norm_num); exact q.balanced)
  have pre := (((((((((r1.append r2).append r3).append r4).append r5).append r6).append
    r7).append r8).append r9).append r10)
  by_cases hzero : t num = 0 ∨ t denom = 0
  · have hlf0 : ti lf = 0 := by
      rw [w_lf]
      rcases hzero with h | h
      · simp [h]
      · simp [h]
    have r11 : Runs _ ⟨ti, lf⟩ ⟨ti, lf⟩ := Runs.loop_skip hbalBody hlf0
    refine ⟨ti, pre.append r11, ?_, ?_, w_frame⟩
    · rw [w_rd]
      rcases hzero with h | h
      · simp [h]
      · simp [h]
    · rw [w_rm]
      rcases hzero with h | h
      · simp [h]
      · simp [h]
  · have hN : t num ≠ 0 := fun h => hzero (Or.inl h)
    have hD : t denom ≠ 0 := fun h => hzero (Or.inr h)
    rw [if_neg hN, if_neg hD] at w_lf w_rd w_rm
    obtain ⟨tj, r11, j_rd, j_rm, j_f⟩ := Runs.divmod_loop lf (lf + 1) (lf + 2) (lf + 3) rd rm
      denom (fun a => c7.Live a ∨ ¬ c10.Live a) cN1 cA cN2 hnd hPW hN1L hAL hN2L (t num)
      (t denom) (by omega) (by omega) ti bi w_lf i_zf w_tn w_td w_rd w_rm w_dn
    refine ⟨tj, pre.append r11, ?_, ?_, ?_⟩
    · rw [j_rd, if_neg hN, if_neg hD]
    · rw [j_rm, if_neg hN, if_neg hD]
    · intro a ha
      obtain ⟨s0, s1, s2, s3, s4, s5⟩ := side a ha
      rw [j_f a (Compiler.Ext.mid (e03.trans e37) (Compiler.Ext.refl c10) ha)
        (by simp [s0, s1, s2, s3, s4, s5]), w_frame a ha]

/-! ## `bf_assign(dest, src, n)` and `bf_addTo` -/

/-- The loop of `bf_assign(dest, src, n)` from index `idx` on, `k` cells to
go. -/
theorem Compiler.bf_assignLoop_spec (dest src : Int) :
    ∀ (k idx : Nat) (acc : Code) (c : Compiler), c.Ready 1 →
      (∀ j : Nat, idx ≤ j → j < idx + k → c.Live (dest + j) ∧ c.Live (src + j)) →
      (∀ i j : Nat, idx ≤ i → i < idx + k → idx ≤ j → j < idx + k → dest + i ≠ src + j) →
      ∃ code c1, bf_assignLoop dest src k idx acc c = .ok (acc ++ code, c1) ∧ c.Ext c1 ∧
        c1.d_codeBuffer = c.d_codeBuffer ∧
        ∀ t, Bytes t → ∃ t1, Runs code ⟨t, c.d_pointer⟩ ⟨t1, c1.d_pointer⟩ ∧
          (∀ j : Nat, idx ≤ j → j < idx + k → t1 (dest + j) = t (src + j)) ∧
          (∀ a, (∀ j : Nat, idx ≤ j → j < idx + k → a ≠ dest + j) →
            (c.Live a ∨ ¬ c1.Live a) → t1 a = t a) ∧
          (∀ a, ¬ c.Live a → c1.Live a → t1 a = 0) := by
  intro k
  induction k with
  | zero =>
    intro idx acc c _ _ _
    refine ⟨[], c, by simp [bf_assignLoop], Compiler.Ext.refl c, rfl, ?_⟩
    intro t _
    exact ⟨t, Runs.nil _, fun j h1 h2 => by omega, fun _ _ _ => rfl,
      fun a h1 h2 => absurd h2 h1⟩
  | succ k ih =>
    intro idx acc c hr hlive hdis
    obtain ⟨hl, hs⟩ := hlive idx (le_refl _) (by omega)
    obtain ⟨code1, c1, h1, e01, hcb1, hp1, sem1⟩ :=
      Compiler.bf_assign_spec c (dest + idx) (src + idx) hr hl hs
        (hdis idx idx (le_refl _) (by omega) (le_refl _) (by omega))
    obtain ⟨code2, c2, h2, e12, hcb2, sem2⟩ := ih (idx + 1) (acc ++ code1) c1 (e01.ready hr)
      (fun j a b => ⟨e01.live (hlive j (by omega) (by omega)).1,
        e01.live (hlive j (by omega) (by omega)).2⟩)
      (fun i j a b a' b' => hdis i j (by omega) (by omega) (by omega) (by omega))
    refine ⟨code1 ++ code2, c2, ?_, e01.trans e12, by rw [hcb2, hcb1], ?_⟩
    · simp [bf_assignLoop, h1, h2]
    · intro t hb
      obtain ⟨t1, r1, v1, f1, z1⟩ := sem1 t hb
      rw [← hp1] at r1
      obtain ⟨t2, r2, v2, f2, z2⟩ := sem2 t1 (r1.bytes hb)
      refine ⟨t2, r1.append r2, ?_, ?_, ?_⟩
      · intro j hj1 hj2
        by_cases hji : j = idx
        · subst hji
          rw [f2 _ (fun i hi1 hi2 h => by
              have : (j : Int) = i := by omega
              omega) (Or.inl (e01.live hl)), v1]
        · rw [v2 j (by omega) (by omega)]
          exact f1 _ (fun h => hdis idx j (le_refl _) (by omega) hj1 hj2 h.symm)
            (Or.inl (hlive j hj1 hj2).2)
      · intro a ha hla
        rw [f2 a (fun j h1 h2 => ha j (by omega) (by omega))
            (Compiler.Ext.mid e01 (Compiler.Ext.refl c2) hla),
          f1 a (ha idx (le_refl _) (by omega)) (Compiler.Ext.mid (Compiler.Ext.refl c) e12 hla)]
      · intro a ha0 ha2
        by_cases ha1 : c1.Live a
        · rw [f2 a (fun j h1 h2 h => ha0 (h ▸ (hlive j (by omega) (by omega)).1)) (Or.inl ha1)]
          exact z1 a ha0 ha1
        · exact z2 a ha1 ha2

/-- `bf_assign(dest, src, n)` on two disjoint ranges of allocated cells: every
cell of the destination receives the value of the matching source cell, every
temporary requested on the way ends at 0, and no other cell changes. -/
theorem Compiler.bf_assignN_spec (c : Compiler) (dest src : Int) (n : Nat) (hr : c.Ready 1)
    (hd0 : 0 ≤ dest) (hs0 : 0 ≤ src)
    (hlive : ∀ j : Nat, j < n → c.Live (dest + j) ∧ c.Live (src + j))
    (hdis : ∀ i j : Nat, i < n → j < n → dest + i ≠ src + j) :
    ∃ code c1, bf_assignN dest src n c = .ok (code, c1) ∧ c.Ext c1 ∧
      c1.d_codeBuffer = c.d_codeBuffer ∧
      ∀ t, Bytes t → ∃ t1, Runs code ⟨t, c.d_pointer⟩ ⟨t1, c1.d_pointer⟩ ∧
        (∀ j : Nat, j < n → t1 (dest + j) = t (src + j)) ∧
        (∀ a, (∀ j : Nat, j < n → a ≠ dest + j) → (c.Live a ∨ ¬ c1.Live a) → t1 a = t a) ∧
        (∀ a, ¬ c.Live a → c1.Live a → t1 a = 0) := by
  obtain ⟨code, c1, h, e, hcb, sem⟩ := Compiler.bf_assignLoop_spec dest src n 0 [] c hr
    (fun j _ hj => hlive j (by omega)) (fun i j _ hi _ hj => hdis i j (by omega) (by omega))
  refine ⟨code, c1, ?_, e, hcb, ?_⟩
  · simp [bf_assignN, Compiler.validateAddr2_run hd0 hs0, h]
  · intro t hb
    obtain ⟨t1, r, v, f, z⟩ := sem t hb
    exact ⟨t1, r, fun j hj => v j (Nat.zero_le _) (by omega),
      fun a ha hla => f a (fun j _ hj => ha j (by omega)) hla, z⟩

/-- `bf_addTo(target, rhs)`: the value of `rhs` is added to `target` modulo
256; no other cell that was allocated before the call changes. -/
theorem Compiler.bf_addTo_spec (c : Compiler) (target rhs : Int) (hr : c.Ready 1)
    (ht : c.Live target) (hrh : c.Live rhs) :
    ∃ code c1, bf_addTo target rhs c = .ok (code, c1) ∧ c.Ext c1 ∧
      c1.d_codeBuffer = c.d_codeBuffer ∧ c1.d_pointer = target ∧
      ∀ t, Bytes t → ∃ t1, Runs code ⟨t, c.d_pointer⟩ ⟨t1, target⟩ ∧
        t1 target = (t target + t rhs) % 256 ∧
        (∀ a, a ≠ target → (c.Live a ∨ ¬ c1.Live a) → t1 a = t a) := by
  obtain ⟨tmp, c1, hal, ht0, e01, hp1, hcb1, hfresh, hlive, _, _⟩ :=
    Compiler.allocateTemp_spec c 1 (by norm_num) (by norm_num) hr
  have hfr : ¬ c.Live tmp := by simpa using hfresh 0 (by norm_num)
  have hlv : c1.Live tmp := by simpa using hlive 0 (by norm_num)
  obtain ⟨codeA, c2, hA, e12, hcb2, hp2, semA⟩ :=
    Compiler.bf_assign_spec c1 tmp rhs (e01.ready hr) hlv (e01.live hrh) (hrh.ne hfr).symm
  have heq : bf_addTo target rhs c = .ok
      (codeA ++ mvCode tmp tmp ++
        loopC (['-'] ++ mvCode tmp target ++ ['+'] ++ mvCode target tmp) ++
        mvCode tmp target, { c2 with d_pointer := target }) := by
    simp [bf_addTo, Compiler.validateAddr2_run ht.nonneg hrh.nonneg, hal, hA, hp2,
      Compiler.bf_movePtr_run ht.nonneg, Compiler.bf_movePtr_run ht0, loopC]
  refine ⟨_, _, heq, e01.trans e12, by rw [← hcb1, ← hcb2], rfl, ?_⟩
  intro t hb
  have htt : tmp ≠ target := (ht.ne hfr).symm
  rw [hp1] at semA
  obtain ⟨t1, r1, v1, f1, _⟩ := semA t hb
  have b1 : Bytes t1 := r1.bytes hb
  have r2 := Runs.mv t1 tmp tmp
  have r3 := Runs.drain1 tmp target htt t1 (b1 _) (b1 _)
  have r4 := Runs.mv (setCell (setCell t1 target ((t1 target + t1 tmp) % 256)) tmp 0) tmp target
  refine ⟨_, ((r1.append r2).append r3).append r4, ?_, ?_⟩
  · rw [setCell_other _ _ htt.symm, setCell_same, v1,
      f1 target htt.symm (Or.inl (e01.live ht))]
  · intro a hat hla
    have ha : a ≠ tmp := by
      rcases hla with h | h
      · exact h.ne hfr
      · exact fun e => h (e ▸ e12.live hlv)
    rw [setCell_other _ _ ha, setCell_other _ _ hat,
      f1 a ha (Compiler.Ext.mid e01 (Compiler.Ext.refl c2) hla)]

/-! ## `constVal`, `add` and `assign` -/

/-- `constVal(num)`: a fresh one-cell temporary that the emitted text sets to
`num` as a byte; no other cell changes. -/
theorem Compiler.constVal_spec (c : Compiler) (num : Nat) (hr : c.Ready 1) :
    ∃ tmp code c1, constVal num c = .ok (tmp, c1) ∧ c.Ext c1 ∧
      c1.d_codeBuffer = c.d_codeBuffer ++ code ∧ c1.Live tmp ∧ ¬ c.Live tmp ∧
      Memory.sizeOf c1.typeMap c1.d_memory tmp = .ok 1 ∧
      ∀ t, Bytes t → ∃ t1, Runs code ⟨t, c.d_pointer⟩ ⟨t1, c1.d_pointer⟩ ∧
        t1 tmp = num % 256 ∧ ∀ a, a ≠ tmp → t1 a = t a := by
  obtain ⟨tmp, c1, hal, ht0, e01, hp1, hcb1, hfresh, hlive, _, hsz⟩ :=
    Compiler.allocateTemp_spec c 1 (by norm_num) (by norm_num) hr
  have hfr : ¬ c.Live tmp := by simpa using hfresh 0 (by norm_num)
  have hlv : c1.Live tmp := by simpa using hlive 0 (by norm_num)
  refine ⟨tmp, mvCode c.d_pointer tmp ++ ['[', '-', ']'] ++ List.replicate (num % 256) '+',
    { c1 with d_pointer := tmp, d_codeBuffer := c.d_codeBuffer ++
      (mvCode c.d_pointer tmp ++ ['[', '-', ']'] ++ List.replicate (num % 256) '+') },
    ?_, ?_, rfl, hlv, hfr, hsz, ?_⟩
  · have hv : ((num : Int) % 256).toNat = num % 256 := by omega
    simp [constVal, hal, Compiler.bf_setToValue_run (v := (num : Int) % 256) ht0 (by omega),
      hp1, hcb1, hv]
  · exact ⟨e01.1, e01.2.1, e01.2.2.1, e01.2.2.2⟩
  · intro t hb
    refine ⟨_, Runs.setToValue t c.d_pointer tmp (num % 256) hb, ?_, ?_⟩
    · rw [setCell_same, Nat.mod_mod]
    · intro a ha
      rw [setCell_other _ _ ha]

/-- `add(lhs, rhs)`: a fresh one-cell temporary that receives the sum of the
two operand cells modulo 256; no cell allocated before the call changes. -/
theorem Compiler.add_spec (c : Compiler) (lhs rhs : Int) (hr : c.Ready 1) (hl : c.Live lhs)
    (hrh : c.Live rhs) :
    ∃ ret code c1, add lhs rhs c = .ok (ret, c1) ∧ c.Ext c1 ∧
      c1.d_codeBuffer = c.d_codeBuffer ++ code ∧ c1.Live ret ∧ ¬ c.Live ret ∧
      Memory.sizeOf c1.typeMap c1.d_memory ret = .ok 1 ∧
      ∀ t, Bytes t → ∃ t1, Runs code ⟨t, c.d_pointer⟩ ⟨t1, c1.d_pointer⟩ ∧
        t1 ret = (t lhs + t rhs) % 256 ∧
        ∀ a, (c.Live a ∨ ¬ c1.Live a) → t1 a = t a := by
  obtain ⟨ret, c1, hal, hr0, e01, hp1, hcb1, hfresh, hlive, _, hsz⟩ :=
    Compiler.allocateTemp_spec c 1 (by norm_num) (by norm_num) hr
  have hfr : ¬ c.Live ret := by simpa using hfresh 0 (by norm_num)
  have hlv : c1.Live ret := by simpa using hlive 0 (by norm_num)
  obtain ⟨codeA, c2, hA, e12, hcb2, hp2, semA⟩ :=
    Compiler.bf_assign_spec c1 ret lhs (e01.ready hr) hlv (e01.live hl) (hl.ne hfr).symm
  have e02 := e01.trans e12
  obtain ⟨codeB, c3, hB, e23, hcb3, hp3, semB⟩ :=
    Compiler.bf_addTo_spec { c2 with d_pointer := ret } ret rhs (e02.ready hr) (e12.live hlv)
      (e02.live hrh)
  have e03 : c.Ext c3 := e02.trans e23
  have hB' := fun b => (Compiler.Oblivious.bf_addTo ret rhs).run hB b
  refine ⟨ret, codeA ++ codeB,
    { c3 with d_codeBuffer := c.d_codeBuffer ++ (codeA ++ codeB) }, ?_,
    ⟨e03.1, e03.2.1, e03.2.2.1, e03.2.2.2⟩, rfl, e23.live (e12.live hlv), hfr, ?_, ?_⟩
  · simp [add, hal, hA, hB', hp2, hcb2, hcb1]
  · have := (e12.trans e23).sizeOf hlv
    rw [hsz] at this
    exact this
  · intro t hb
    rw [hp1] at semA
    obtain ⟨t1, r1, v1, f1, _⟩ := semA t hb
    obtain ⟨t2, r2, v2, f2⟩ := semB t1 (r1.bytes hb)
    refine ⟨t2, ?_, ?_, ?_⟩
    · show Runs (codeA ++ codeB) ⟨t, c.d_pointer⟩ ⟨t2, c3.d_pointer⟩
      rw [hp3]
      exact r1.append r2
    · rw [v2, v1, f1 rhs (hrh.ne hfr) (Or.inl (e01.live hrh))]
    · intro a hla
      have ha : a ≠ ret := by
        rcases hla with h | h
        · exact h.ne hfr
        · exact fun e => h (e ▸ e23.live (e12.live hlv))
      rw [f2 a ha (Compiler.Ext.mid e02 (Compiler.Ext.refl c3) hla),
        f1 a ha (Compiler.Ext.mid e01 e23 hla)]

/-- `assign(lhs, rhs)` between two values of the same size `n` on disjoint
ranges of allocated cells: the call returns `lhs` and emits a cell-by-cell
copy. -/
theorem Compiler.assign_spec (c : Compiler) (lhs rhs : Int) (n : Nat) (hr : c.Ready 1)
    (hl0 : 0 ≤ lhs) (hr0 : 0 ≤ rhs)
    (hsl : Memory.sizeOf c.typeMap c.d_memory lhs = .ok n)
    (hsr : Memory.sizeOf c.typeMap c.d_memory rhs = .ok n)
    (hlive : ∀ j : Nat, j < n → c.Live (lhs + j) ∧ c.Live (rhs + j))
    (hdis : ∀ i j : Nat, i < n → j < n → lhs + i ≠ rhs + j) :
    ∃ code c1, assign lhs rhs c = .ok (lhs, c1) ∧ c.Ext c1 ∧
      c1.d_codeBuffer = c.d_codeBuffer ++ code ∧
      ∀ t, Bytes t → ∃ t1, Runs code ⟨t, c.d_pointer⟩ ⟨t1, c1.d_pointer⟩ ∧
        (∀ j : Nat, j < n → t1 (lhs + j) = t (rhs + j)) ∧
        (∀ a, (∀ j : Nat, j < n → a ≠ lhs + j) → (c.Live a ∨ ¬ c1.Live a) → t1 a = t a) := by
  obtain ⟨code, c1, h, e, hcb, sem⟩ := Compiler.bf_assignN_spec c lhs rhs n hr hl0 hr0 hlive hdis
  refine ⟨code, { c1 with d_codeBuffer := c.d_codeBuffer ++ code }, ?_,
    ⟨e.1, e.2.1, e.2.2.1, e.2.2.2⟩, rfl, ?_⟩
  · have hne : ¬ (n > 1 ∧ n = 1) := by omega
    simp [assign, Compiler.sizeOf, hsl, hsr, hne, h, hcb]
  · intro t hb
    obtain ⟨t1, r, v, f, _⟩ := sem t hb
    exact ⟨t1, r, v, f⟩

/-! ## The statement `x = a + b;` -/

/-- The text emitted for `assign(x, add(constVal(a), constVal(b)))`, with `x`
an allocated cell of size 1, leaves `x` holding `(a + b) % 256` on every tape
of bytes. -/
theorem Compiler.assignSum_spec (c : Compiler) (x : Int) (a b : Nat) (hr : c.Ready 1)
    (hx : c.Live x) (hsz : Memory.sizeOf c.typeMap c.d_memory x = .ok 1) :
    ∃ code c1, assignSum x a b c = .ok (x, c1) ∧ c1.d_codeBuffer = c.d_codeBuffer ++ code ∧
      ∀ t, Bytes t → ∃ t1, Runs code ⟨t, c.d_pointer⟩ ⟨t1, c1.d_pointer⟩ ∧
        t1 x = (a + b) % 256 := by
  obtain ⟨l, code1, c1, h1, e01, hcb1, l1, f1, _, sem1⟩ := Compiler.constVal_spec c a hr
  obtain ⟨r, code2, c2, h2, e12, hcb2, l2, f2, _, sem2⟩ :=
    Compiler.constVal_spec c1 b (e01.ready hr)
  have e02 := e01.trans e12
  obtain ⟨s, code3, c3, h3, e23, hcb3, l3, f3, hs3, sem3⟩ :=
    Compiler.add_spec c2 l r (e02.ready hr) (e12.live l1) l2
  have e03 := e02.trans e23
  have hxs : x ≠ s := (e02.live hx).ne f3
  obtain ⟨code4, c4, h4, e34, hcb4, sem4⟩ :=
    Compiler.assign_spec c3 x s 1 (e03.ready hr) hx.nonneg l3.nonneg
      (by rw [e03.sizeOf hx]; exact hsz) hs3
      (fun j hj => by
        have : j = 0 := by omega
        subst this
        simpa using And.intro (e03.live hx) l3)
      (fun i j hi hj => by
        have : i = 0 := by omega
        have : j = 0 := by omega
        subst_vars
        simpa using hxs)
  refine ⟨code1 ++ code2 ++ code3 ++ code4, c4, ?_, ?_, ?_⟩
  · simp [assignSum, h1, h2, h3, h4]
  · rw [hcb4, hcb3, hcb2, hcb1]
    simp [List.append_assoc]
  · intro t hb
    obtain ⟨t1, r1, v1, g1⟩ := sem1 t hb
    obtain ⟨t2, r2, v2, g2⟩ := sem2 t1 (r1.bytes hb)
    obtain ⟨t3, r3, v3, g3⟩ := sem3 t2 ((r1.append r2).bytes hb)
    obtain ⟨t4, r4, v4, _⟩ := sem4 t3 (((r1.append r2).append r3).bytes hb)
    refine ⟨t4, ((r1.append r2).append r3).append r4, ?_⟩
    have := v4 0 (by norm_num)
    simp only [Nat.cast_zero, add_zero] at this
    rw [this, v3, v2, g2 l (l1.ne f2), v1]
    omega

/-! ## The run-time addressing loops of `fetchElement` and `assignElement` -/

theorem mvCode_succ (a : Int) : mvCode a (a + 1) = ['>'] := by
  simp [mvCode]

theorem mvCode_pred (a : Int) : mvCode a (a - 1) = ['<'] := by
  simp [mvCode]

/-- Drain the cell at `a` into the cell at `b`, for any texts that move the
pointer from `a` to `b` and back. -/
theorem Runs.drain1G (a b : Int) (hab : a ≠ b) (go back : Code)
    (hgo : ∀ t, Runs go ⟨t, a⟩ ⟨t, b⟩) (hback : ∀ t, Runs back ⟨t, b⟩ ⟨t, a⟩)
    (t : Int → Nat) (ha : t a < 256) (hb : t b < 256) :
    Runs (loopC (['-'] ++ go ++ ['+'] ++ back)) ⟨t, a⟩
      ⟨setCell (setCell t b ((t b + t a) % 256)) a 0, a⟩ := by
  have hbal : Balanced (['-'] ++ go ++ ['+'] ++ back) :=
    (((Balanced.single (by decide) (by decide)).seq (hgo t).balanced).seq
      (Balanced.single (by decide) (by decide))).seq (hback t).balanced
  generalize hn : t a = n
  induction n using Nat.strong_induction_on generalizing t with
  | _ n ih =>
    subst hn
    by_cases hz : t a = 0
    · have e : setCell (setCell t b ((t b + t a) % 256)) a 0 = t := by
        funext x
        simp only [setCell]
        split_ifs with h1 h2
        · subst h1; exact hz.symm
        · subst h2; rw [hz]; omega
        · rfl
      rw [e]
      exact Runs.loop_skip hbal hz
    · have r1 := Runs.dec ⟨t, a⟩
      have r2 := hgo (setCell t a ((t a + 255) % 256))
      have r3 := Runs.inc ⟨setCell t a ((t a + 255) % 256), b⟩
      have r4 := hback (setCell (setCell t a ((t a + 255) % 256)) b
        ((setCell t a ((t a + 255) % 256) b + 1) % 256))
      have body := ((r1.append r2).append r3).append r4
      have hba : b ≠ a := fun h => hab h.symm
      rw [setCell_other _ _ hba] at body
      obtain ⟨t1, ht1⟩ : ∃ t1, t1 = setCell (setCell t a ((t a + 255) % 256)) b
          ((t b + 1) % 256) := ⟨_, rfl⟩
      rw [← ht1] at body
      have h1a : t1 a = t a - 1 := by
        rw [ht1, setCell_other _ _ hab, setCell_same]; omega
      have h1b : t1 b = (t b + 1) % 256 := by rw [ht1, setCell_same]
      have rest := ih (t a - 1) (by omega) t1 (by omega) (by rw [h1b]; omega) h1a
      have e : setCell (setCell t1 b ((t1 b + (t a - 1)) % 256)) a 0 =
          setCell (setCell t b ((t b + t a) % 256)) a 0 := by
        funext x
        simp only [setCell, h1b]
        split_ifs with h1 h2
        · rfl
        · omega
        · rw [ht1]; simp [setCell, h1, h2]
      rw [e] at rest
      exact Runs.loop_step hz body rest

/-- Drain the cell at `a` into the cells at `b` and `d`, for any texts that
move the pointer from `a` to `b`, from `b` to `d` and from `d` to `a`. -/
theorem Runs.drain2G (a b d : Int) (hab : a ≠ b) (had : a ≠ d) (hbd : b ≠ d)
    (go1 go2 back : Code) (hgo1 : ∀ t, Runs go1 ⟨t, a⟩ ⟨t, b⟩)
    (hgo2 : ∀ t, Runs go2 ⟨t, b⟩ ⟨t, d⟩) (hback : ∀ t, Runs back ⟨t, d⟩ ⟨t, a⟩)
    (t : Int → Nat) (ha : t a < 256) (hb : t b < 256) (hd : t d < 256) :
    Runs (loopC (['-'] ++ go1 ++ ['+'] ++ go2 ++ ['+'] ++ back)) ⟨t, a⟩
      ⟨setCell (setCell (setCell t b ((t b + t a) % 256)) d ((t d + t a) % 256)) a 0, a⟩ := by
  have hs : Balanced ['-'] := Balanced.single (by decide) (by decide)
  have hp : Balanced ['+'] := Balanced.single (by decide) (by decide)
  have hbal : Balanced (['-'] ++ go1 ++ ['+'] ++ go2 ++ ['+'] ++ back) :=
    (((((hs.seq (hgo1 t).balanced).seq hp).seq (hgo2 t).balanced).seq
      hp).seq (hback t).balanced)
  generalize hn : t a = n
  induction n using Nat.strong_induction_on generalizing t with
  | _ n ih =>
    subst hn
    by_cases hz : t a = 0
    · have e : setCell (setCell (setCell t b ((t b + t a) % 256)) d ((t d + t a) % 256)) a 0
          = t := by
        funext x
        simp only [setCell]
        split_ifs with h1 h2 h3
        · subst h1; exact hz.symm
        · subst h2; rw [hz]; omega
        · subst h3; rw [hz]; omega
        · rfl
      rw [e]
      exact Runs.loop_skip hbal hz
    · have hba : b ≠ a := fun h => hab h.symm
      have hda : d ≠ a := fun h => had h.symm
      have hdb : d ≠ b := fun h => hbd h.symm
      obtain ⟨t1, ht1⟩ : ∃ t1, t1 = setCell (setCell (setCell t a ((t a + 255) % 256)) b
          ((t b + 1) % 256)) d ((t d + 1) % 256) := ⟨_, rfl⟩
      have body : Runs (['-'] ++ go1 ++ ['+'] ++ go2 ++ ['+'] ++ back) ⟨t, a⟩ ⟨t1, a⟩ := by
        have r1 := Runs.dec ⟨t, a⟩
        have r2 := hgo1 (setCell t a ((t a + 255) % 256))
        have r3 := Runs.inc ⟨setCell t a ((t a + 255) % 256), b⟩
        have r4 := hgo2 (setCell (setCell t a ((t a + 255) % 256)) b
          ((setCell t a ((t a + 255) % 256) b + 1) % 256))
        have r5 := Runs.inc ⟨(setCell (setCell t a ((t a + 255) % 256)) b
          ((setCell t a ((t a + 255) % 256) b + 1) % 256)), d⟩
        have r6 := hback (setCell (setCell (setCell t a ((t a + 255) % 256)) b
          ((setCell t a ((t a + 255) % 256) b + 1) % 256)) d
          (((setCell (setCell t a ((t a + 255) % 256)) b
          ((setCell t a ((t a + 255) % 256) b + 1) % 256)) d + 1) % 256))
        have body := ((((r1.append r2).append r3).append r4).append r5).append r6
        simp only [setCell_other _ _ hba, setCell_other _ _ hda, setCell_other _ _ hdb] at body
        rw [ht1]
        exact body
      have h1a : t1 a = t a - 1 := by
        rw [ht1, setCell_other _ _ had, setCell_other _ _ hab, setCell_same]; omega
      have h1b : t1 b = (t b + 1) % 256 := by rw [ht1, setCell_other _ _ hbd, setCell_same]
      have h1d : t1 d = (t d + 1) % 256 := by rw [ht1, setCell_same]
      have rest := ih (t a - 1) (by omega) t1 (by omega) (by rw [h1b]; omega)
        (by rw [h1d]; omega) h1a
      have e : setCell (setCell (setCell t1 b ((t1 b + (t a - 1)) % 256)) d
            ((t1 d + (t a - 1)) % 256)) a 0
          = setCell (setCell (setCell t b ((t b + t a) % 256)) d ((t d + t a) % 256)) a 0 := by
        funext x
        simp only [setCell, h1b, h1d]
        split_ifs with h1 h2 h3
        · rfl
        · omega
        · omega
        · rw [ht1]; simp [setCell, h1, h2, h3]
      rw [e] at rest
      exact Runs.loop_step hz body rest

/-- The text `[->+<]` moves a cell into its right neighbour. -/
theorem Runs.shiftRight (a : Int) (t : Int → Nat) (ha : t a < 256) (hb : t (a + 1) < 256) :
    Runs (loopC ['-', '>', '+', '<']) ⟨t, a⟩
      ⟨setCell (setCell t (a + 1) ((t (a + 1) + t a) % 256)) a 0, a⟩ := by
  have h := Runs.drain1 a (a + 1) (by omega) t ha hb
  rw [mvCode_succ] at h
  have e : mvCode (a + 1) a = ['<'] := by
    have := mvCode_pred (a + 1)
    rwa [show a + 1 - 1 = a by ring] at this
  rw [e] at h
  exact h

/-- The text `[-<+>]` moves a cell into its left neighbour. -/
theorem Runs.shiftLeft (a : Int) (t : Int → Nat) (ha : t a < 256) (hb : t (a - 1) < 256) :
    Runs (loopC ['-', '<', '+', '>']) ⟨t, a⟩
      ⟨setCell (setCell t (a - 1) ((t (a - 1) + t a) % 256)) a 0, a⟩ := by
  have h := Runs.drain1 a (a - 1) (by omega) t ha hb
  rw [mvCode_pred] at h
  have e : mvCode (a - 1) a = ['>'] := by
    have := mvCode_succ (a - 1)
    rwa [show a - 1 + 1 = a by ring] at this
  rw [e] at h
  exact h

/-- One round of `dynamicMoveRight` of `fetchElement`: the counter and the
copy behind it move one cell to the right, the counter decremented. -/
theorem Runs.dynRight2_body (p : Int) (t : Int → Nat) (hb : Bytes t) (hnz : t p ≠ 0)
    (hz : t (p + 2) = 0) :
    ∃ t1, Runs (['>'] ++ loopC ['-', '>', '+', '<'] ++ ['<'] ++ loopC ['-', '>', '+', '<'] ++
        ['>'] ++ ['-']) ⟨t, p⟩ ⟨t1, p + 1⟩ ∧
      t1 p = 0 ∧ t1 (p + 1) = t p - 1 ∧ t1 (p + 2) = t (p + 1) ∧
      ∀ a, a ≠ p → a ≠ p + 1 → a ≠ p + 2 → t1 a = t a := by
  have r1 := Runs.right ⟨t, p⟩
  have r2 := Runs.shiftRight (p + 1) t (hb _) (hb _)
  obtain ⟨u, hu⟩ : ∃ u, u = setCell (setCell t (p + 1 + 1) ((t (p + 1 + 1) + t (p + 1)) % 256))
    (p + 1) 0 := ⟨_, rfl⟩
  rw [← hu] at r2
  have hbu : Bytes u := (r1.append r2).bytes hb
  have r3 := Runs.left ⟨u, p + 1⟩
  have r4 := Runs.shiftRight p u (hbu _) (hbu _)
  obtain ⟨w, hw⟩ : ∃ w, w = setCell (setCell u (p + 1) ((u (p + 1) + u p) % 256)) p 0 :=
    ⟨_, rfl⟩
  rw [← hw] at r4
  have r5 := Runs.right ⟨w, p⟩
  have r6 := Runs.dec ⟨w, p + 1⟩
  have e3 : ((⟨u, p + 1⟩ : Machine).ptr - 1) = p := by simp
  rw [e3] at r3
  have hchain := ((((r1.append r2).append r3).append r4).append r5).append r6
  have h11 : p + 1 + 1 = p + 2 := by ring
  have hup : u p = t p := by
    rw [hu, setCell_other _ _ (by omega), setCell_other _ _ (by omega)]
  have hu1 : u (p + 1) = 0 := by rw [hu, setCell_same]
  have hu2 : u (p + 2) = t (p + 1) := by
    rw [hu, h11, hz, setCell_other _ _ (by omega), setCell_same, Nat.zero_add,
      Nat.mod_eq_of_lt (hb (p + 1))]
  have hw1 : w (p + 1) = t p := by
    rw [hw, hu1, hup, setCell_other _ _ (by omega), setCell_same, Nat.zero_add,
      Nat.mod_eq_of_lt (hb p)]
  have hp := hb p
  refine ⟨_, hchain, ?_, ?_, ?_, ?_⟩
  · show setCell w (p + 1) _ p = 0
    rw [setCell_other _ _ (by omega), hw, setCell_same]
  · show setCell w (p + 1) _ (p + 1) = _
    rw [setCell_same]
    show (w (p + 1) + 255) % 256 = _
    rw [hw1]; omega
  · show setCell w (p + 1) _ (p + 2) = _
    rw [setCell_other _ _ (by omega), hw, setCell_other _ _ (by omega),
      setCell_other _ _ (by omega), hu2]
  · intro a h1 h2 h3
    show setCell w (p + 1) _ a = _
    rw [setCell_other _ _ h2, hw, setCell_other _ _ h1, setCell_other _ _ h2, hu,
      setCell_other _ _ h2, setCell_other _ _ (by omega)]

/-- The loop `dynamicMoveRight` of `fetchElement`: with the counter `m` under the
pointer and zeros in the cells it will cross, the pointer ends `m` cells to
the right, the cell behind the counter carried along. -/
theorem Runs.dynRight2 (m : Nat) : ∀ (p : Int) (t : Int → Nat), Bytes t → t p = m →
    (∀ j : Nat, 2 ≤ j → j ≤ m + 1 → t (p + j) = 0) →
    ∃ t1, Runs "[>[->+<]<[->+<]>-]".toList ⟨t, p⟩ ⟨t1, p + m⟩ ∧
      t1 (p + m) = 0 ∧ t1 (p + m + 1) = t (p + 1) ∧ (∀ j : Nat, j < m → t1 (p + j) = 0) ∧
      ∀ a, (a < p ∨ p + m + 1 < a) → t1 a = t a := by
  have hcode : "[>[->+<]<[->+<]>-]".toList = loopC (['>'] ++ loopC ['-', '>', '+', '<'] ++
      ['<'] ++ loopC ['-', '>', '+', '<'] ++ ['>'] ++ ['-']) := by rfl
  rw [hcode]
  induction m with
  | zero =>
    intro p t hb h0 _
    refine ⟨t, ?_, ?_, ?_, ?_, ?_⟩
    · have hbal : Balanced (['>'] ++ loopC ['-', '>', '+', '<'] ++
          ['<'] ++ loopC ['-', '>', '+', '<'] ++ ['>'] ++ ['-']) := by
        unfold Balanced; rfl
      simpa using Runs.loop_skip (s := ⟨t, p⟩) hbal (by simpa using h0)
    · simpa using h0
    · simp
    · intro j hj; omega
    · intro a _; rfl
  | succ m ih =>
    intro p t hb h0 hz
    have hnz : t p ≠ 0 := by rw [h0]; omega
    obtain ⟨u, hbody, hup, hu1, hu2, hfr⟩ :=
      Runs.dynRight2_body p t hb hnz (by simpa using hz 2 (by omega) (by omega))
    have hbu : Bytes u := hbody.bytes hb
    obtain ⟨t1, hrest, h1, h2, h3, h4⟩ := ih (p + 1) u hbu (by rw [hu1, h0]; simp) (by
      intro j hj1 hj2
      have := hz (j + 1) (by omega) (by omega)
      rw [hfr _ (by omega) (by omega) (by omega)]
      rw [← this]; congr 1; push_cast; ring)
    have e1 : p + ((m + 1 : Nat) : Int) = p + 1 + m := by push_cast; ring
    refine ⟨t1, ?_, ?_, ?_, ?_, ?_⟩
    · rw [e1]
      exact Runs.loop_step (by simpa using hnz) hbody hrest
    · rw [e1]; exact h1
    · rw [e1, h2]
      rw [show p + 1 + 1 = p + 2 by ring]; exact hu2
    · intro j hj
      rcases Nat.eq_zero_or_pos j with h | h
      · subst h
        rw [h4 _ (Or.inl (by simp))]
        simpa using hup
      · have := h3 (j - 1) (by omega)
        rw [← this]; congr 1
        have : ((j - 1 : Nat) : Int) = (j : Int) - 1 := by omega
        rw [this]; ring
    · intro a ha
      rw [h4 a (by rcases ha with h | h; · left; omega
                   · right; push_cast at h; omega)]
      apply hfr <;> rcases ha with h | h <;> push_cast at h <;> omega

/-- One round of `dynamicMoveLeft` of `fetchElement`: the counter and the value
in front of it move one cell to the left, the counter decremented. -/
theorem Runs.dynLeft2_body (q : Int) (t : Int → Nat) (hb : Bytes t) (hnz : t q ≠ 0)
    (hz : t (q - 2) = 0) :
    ∃ t1, Runs (['<'] ++ loopC ['-', '<', '+', '>'] ++ ['>'] ++ loopC ['-', '<', '+', '>'] ++
        ['<'] ++ ['-']) ⟨t, q⟩ ⟨t1, q - 1⟩ ∧
      t1 q = 0 ∧ t1 (q - 1) = t q - 1 ∧ t1 (q - 2) = t (q - 1) ∧
      ∀ a, a ≠ q → a ≠ q - 1 → a ≠ q - 2 → t1 a = t a := by
  have r1 := Runs.left ⟨t, q⟩
  have r2 := Runs.shiftLeft (q - 1) t (hb _) (hb _)
  obtain ⟨u, hu⟩ : ∃ u, u = setCell (setCell t (q - 1 - 1) ((t (q - 1 - 1) + t (q - 1)) % 256))
    (q - 1) 0 := ⟨_, rfl⟩
  rw [← hu] at r2
  have hbu : Bytes u := (r1.append r2).bytes hb
  have r3 := Runs.right ⟨u, q - 1⟩
  have r4 := Runs.shiftLeft q u (hbu _) (hbu _)
  obtain ⟨w, hw⟩ : ∃ w, w = setCell (setCell u (q - 1) ((u (q - 1) + u q) % 256)) q 0 :=
    ⟨_, rfl⟩
  rw [← hw] at r4
  have r5 := Runs.left ⟨w, q⟩
  have r6 := Runs.dec ⟨w, q - 1⟩
  have e3 : ((⟨u, q - 1⟩ : Machine).ptr + 1) = q := by simp
  rw [e3] at r3
  have hchain := ((((r1.append r2).append r3).append r4).append r5).append r6
  have h11 : q - 1 - 1 = q - 2 := by ring
  have hup : u q = t q := by
    rw [hu, setCell_other _ _ (by omega), setCell_other _ _ (by omega)]
  have hu1 : u (q - 1) = 0 := by rw [hu, setCell_same]
  have hu2 : u (q - 2) = t (q - 1) := by
    rw [hu, h11, hz, setCell_other _ _ (by omega), setCell_same, Nat.zero_add,
      Nat.mod_eq_of_lt (hb (q - 1))]
  have hw1 : w (q - 1) = t q := by
    rw [hw, hu1, hup, setCell_other _ _ (by omega), setCell_same, Nat.zero_add,
      Nat.mod_eq_of_lt (hb q)]
  have hp := hb q
  refine ⟨_, hchain, ?_, ?_, ?_, ?_⟩
  · show setCell w (q - 1) _ q = 0
    rw [setCell_other _ _ (by omega), hw, setCell_same]
  · show setCell w (q - 1) _ (q - 1) = _
    rw [setCell_same]
    show (w (q - 1) + 255) % 256 = _
    rw [hw1]; omega
  · show setCell w (q - 1) _ (q - 2) = _
    rw [setCell_other _ _ (by omega), hw, setCell_other _ _ (by omega),
      setCell_other _ _ (by omega), hu2]
  · intro a h1 h2 h3
    show setCell w (q - 1) _ a = _
    rw [setCell_other _ _ h2, hw, setCell_other _ _ h1, setCell_other _ _ h2, hu,
      setCell_other _ _ h2, setCell_other _ _ (by omega)]

/-- The loop of `dynamicMoveLeft` of `fetchElement`, without its final `<`. -/
theorem Runs.dynLeft2 (m : Nat) : ∀ (q : Int) (t : Int → Nat), Bytes t → t q = m →
    (∀ j : Nat, 2 ≤ j → j ≤ m + 1 → t (q - j) = 0) →
    ∃ t1, Runs (loopC (['<'] ++ loopC ['-', '<', '+', '>'] ++ ['>'] ++
        loopC ['-', '<', '+', '>'] ++ ['<'] ++ ['-'])) ⟨t, q⟩ ⟨t1, q - m⟩ ∧
      t1 (q - m) = 0 ∧ t1 (q - m - 1) = t (q - 1) ∧ (∀ j : Nat, j < m → t1 (q - j) = 0) ∧
      ∀ a, (a < q - m - 1 ∨ q < a) → t1 a = t a := by
  induction m with
  | zero =>
    intro q t hb h0 _
    refine ⟨t, ?_, ?_, ?_, ?_, ?_⟩
    · have hbal : Balanced (['<'] ++ loopC ['-', '<', '+', '>'] ++ ['>'] ++
          loopC ['-', '<', '+', '>'] ++ ['<'] ++ ['-']) := by
        unfold Balanced; rfl
      simpa using Runs.loop_skip (s := ⟨t, q⟩) hbal (by simpa using h0)
    · simpa using h0
    · simp
    · intro j hj; omega
    · intro a _; rfl
  | succ m ih =>
    intro q t hb h0 hz
    have hnz : t q ≠ 0 := by rw [h0]; omega
    obtain ⟨u, hbody, hup, hu1, hu2, hfr⟩ :=
      Runs.dynLeft2_body q t hb hnz (by simpa using hz 2 (by omega) (by omega))
    have hbu : Bytes u := hbody.bytes hb
    obtain ⟨t1, hrest, h1, h2, h3, h4⟩ := ih (q - 1) u hbu (by rw [hu1, h0]; simp) (by
      intro j hj1 hj2
      have := hz (j + 1) (by omega) (by omega)
      rw [hfr _ (by omega) (by omega) (by omega)]
      rw [← this]; congr 1; push_cast; ring)
    have e1 : q - ((m + 1 : Nat) : Int) = q - 1 - m := by push_cast; ring
    refine ⟨t1, ?_, ?_, ?_, ?_, ?_⟩
    · rw [e1]
      exact Runs.loop_step (by simpa using hnz) hbody hrest
    · rw [e1]; exact h1
    · rw [e1, h2]
      rw [show q - 1 - 1 = q - 2 by ring]; exact hu2
    · intro j hj
      rcases Nat.eq_zero_or_pos j with h | h
      · subst h
        rw [h4 _ (Or.inr (by simp))]
        simpa using hup
      · have := h3 (j - 1) (by omega)
        rw [← this]; congr 1
        have : ((j - 1 : Nat) : Int) = (j : Int) - 1 := by omega
        rw [this]; ring
    · intro a ha
      rw [h4 a (by rcases ha with h | h; · left; push_cast at h; omega
                   · right; omega)]
      apply hfr <;> rcases ha with h | h <;> push_cast at h <;> omega

/-- One round of `dynamicMoveRight` of `assignElement`: the counter, its copy and
the value move one cell to the right, the counter decremented. -/
theorem Runs.dynRight3_body (p : Int) (t : Int → Nat) (hb : Bytes t) (hnz : t p ≠ 0)
    (hz : t (p + 3) = 0) :
    ∃ t1, Runs (['>', '>'] ++ loopC ['-', '>', '+', '<'] ++ ['<'] ++
        loopC ['-', '>', '+', '<'] ++ ['<'] ++ loopC ['-', '>', '+', '<'] ++
        ['>'] ++ ['-']) ⟨t, p⟩ ⟨t1, p + 1⟩ ∧
      t1 p = 0 ∧ t1 (p + 1) = t p - 1 ∧ t1 (p + 2) = t (p + 1) ∧ t1 (p + 3) = t (p + 2) ∧
      ∀ a, a ≠ p → a ≠ p + 1 → a ≠ p + 2 → a ≠ p + 3 → t1 a = t a := by
  have r0 : Runs ['>', '>'] ⟨t, p⟩ ⟨t, p + 2⟩ := by
    have := (Runs.right ⟨t, p⟩).append (Runs.right ⟨t, p + 1⟩)
    simpa [show p + 1 + 1 = p + 2 by ring] using this
  have r1 := Runs.shiftRight (p + 2) t (hb _) (hb _)
  obtain ⟨v, hv⟩ : ∃ v, v = setCell (setCell t (p + 2 + 1) ((t (p + 2 + 1) + t (p + 2)) % 256))
    (p + 2) 0 := ⟨_, rfl⟩
  rw [← hv] at r1
  have hbv : Bytes v := (r0.append r1).bytes hb
  have r1b : Runs ['<'] ⟨v, p + 2⟩ ⟨v, p + 1⟩ := by
    simpa [show p + 2 - 1 = p + 1 by ring] using Runs.left ⟨v, p + 2⟩
  have r2 := Runs.shiftRight (p + 1) v (hbv _) (hbv _)
  obtain ⟨u, hu⟩ : ∃ u, u = setCell (setCell v (p + 1 + 1) ((v (p + 1 + 1) + v (p + 1)) % 256))
    (p + 1) 0 := ⟨_, rfl⟩
  rw [← hu] at r2
  have hbu : Bytes u := r2.bytes hbv
  have r3 : Runs ['<'] ⟨u, p + 1⟩ ⟨u, p⟩ := by
    simpa using Runs.left ⟨u, p + 1⟩
  have r4 := Runs.shiftRight p u (hbu _) (hbu _)
  obtain ⟨w, hw⟩ : ∃ w, w = setCell (setCell u (p + 1) ((u (p + 1) + u p) % 256)) p 0 :=
    ⟨_, rfl⟩
  rw [← hw] at r4
  have r5 : Runs ['>'] ⟨w, p⟩ ⟨w, p + 1⟩ := Runs.right ⟨w, p⟩
  have r6 := Runs.dec ⟨w, p + 1⟩
  have hchain := ((((((r0.append r1).append r1b).append r2).append r3).append r4).append
    r5).append r6
  have h21 : p + 2 + 1 = p + 3 := by ring
  have h11 : p + 1 + 1 = p + 2 := by ring
  have hv0 : v p = t p := by
    rw [hv, setCell_other _ _ (by omega), setCell_other _ _ (by omega)]
  have hv1 : v (p + 1) = t (p + 1) := by
    rw [hv, setCell_other _ _ (by omega), setCell_other _ _ (by omega)]
  have hv2 : v (p + 2) = 0 := by rw [hv, setCell_same]
  have hv3 : v (p + 3) = t (p + 2) := by
    rw [hv, h21, hz, setCell_other _ _ (by omega), setCell_same, Nat.zero_add,
      Nat.mod_eq_of_lt (hb (p + 2))]
  have hu0 : u p = t p := by
    rw [hu, setCell_other _ _ (by omega), setCell_other _ _ (by omega), hv0]
  have hu1 : u (p + 1) = 0 := by rw [hu, setCell_same]
  have hu2 : u (p + 2) = t (p + 1) := by
    rw [hu, h11, hv2, hv1, setCell_other _ _ (by omega), setCell_same, Nat.zero_add,
      Nat.mod_eq_of_lt (hb (p + 1))]
  have hu3 : u (p + 3) = t (p + 2) := by
    rw [hu, setCell_other _ _ (by omega), setCell_other _ _ (by omega), hv3]
  have hw1 : w (p + 1) = t p := by
    rw [hw, hu1, hu0, setCell_other _ _ (by omega), setCell_same, Nat.zero_add,
      Nat.mod_eq_of_lt (hb p)]
  have hp := hb p
  refine ⟨_, hchain, ?_, ?_, ?_, ?_, ?_⟩
  · show setCell w (p + 1) _ p = 0
    rw [setCell_other _ _ (by omega), hw, setCell_same]
  · show setCell w (p + 1) _ (p + 1) = _
    rw [setCell_same]
    show (w (p + 1) + 255) % 256 = _
    rw [hw1]; omega
  · show setCell w (p + 1) _ (p + 2) = _
    rw [setCell_other _ _ (by omega), hw, setCell_other _ _ (by omega),
      setCell_other _ _ (by omega), hu2]
  · show setCell w (p + 1) _ (p + 3) = _
    rw [setCell_other _ _ (by omega), hw, setCell_other _ _ (by omega),
      setCell_other _ _ (by omega), hu3]
  · intro a h1 h2 h3 h4
    show setCell w (p + 1) _ a = _
    rw [setCell_other _ _ h2, hw, setCell_other _ _ h1, setCell_other _ _ h2, hu,
      setCell_other _ _ h2, setCell_other _ _ (by omega), hv, setCell_other _ _ h3,
      setCell_other _ _ (by omega)]

/-- The loop `dynamicMoveRight` of `assignElement`. -/
theorem Runs.dynRight3 (m : Nat) : ∀ (p : Int) (t : Int → Nat), Bytes t → t p = m →
    (∀ j : Nat, 3 ≤ j → j ≤ m + 2 → t (p + j) = 0) →
    ∃ t1, Runs "[>>[->+<]<[->+<]<[->+<]>-]".toList ⟨t, p⟩ ⟨t1, p + m⟩ ∧
      t1 (p + m) = 0 ∧ t1 (p + m + 1) = t (p + 1) ∧ t1 (p + m + 2) = t (p + 2) ∧
      (∀ j : Nat, j < m → t1 (p + j) = 0) ∧
      ∀ a, (a < p ∨ p + m + 2 < a) → t1 a = t a := by
  have hcode : "[>>[->+<]<[->+<]<[->+<]>-]".toList = loopC (['>', '>'] ++
      loopC ['-', '>', '+', '<'] ++ ['<'] ++ loopC ['-', '>', '+', '<'] ++ ['<'] ++
      loopC ['-', '>', '+', '<'] ++ ['>'] ++ ['-']) := by rfl
  rw [hcode]
  induction m with
  | zero =>
    intro p t hb h0 _
    refine ⟨t, ?_, ?_, ?_, ?_, ?_, ?_⟩
    · have hbal : Balanced (['>', '>'] ++
          loopC ['-', '>', '+', '<'] ++ ['<'] ++ loopC ['-', '>', '+', '<'] ++ ['<'] ++
          loopC ['-', '>', '+', '<'] ++ ['>'] ++ ['-']) := by
        unfold Balanced; rfl
      simpa using Runs.loop_skip (s := ⟨t, p⟩) hbal (by simpa using h0)
    · simpa using h0
    · simp
    · simp
    · intro j hj; omega
    · intro a _; rfl
  | succ m ih =>
    intro p t hb h0 hz
    have hnz : t p ≠ 0 := by rw [h0]; omega
    obtain ⟨u, hbody, hup, hu1, hu2, hu3, hfr⟩ :=
      Runs.dynRight3_body p t hb hnz (by simpa using hz 3 (by omega) (by omega))
    have hbu : Bytes u := hbody.bytes hb
    obtain ⟨t1, hrest, h1, h2, h2b, h3, h4⟩ := ih (p + 1) u hbu (by rw [hu1, h0]; simp) (by
      intro j hj1 hj2
      have := hz (j + 1) (by omega) (by omega)
      rw [hfr _ (by omega) (by omega) (by omega) (by omega)]
      rw [← this]; congr 1; push_cast; ring)
    have e1 : p + ((m + 1 : Nat) : Int) = p + 1 + m := by push_cast; ring
    refine ⟨t1, ?_, ?_, ?_, ?_, ?_, ?_⟩
    · rw [e1]
      exact Runs.loop_step (by simpa using hnz) hbody hrest
    · rw [e1]; exact h1
    · rw [e1, h2]
      rw [show p + 1 + 1 = p + 2 by ring]; exact hu2
    · rw [e1, h2b]
      rw [show p + 1 + 2 = p + 3 by ring]; exact hu3
    · intro j hj
      rcases Nat.eq_zero_or_pos j with h | h
      · subst h
        rw [h4 _ (Or.inl (by simp))]
        simpa using hup
      · have := h3 (j - 1) (by omega)
        rw [← this]; congr 1
        have : ((j - 1 : Nat) : Int) = (j : Int) - 1 := by omega
        rw [this]; ring
    · intro a ha
      rw [h4 a (by rcases ha with h | h; · left; omega
                   · right; push_cast at h; omega)]
      apply hfr <;> rcases ha with h | h <;> push_cast at h <;> omega

/-- The loop of `dynamicMoveLeft` of `assignElement`, without its final `<`. -/
theorem Runs.dynLeft1 (m : Nat) : ∀ (q : Int) (t : Int → Nat), Bytes t → t q = m →
    (∀ j : Nat, 1 ≤ j → j ≤ m → t (q - j) = 0) →
    ∃ t1, Runs (loopC (loopC ['-', '<', '+', '>'] ++ ['<'] ++ ['-'])) ⟨t, q⟩ ⟨t1, q - m⟩ ∧
      (∀ j : Nat, j ≤ m → t1 (q - j) = 0) ∧
      ∀ a, (a < q - m ∨ q < a) → t1 a = t a := by
  induction m with
  | zero =>
    intro q t hb h0 _
    refine ⟨t, ?_, ?_, ?_⟩
    · have hbal : Balanced (loopC ['-', '<', '+', '>'] ++ ['<'] ++ ['-']) := by
        unfold Balanced; rfl
      simpa using Runs.loop_skip (s := ⟨t, q⟩) hbal (by simpa using h0)
    · intro j hj
      have : j = 0 := by omega
      subst this; simpa using h0
    · intro a _; rfl
  | succ m ih =>
    intro q t hb h0 hz
    have hnz : t q ≠ 0 := by rw [h0]; omega
    have hz1 : t (q - 1) = 0 := by simpa using hz 1 (by omega) (by omega)
    have r1 := Runs.shiftLeft q t (hb _) (hb _)
    obtain ⟨u, hu⟩ : ∃ u, u = setCell (setCell t (q - 1) ((t (q - 1) + t q) % 256)) q 0 :=
      ⟨_, rfl⟩
    rw [← hu] at r1
    have r2 : Runs ['<'] ⟨u, q⟩ ⟨u, q - 1⟩ := Runs.left ⟨u, q⟩
    have r3 : Runs ['-'] ⟨u, q - 1⟩ ⟨setCell u (q - 1) ((u (q - 1) + 255) % 256), q - 1⟩ :=
      Runs.dec ⟨u, q - 1⟩
    have hbody := (r1.append r2).append r3
    have hbw : Bytes (setCell u (q - 1) ((u (q - 1) + 255) % 256)) := hbody.bytes hb
    have hq := hb q
    have hu1 : u (q - 1) = m + 1 := by
      rw [hu, setCell_other _ _ (by omega), setCell_same, hz1, h0]; omega
    obtain ⟨t1, hrest, h3, h4⟩ := ih (q - 1) _ hbw (by
      rw [setCell_same, hu1]; omega) (by
      intro j hj1 hj2
      have := hz (j + 1) (by omega) (by omega)
      rw [setCell_other _ _ (by omega), hu, setCell_other _ _ (by omega),
        setCell_other _ _ (by omega), ← this]
      congr 1; push_cast; ring)
    have e1 : q - ((m + 1 : Nat) : Int) = q - 1 - m := by push_cast; ring
    refine ⟨t1, ?_, ?_, ?_⟩
    · rw [e1]
      exact Runs.loop_step (by simpa using hnz) hbody hrest
    · intro j hj
      rcases Nat.eq_zero_or_pos j with h | h
      · subst h
        simp only [Nat.cast_zero, sub_zero]
        rw [h4 _ (Or.inr (by omega)), setCell_other _ _ (by omega), hu, setCell_same]
      · have := h3 (j - 1) (by omega)
        rw [← this]; congr 1
        have : ((j - 1 : Nat) : Int) = (j : Int) - 1 := by omega
        rw [this]; ring
    · intro a ha
      rw [h4 a (by rcases ha with h | h; · left; push_cast at h; omega
                   · right; omega)]
      have h1 : a ≠ q - 1 := by rcases ha with h | h <;> push_cast at h <;> omega
      have h2 : a ≠ q := by rcases ha with h | h <;> push_cast at h <;> omega
      rw [setCell_other _ _ h1, hu, setCell_other _ _ h2, setCell_other _ _ h1]

theorem setCell_apply (t : Int → Nat) (p : Int) (v : Nat) (a : Int) :
    setCell t p v a = if a = p then v else t a := rfl

theorem Runs.right2 (t : Int → Nat) (p : Int) : Runs ['>', '>'] ⟨t, p⟩ ⟨t, p + 2⟩ := by
  have := (Runs.right ⟨t, p⟩).append (Runs.right ⟨t, p + 1⟩)
  simpa [show p + 1 + 1 = p + 2 by ring] using this

theorem Runs.left2 (t : Int → Nat) (p : Int) : Runs ['<', '<'] ⟨t, p⟩ ⟨t, p - 2⟩ := by
  have := (Runs.left ⟨t, p⟩).append (Runs.left ⟨t, p - 1⟩)
  simpa [show p - 1 - 1 = p - 2 by ring] using this

/-- The run-time part of `fetchElement`: started on the buffer holding the
index twice and zeros behind, it copies the indexed element into the first
buffer cell, restores the element and clears the rest of the buffer. -/
theorem Runs.fetch_dyn (arr buf : Int) (sz i : Nat) (hi : i < sz)
    (hdisj : ∀ j : Nat, j < sz + 2 → arr + i ≠ buf + j) (go back : Code)
    (hgo : ∀ t p, Runs go ⟨t, p⟩ ⟨t, p + (buf - arr)⟩)
    (hback : ∀ t p, Runs back ⟨t, p⟩ ⟨t, p - (buf - arr)⟩)
    (t : Int → Nat) (hb : Bytes t) (h0 : t buf = i) (h1 : t (buf + 1) = i)
    (hz : ∀ j : Nat, 2 ≤ j → j < sz + 2 → t (buf + j) = 0) :
    ∃ t1, Runs ("[>[->+<]<[->+<]>-]".toList ++ back ++
        loopC (['-'] ++ (go ++ ['>', '>']) ++ ['+'] ++ (['<', '<'] ++ back)) ++ go ++
        ['>', '>'] ++ loopC (['-'] ++ ['<', '<'] ++ ['+'] ++ back ++ ['+'] ++
        (go ++ ['>', '>'])) ++ ['<'] ++ "[<[-<+>]>[-<+>]<-]<".toList) ⟨t, buf⟩ ⟨t1, buf⟩ ∧
      t1 buf = t (arr + i) ∧ (∀ j : Nat, 1 ≤ j → j < sz + 2 → t1 (buf + j) = 0) ∧
      ∀ a, (∀ j : Nat, j < sz + 2 → a ≠ buf + j) → t1 a = t a := by
  have hout : ∀ a, (∀ j : Nat, j < sz + 2 → a ≠ buf + j) → a < buf ∨ buf + sz + 1 < a := by
    intro a h
    by_contra hc
    push_neg at hc
    exact h (a - buf).toNat (by omega) (by omega)
  have hA := hout _ hdisj
  obtain ⟨ta, ra, a0, a1, az, af⟩ := Runs.dynRight2 i buf t hb h0
    (fun j h2 h3 => hz j h2 (by omega))
  have hba : Bytes ta := ra.bytes hb
  have hback1 : ∀ u, Runs back ⟨u, buf + i⟩ ⟨u, arr + i⟩ := by
    intro u
    have := hback u (buf + i)
    rwa [show buf + i - (buf - arr) = arr + i by ring] at this
  have hgo1 : ∀ u, Runs go ⟨u, arr + i⟩ ⟨u, buf + i⟩ := by
    intro u
    have := hgo u (arr + i)
    rwa [show arr + i + (buf - arr) = buf + i by ring] at this
  have hgo2 : ∀ u, Runs (go ++ ['>', '>']) ⟨u, arr + i⟩ ⟨u, buf + i + 2⟩ := fun u =>
    (hgo1 u).append (Runs.right2 u (buf + i))
  have hll : ∀ u, Runs ['<', '<'] ⟨u, buf + i + 2⟩ ⟨u, buf + i⟩ := by
    intro u
    have := Runs.left2 u (buf + i + 2)
    rwa [show buf + i + 2 - 2 = buf + i by ring] at this
  have hback2 : ∀ u, Runs (['<', '<'] ++ back) ⟨u, buf + i + 2⟩ ⟨u, arr + i⟩ := fun u =>
    (hll u).append (hback1 u)
  have hAB : arr + i ≠ buf + i + 2 := by
    have := hdisj (i + 2) (by omega)
    push_cast at this
    omega
  have hAC : arr + i ≠ buf + i := hdisj i (by omega)
  have r3 := Runs.drain1G (arr + i) (buf + i + 2) hAB _ _ hgo2 hback2 ta (hba _) (hba _)
  obtain ⟨tb, htb⟩ : ∃ tb, tb = setCell (setCell ta (buf + i + 2)
    ((ta (buf + i + 2) + ta (arr + i)) % 256)) (arr + i) 0 := ⟨_, rfl⟩
  rw [← htb] at r3
  have hbb : Bytes tb := r3.bytes hba
  have r4 := hgo2 tb
  have r5 := Runs.drain2G (buf + i + 2) (buf + i) (arr + i) (by omega) hAB.symm hAC.symm
    ['<', '<'] back (go ++ ['>', '>']) hll hback1 hgo2 tb (hbb _) (hbb _) (hbb _)
  obtain ⟨tc, htc⟩ : ∃ tc, tc = setCell (setCell (setCell tb (buf + i)
    ((tb (buf + i) + tb (buf + i + 2)) % 256)) (arr + i)
    ((tb (arr + i) + tb (buf + i + 2)) % 256)) (buf + i + 2) 0 := ⟨_, rfl⟩
  rw [← htc] at r5
  have hbc : Bytes tc := r5.bytes hbb
  have r6 : Runs ['<'] ⟨tc, buf + i + 2⟩ ⟨tc, buf + i + 1⟩ := by
    have := Runs.left ⟨tc, buf + i + 2⟩
    simpa [show buf + i + 2 - 1 = buf + i + 1 by ring] using this
  -- the tape after the first three phases
  have ta_arr : ta (arr + i) = t (arr + i) := af _ (by omega)
  have ta_hi : ∀ j : Nat, i + 2 ≤ j → j < sz + 2 → ta (buf + j) = 0 := by
    intro j h2 h3
    rw [af _ (Or.inr (by omega))]
    exact hz j (by omega) h3
  have ta_i2 : ta (buf + i + 2) = 0 := by
    have := ta_hi (i + 2) (by omega) (by omega)
    rw [← this]; congr 1; push_cast; ring
  have hv := hb (arr + i)
  have tb_i2 : tb (buf + i + 2) = t (arr + i) := by
    rw [htb, setCell_other _ _ hAB.symm, setCell_same, ta_i2, ta_arr, Nat.zero_add,
      Nat.mod_eq_of_lt hv]
  have tb_arr : tb (arr + i) = 0 := by rw [htb, setCell_same]
  have tb_i : tb (buf + i) = 0 := by
    rw [htb, setCell_other _ _ hAC.symm, setCell_other _ _ (by omega), a0]
  have tc_i : tc (buf + i) = t (arr + i) := by
    rw [htc, setCell_other _ _ (by omega), setCell_other _ _ hAC.symm, setCell_same, tb_i,
      tb_i2, Nat.zero_add, Nat.mod_eq_of_lt hv]
  have tc_arr : tc (arr + i) = t (arr + i) := by
    rw [htc, setCell_other _ _ hAB, setCell_same, tb_arr, tb_i2, Nat.zero_add,
      Nat.mod_eq_of_lt hv]
  have tc_i2 : tc (buf + i + 2) = 0 := by rw [htc, setCell_same]
  have tc_other : ∀ a, a ≠ buf + i → a ≠ arr + i → a ≠ buf + i + 2 → tc a = ta a := by
    intro a h1 h2 h3
    rw [htc, setCell_other _ _ h3, setCell_other _ _ h2, setCell_other _ _ h1, htb,
      setCell_other _ _ h2, setCell_other _ _ h3]
  have hAD : arr + i ≠ buf + i + 1 := by
    have := hdisj (i + 1) (by omega)
    push_cast at this
    omega
  have tc_i1 : tc (buf + i + 1) = i := by
    rw [tc_other _ (by omega) hAD.symm (by omega), a1, h1]
  obtain ⟨td, rd, d0, d1, dz, df⟩ := Runs.dynLeft2 i (buf + i + 1) tc hbc tc_i1 (by
    intro j hj1 hj2
    have hne : buf + i + 1 - (j : Int) ≠ arr + i := by
      have := hdisj (i + 1 - j) (by omega)
      intro e
      apply this
      rw [← e]
      have : ((i + 1 - j : Nat) : Int) = (i : Int) + 1 - j := by omega
      rw [this]; ring
    rw [tc_other _ (by omega) hne (by omega)]
    have := az (i + 1 - j) (by omega)
    rw [← this]; congr 1
    have : ((i + 1 - j : Nat) : Int) = (i : Int) + 1 - j := by omega
    rw [this]; ring)
  have e1 : buf + i + 1 - (i : Int) = buf + 1 := by ring
  rw [e1] at rd d0 d1
  rw [show buf + 1 - 1 = buf by ring, show buf + i + 1 - 1 = buf + i by ring, tc_i] at d1
  have r8 : Runs ['<'] ⟨td, buf + 1⟩ ⟨td, buf⟩ := by
    simpa using Runs.left ⟨td, buf + 1⟩
  have hcode : "[<[-<+>]>[-<+>]<-]<".toList = loopC (['<'] ++ loopC ['-', '<', '+', '>'] ++
      ['>'] ++ loopC ['-', '<', '+', '>'] ++ ['<'] ++ ['-']) ++ ['<'] := by rfl
  refine ⟨td, ?_, d1, ?_, ?_⟩
  · rw [hcode]
    have := ((((((ra.append (hback1 ta)).append r3).append (hgo1 tb)).append
      (Runs.right2 tb (buf + i))).append r5).append r6).append (rd.append r8)
    simpa [List.append_assoc] using this
  · intro j hj1 hj2
    rcases Nat.lt_or_ge j 2 with h | h
    · have : j = 1 := by omega
      subst this
      simpa using d0
    · rcases Nat.lt_or_ge j (i + 2) with h' | h'
      · have := dz (i + 1 - j) (by omega)
        rw [← this]; congr 1
        have : ((i + 1 - j : Nat) : Int) = (i : Int) + 1 - j := by omega
        rw [this]; ring
      · rw [df _ (Or.inr (by omega))]
        rcases Nat.eq_or_lt_of_le h' with h'' | h''
        · rw [← h'']
          rw [← tc_i2]; congr 1; push_cast; ring
        · have hne : buf + (j : Int) ≠ arr + i := (hdisj j hj2).symm
          rw [tc_other _ (by omega) hne (by omega)]
          exact ta_hi j (by omega) hj2
  · intro a ha
    have ho := hout a ha
    rw [df a (by omega)]
    by_cases e : a = arr + i
    · rw [e, tc_arr]
    · have n1 := ha i (by omega)
      have n2 := ha (i + 2) (by omega)
      push_cast at n2
      rw [tc_other a n1 e (by omega)]
      exact af a (by omega)

/-- The run-time part of `assignElement`: started on the buffer holding the
index twice, the value and zeros behind, it stores the value in the indexed
element and clears the buffer. -/
theorem Runs.assign_dyn (arr buf : Int) (sz i : Nat) (hi : i < sz)
    (hdisj : ∀ j : Nat, j < sz + 2 → arr + i ≠ buf + j) (go back : Code)
    (hgo : ∀ t p, Runs go ⟨t, p⟩ ⟨t, p + (buf - arr)⟩)
    (hback : ∀ t p, Runs back ⟨t, p⟩ ⟨t, p - (buf - arr)⟩)
    (t : Int → Nat) (hb : Bytes t) (h0 : t buf = i) (h1 : t (buf + 1) = i)
    (hz : ∀ j : Nat, 3 ≤ j → j < sz + 2 → t (buf + j) = 0) :
    ∃ t1, Runs ("[>>[->+<]<[->+<]<[->+<]>-]".toList ++ back ++ ['[', '-', ']'] ++ go ++
        ['>', '>'] ++ loopC (['-'] ++ (['<', '<'] ++ back) ++ ['+'] ++ (go ++ ['>', '>'])) ++
        ['<'] ++ "[[-<+>]<-]<".toList) ⟨t, buf⟩ ⟨t1, buf⟩ ∧
      t1 (arr + i) = t (buf + 2) ∧ (∀ j : Nat, j < sz + 2 → t1 (buf + j) = 0) ∧
      ∀ a, (∀ j : Nat, j < sz + 2 → a ≠ buf + j) → a ≠ arr + i → t1 a = t a := by
  have hout : ∀ a, (∀ j : Nat, j < sz + 2 → a ≠ buf + j) → a < buf ∨ buf + sz + 1 < a := by
    intro a h
    by_contra hc
    push_neg at hc
    exact h (a - buf).toNat (by omega) (by omega)
  have hA := hout _ hdisj
  obtain ⟨ta, ra, a0, a1, a2, az, af⟩ := Runs.dynRight3 i buf t hb h0
    (fun j h2 h3 => hz j h2 (by omega))
  have hba : Bytes ta := ra.bytes hb
  have hback1 : ∀ u, Runs back ⟨u, buf + i⟩ ⟨u, arr + i⟩ := by
    intro u
    have := hback u (buf + i)
    rwa [show buf + i - (buf - arr) = arr + i by ring] at this
  have hgo1 : ∀ u, Runs go ⟨u, arr + i⟩ ⟨u, buf + i⟩ := by
    intro u
    have := hgo u (arr + i)
    rwa [show arr + i + (buf - arr) = buf + i by ring] at this
  have hgo2 : ∀ u, Runs (go ++ ['>', '>']) ⟨u, arr + i⟩ ⟨u, buf + i + 2⟩ := fun u =>
    (hgo1 u).append (Runs.right2 u (buf + i))
  have hll : ∀ u, Runs ['<', '<'] ⟨u, buf + i + 2⟩ ⟨u, buf + i⟩ := by
    intro u
    have := Runs.left2 u (buf + i + 2)
    rwa [show buf + i + 2 - 2 = buf + i by ring] at this
  have hback2 : ∀ u, Runs (['<', '<'] ++ back) ⟨u, buf + i + 2⟩ ⟨u, arr + i⟩ := fun u =>
    (hll u).append (hback1 u)
  have hAB : arr + i ≠ buf + i + 2 := by
    have := hdisj (i + 2) (by omega)
    push_cast at this
    omega
  have hAC : arr + i ≠ buf + i := hdisj i (by omega)
  have hAD : arr + i ≠ buf + i + 1 := by
    have := hdisj (i + 1) (by omega)
    push_cast at this
    omega
  have r2 := Runs.zero ta (arr + i) (hba _)
  obtain ⟨tb, htb⟩ : ∃ tb, tb = setCell ta (arr + i) 0 := ⟨_, rfl⟩
  rw [← htb] at r2
  have hbb : Bytes tb := r2.bytes hba
  have r3 := Runs.drain1G (buf + i + 2) (arr + i) hAB.symm _ _ hback2 hgo2 tb (hbb _) (hbb _)
  obtain ⟨tc, htc⟩ : ∃ tc, tc = setCell (setCell tb (arr + i)
    ((tb (arr + i) + tb (buf + i + 2)) % 256)) (buf + i + 2) 0 := ⟨_, rfl⟩
  rw [← htc] at r3
  have hbc : Bytes tc := r3.bytes hbb
  have r6 : Runs ['<'] ⟨tc, buf + i + 2⟩ ⟨tc, buf + i + 1⟩ := by
    have := Runs.left ⟨tc, buf + i + 2⟩
    simpa [show buf + i + 2 - 1 = buf + i + 1 by ring] using this
  have hv := hb (buf + 2)
  have tb_i2 : tb (buf + i + 2) = t (buf + 2) := by
    rw [htb, setCell_other _ _ hAB.symm, a2]
  have tb_arr : tb (arr + i) = 0 := by rw [htb, setCell_same]
  have tc_arr : tc (arr + i) = t (buf + 2) := by
    rw [htc, setCell_other _ _ hAB, setCell_same, tb_arr, tb_i2, Nat.zero_add,
      Nat.mod_eq_of_lt hv]
  have tc_i2 : tc (buf + i + 2) = 0 := by rw [htc, setCell_same]
  have tc_other : ∀ a, a ≠ arr + i → a ≠ buf + i + 2 → tc a = ta a := by
    intro a h2 h3
    rw [htc, setCell_other _ _ h3, setCell_other _ _ h2, htb, setCell_other _ _ h2]
  have tc_i1 : tc (buf + i + 1) = i := by
    rw [tc_other _ hAD.symm (by omega), a1, h1]
  have tc_lo : ∀ j : Nat, j ≤ i → tc (buf + j) = 0 := by
    intro j hj
    have hne : buf + (j : Int) ≠ arr + i := (hdisj j (by omega)).symm
    rw [tc_other _ hne (by omega)]
    rcases Nat.eq_or_lt_of_le hj with h | h
    · rw [h]; exact a0
    · exact az j h
  obtain ⟨td, rd, dz, df⟩ := Runs.dynLeft1 i (buf + i + 1) tc hbc tc_i1 (by
    intro j hj1 hj2
    have := tc_lo (i + 1 - j) (by omega)
    rw [← this]; congr 1
    have : ((i + 1 - j : Nat) : Int) = (i : Int) + 1 - j := by omega
    rw [this]; ring)
  have e1 : buf + i + 1 - (i : Int) = buf + 1 := by ring
  rw [e1] at rd df
  have r8 : Runs ['<'] ⟨td, buf + 1⟩ ⟨td, buf⟩ := by
    simpa using Runs.left ⟨td, buf + 1⟩
  have hcode : "[[-<+>]<-]<".toList =
      loopC (loopC ['-', '<', '+', '>'] ++ ['<'] ++ ['-']) ++ ['<'] := by rfl
  refine ⟨td, ?_, ?_, ?_, ?_⟩
  · rw [hcode]
    have := ((((((ra.append (hback1 ta)).append r2).append (hgo1 tb)).append
      (Runs.right2 tb (buf + i))).append r3).append r6).append (rd.append r8)
    simpa [List.append_assoc] using this
  · rw [df _ (by omega), tc_arr]
  · intro j hj
    rcases Nat.eq_zero_or_pos j with h | h
    · subst h
      rw [df _ (Or.inl (by simp))]
      exact tc_lo 0 (by omega)
    · rcases Nat.lt_or_ge j (i + 2) with h' | h'
      · have := dz (i + 1 - j) (by omega)
        rw [← this]; congr 1
        have : ((i + 1 - j : Nat) : Int) = (i : Int) + 1 - j := by omega
        rw [this]; ring
      · rw [df _ (Or.inr (by omega))]
        rcases Nat.eq_or_lt_of_le h' with h'' | h''
        · rw [← h'']
          rw [← tc_i2]; congr 1; push_cast; ring
        · have hne : buf + (j : Int) ≠ arr + i := (hdisj j hj).symm
          rw [tc_other _ hne (by omega), af _ (Or.inr (by omega))]
          exact hz j (by omega) hj
  · intro a ha e
    have ho := hout a ha
    rw [df a (by omega)]
    have n2 := ha (i + 2) (by omega)
    push_cast at n2
    rw [tc_other a e (by omega)]
    exact af a (by omega)

/-- The loop of `bf_setToValue(start, 0, n)`: the text depends on the cursor
only, and clears the cells `start + i`, ..., `start + i + k - 1`. -/
theorem Compiler.bf_setToValueLoop_zero (start : Int) (h0 : 0 ≤ start) :
    ∀ (k i : Nat) (p : Int), ∃ (code : Code) (pf : Int),
      (∀ (ops : Code) (c : Compiler), c.d_pointer = p →
        bf_setToValueLoop start 0 k i ops c = .ok (ops ++ code, { c with d_pointer := pf })) ∧
      ∀ t, Bytes t → ∃ t1, Runs code ⟨t, p⟩ ⟨t1, pf⟩ ∧
        (∀ j : Nat, i ≤ j → j < i + k → t1 (start + j) = 0) ∧
        (∀ a, (∀ j : Nat, i ≤ j → j < i + k → a ≠ start + j) → t1 a = t a) := by
  intro k
  induction k with
  | zero =>
    intro i p
    refine ⟨[], p, ?_, ?_⟩
    · intro ops c hp
      subst hp
      simp [bf_setToValueLoop]
    · intro t _
      exact ⟨t, Runs.nil _, fun j h1 h2 => by omega, fun _ _ => rfl⟩
  | succ k ih =>
    intro i p
    obtain ⟨code, pf, hrun, sem⟩ := ih (i + 1) (start + i)
    refine ⟨(mvCode p (start + i) ++ ['[', '-', ']'] ++ List.replicate 0 '+') ++ code, pf,
      ?_, ?_⟩
    · intro ops c hp
      subst hp
      have h1 := Compiler.bf_setToValue_run (a := start + i) (v := 0) (by omega) (by omega) c
      have h2 := hrun (ops ++ (mvCode c.d_pointer (start + i) ++ ['[', '-', ']'] ++
        List.replicate 0 '+')) { c with d_pointer := start + i } rfl
      simp only [bf_setToValueLoop, Gen.run_bind, h1]
      simp only [Int.toNat_zero] at h2 ⊢
      rw [h2]
      simp
    · intro t hb
      have r1 := Runs.setToValue t p (start + i) 0 hb
      obtain ⟨t1, r2, z, f⟩ := sem (setCell t (start + i) (0 % 256)) (r1.bytes hb)
      refine ⟨t1, r1.append r2, ?_, ?_⟩
      · intro j h1 h2
        rcases Nat.eq_or_lt_of_le h1 with e | e
        · subst e
          rw [f _ (fun j' h3 _ => by omega), setCell_same]
        · exact z j (by omega) (by omega)
      · intro a ha
        rw [f a (fun j h1 h2 => ha j (by omega) (by omega)),
          setCell_other _ _ (ha i (by omega) (by omega))]

/-- The text of `bf_setToValue(start, 0, n)` clears `n` cells from `start`. -/
theorem Compiler.bf_setToValueN_zero (start : Int) (h0 : 0 ≤ start) (n : Nat) (p : Int) :
    ∃ (code : Code) (pf : Int),
      (∀ c : Compiler, c.d_pointer = p →
        bf_setToValueN start 0 n c = .ok (code, { c with d_pointer := pf })) ∧
      ∀ t, Bytes t → ∃ t1, Runs code ⟨t, p⟩ ⟨t1, pf⟩ ∧
        (∀ j : Nat, j < n → t1 (start + j) = 0) ∧
        (∀ a, (∀ j : Nat, j < n → a ≠ start + j) → t1 a = t a) := by
  obtain ⟨code, pf, hrun, sem⟩ := Compiler.bf_setToValueLoop_zero start h0 n 0 p
  refine ⟨code, pf, ?_, ?_⟩
  · intro c hp
    have := hrun [] c hp
    simp [bf_setToValueN, Compiler.validateAddr2_run h0 (le_refl 0), this]
  · intro t hb
    obtain ⟨t1, r, z, f⟩ := sem t hb
    exact ⟨t1, r, fun j hj => z j (by omega) (by omega),
      fun a ha => f a (fun j _ h2 => ha j (by omega))⟩

/-- The string `arr2buf` moves the pointer by the distance from the array to
the buffer. -/
theorem Runs.arr2buf (dist : Int) (t : Int → Nat) (p : Int) :
    Runs (distString dist (if dist > 0 then '>' else '<')) ⟨t, p⟩ ⟨t, p + dist⟩ := by
  unfold distString
  split_ifs with h
  · have := Runs.replicate_right dist.natAbs t p
    rwa [show ((dist.natAbs : Nat) : Int) = dist by omega] at this
  · have := Runs.replicate_left dist.natAbs t p
    rwa [show p - ((dist.natAbs : Nat) : Int) = p + dist by omega] at this

/-- The string `buf2arr` moves the pointer back by the same distance. -/
theorem Runs.buf2arr (dist : Int) (t : Int → Nat) (p : Int) :
    Runs (distString dist (if dist > 0 then '<' else '>')) ⟨t, p⟩ ⟨t, p - dist⟩ := by
  unfold distString
  split_ifs with h
  · have := Runs.replicate_left dist.natAbs t p
    rwa [show ((dist.natAbs : Nat) : Int) = dist by omega] at this
  · have := Runs.replicate_right dist.natAbs t p
    rwa [show p + ((dist.natAbs : Nat) : Int) = p - dist by omega] at this

theorem Compiler.toSizeT_sub (n k : Nat) (h : n < 256) :
    toSizeT (((n + k : Nat) : Int) - (k : Int)) = n := by
  unfold toSizeT
  have : ((n + k : Nat) : Int) - (k : Int) = (n : Int) := by push_cast; ring
  rw [this]
  have h2 : (n : Int) % (2 ^ 64 : Int) = n := by
    apply Int.emod_eq_of_lt <;> omega
  rw [h2]; simp

set_option maxRecDepth 100000 in
set_option maxHeartbeats 1600000 in
/-- `fetchElement(arr, index)` on an array of `sz` allocated cells with
`sz + 2 < 256`: the emitted text leaves the indexed element in a fresh cell
and restores every cell allocated before the call. -/
theorem Compiler.fetchElement_spec (c : Compiler) (ident : String) (index arr : Int) (sz : Nat)
    (hr : c.Ready (sz + 2)) (haddr : addressOf ident c = .ok (arr, c))
    (hsz : Memory.sizeOf c.typeMap c.d_memory arr = .ok sz) (hbuf : sz + 2 < 256)
    (harr : ∀ j : Nat, j < sz → c.Live (arr + j)) (hidx : c.Live index) :
    ∃ ret code c1, fetchElement ident index c = .ok (ret, c1) ∧ c.Ext c1 ∧
      c1.d_codeBuffer = c.d_codeBuffer ++ code ∧ c1.Live ret ∧ ¬ c.Live ret ∧
      ∀ t, Bytes t → t index < sz →
        ∃ t1, Runs code ⟨t, c.d_pointer⟩ ⟨t1, c1.d_pointer⟩ ∧
          t1 ret = t (arr + t index) ∧ ∀ a, (c.Live a ∨ ¬ c1.Live a) → t1 a = t a := by
  have hr1 : c.Ready 1 := hr.mono (by omega)
  obtain ⟨buf, c1, hal, hb0, e01, hp1, hcb1, hfresh, hlive, _, _⟩ :=
    Compiler.allocateTemp_spec c (sz + 2) (by omega) hbuf hr
  have hfr0 : ¬ c.Live buf := by simpa using hfresh 0 (by omega)
  have hlv0' : c1.Live buf := by simpa using hlive 0 (by omega)
  have hlv1 : c1.Live (buf + 1) := by simpa using hlive 1 (by omega)
  obtain ⟨codeA, c2, hA, e12, hcb2, hp2, semA⟩ :=
    Compiler.bf_assign_spec c1 buf index (e01.ready hr1) hlv0' (e01.live hidx)
      (hidx.ne hfr0).symm
  obtain ⟨codeB, c3, hB, e23, hcb3, hp3, semB⟩ :=
    Compiler.bf_assign_spec c2 (buf + 1) buf ((e01.trans e12).ready hr1) (e12.live hlv1)
      (e12.live hlv0') (by omega)
  have hB' := fun b => (Compiler.Oblivious.bf_assign (buf + 1) buf).run hB b
  obtain ⟨codeS, pf, hS, semS⟩ := Compiler.bf_setToValueN_zero (buf + 2) (by omega) sz (buf + 1)
  have e03 := (e01.trans e12).trans e23
  obtain ⟨ret, c4, hR, _, e34, hp4, hcb4, hfresh4, hlive4, _, _⟩ :=
    Compiler.allocateTemp_spec { c3 with d_pointer := buf } 1 (by norm_num) (by norm_num)
      ⟨(e03.ready hr1).1, (e03.ready hr1).2⟩
  have hR' := fun b => (Compiler.Oblivious.allocateTemp 1).run hR b
  have hfr4 : ¬ c3.Live ret := by simpa using hfresh4 0 (by norm_num)
  have hlv4 : c4.Live ret := by simpa using hlive4 0 (by norm_num)
  have e34' : c3.Ext c4 := ⟨e34.1, e34.2.1, e34.2.2.1, e34.2.2.2⟩
  have hbuf3 : c3.Live buf := e23.live (e12.live hlv0')
  obtain ⟨codeC, c5, hC, e45, hcb5, hp5, semC⟩ :=
    Compiler.bf_assign_spec c4 ret buf ((e03.trans e34').ready hr1) hlv4 (e34'.live hbuf3)
      (hbuf3.ne hfr4).symm
  have hC' := fun b => (Compiler.Oblivious.bf_assign ret buf).run hC b
  have e05 : c.Ext c5 := (e03.trans e34').trans e45
  obtain ⟨go, hgo⟩ : ∃ go, go = distString (buf - arr) (if buf - arr > 0 then '>' else '<') :=
    ⟨_, rfl⟩
  obtain ⟨back, hbk⟩ : ∃ back,
      back = distString (buf - arr) (if buf - arr > 0 then '<' else '>') := ⟨_, rfl⟩
  obtain ⟨dyn, hdyn⟩ : ∃ dyn, dyn = "[>[->+<]<[->+<]>-]".toList ++ back ++
        loopC (['-'] ++ (go ++ ['>', '>']) ++ ['+'] ++ (['<', '<'] ++ back)) ++ go ++
        ['>', '>'] ++ loopC (['-'] ++ ['<', '<'] ++ ['+'] ++ back ++ ['+'] ++
        (go ++ ['>', '>'])) ++ ['<'] ++ "[<[-<+>]>[-<+>]<-]<".toList := ⟨_, rfl⟩
  have s1 : ">>+<<".toList = ['>', '>', '+', '<', '<'] := rfl
  have s2 : ">>[-<<+".toList = ['>', '>', '[', '-', '<', '<', '+'] := rfl
  have s3 : ">>]<".toList = ['>', '>', ']', '<'] := rfl
  have hmod : sz % 256 = sz := Nat.mod_eq_of_lt (by omega)
  have hts : toSizeT ((sz : Int) % 256) = sz := by
    unfold toSizeT
    omega
  have hS' : ∀ b, bf_setToValueN (buf + 2) 0 sz { c3 with d_codeBuffer := b } =
      .ok (codeS, { c3 with d_pointer := pf, d_codeBuffer := b }) := fun b => hS _ hp3
  refine ⟨ret, codeA ++ codeB ++ codeS ++ mvCode pf buf ++ dyn ++ codeC,
    { c5 with d_codeBuffer := c.d_codeBuffer ++
        (codeA ++ codeB ++ codeS ++ mvCode pf buf ++ dyn ++ codeC) }, ?_,
    ⟨e05.1, e05.2.1, e05.2.2.1, e05.2.2.2⟩, rfl, e45.live hlv4,
    fun h => hfr4 (e03.live h), ?_⟩
  · simp only [hdyn, hgo, hbk]
    simp [-List.reduceReplicate, fetchElement, haddr, Compiler.sizeOf, hsz, hmod, hal, hA, hB',
      hS', hts, Compiler.bf_movePtr_run hb0, hR', hC', hcb1, hcb2, hcb3, hcb4, hcb5, s1, s2, s3,
      loopC]
  · intro t hb hi
    rw [hp1] at semA
    rw [hp2] at semB
    have hp4' : c4.d_pointer = buf := hp4
    rw [hp4'] at semC
    obtain ⟨t1, r1, v1, f1, _⟩ := semA t hb
    have hb1 := r1.bytes hb
    obtain ⟨t2, r2, v2, f2, _⟩ := semB t1 hb1
    have hb2 := r2.bytes hb1
    obtain ⟨t3, r3, z3, f3⟩ := semS t2 hb2
    have hb3 : Bytes t3 := r3.bytes hb2
    have r4 := Runs.mv t3 pf buf
    have e02 := e01.trans e12
    have e35 : c3.Ext c5 := e34'.trans e45
    have hnb : ∀ a, (c.Live a ∨ ¬ c5.Live a) → ∀ j : Nat, j < sz + 2 → a ≠ buf + j := by
      intro a ha j hj
      rcases ha with h | h
      · exact h.ne (hfresh j hj)
      · exact fun e => h (e ▸ e35.live (e23.live (e12.live (hlive j hj))))
    have hfr3 : ∀ a, (c.Live a ∨ ¬ c5.Live a) → t3 a = t a := by
      intro a ha
      have n0 : a ≠ buf := by simpa using hnb a ha 0 (by omega)
      have n1 : a ≠ buf + 1 := by simpa using hnb a ha 1 (by omega)
      rw [f3 a (fun j hj => by
          have := hnb a ha (j + 2) (by omega)
          push_cast at this
          omega),
        f2 a n1 (Compiler.Ext.mid e02 e35 ha), f1 a n0 (Compiler.Ext.mid e01 (e23.trans e35) ha)]
    have h30 : t3 buf = t index := by
      rw [f3 buf (fun j hj => by omega), f2 buf (by omega) (Or.inl (e12.live hlv0')), v1]
    have h31 : t3 (buf + 1) = t index := by
      rw [f3 (buf + 1) (fun j hj => by omega), v2, v1]
    have h3z : ∀ j : Nat, 2 ≤ j → j < sz + 2 → t3 (buf + j) = 0 := by
      intro j h2 hj
      have := z3 (j - 2) (by omega)
      rw [← this]; congr 1
      have : ((j - 2 : Nat) : Int) = (j : Int) - 2 := by omega
      rw [this]; ring
    have hdisj : ∀ j : Nat, j < sz + 2 → arr + (t index : Int) ≠ buf + j :=
      fun j hj => (harr _ hi).ne (hfresh j hj)
    obtain ⟨t4, r5, v4, _, f4⟩ := Runs.fetch_dyn arr buf sz (t index) hi hdisj go back
      (by rw [hgo]; exact fun u p => Runs.arr2buf _ u p)
      (by rw [hbk]; exact fun u p => Runs.buf2arr _ u p) t3 hb3 h30 h31 h3z
    rw [← hdyn] at r5
    have hb4 : Bytes t4 := r5.bytes hb3
    obtain ⟨t5, r6, v5, f5, _⟩ := semC t4 hb4
    have e04 := e03.trans e34'
    refine ⟨t5, ?_, ?_, ?_⟩
    · show Runs _ ⟨t, c.d_pointer⟩ ⟨t5, c5.d_pointer⟩
      rw [hp5]
      exact ((((r1.append r2).append r3).append r4).append r5).append r6
    · rw [v5, v4, hfr3 _ (Or.inl (harr _ hi))]
    · intro a ha
      have hne : a ≠ ret := by
        rcases ha with h | h
        · exact h.ne (fun h' => hfr4 (e03.live h'))
        · exact fun e => h (e ▸ e45.live hlv4)
      rw [f5 a hne (Compiler.Ext.mid e04 (Compiler.Ext.refl c5) ha), f4 a (hnb a ha),
        hfr3 a ha]

set_option maxRecDepth 100000 in
set_option maxHeartbeats 1600000 in
/-- `assignElement(arr, index, rhs)` on an array of `sz` allocated cells with
`0 < sz` and `sz + 2 < 256`: the emitted text stores the value of the `rhs`
cell in the indexed element and changes no other cell allocated before the
call. -/
theorem Compiler.assignElement_spec (c : Compiler) (ident : String) (index rhs arr : Int)
    (sz : Nat) (hr : c.Ready (sz + 2)) (haddr : addressOf ident c = .ok (arr, c))
    (hsz : Memory.sizeOf c.typeMap c.d_memory arr = .ok sz) (hpos : 0 < sz)
    (hbuf : sz + 2 < 256) (harr : ∀ j : Nat, j < sz → c.Live (arr + j)) (hidx : c.Live index)
    (hrhs : c.Live rhs) :
    ∃ code c1, assignElement ident index rhs c = .ok (rhs, c1) ∧ c.Ext c1 ∧
      c1.d_codeBuffer = c.d_codeBuffer ++ code ∧
      ∀ t, Bytes t → t index < sz →
        ∃ t1, Runs code ⟨t, c.d_pointer⟩ ⟨t1, c1.d_pointer⟩ ∧
          t1 (arr + t index) = t rhs ∧
          ∀ a, (c.Live a ∨ ¬ c1.Live a) → a ≠ arr + t index → t1 a = t a := by
  have hr1 : c.Ready 1 := hr.mono (by omega)
  obtain ⟨buf, c1, hal, hb0, e01, hp1, hcb1, hfresh, hlive, _, _⟩ :=
    Compiler.allocateTemp_spec c (sz + 2) (by omega) hbuf hr
  have hfr0 : ¬ c.Live buf := by simpa using hfresh 0 (by omega)
  have hfr2 : ¬ c.Live (buf + 2) := by simpa using hfresh 2 (by omega)
  have hlv0 : c1.Live buf := by simpa using hlive 0 (by omega)
  have hlv1 : c1.Live (buf + 1) := by simpa using hlive 1 (by omega)
  have hlv2 : c1.Live (buf + 2) := by simpa using hlive 2 (by omega)
  obtain ⟨codeA, c2, hA, e12, hcb2, hp2, semA⟩ :=
    Compiler.bf_assign_spec c1 buf index (e01.ready hr1) hlv0 (e01.live hidx)
      (hidx.ne hfr0).symm
  have e02 := e01.trans e12
  obtain ⟨codeB, c3, hB, e23, hcb3, hp3, semB⟩ :=
    Compiler.bf_assign_spec c2 (buf + 1) buf (e02.ready hr1) (e12.live hlv1)
      (e12.live hlv0) (by omega)
  have hB' := fun b => (Compiler.Oblivious.bf_assign (buf + 1) buf).run hB b
  have e03 := e02.trans e23
  obtain ⟨codeC, c4, hC, e34, hcb4, hp4, semC⟩ :=
    Compiler.bf_assign_spec c3 (buf + 2) rhs (e03.ready hr1) (e23.live (e12.live hlv2))
      (e03.live hrhs) (hrhs.ne hfr2).symm
  have hC' := fun b => (Compiler.Oblivious.bf_assign (buf + 2) rhs).run hC b
  have e04 := e03.trans e34
  obtain ⟨codeS, pf, hS, semS⟩ :=
    Compiler.bf_setToValueN_zero (buf + 3) (by omega) (sz - 1) (buf + 2)
  obtain ⟨go, hgo⟩ : ∃ go, go = distString (buf - arr) (if buf - arr > 0 then '>' else '<') :=
    ⟨_, rfl⟩
  obtain ⟨back, hbk⟩ : ∃ back,
      back = distString (buf - arr) (if buf - arr > 0 then '<' else '>') := ⟨_, rfl⟩
  obtain ⟨dyn, hdyn⟩ : ∃ dyn, dyn = "[>>[->+<]<[->+<]<[->+<]>-]".toList ++ back ++
        ['[', '-', ']'] ++ go ++ ['>', '>'] ++
        loopC (['-'] ++ (['<', '<'] ++ back) ++ ['+'] ++ (go ++ ['>', '>'])) ++
        ['<'] ++ "[[-<+>]<-]<".toList := ⟨_, rfl⟩
  have s2 : ">>[-<<".toList = ['>', '>', '[', '-', '<', '<'] := rfl
  have s3 : ">>]<".toList = ['>', '>', ']', '<'] := rfl
  have hmod : sz % 256 = sz := Nat.mod_eq_of_lt (by omega)
  have hts : toSizeT ((sz : Int) % 256 + 2 - 3) = sz - 1 := by
    unfold toSizeT
    omega
  have hS' : ∀ b, bf_setToValueN (buf + 3) 0 (sz - 1) { c4 with d_codeBuffer := b } =
      .ok (codeS, { c4 with d_pointer := pf, d_codeBuffer := b }) := fun b => hS _ hp4
  refine ⟨codeA ++ codeB ++ codeC ++ codeS ++ mvCode pf buf ++ dyn,
    { c4 with d_pointer := buf, d_codeBuffer := c.d_codeBuffer ++
        (codeA ++ codeB ++ codeC ++ codeS ++ mvCode pf buf ++ dyn) }, ?_,
    ⟨e04.1, e04.2.1, e04.2.2.1, e04.2.2.2⟩, rfl, ?_⟩
  · simp only [hdyn, hgo, hbk]
    simp [-List.reduceReplicate, assignElement, haddr, Compiler.sizeOf, hsz, hmod, hal, hA, hB',
      hC', hS', hts, Compiler.bf_movePtr_run hb0, hcb1, hcb2, hcb3, hcb4, s2, s3, loopC]
  · intro t hb hi
    rw [hp1] at semA
    rw [hp2] at semB
    rw [hp3] at semC
    obtain ⟨t1, r1, v1, f1, _⟩ := semA t hb
    have hb1 := r1.bytes hb
    obtain ⟨t2, r2, v2, f2, _⟩ := semB t1 hb1
    have hb2 := r2.bytes hb1
    obtain ⟨t3, r3, v3, f3, _⟩ := semC t2 hb2
    have hb3 := r3.bytes hb2
    obtain ⟨t4, r4, z4, f4⟩ := semS t3 hb3
    have hb4 : Bytes t4 := r4.bytes hb3
    have r5 := Runs.mv t4 pf buf
    have hnb : ∀ a, (c.Live a ∨ ¬ c4.Live a) → ∀ j : Nat, j < sz + 2 → a ≠ buf + j := by
      intro a ha j hj
      rcases ha with h | h
      · exact h.ne (hfresh j hj)
      · exact fun e => h (e ▸ e34.live (e23.live (e12.live (hlive j hj))))
    have hfr4 : ∀ a, (c.Live a ∨ ¬ c4.Live a) → t4 a = t a := by
      intro a ha
      have n0 : a ≠ buf := by simpa using hnb a ha 0 (by omega)
      have n1 : a ≠ buf + 1 := by simpa using hnb a ha 1 (by omega)
      have n2 : a ≠ buf + 2 := by simpa using hnb a ha 2 (by omega)
      rw [f4 a (fun j hj => by
          have := hnb a ha (j + 3) (by omega)
          push_cast at this
          omega),
        f3 a n2 (Compiler.Ext.mid e03 (Compiler.Ext.refl c4) ha),
        f2 a n1 (Compiler.Ext.mid e02 e34 ha),
        f1 a n0 (Compiler.Ext.mid e01 (e23.trans e34) ha)]
    have h40 : t4 buf = t index := by
      rw [f4 buf (fun j hj => by omega), f3 buf (by omega) (Or.inl (e23.live (e12.live hlv0))),
        f2 buf (by omega) (Or.inl (e12.live hlv0)), v1]
    have h41 : t4 (buf + 1) = t index := by
      rw [f4 (buf + 1) (fun j hj => by omega),
        f3 (buf + 1) (by omega) (Or.inl (e23.live (e12.live hlv1))), v2, v1]
    have h42 : t4 (buf + 2) = t rhs := by
      rw [f4 (buf + 2) (fun j hj => by omega), v3,
        f2 rhs (hrhs.ne (by simpa using hfresh 1 (by omega))) (Or.inl (e02.live hrhs)),
        f1 rhs (hrhs.ne hfr0) (Or.inl (e01.live hrhs))]
    have h4z : ∀ j : Nat, 3 ≤ j → j < sz + 2 → t4 (buf + j) = 0 := by
      intro j h2 hj
      have := z4 (j - 3) (by omega)
      rw [← this]; congr 1
      have : ((j - 3 : Nat) : Int) = (j : Int) - 3 := by omega
      rw [this]; ring
    have hdisj : ∀ j : Nat, j < sz + 2 → arr + (t index : Int) ≠ buf + j :=
      fun j hj => (harr _ hi).ne (hfresh j hj)
    obtain ⟨t5, r6, v5, _, f5⟩ := Runs.assign_dyn arr buf sz (t index) hi hdisj go back
      (by rw [hgo]; exact fun u p => Runs.arr2buf _ u p)
      (by rw [hbk]; exact fun u p => Runs.buf2arr _ u p) t4 hb4 h40 h41 h4z
    rw [← hdyn] at r6
    refine ⟨t5, ?_, ?_, ?_⟩
    · show Runs _ ⟨t, c.d_pointer⟩ ⟨t5, buf⟩
      exact ((((r1.append r2).append r3).append r4).append r5).append r6
    · rw [v5, h42]
    · intro a ha hne
      rw [f5 a (hnb a ha) hne, hfr4 a ha]

/-! ## Self-assignment and the truncated buffer size -/

/-- The text of `bf_assign` with the same cell on both sides zeroes the cell:
both drain loops find a zero. -/
theorem Runs.assign_self (p a tmp : Int) (h : tmp ≠ a) (t : Int → Nat) (hb : Bytes t) :
    Runs (mvCode p a ++ ['[', '-', ']'] ++ (mvCode a tmp ++ ['[', '-', ']']) ++
            mvCode tmp a ++
            loopC (['-'] ++ mvCode a a ++ ['+'] ++ mvCode a tmp ++ ['+'] ++ mvCode tmp a) ++
            mvCode a tmp ++
            loopC (['-'] ++ mvCode tmp a ++ ['+'] ++ mvCode a tmp) ++
            mvCode tmp a) ⟨t, p⟩
      ⟨setCell (setCell t a 0) tmp 0, a⟩ := by
  have r1 := (Runs.mv t p a).append (Runs.zero t a (hb a))
  have hb1 : Bytes (setCell t a 0) := hb.setCell _ (by norm_num)
  have r2 := (Runs.mv (setCell t a 0) a tmp).append (Runs.zero _ tmp (hb1 tmp))
  obtain ⟨t2, ht2⟩ : ∃ t2, t2 = setCell (setCell t a 0) tmp 0 := ⟨_, rfl⟩
  rw [← ht2] at r2 ⊢
  have e2a : t2 a = 0 := by rw [ht2, setCell_other _ _ (fun e => h e.symm), setCell_same]
  have e2t : t2 tmp = 0 := by rw [ht2, setCell_same]
  have hs : Balanced ['-'] := Balanced.single (by decide) (by decide)
  have hpl : Balanced ['+'] := Balanced.single (by decide) (by decide)
  have r3 := Runs.mv t2 tmp a
  have r4 : Runs (loopC (['-'] ++ mvCode a a ++ ['+'] ++ mvCode a tmp ++ ['+'] ++ mvCode tmp a))
      ⟨t2, a⟩ ⟨t2, a⟩ :=
    Runs.loop_skip (((((hs.seq (Balanced.mvCode _ _)).seq hpl).seq
      (Balanced.mvCode _ _)).seq hpl).seq (Balanced.mvCode _ _)) e2a
  have r5 := Runs.mv t2 a tmp
  have r6 : Runs (loopC (['-'] ++ mvCode tmp a ++ ['+'] ++ mvCode a tmp)) ⟨t2, tmp⟩ ⟨t2, tmp⟩ :=
    Runs.loop_skip (((hs.seq (Balanced.mvCode _ _)).seq hpl).seq
      (Balanced.mvCode _ _)) e2t
  have r7 := Runs.mv t2 tmp a
  exact ((((((r1.append r2).append r3).append r4).append r5).append r6).append r7)

/-- `bf_assign(a, a)`: the emitted text terminates with the cell at `a`
holding 0, whatever it held before. -/
theorem Compiler.bf_assign_self (c : Compiler) (a : Int) (hr : c.Ready 1) (hl : c.Live a) :
    ∃ code c1, bf_assign a a c = .ok (code, c1) ∧
      ∀ t, Bytes t → ∃ t1, Runs code ⟨t, c.d_pointer⟩ ⟨t1, c1.d_pointer⟩ ∧ t1 a = 0 := by
  obtain ⟨tmp, c1, hal, ht0, _, hp, _, hfresh, _, _, _⟩ :=
    Compiler.allocateTemp_spec c 1 (by norm_num) (by norm_num) hr
  have hfr : ¬ c.Live tmp := by simpa using hfresh 0 (by norm_num)
  have h2 : tmp ≠ a := (hl.ne hfr).symm
  refine ⟨_, _, Compiler.bf_assign_run hl.nonneg hl.nonneg ht0 hal hp, ?_⟩
  intro t hb
  refine ⟨_, Runs.assign_self c.d_pointer a tmp h2 t hb, ?_⟩
  rw [setCell_other _ _ h2.symm, setCell_same]

/-- The loop of `place` for a type of size 0 starts at `i = 1` and never meets
`i == 0`: it runs off the tape (or stops on a protected cell). -/
theorem Memory.markReferenced_zero (addr : Nat) : ∀ (fuel i : Nat) (cells : List Cell),
    1 ≤ i → 1 ≤ fuel → cells.length + 1 ≤ addr + i + fuel →
    markReferenced addr 0 fuel i cells = .error .undefinedBehaviour ∨
      markReferenced addr 0 fuel i cells = .error .assertion := by
  intro fuel
  induction fuel with
  | zero => intro i cells _ h; omega
  | succ fuel ih =>
    intro i cells hi _ hlen
    have hi0 : i ≠ 0 := by omega
    simp only [markReferenced, hi0, if_false]
    cases hc : cellAt cells (addr + i) with
    | error e =>
      left
      simp only [cellAt] at hc
      split at hc
      · cases hc
      · cases hc; rfl
    | ok cell =>
      have hlt : addr + i < cells.length := by
        simp only [cellAt] at hc
        split at hc
        · rename_i c0 h0
          by_contra hge
          rw [List.getElem?_eq_none (by omega)] at h0
          cases h0
        · cases hc
      simp only []
      cases hcl : cell.clear with
      | error e =>
        right
        simp only [Cell.clear] at hcl
        split at hcl
        · cases hcl; rfl
        · cases hcl
      | ok cell1 =>
        simp only []
        exact ih (i + 1) _ (by omega) (by omega) (by simp only [List.length_set]; omega)

/-- A request for 256 cells reaches the allocator as a request for 0 cells
(the parameter of `allocateTemp` is a `uint8_t`) and does not return. -/
theorem Compiler.allocateTemp_256 (c : Compiler) : ∃ e, allocateTemp 256 c = .error e := by
  unfold allocateTemp
  cases c.d_callStack.getLast? with
  | none => exact ⟨_, rfl⟩
  | some scope =>
    simp only [show (256 : Nat) % 256 = 0 from rfl, Memory.getTemp, Memory.getTempT,
      Memory.allocate]
    have hd : (TSType.int 0).defined = true := rfl
    have he : ("" : String).isEmpty = true := rfl
    simp only [hd, he, Bool.not_true, Bool.false_and, Bool.false_eq_true, if_false]
    cases hf : Memory.findFree c.d_memory (TSType.size c.typeMap (TSType.int 0)) with
    | error e => exact ⟨_, rfl⟩
    | ok r =>
      obtain ⟨addr, m1⟩ := r
      simp only []
      have hp : ∃ e, Memory.place c.typeMap c.typeMap.length m1.d_memory "" scope
          (TSType.int 0) addr = .error e := by
        unfold Memory.place
        cases hc : cellAt m1.d_memory addr with
        | error e => exact ⟨_, rfl⟩
        | ok cell =>
          simp only []
          cases hcl : cell.clear with
          | error e => exact ⟨_, rfl⟩
          | ok cell1 =>
            simp only [show (TSType.int 0).isIntType = true from rfl, if_true,
              show TSType.size c.typeMap (TSType.int 0) = 0 from rfl]
            have key : ∀ cells : List Cell,
                markReferenced addr 0 (cells.length + 1) 1 cells = .error .undefinedBehaviour ∨
                  markReferenced addr 0 (cells.length + 1) 1 cells = .error .assertion :=
              fun cells => Memory.markReferenced_zero addr (cells.length + 1) 1 cells
                (le_refl 1) (by omega) (by omega)
            rcases key _ with h | h
            · exact ⟨_, h⟩
            · exact ⟨_, h⟩
      obtain ⟨e, hpe⟩ := hp
      rw [hpe]
      exact ⟨_, rfl⟩

/-- `fetchElement` on an array of 254 cells: the buffer size `254 + 2` is
truncated to 0 and the call does not return. -/
theorem Compiler.fetchElement_254 (c : Compiler) (ident : String) (index arr : Int)
    (haddr : addressOf ident c = .ok (arr, c))
    (hsz : Memory.sizeOf c.typeMap c.d_memory arr = .ok 254) :
    ∃ e, fetchElement ident index c = .error e := by
  obtain ⟨e, he⟩ := Compiler.allocateTemp_256 c
  refine ⟨e, ?_⟩
  simp [fetchElement, haddr, Compiler.sizeOf, hsz, he]

theorem tapeOf_bytes (l : List Nat) : Bytes (tapeOf l) := by
  intro a
  unfold tapeOf
  split_ifs
  · exact Nat.mod_lt _ (by norm_num)
  · norm_num

/-! ## Name resolution -/

theorem Memory.Cell.matches_iff (cell : Cell) (ident scope : String) :
    (cell.scope.toList.isPrefixOf scope.toList && cell.identifier == ident) = true ↔
      cell.Matches ident scope := by
  unfold Memory.Cell.Matches
  simp [ List.isPrefixOf_iff_prefix]

/-- `find` returns -1 when no cell matches, and otherwise the index of the
first matching cell. -/
theorem Memory.find_spec (m : Memory) (ident scope : String) :
    (find m ident scope = -1 ∧
      ∀ (i : Nat) (cell : Cell), m.d_memory[i]? = some cell → ¬ cell.Matches ident scope) ∨
    (∃ i : Nat, find m ident scope = (i : Int) ∧
      ∃ cell, m.d_memory[i]? = some cell ∧ cell.Matches ident scope ∧
        ∀ (j : Nat) (c : Cell), j < i → m.d_memory[j]? = some c → ¬ c.Matches ident scope) := by
  unfold find
  cases h : m.d_memory.findIdx?
      (fun cell => cell.scope.toList.isPrefixOf scope.toList && cell.identifier == ident) with
  | none =>
    left
    refine ⟨rfl, ?_⟩
    intro i cell hc hm
    rw [List.findIdx?_eq_none_iff] at h
    have hmem : cell ∈ m.d_memory := List.getElem?_mem hc
    have := h cell hmem
    rw [(Memory.Cell.matches_iff cell ident scope).mpr hm] at this
    cases this
  | some i =>
    right
    rw [List.findIdx?_eq_some_iff_getElem] at h
    obtain ⟨hlt, hp, hmin⟩ := h
    refine ⟨i, rfl, m.d_memory[i], List.getElem?_eq_getElem hlt,
      (Memory.Cell.matches_iff _ ident scope).mp hp, ?_⟩
    intro j c hj hc hm
    have hjl : j < m.d_memory.length := Nat.lt_trans hj hlt
    rw [List.getElem?_eq_getElem hjl] at hc
    simp only [Option.some.injEq] at hc
    have := hmin j hj
    rw [hc] at this
    exact this ((Memory.Cell.matches_iff c ident scope).mpr hm)

/-! ## First fit -/

theorem Memory.isFreeRun_true (cells : List Cell) (start : Nat) :
    ∀ (n offset : Nat), isFreeRun cells start n offset = .ok true →
      ∀ i, i < n → ∃ cell, cells[start + offset + i]? = some cell ∧ cell.empty = true := by
  intro n
  induction n with
  | zero => intro _ _ i hi; omega
  | succ n ih =>
    intro offset h i hi
    rw [isFreeRun] at h
    cases hc : cellAt cells (start + offset) with
    | error e => rw [hc] at h; cases h
    | ok cell =>
      rw [hc] at h
      simp only at h
      have hcell : cells[start + offset]? = some cell := by
        simp only [cellAt] at hc
        split at hc
        · rename_i c0 h0
          cases hc
          exact h0
        · cases hc
      by_cases he : cell.empty = true
      · simp only [he, Bool.not_true, Bool.false_eq_true, if_false] at h
        cases i with
        | zero => exact ⟨cell, by simpa using hcell, he⟩
        | succ i =>
          obtain ⟨c, h1, h2⟩ := ih (offset + 1) h i (by omega)
          refine ⟨c, ?_, h2⟩
          rw [← h1]; congr 1; omega
      · simp only [he, Bool.not_false, if_true] at h
        cases h

theorem Memory.isFreeRun_false (cells : List Cell) (start : Nat) :
    ∀ (n offset : Nat), isFreeRun cells start n offset = .ok false →
      ∃ i, i < n ∧ ∃ cell, cells[start + offset + i]? = some cell ∧ cell.empty = false := by
  intro n
  induction n with
  | zero => intro _ h; rw [isFreeRun] at h; cases h
  | succ n ih =>
    intro offset h
    rw [isFreeRun] at h
    cases hc : cellAt cells (start + offset) with
    | error e => rw [hc] at h; cases h
    | ok cell =>
      rw [hc] at h
      simp only at h
      have hcell : cells[start + offset]? = some cell := by
        simp only [cellAt] at hc
        split at hc
        · rename_i c0 h0
          cases hc
          exact h0
        · cases hc
      by_cases he : cell.empty = true
      · simp only [he, Bool.not_true, Bool.false_eq_true, if_false] at h
        obtain ⟨i, hi, c, h1, h2⟩ := ih (offset + 1) h
        refine ⟨i + 1, by omega, c, ?_, h2⟩
        rw [← h1]; congr 1; omega
      · exact ⟨0, by omega, cell, by simpa using hcell, by simpa using he⟩

/-- The scan returns the first start whose window is free: every start it
passed has an occupied cell in its window. -/
theorem Memory.scanFrom_some (cells : List Cell) (sz bound : Nat) :
    ∀ (fuel start a : Nat), scanFrom cells sz bound fuel start = .ok (some a) →
      start ≤ a ∧ isFreeRun cells a sz 0 = .ok true ∧
      ∀ b, start ≤ b → b < a → isFreeRun cells b sz 0 = .ok false := by
  intro fuel
  induction fuel with
  | zero => intro _ _ h; rw [scanFrom] at h; cases h
  | succ fuel ih =>
    intro start a h
    rw [scanFrom] at h
    by_cases hs : start = bound
    · rw [if_pos hs] at h; cases h
    · rw [if_neg hs] at h
      cases hr : isFreeRun cells start sz 0 with
      | error e => rw [hr] at h; cases h
      | ok b =>
        rw [hr] at h
        cases b with
        | true =>
          simp only [Except.ok.injEq, Option.some.injEq] at h
          subst h
          exact ⟨le_refl _, hr, fun b h1 h2 => by omega⟩
        | false =>
          simp only at h
          obtain ⟨h1, h2, h3⟩ := ih (start + 1) a h
          refine ⟨by omega, h2, ?_⟩
          intro b hb1 hb2
          rcases Nat.eq_or_lt_of_le hb1 with e | e
          · rw [← e]; exact hr
          · exact h3 b (by omega) hb2

/-- What `findFree` returns is the outcome of a successful scan of the tape it
leaves, which is the old tape with empty cells appended. -/
theorem Memory.findFreeAux_inv (sz : Nat) :
    ∀ (fuel : Nat) (cells cells1 : List Cell) (a : Nat),
      findFreeAux sz fuel cells = .ok (a, cells1) →
      ∃ k, cells1 = cells ++ List.replicate k Cell.mk0 ∧ scan cells1 sz = .ok (some a) := by
  intro fuel
  induction fuel with
  | zero => intro _ _ _ h; rw [findFreeAux] at h; cases h
  | succ fuel ih =>
    intro cells cells1 a h
    rw [findFreeAux] at h
    cases hs : scan cells sz with
    | error e => rw [hs] at h; cases h
    | ok r =>
      rw [hs] at h
      cases r with
      | some start =>
        simp only [Except.ok.injEq, Prod.mk.injEq] at h
        obtain ⟨h1, h2⟩ := h
        subst h1 h2
        exact ⟨0, by simp, hs⟩
      | none =>
        simp only at h
        obtain ⟨k, hk, hsc⟩ := ih _ _ _ h
        refine ⟨sz + k, ?_, hsc⟩
        rw [hk, List.append_assoc, List.replicate_add]

/-- A window is free exactly when the inner loop of `findFree` says so. -/
theorem Memory.freeRun_of_isFreeRun {cells : List Cell} {a sz : Nat} (hsz : 0 < sz)
    (h : isFreeRun cells a sz 0 = .ok true) : FreeRun cells a sz := by
  have hw := Memory.isFreeRun_true cells a sz 0 h
  refine ⟨?_, fun i hi => by simpa using hw i hi⟩
  obtain ⟨c, hc, _⟩ := hw (sz - 1) (by omega)
  by_contra hlt
  rw [List.getElem?_eq_none (by omega)] at hc
  cases hc

theorem Memory.not_freeRun_of_isFreeRun {cells : List Cell} {a sz : Nat}
    (h : isFreeRun cells a sz 0 = .ok false) : ¬ FreeRun cells a sz := by
  obtain ⟨i, hi, c, hc, hce⟩ := Memory.isFreeRun_false cells a sz 0 h
  intro hf
  obtain ⟨c1, hc1, hc1e⟩ := hf.2 i hi
  simp only [Nat.add_zero] at hc
  rw [hc] at hc1
  simp only [Option.some.injEq] at hc1
  subst hc1
  rw [hce] at hc1e
  cases hc1e

/-- First fit: on a tape at least as long as the request, `findFree` returns
the lowest address of a free run of the requested size inside the tape it
leaves, and that tape is the old one with empty cells appended. -/
theorem Memory.findFree_spec (m : Memory) (sz : Nat) (hsz : 0 < sz)
    (hlen : sz ≤ m.d_memory.length) :
    ∃ (a k : Nat), findFree m sz =
        .ok (a, { m with d_memory := m.d_memory ++ List.replicate k Cell.mk0 }) ∧
      FreeRun (m.d_memory ++ List.replicate k Cell.mk0) a sz ∧
      ∀ b, b < a → ¬ FreeRun (m.d_memory ++ List.replicate k Cell.mk0) b sz := by
  obtain ⟨a, k, hff, _, _⟩ := Memory.findFreeAux_ok m.d_memory sz hsz hlen
  obtain ⟨k1, hk1, hsc⟩ := Memory.findFreeAux_inv sz 3 _ _ _ hff
  unfold scan at hsc
  obtain ⟨_, h2, h3⟩ := Memory.scanFrom_some _ _ _ _ _ _ hsc
  refine ⟨a, k, ?_, Memory.freeRun_of_isFreeRun hsz h2,
    fun b hb => Memory.not_freeRun_of_isFreeRun (h3 b (Nat.zero_le _) hb)⟩
  unfold findFree
  rw [hff]

/-! ## `allocate` and `getTemp` on integer types -/

/-- The cell `place` writes at the base address. -/
theorem Memory.allocate_guard {m : Memory} {ident scope : String}
    (hfind : ident.isEmpty = true ∨ find m ident scope = -1) :
    (!ident.isEmpty && find m ident scope != -1) = false := by
  rcases hfind with h | h
  · simp [h]
  · simp [h]

/-- `allocate(ident, scope, int N)` on a tape of at least `N` cells, when the
name is empty or not visible from the scope: the value is placed on the first
free run of the tape `findFree` leaves. -/
theorem Memory.allocate_int_ok (tm : TypeMap) (m : Memory) (ident scope : String) (N : Nat)
    (hN : 0 < N) (hlen : N ≤ m.d_memory.length)
    (hfind : ident.isEmpty = true ∨ find m ident scope = -1) :
    ∃ (a k : Nat) (cells1 : List Cell) (cell : Cell),
      allocate tm m ident scope (.int N) =
        .ok ((a : Int), { d_memory := cells1, d_protectedStack := m.d_protectedStack }) ∧
      findFree m N =
        .ok (a, { m with d_memory := m.d_memory ++ List.replicate k Cell.mk0 }) ∧
      cells1.length = m.d_memory.length + k ∧
      FreeRun (m.d_memory ++ List.replicate k Cell.mk0) a N ∧
      (∀ b, b < a → ¬ FreeRun (m.d_memory ++ List.replicate k Cell.mk0) b N) ∧
      (m.d_memory ++ List.replicate k Cell.mk0)[a]? = some cell ∧
      cells1[a]? = some
        { identifier := ident, scope := scope,
          content := if scope.isEmpty then Content.REFERENCED
                     else if ident.isEmpty then Content.TEMP else Content.NAMED,
          type := TSType.int N, d_backupStack := cell.d_backupStack } ∧
      (∀ j, 1 ≤ j → j < N → ∃ c, cells1[a + j]? = some c ∧ c.content = .REFERENCED) ∧
      (∀ x, (x < a ∨ a + N ≤ x) →
        cells1[x]? = (m.d_memory ++ List.replicate k Cell.mk0)[x]?) := by
  obtain ⟨a, k, hff, hrun, hmin⟩ := Memory.findFree_spec m N hN hlen
  obtain ⟨cells0, hc0⟩ : ∃ x, x = m.d_memory ++ List.replicate k Cell.mk0 := ⟨_, rfl⟩
  rw [← hc0] at hff hrun hmin
  have hl0 : cells0.length = m.d_memory.length + k := by simp [hc0]
  obtain ⟨cell, hcell, hcelle⟩ := hrun.2 0 hN
  simp only [Nat.add_zero] at hcell
  have hak := hrun.1
  have hnp : cell.content ≠ .PROTECTED := by
    intro h
    simp [Cell.empty, h] at hcelle
  obtain ⟨cell2, hcell2⟩ : ∃ x : Cell, x =
      { identifier := ident, scope := scope,
        content := if scope.isEmpty then Content.REFERENCED
                   else if ident.isEmpty then Content.TEMP else Content.NAMED,
        type := TSType.int N, d_backupStack := cell.d_backupStack } := ⟨_, rfl⟩
  obtain ⟨cells1, hm1, hm2, hm3, hm4⟩ := Memory.markReferenced_ok a N
    ((cells0.set a cell2).length + 1) 1 (cells0.set a cell2) hN
    (by simp only [List.length_set]; omega) (by simp only [List.length_set]; omega)
    (by
      intro j hj1 hj2
      obtain ⟨cj, hcj, hcje⟩ := hrun.2 j hj2
      exact ⟨cj, by rw [List.getElem?_set_ne (by omega)]; exact hcj, hcje⟩)
  have hget : allocate tm m ident scope (.int N) =
      .ok ((a : Int), { d_memory := cells1, d_protectedStack := m.d_protectedStack }) := by
    unfold allocate
    have hd : (TSType.int N).defined = true := rfl
    simp only [hd, Bool.not_true, Bool.false_eq_true, if_false, Memory.allocate_guard hfind,
      TSType.size, hff]
    rw [place]
    simp only [cellAt, hcell, Cell.clear, if_neg hnp, TSType.isIntType, if_true, TSType.size]
    rw [← hcell2, hm1]
  have hlen1 : cells1.length = m.d_memory.length + k := by
    rw [hm2]; simpa using hl0
  have ha0 : cells1[a]? = some cell2 := by
    rw [hm3 a (by omega)]
    exact List.getElem?_set_self (by omega)
  subst hc0
  refine ⟨a, k, cells1, cell, hget, hff, hlen1, hrun, hmin, hcell, ?_, ?_, ?_⟩
  · rw [ha0, hcell2]
  · intro j hj1 hj2
    exact hm4 j hj1 hj2
  · intro x hx
    rw [hm3 x (by omega), List.getElem?_set_ne (by omega)]

/-! ## `freeIf` -/

theorem Memory.Cell.clear_identifier {c c1 : Cell} (h : c.clear = .ok c1) :
    c1.identifier = "" ∧ c1.scope = "" ∧ c1.content = .EMPTY := by
  unfold Cell.clear at h
  split at h
  · cases h
  · cases h
    exact ⟨rfl, rfl, rfl⟩

theorem Memory.cellAt_some {cells : List Cell} {i : Nat} {c : Cell}
    (h : cellAt cells i = .ok c) : cells[i]? = some c := by
  simp only [cellAt] at h
  split at h
  · rename_i c0 h0
    cases h
    exact h0
  · cases h

/-- The inner loop of `freeIf` keeps the length of the tape; a cell of the
result is a cell of the old tape or has no identifier. -/
theorem Memory.clearFollowers_spec (idx : Nat) :
    ∀ (k offset : Nat) (cells cells1 : List Cell),
      clearFollowers idx k offset cells = .ok cells1 →
      cells1.length = cells.length ∧
      ∀ (x : Nat) (c : Cell), cells1[x]? = some c → c.identifier = "" ∨ cells[x]? = some c := by
  intro k
  induction k with
  | zero =>
    intro offset cells cells1 h
    rw [clearFollowers] at h
    cases h
    exact ⟨rfl, fun x c hc => Or.inr hc⟩
  | succ k ih =>
    intro offset cells cells1 h
    rw [clearFollowers] at h
    cases hc : cellAt cells (idx + offset) with
    | error e => rw [hc] at h; cases h
    | ok referenced =>
      rw [hc] at h
      simp only at h
      cases hcl : referenced.clear with
      | error e => rw [hcl] at h; cases h
      | ok cleared =>
        rw [hcl] at h
        simp only at h
        obtain ⟨h1, h2⟩ := ih _ _ _ h
        refine ⟨by rw [h1, List.length_set], ?_⟩
        intro x c hx
        rcases h2 x c hx with e | e
        · exact Or.inl e
        · by_cases hxi : idx + offset = x
          · subst hxi
            have hlt : idx + offset < cells.length := by
              have := Memory.cellAt_some hc
              by_contra hge
              rw [List.getElem?_eq_none (by omega)] at this
              cases this
            rw [List.getElem?_set_self hlt] at e
            simp only [Option.some.injEq] at e
            subst e
            exact Or.inl (Memory.Cell.clear_identifier hcl).1
          · rw [List.getElem?_set_ne hxi] at e
            exact Or.inr e

/-- The loop of `freeIf` keeps the length of the tape; a cell of the result
either has no identifier, or it is the cell of the old tape at the same
address and the predicate does not hold of it. -/
theorem Memory.freeIfLoop_spec (tm : TypeMap) (pred : Cell → Bool) :
    ∀ (k idx : Nat) (cells cells1 : List Cell),
      freeIfLoop tm pred k idx cells = .ok cells1 → idx + k = cells.length →
      cells1.length = cells.length ∧
      ∀ (x : Nat) (c : Cell), cells1[x]? = some c →
        c.identifier = "" ∨ (cells[x]? = some c ∧ (idx ≤ x → pred c = false)) := by
  intro k
  induction k with
  | zero =>
    intro idx cells cells1 h hk
    rw [freeIfLoop] at h
    cases h
    refine ⟨rfl, fun x c hc => Or.inr ⟨hc, fun hx => ?_⟩⟩
    have : x < cells.length := by
      by_contra hge
      rw [List.getElem?_eq_none (by omega)] at hc
      cases hc
    omega
  | succ k ih =>
    intro idx cells cells1 h hk
    rw [freeIfLoop] at h
    cases hc : cellAt cells idx with
    | error e => rw [hc] at h; cases h
    | ok cell =>
      rw [hc] at h
      simp only at h
      have hcell := Memory.cellAt_some hc
      by_cases hp : pred cell = true
      · rw [if_pos hp] at h
        cases hf : clearFollowers idx (cell.size tm - 1) 1 cells with
        | error e => rw [hf] at h; cases h
        | ok cells2 =>
          rw [hf] at h
          simp only at h
          cases hcl : cell.clear with
          | error e => rw [hcl] at h; cases h
          | ok cleared =>
            rw [hcl] at h
            simp only at h
            obtain ⟨f1, f2⟩ := Memory.clearFollowers_spec idx _ _ _ _ hf
            obtain ⟨h1, h2⟩ := ih (idx + 1) _ _ h (by rw [List.length_set, f1]; omega)
            refine ⟨by rw [h1, List.length_set, f1], ?_⟩
            intro x c hx
            rcases h2 x c hx with e | ⟨e1, e2⟩
            · exact Or.inl e
            · by_cases hxi : idx = x
              · subst hxi
                rw [List.getElem?_set_self (by rw [f1]; omega)] at e1
                simp only [Option.some.injEq] at e1
                subst e1
                exact Or.inl (Memory.Cell.clear_identifier hcl).1
              · rw [List.getElem?_set_ne hxi] at e1
                rcases f2 x c e1 with g | g
                · exact Or.inl g
                · exact Or.inr ⟨g, fun hle => e2 (by omega)⟩
      · rw [if_neg hp] at h
        obtain ⟨h1, h2⟩ := ih (idx + 1) _ _ h (by omega)
        refine ⟨h1, ?_⟩
        intro x c hx
        rcases h2 x c hx with e | ⟨e1, e2⟩
        · exact Or.inl e
        · refine Or.inr ⟨e1, fun hle => ?_⟩
          by_cases hxi : idx = x
          · subst hxi
            rw [hcell] at e1
            simp only [Option.some.injEq] at e1
            subst e1
            simpa using hp
          · exact e2 (by omega)

/-- After `freeLocals(scope)` a cell of the tape has no identifier or is a
cell of the old tape, at the same address, registered under another scope. -/
theorem Memory.freeLocals_spec (tm : TypeMap) (m m1 : Memory) (scope : String)
    (h : freeLocals tm m scope = .ok m1) :
    m1.d_memory.length = m.d_memory.length ∧
    m1.d_protectedStack = m.d_protectedStack ∧
    ∀ (x : Nat) (c : Cell), m1.d_memory[x]? = some c →
      c.identifier = "" ∨ (m.d_memory[x]? = some c ∧ c.scope ≠ scope) := by
  unfold freeLocals freeIf at h
  cases hl : freeIfLoop tm (fun cell => cell.scope == scope) m.d_memory.length 0 m.d_memory with
  | error e => rw [hl] at h; cases h
  | ok cells =>
    rw [hl] at h
    cases h
    obtain ⟨h1, h2⟩ := Memory.freeIfLoop_spec tm _ _ _ _ _ hl (by omega)
    refine ⟨h1, rfl, ?_⟩
    intro x c hx
    rcases h2 x c hx with e | ⟨e1, e2⟩
    · exact Or.inl e
    · refine Or.inr ⟨e1, ?_⟩
      have := e2 (Nat.zero_le _)
      simpa using this

/-! ## Redefinition -/

theorem Memory.find_ne_of_matches (m : Memory) (ident scope : String) (i : Nat) (cell : Cell)
    (h : m.d_memory[i]? = some cell) (hm : cell.Matches ident scope) :
    find m ident scope ≠ -1 := by
  rcases Memory.find_spec m ident scope with ⟨_, h2⟩ | ⟨j, hj, _⟩
  · exact absurd hm (h2 i cell h)
  · rw [hj]
    omega

theorem Memory.find_eq_of_none (m : Memory) (ident scope : String)
    (h : ∀ (i : Nat) (cell : Cell), m.d_memory[i]? = some cell → ¬ cell.Matches ident scope) :
    find m ident scope = -1 := by
  rcases Memory.find_spec m ident scope with ⟨h1, _⟩ | ⟨j, _, cell, hc, hm, _⟩
  · exact h1
  · exact absurd hm (h j cell hc)

/-- For an integer type of `N` cells, `1 ≤ N`, on a tape of at least `N` cells:
`allocate` with the same non-empty name and scope twice in a row returns, and
the second call returns -1 and leaves the tape as it is. -/
theorem Memory.allocate_twice_int (tm : TypeMap) (m : Memory) (name scope : String) (N : Nat)
    (hid : name.isEmpty = false) (hN : 0 < N) (hlen : N ≤ m.d_memory.length) :
    ∃ (r : Int) (m1 : Memory), allocate tm m name scope (.int N) = .ok (r, m1) ∧
      allocate tm m1 name scope (.int N) = .ok (-1, m1) := by
  by_cases hf : find m name scope = -1
  · obtain ⟨a, k, cells1, cell, h, _, _, _, _, _, hcell, _, _⟩ :=
      Memory.allocate_int_ok tm m name scope N hN hlen (Or.inr hf)
    refine ⟨a, _, h, ?_⟩
    have hne : find { d_memory := cells1, d_protectedStack := m.d_protectedStack } name scope
        ≠ -1 :=
      Memory.find_ne_of_matches _ name scope a _ hcell ⟨ List.prefix_refl _, rfl⟩
    simp [allocate, TSType.defined, hid, hne]
  · have h : allocate tm m name scope (.int N) = .ok (-1, m) := by
      simp [allocate, TSType.defined, hid, hf]
    exact ⟨-1, m, h, h⟩

/-! ## Control flow: the stacks and the bracketed regions -/

theorem Gen.bind_ok {α β : Type} {x : Gen α} {f : α → Gen β} {c c1 : Compiler} {a : α}
    (h : x c = .ok (a, c1)) : (x >>= f) c = f a c1 := by
  simp only [Gen.run_bind, h]

/-- A region left after `n` rounds is a terminating run of the loop. -/
theorem Rounds.runs {body : Code} (hb : Balanced body) :
    ∀ (n : Nat) (s s1 : Machine), Rounds body n s s1 → Runs (loopC body) s s1 := by
  intro n
  induction n with
  | zero =>
    rintro s s1 ⟨hz, rfl⟩
    exact Runs.loop_skip hb hz
  | succ n ih =>
    rintro s s1 ⟨hnz, s2, h1, h2⟩
    exact Runs.loop_step hnz h1 (ih s2 s1 h2)

/-- The number of rounds of a region is determined by the state it is entered
in. -/
theorem Rounds.unique {body : Code} :
    ∀ (n m : Nat) (s s1 s2 : Machine), Rounds body n s s1 → Rounds body m s s2 →
      n = m ∧ s1 = s2 := by
  intro n
  induction n with
  | zero =>
    intro m s s1 s2 h1 h2
    obtain ⟨hz, rfl⟩ := h1
    cases m with
    | zero => exact ⟨rfl, h2.2.symm⟩
    | succ m => exact absurd hz h2.1
  | succ n ih =>
    intro m s s1 s2 h1 h2
    obtain ⟨hnz, a, ra, ha⟩ := h1
    cases m with
    | zero => exact absurd h2.1 hnz
    | succ m =>
      obtain ⟨_, b, rb, hb⟩ := h2
      have hab : a = b := Runs.det ra rb
      subst hab
      obtain ⟨e1, e2⟩ := ih m a s1 s2 ha hb
      exact ⟨by rw [e1], e2⟩

theorem Compiler.Live.of_cell {c c1 : Compiler} {a : Int} (h : c.Live a)
    (he : c1.d_memory.d_memory[a.toNat]? = c.d_memory.d_memory[a.toNat]?) : c1.Live a := by
  show c1.d_memory.isLive a = true
  rw [Memory.isLive_iff, he]
  exact (Memory.isLive_iff _ _).mp h

theorem Compiler.Live.ready_one {c : Compiler} {a : Int} (h : c.Live a) (hcs : c.d_callStack ≠ []) :
    c.Ready 1 := by
  have := Memory.isLive_lt _ _ h
  exact ⟨hcs, by omega⟩

theorem Memory.Cell.backup_not_empty (cell : Cell) : cell.backup.empty = false := rfl

theorem Memory.Cell.backup_restore (cell : Cell) : cell.backup.restore = .ok cell := rfl

/-- `pushStack(a)` on an allocated cell: the record of the cell is saved and
the cell is marked protected; the address goes on both stacks. -/
theorem Compiler.pushStack_spec (c : Compiler) (a : Int) (h : c.Live a) :
    ∃ (cell : Cell) (c1 : Compiler), pushStack a c = .ok ((), c1) ∧
      c.d_memory.d_memory[a.toNat]? = some cell ∧
      c1.d_memory.d_memory = c.d_memory.d_memory.set a.toNat cell.backup ∧
      c1.d_memory.d_protectedStack = a :: c.d_memory.d_protectedStack ∧
      c1.d_stack = a :: c.d_stack ∧ c1.d_pointer = c.d_pointer ∧
      c1.d_callStack = c.d_callStack ∧ c1.d_codeBuffer = c.d_codeBuffer ∧
      c1.typeMap = c.typeMap := by
  obtain ⟨h0, hlt⟩ := Memory.isLive_lt _ _ h
  obtain ⟨_, cell, hcell, _⟩ := (Memory.isLive_iff _ _).mp h
  have hnot : ¬ (a < 0 ∨ (c.d_memory.d_memory.length : Int) ≤ a) := by omega
  refine ⟨cell,
    { c with
      d_memory := { d_memory := c.d_memory.d_memory.set a.toNat cell.backup,
                    d_protectedStack := a :: c.d_memory.d_protectedStack },
      d_stack := a :: c.d_stack }, ?_, hcell, rfl, rfl, rfl, rfl, rfl, rfl, rfl⟩
  simp only [pushStack, Memory.stack, Memory.push, hnot, if_false, hcell]

/-- `popStack` when the address on top of both stacks is that of a cell
with a saved record: the record is put back and both stacks lose their top. -/
theorem Compiler.popStack_spec (c : Compiler) (a : Int) (st ps : List Int) (cell : Cell)
    (hs : c.d_stack = a :: st) (hp : c.d_memory.d_protectedStack = a :: ps) (ha : 0 ≤ a)
    (hcell : c.d_memory.d_memory[a.toNat]? = some cell.backup) :
    ∃ c1 : Compiler, popStack c = .ok (a, c1) ∧
      c1.d_memory.d_memory = c.d_memory.d_memory.set a.toNat cell ∧
      c1.d_memory.d_protectedStack = ps ∧ c1.d_stack = st ∧ c1.d_pointer = c.d_pointer ∧
      c1.d_callStack = c.d_callStack ∧ c1.d_codeBuffer = c.d_codeBuffer ∧
      c1.typeMap = c.typeMap := by
  have hnot : ¬ a < 0 := by omega
  refine ⟨
    { c with
      d_memory := { d_memory := c.d_memory.d_memory.set a.toNat cell, d_protectedStack := ps },
      d_stack := st }, ?_, rfl, rfl, rfl, rfl, rfl, rfl, rfl⟩
  simp only [popStack, hs, Memory.unstack, Memory.pop, hp, hnot, if_false, cellAt, hcell,
    Memory.Cell.backup_restore, if_true]

theorem Compiler.toNat_ne {a b : Int} (ha : 0 ≤ a) (hb : 0 ≤ b) (h : a ≠ b) :
    a.toNat ≠ b.toNat := by omega

/-- The protect stack and the evaluation stack are not touched by
`allocate`. -/
theorem Memory.allocate_protectedStack {tm : TypeMap} {m m1 : Memory} {ident scope : String}
    {type : TSType} {r : Int} (h : allocate tm m ident scope type = .ok (r, m1)) :
    m1.d_protectedStack = m.d_protectedStack := by
  unfold allocate at h
  split at h
  · cases h
  · split at h
    · cases h
      rfl
    · cases hf : findFree m (type.size tm) with
      | error e => rw [hf] at h; cases h
      | ok r1 =>
        obtain ⟨addr, m2⟩ := r1
        rw [hf] at h
        simp only at h
        have h2 : m2.d_protectedStack = m.d_protectedStack := by
          unfold findFree at hf
          cases hx : findFreeAux (type.size tm) 3 m.d_memory with
          | error e => rw [hx] at hf; cases hf
          | ok r2 =>
            obtain ⟨a2, cells2⟩ := r2
            rw [hx] at hf
            cases hf
            rfl
        cases hpl : place tm tm.length m2.d_memory ident scope type addr with
        | error e => rw [hpl] at h; cases h
        | ok cells =>
          rw [hpl] at h
          cases h
          exact h2

theorem Compiler.allocateTemp_frame {c c1 : Compiler} {sz : Nat} {a : Int}
    (h : allocateTemp sz c = .ok (a, c1)) :
    c1.d_stack = c.d_stack ∧ c1.d_memory.d_protectedStack = c.d_memory.d_protectedStack := by
  unfold allocateTemp at h
  cases hl : c.d_callStack.getLast? with
  | none => rw [hl] at h; cases h
  | some scope =>
    rw [hl] at h
    simp only at h
    cases hg : Memory.getTemp c.typeMap c.d_memory scope (sz % 256) with
    | error e => rw [hg] at h; cases h
    | ok r =>
      obtain ⟨addr, m⟩ := r
      rw [hg] at h
      cases h
      have hg2 : allocate c.typeMap c.d_memory "" scope (.int (sz % 256)) = .ok (a, m) := hg
      exact ⟨rfl, Memory.allocate_protectedStack hg2⟩

/-- `logicalNot(arg)` on an allocated cell: the result is a new cell; the
appended text ends on it, leaves 1 there if `arg` held 0 and 0 otherwise, and
changes no cell that was allocated before the call. -/
theorem Compiler.logicalNot_spec (c : Compiler) (arg : Int) (hr : c.Ready 1)
    (ha : c.Live arg) :
    ∃ (result : Int) (code : Code) (c1 : Compiler), logicalNot arg c = .ok (result, c1) ∧
      c.Ext c1 ∧ c1.d_codeBuffer = c.d_codeBuffer ++ code ∧ c1.d_pointer = result ∧
      ¬ c.Live result ∧ c1.Live result ∧
      ∀ t, Bytes t → ∃ t1, Runs code ⟨t, c.d_pointer⟩ ⟨t1, result⟩ ∧
        t1 result = (if t arg = 0 then 1 else 0) ∧
        (∀ a, c.Live a → t1 a = t a) := by
  obtain ⟨result, c1, hal, _, e01, hp1, hcb1, hfresh, hlive, _, _⟩ :=
    Compiler.allocateTemp_spec c 1 (by norm_num) (by norm_num) hr
  have hfr : ¬ c.Live result := by simpa using hfresh 0 (by norm_num)
  have hlv : c1.Live result := by simpa using hlive 0 (by norm_num)
  obtain ⟨code, c2, hnot, e12, hcb2, hp2, sem⟩ :=
    Compiler.bf_not_spec c1 arg result (e01.ready hr) (e01.live ha) hlv (ha.ne hfr)
  refine ⟨result, code, { c2 with d_codeBuffer := c2.d_codeBuffer ++ code }, ?_, ?_, ?_, hp2,
    hfr, e12.live hlv, ?_⟩
  · simp only [logicalNot, Gen.run_bind, hal, hnot, Compiler.emit_run, Gen.run_pure]
  · exact e01.trans e12
  · show c2.d_codeBuffer ++ code = c.d_codeBuffer ++ code
    rw [hcb2, hcb1]
  · intro t hb
    rw [← hp1]
    obtain ⟨t1, run, v, f⟩ := sem t hb
    exact ⟨t1, run, v, fun a hla => f a (hla.ne hfr) (Or.inl (e01.live hla))⟩

/-! ## `whileStatement` and `forStatement` on a variable -/

/-- `bf_assign(a, a)`: the text ends on `a` and leaves 0 there; no other cell
that was allocated before the call changes, and the stacks stay as they
are. -/
theorem Compiler.bf_assign_self_spec (c : Compiler) (a : Int) (hr : c.Ready 1)
    (hl : c.Live a) :
    ∃ code c1, bf_assign a a c = .ok (code, c1) ∧ c.Ext c1 ∧
      c1.d_codeBuffer = c.d_codeBuffer ∧ c1.d_pointer = a ∧ c1.d_stack = c.d_stack ∧
      c1.d_memory.d_protectedStack = c.d_memory.d_protectedStack ∧
      ∀ t, Bytes t → ∃ t1, Runs code ⟨t, c.d_pointer⟩ ⟨t1, a⟩ ∧ t1 a = 0 ∧
        ∀ b, c.Live b → b ≠ a → t1 b = t b := by
  obtain ⟨tmp, c1, hal, ht0, hext, hp, hcb, hfresh, _, _, _⟩ :=
    Compiler.allocateTemp_spec c 1 (by norm_num) (by norm_num) hr
  obtain ⟨hst, hps⟩ := Compiler.allocateTemp_frame hal
  have hfr : ¬ c.Live tmp := by simpa using hfresh 0 (by norm_num)
  have h2 : tmp ≠ a := (hl.ne hfr).symm
  refine ⟨_, _, Compiler.bf_assign_run hl.nonneg hl.nonneg ht0 hal hp, hext, hcb, rfl, hst,
    hps, ?_⟩
  intro t hb
  refine ⟨_, Runs.assign_self c.d_pointer a tmp h2 t hb, ?_, ?_⟩
  · rw [setCell_other _ _ h2.symm, setCell_same]
  · intro b hlb hba
    rw [setCell_other _ _ (hlb.ne hfr), setCell_other _ _ hba]

/-- `while (x)` for a variable `x`, that is for a condition thunk that returns
the address of `x` and emits nothing: the region tests `x`, and the assignment
of the re-evaluated condition to the condition cell is `bf_assign(x, x)`,
which leaves 0 in `x`.  Entered with a nonzero `x` and a body that keeps `x`,
the region is left after exactly one round. -/
theorem Compiler.whileStatement_variable (c : Compiler) (x : Int)
    (condition body : Instruction) (hcs : c.d_callStack ≠ []) (hx : c.Live x)
    (hc : ∀ s, condition s = .ok (x, s)) (hbody : Keeps body [x]) :
    ∃ (rB : Int) (codeB codeA : Code) (cA cB cB1 cF : Compiler),
      whileStatement condition body c = .ok (-1, cF) ∧
      body cA = .ok (rB, cB) ∧ cB.d_codeBuffer = cA.d_codeBuffer ++ codeB ∧
      bf_assign x x cB = .ok (codeA, cB1) ∧
      cF.d_codeBuffer = c.d_codeBuffer ++ (mvCode c.d_pointer x ++ loopC (codeB ++ codeA)) ∧
      cF.d_pointer = x ∧
      ∀ t, Bytes t → t x ≠ 0 → ∃ tB t1 : Int → Nat,
        Runs codeB ⟨t, x⟩ ⟨tB, cB.d_pointer⟩ ∧ tB x = t x ∧
        Runs codeA ⟨tB, cB.d_pointer⟩ ⟨t1, x⟩ ∧ t1 x = 0 ∧
        Rounds (codeB ++ codeA) 1 ⟨t, x⟩ ⟨t1, x⟩ := by
  have h0 : 0 ≤ x := hx.nonneg
  obtain ⟨cx, c3, hpush, hcx, hm3, hps3, hst3, hp3, hcs3, hcb3, _⟩ :=
    Compiler.pushStack_spec c x hx
  have hlt : x.toNat < c.d_memory.d_memory.length := (Memory.isLive_lt _ _ hx).2
  have hc3x : c3.d_memory.d_memory[x.toNat]? = some cx.backup := by
    rw [hm3, List.getElem?_set_self hlt]
  obtain ⟨cA, hcA⟩ : ∃ s : Compiler, s =
      { c3 with d_pointer := x,
                d_codeBuffer := c3.d_codeBuffer ++ mvCode c3.d_pointer x ++ ['['] } :=
    ⟨_, rfl⟩
  have hcsA : cA.d_callStack ≠ [] := by
    rw [hcA]
    show c3.d_callStack ≠ []
    rw [hcs3]
    exact hcs
  have hpreA : ∀ a, a ∈ [x] → cA.Live a := by
    intro a ha
    simp only [List.mem_singleton] at ha
    subst ha
    rw [hcA]
    show c3.d_memory.isLive a = true
    rw [Memory.isLive_iff]
    exact ⟨h0, _, hc3x, rfl⟩
  obtain ⟨rB, codeB, cB, hB, hcbB, hcsB, hstB, hpsB, hcellB, semB⟩ := hbody cA hcsA hpreA
  have hBx : cB.d_memory.d_memory[x.toNat]? = some cx.backup := by
    rw [hcellB x (by simp), hcA]
    exact hc3x
  have hlB : cB.Live x := by
    show cB.d_memory.isLive x = true
    rw [Memory.isLive_iff]
    exact ⟨h0, _, hBx, rfl⟩
  have hcsB' : cB.d_callStack ≠ [] := by
    rw [hcsB]
    exact hcsA
  obtain ⟨codeA, cB1, hA, extA, hcbA, hpA, hstA, hpsA, semA⟩ :=
    Compiler.bf_assign_self_spec cB x (hlB.ready_one hcsB') hlB
  obtain ⟨cE, hcE⟩ : ∃ s : Compiler, s =
      { cB1 with d_codeBuffer := cB1.d_codeBuffer ++ codeA ++ [']'] } := ⟨_, rfl⟩
  have hstE : cE.d_stack = x :: c.d_stack := by
    rw [hcE]
    show cB1.d_stack = _
    rw [hstA, hstB, hcA]
    exact hst3
  have hpsE : cE.d_memory.d_protectedStack = x :: c.d_memory.d_protectedStack := by
    rw [hcE]
    show cB1.d_memory.d_protectedStack = _
    rw [hpsA, hpsB, hcA]
    exact hps3
  have hEx : cE.d_memory.d_memory[x.toNat]? = some cx.backup := by
    rw [hcE]
    show cB1.d_memory.d_memory[x.toNat]? = _
    rw [(extA.2.2.2 x hlB).2]
    exact hBx
  obtain ⟨cF, hpop, _, _, _, hpF, _, hcbF, _⟩ :=
    Compiler.popStack_spec cE x c.d_stack c.d_memory.d_protectedStack cx hstE hpsE h0 hEx
  refine ⟨rB, codeB, codeA, cA, cB, cB1, cF, ?_, hB, hcbB, hA, ?_, ?_, ?_⟩
  · subst hcA hcE
    simp only [whileStatement, Gen.run_bind, hc, hpush, Compiler.bf_movePtr_run h0,
      Compiler.emit_run, hB, hA, hpop, Gen.run_pure]
  · rw [hcbF, hcE]
    show cB1.d_codeBuffer ++ _ ++ _ = _
    rw [hcbA, hcbB, hcA]
    show c3.d_codeBuffer ++ _ ++ _ ++ _ ++ _ ++ _ = _
    rw [hcb3, hp3]
    simp [loopC]
  · rw [hpF, hcE]
    exact hpA
  · intro t hb hnz
    have hpA' : cA.d_pointer = x := by rw [hcA]
    obtain ⟨tB, runB, keepB⟩ := semB t hb
    rw [hpA'] at runB
    have hbB : Bytes tB := Runs.bytes runB hb
    obtain ⟨t1, runA, v, _⟩ := semA tB hbB
    refine ⟨tB, t1, runB, keepB x (by simp), runA, v, hnz, _, runB.append runA, v, rfl⟩

theorem Gen.bind_assoc {α β γ : Type} (x : Gen α) (f : α → Gen β) (g : β → Gen γ) :
    (x >>= f) >>= g = x >>= fun a => f a >>= g := by
  funext c
  simp only [Gen.run_bind]
  cases x c with
  | error e => rfl
  | ok r => rfl

theorem Gen.pure_bind {α β : Type} (a : α) (f : α → Gen β) : (pure a : Gen α) >>= f = f a :=
  rfl

/-- A `for` statement is its initialisation followed by the `while` statement
over the body and the increment. -/
theorem Compiler.forStatement_eq (init condition increment body : Instruction) :
    forStatement init condition increment body =
      init >>= fun _ => whileStatement condition (mergeInstructions body increment) := by
  simp only [forStatement, whileStatement, mergeInstructions, Gen.bind_assoc, Gen.pure_bind]

/-- Two thunks in a row keep what each of them keeps. -/
theorem Compiler.Keeps.merge {a b : Instruction} {keep : List Int} (ha : Keeps a keep)
    (hb : Keeps b keep) : Keeps (mergeInstructions a b) keep := by
  intro c hcs hlive
  obtain ⟨r1, code1, c1, h1, hcb1, hcs1, hst1, hps1, hcell1, sem1⟩ := ha c hcs hlive
  have hlive1 : ∀ x, x ∈ keep → c1.Live x := fun x hx => (hlive x hx).of_cell (hcell1 x hx)
  obtain ⟨r2, code2, c2, h2, hcb2, hcs2, hst2, hps2, hcell2, sem2⟩ :=
    hb c1 (by rw [hcs1]; exact hcs) hlive1
  refine ⟨-1, code1 ++ code2, c2, ?_, ?_, hcs2.trans hcs1, hst2.trans hst1, hps2.trans hps1,
    fun x hx => (hcell2 x hx).trans (hcell1 x hx), ?_⟩
  · simp only [mergeInstructions, Gen.run_bind, h1, h2, Gen.run_pure]
  · rw [hcb2, hcb1, List.append_assoc]
  · intro t hbt
    obtain ⟨t1, run1, k1⟩ := sem1 t hbt
    obtain ⟨t2, run2, k2⟩ := sem2 t1 (Runs.bytes run1 hbt)
    exact ⟨t2, run1.append run2, fun x hx => (k2 x hx).trans (k1 x hx)⟩

/-- `for (init; x; increment)` for a variable `x`: as for `while (x)`, the
region entered with a nonzero `x` is left after exactly one round of the body
and the increment, with 0 in `x`. -/
theorem Compiler.forStatement_variable (c : Compiler) (x : Int)
    (init condition increment body : Instruction) (hcs : c.d_callStack ≠ []) (hx : c.Live x)
    (hc : ∀ s, condition s = .ok (x, s)) (hinit : Keeps init [x])
    (hincr : Keeps increment [x]) (hbody : Keeps body [x]) :
    ∃ (rI rB : Int) (codeI codeB codeA : Code) (c0 cA cB cB1 cF : Compiler),
      forStatement init condition increment body c = .ok (-1, cF) ∧
      init c = .ok (rI, c0) ∧ c0.d_codeBuffer = c.d_codeBuffer ++ codeI ∧
      mergeInstructions body increment cA = .ok (rB, cB) ∧
      cB.d_codeBuffer = cA.d_codeBuffer ++ codeB ∧
      bf_assign x x cB = .ok (codeA, cB1) ∧
      cF.d_codeBuffer =
        c.d_codeBuffer ++ (codeI ++ mvCode c0.d_pointer x ++ loopC (codeB ++ codeA)) ∧
      cF.d_pointer = x ∧
      ∀ t, Bytes t → t x ≠ 0 → ∃ tI tB t1 : Int → Nat,
        Runs codeI ⟨t, c.d_pointer⟩ ⟨tI, c0.d_pointer⟩ ∧ tI x = t x ∧
        Runs codeB ⟨tI, x⟩ ⟨tB, cB.d_pointer⟩ ∧ tB x = t x ∧
        Runs codeA ⟨tB, cB.d_pointer⟩ ⟨t1, x⟩ ∧ t1 x = 0 ∧
        Rounds (codeB ++ codeA) 1 ⟨tI, x⟩ ⟨t1, x⟩ := by
  obtain ⟨rI, codeI, c0, hI, hcbI, hcsI, _, _, hcellI, semI⟩ :=
    hinit c hcs (by
      intro a ha
      simp only [List.mem_singleton] at ha
      subst ha
      exact hx)
  have hx0 : c0.Live x := hx.of_cell (hcellI x (by simp))
  obtain ⟨rB, codeB, codeA, cA, cB, cB1, cF, hW, hB, hcbB, hA, hcbF, hpF, semW⟩ :=
    Compiler.whileStatement_variable c0 x condition (mergeInstructions body increment)
      (by rw [hcsI]; exact hcs) hx0 hc (hbody.merge hincr)
  refine ⟨rI, rB, codeI, codeB, codeA, c0, cA, cB, cB1, cF, ?_, hI, hcbI, hB, hcbB, hA, ?_,
    hpF, ?_⟩
  · rw [Compiler.forStatement_eq, Gen.bind_ok hI]
    exact hW
  · rw [hcbF, hcbI]
    simp
  · intro t hb hnz
    obtain ⟨tI, runI, keepI⟩ := semI t hb
    have hIx : tI x = t x := keepI x (by simp)
    obtain ⟨tB, t1, runB, kB, runA, v, rounds⟩ :=
      semW tI (Runs.bytes runI hb) (by rw [hIx]; exact hnz)
    exact ⟨tI, tB, t1, runI, hIx, runB, kB.trans hIx, runA, v, rounds⟩

/-- The thunk of an assignment of a constant keeps every cell but its
target. -/
theorem Compiler.Keeps.setThunk {a v : Int} {keep : List Int} (ha : 0 ≤ a) (hv : 0 ≤ v)
    (hk : a ∉ keep) : Keeps (setThunk a v) keep := by
  intro c _ _
  refine ⟨-1, mvCode c.d_pointer a ++ ['[', '-', ']'] ++ List.replicate v.toNat '+',
    { c with d_pointer := a,
             d_codeBuffer := c.d_codeBuffer ++
               (mvCode c.d_pointer a ++ ['[', '-', ']'] ++ List.replicate v.toNat '+') },
    ?_, rfl, rfl, rfl, rfl, fun _ _ => rfl, ?_⟩
  · simp only [BrainFix.setThunk, Gen.run_bind, Compiler.bf_setToValue_run ha hv,
      Compiler.emit_run, Gen.run_pure]
  · intro t hb
    refine ⟨_, Runs.setToValue t c.d_pointer a v.toNat hb, ?_⟩
    intro b hbk
    exact setCell_other _ _ (fun e => hk (e ▸ hbk))

/-! ## `whileStatement` on a condition that is evaluated into a cell of its own -/

/-- `bf_assign` leaves the evaluation stack and the protect stack alone. -/
theorem Compiler.bf_assign_stacks (c : Compiler) (lhs rhs : Int) (hr : c.Ready 1)
    (hl : 0 ≤ lhs) (hrh : 0 ≤ rhs) {code : Code} {c1 : Compiler}
    (h : bf_assign lhs rhs c = .ok (code, c1)) :
    c1.d_stack = c.d_stack ∧ c1.d_memory.d_protectedStack = c.d_memory.d_protectedStack := by
  obtain ⟨tmp, c2, hal, ht0, _, hp, _, _, _, _, _⟩ :=
    Compiler.allocateTemp_spec c 1 (by norm_num) (by norm_num) hr
  rw [Compiler.bf_assign_run hl hrh ht0 hal hp] at h
  cases h
  have hf := Compiler.allocateTemp_frame hal
  exact ⟨hf.1, hf.2⟩

/-- `whileStatement` when the re-evaluation of the condition returns a cell
`cond2` other than the condition cell `cond1`: the call returns, the region
tests `cond1`, and each round (the body, the re-evaluation, the assignment)
ends on `cond1` with `cond1` holding the value the re-evaluation left in
`cond2`. -/
theorem Compiler.whileStatement_round (c c1 : Compiler) (condition body : Instruction)
    (cond1 : Int) (hcond : condition c = .ok (cond1, c1)) (hcs : c1.d_callStack ≠ [])
    (hlive : c1.Live cond1) (hbody : Keeps body [cond1])
    (hagain : ∀ s : Compiler, s.d_callStack ≠ [] → s.Live cond1 →
      ∃ (cond2 : Int) (code : Code) (s1 : Compiler), condition s = .ok (cond2, s1) ∧
        cond2 ≠ cond1 ∧ s1.Live cond2 ∧ s1.d_codeBuffer = s.d_codeBuffer ++ code ∧
        s1.d_callStack = s.d_callStack ∧ s1.d_stack = s.d_stack ∧
        s1.d_memory.d_protectedStack = s.d_memory.d_protectedStack ∧
        s1.d_memory.d_memory[cond1.toNat]? = s.d_memory.d_memory[cond1.toNat]? ∧
        ∀ t, Bytes t → ∃ t1, Runs code ⟨t, s.d_pointer⟩ ⟨t1, s1.d_pointer⟩) :
    ∃ (cond2 rB : Int) (codeB codeC codeA : Code) (cA cB cC cC1 cF : Compiler),
      whileStatement condition body c = .ok (-1, cF) ∧
      body cA = .ok (rB, cB) ∧ cB.d_codeBuffer = cA.d_codeBuffer ++ codeB ∧
      condition cB = .ok (cond2, cC) ∧ cC.d_codeBuffer = cB.d_codeBuffer ++ codeC ∧
      bf_assign cond1 cond2 cC = .ok (codeA, cC1) ∧ cond2 ≠ cond1 ∧
      cF.d_codeBuffer = c1.d_codeBuffer ++
        (mvCode c1.d_pointer cond1 ++ loopC (codeB ++ codeC ++ codeA)) ∧
      cF.d_pointer = cond1 ∧
      ∀ t, Bytes t → ∃ tC t1 : Int → Nat,
        Runs (codeB ++ codeC) ⟨t, cond1⟩ ⟨tC, cC.d_pointer⟩ ∧
        Runs codeA ⟨tC, cC.d_pointer⟩ ⟨t1, cond1⟩ ∧
        t1 cond1 = tC cond2 ∧ t1 cond2 = tC cond2 := by
  have h0 : 0 ≤ cond1 := hlive.nonneg
  obtain ⟨cx, c3, hpush, hcx, hm3, hps3, hst3, hp3, hcs3, hcb3, _⟩ :=
    Compiler.pushStack_spec c1 cond1 hlive
  have hlt : cond1.toNat < c1.d_memory.d_memory.length := (Memory.isLive_lt _ _ hlive).2
  have hc3x : c3.d_memory.d_memory[cond1.toNat]? = some cx.backup := by
    rw [hm3, List.getElem?_set_self hlt]
  obtain ⟨cA, hcA⟩ : ∃ s : Compiler, s =
      { c3 with d_pointer := cond1,
                d_codeBuffer := c3.d_codeBuffer ++ mvCode c3.d_pointer cond1 ++ ['['] } :=
    ⟨_, rfl⟩
  have hcsA : cA.d_callStack ≠ [] := by
    rw [hcA]
    show c3.d_callStack ≠ []
    rw [hcs3]
    exact hcs
  have hpreA : ∀ a, a ∈ [cond1] → cA.Live a := by
    intro a ha
    simp only [List.mem_singleton] at ha
    subst ha
    rw [hcA]
    show c3.d_memory.isLive a = true
    rw [Memory.isLive_iff]
    exact ⟨h0, _, hc3x, rfl⟩
  obtain ⟨rB, codeB, cB, hB, hcbB, hcsB, hstB, hpsB, hcellB, semB⟩ := hbody cA hcsA hpreA
  have hBx : cB.d_memory.d_memory[cond1.toNat]? = some cx.backup := by
    rw [hcellB cond1 (by simp), hcA]
    exact hc3x
  have hlB : cB.Live cond1 := by
    show cB.d_memory.isLive cond1 = true
    rw [Memory.isLive_iff]
    exact ⟨h0, _, hBx, rfl⟩
  have hcsB' : cB.d_callStack ≠ [] := by
    rw [hcsB]
    exact hcsA
  obtain ⟨cond2, codeC, cC, hC, hne, hl2, hcbC, hcsC, hstC, hpsC, hcellC, semC⟩ :=
    hagain cB hcsB' hlB
  have hCx : cC.d_memory.d_memory[cond1.toNat]? = some cx.backup := by
    rw [hcellC]
    exact hBx
  have hlC : cC.Live cond1 := by
    show cC.d_memory.isLive cond1 = true
    rw [Memory.isLive_iff]
    exact ⟨h0, _, hCx, rfl⟩
  have hrC : cC.Ready 1 := hlC.ready_one (by rw [hcsC]; exact hcsB')
  obtain ⟨codeA, cC1, hA, extA, hcbA, hpA, semA⟩ :=
    Compiler.bf_assign_spec cC cond1 cond2 hrC hlC hl2 hne.symm
  obtain ⟨hstA, hpsA⟩ := Compiler.bf_assign_stacks cC cond1 cond2 hrC h0 hl2.nonneg hA
  obtain ⟨cE, hcE⟩ : ∃ s : Compiler, s =
      { cC1 with d_codeBuffer := cC1.d_codeBuffer ++ codeA ++ [']'] } := ⟨_, rfl⟩
  have hstE : cE.d_stack = cond1 :: c1.d_stack := by
    rw [hcE]
    show cC1.d_stack = _
    rw [hstA, hstC, hstB, hcA]
    exact hst3
  have hpsE : cE.d_memory.d_protectedStack = cond1 :: c1.d_memory.d_protectedStack := by
    rw [hcE]
    show cC1.d_memory.d_protectedStack = _
    rw [hpsA, hpsC, hpsB, hcA]
    exact hps3
  have hEx : cE.d_memory.d_memory[cond1.toNat]? = some cx.backup := by
    rw [hcE]
    show cC1.d_memory.d_memory[cond1.toNat]? = _
    rw [(extA.2.2.2 cond1 hlC).2]
    exact hCx
  obtain ⟨cF, hpop, _, _, _, hpF, _, hcbF, _⟩ :=
    Compiler.popStack_spec cE cond1 c1.d_stack c1.d_memory.d_protectedStack cx hstE hpsE h0
      hEx
  refine ⟨cond2, rB, codeB, codeC, codeA, cA, cB, cC, cC1, cF, ?_, hB, hcbB, hC, hcbC, hA,
    hne, ?_, ?_, ?_⟩
  · subst hcA hcE
    simp only [whileStatement, Gen.run_bind, hcond, hpush, Compiler.bf_movePtr_run h0,
      Compiler.emit_run, hB, hC, hA, hpop, Gen.run_pure]
  · rw [hcbF, hcE]
    show cC1.d_codeBuffer ++ _ ++ _ = _
    rw [hcbA, hcbC, hcbB, hcA]
    show c3.d_codeBuffer ++ _ ++ _ ++ _ ++ _ ++ _ ++ _ = _
    rw [hcb3, hp3]
    simp [loopC]
  · rw [hpF, hcE]
    exact hpA
  · intro t hb
    have hpA' : cA.d_pointer = cond1 := by rw [hcA]
    obtain ⟨tB, runB, _⟩ := semB t hb
    rw [hpA'] at runB
    have hbB : Bytes tB := Runs.bytes runB hb
    obtain ⟨tC, runC⟩ := semC tB hbB
    have hbC : Bytes tC := Runs.bytes runC hbB
    obtain ⟨t1, runA, v, f, _⟩ := semA tC hbC
    exact ⟨tC, t1, runB.append runC, runA, v, f cond2 hne (Or.inl hl2)⟩

/-- A constant as condition is evaluated into a new cell each time: `constVal`
meets what `whileStatement_round` asks of the re-evaluation. -/
theorem Compiler.constVal_again (num : Nat) (cond1 : Int) (s : Compiler)
    (hcs : s.d_callStack ≠ []) (hl : s.Live cond1) :
    ∃ (cond2 : Int) (code : Code) (s1 : Compiler), constVal num s = .ok (cond2, s1) ∧
      cond2 ≠ cond1 ∧ s1.Live cond2 ∧ s1.d_codeBuffer = s.d_codeBuffer ++ code ∧
      s1.d_callStack = s.d_callStack ∧ s1.d_stack = s.d_stack ∧
      s1.d_memory.d_protectedStack = s.d_memory.d_protectedStack ∧
      s1.d_memory.d_memory[cond1.toNat]? = s.d_memory.d_memory[cond1.toNat]? ∧
      ∀ t, Bytes t → ∃ t1, Runs code ⟨t, s.d_pointer⟩ ⟨t1, s1.d_pointer⟩ := by
  obtain ⟨tmp, c1, hal, ht0, e01, hp1, hcb1, hfresh, hlive, _, _⟩ :=
    Compiler.allocateTemp_spec s 1 (by norm_num) (by norm_num) (hl.ready_one hcs)
  obtain ⟨hst, hps⟩ := Compiler.allocateTemp_frame hal
  have hfr : ¬ s.Live tmp := by simpa using hfresh 0 (by norm_num)
  have hlv : c1.Live tmp := by simpa using hlive 0 (by norm_num)
  refine ⟨tmp, mvCode s.d_pointer tmp ++ ['[', '-', ']'] ++ List.replicate (num % 256) '+',
    { c1 with d_pointer := tmp, d_codeBuffer := s.d_codeBuffer ++
      (mvCode s.d_pointer tmp ++ ['[', '-', ']'] ++ List.replicate (num % 256) '+') },
    ?_, (hl.ne hfr).symm, hlv, rfl, e01.1, hst, hps, (e01.2.2.2 cond1 hl).2, ?_⟩
  · have hv : ((num : Int) % 256).toNat = num % 256 := by omega
    simp [constVal, hal, Compiler.bf_setToValue_run (v := (num : Int) % 256) ht0 (by omega),
      hp1, hcb1, hv]
  · intro t hb
    exact ⟨_, Runs.setToValue t s.d_pointer tmp (num % 256) hb⟩

/-! ## The allocator invariant -/

theorem Memory.Cell.clear_eq {c c1 : Cell} (h : c.clear = .ok c1) :
    c.content ≠ .PROTECTED ∧ c1 = c.cleared := by
  unfold Cell.clear at h
  split at h
  · cases h
  · rename_i hne
    cases h
    exact ⟨hne, rfl⟩

theorem Memory.Cell.clear_ok {c : Cell} (h : c.content ≠ .PROTECTED) :
    c.clear = .ok c.cleared := by
  unfold Cell.clear
  rw [if_neg h]
  rfl

theorem Memory.WellBacked.nil_of_ne {content : Content} {type : TSType} {stack : List Members}
    (h : WellBacked content type stack) (hne : content ≠ .PROTECTED) : stack = [] := by
  cases stack with
  | nil => rfl
  | cons e rest => exact absurd h.1 hne

theorem Memory.WellBacked.of_nil (content : Content) (type : TSType) :
    WellBacked content type [] := trivial

theorem Memory.Cell.isHead_iff (c : Cell) :
    c.isHead = true ↔ c.content = .NAMED ∨ c.content = .TEMP ∨ c.content = .PROTECTED := by
  unfold Cell.isHead
  cases c.content <;> simp

theorem Memory.Cell.not_head_of_referenced {c : Cell} (h : c.content = .REFERENCED) :
    ¬ c.isHead = true := by
  rw [Memory.Cell.isHead_iff, h]
  simp

theorem Memory.Cell.not_head_of_empty {c : Cell} (h : c.content = .EMPTY) :
    ¬ c.isHead = true := by
  rw [Memory.Cell.isHead_iff, h]
  simp

theorem Memory.Cell.isValue_of_head {c : Cell} (h : c.isHead = true) : c.isValue :=
  Or.inl h

/-- A continuation cell does not start a value. -/
theorem Memory.Cell.not_value_of_cont {c : Cell} (h : c.content = .REFERENCED)
    (ht : c.type = .null) : ¬ c.isValue := by
  rintro (hh | ⟨_, hn⟩)
  · exact Memory.Cell.not_head_of_referenced h hh
  · exact hn ht

theorem Memory.Cell.not_value_of_empty {c : Cell} (h : c.content = .EMPTY) : ¬ c.isValue := by
  rintro (hh | ⟨hr, _⟩)
  · exact Memory.Cell.not_head_of_empty h hh
  · rw [h] at hr
    cases hr

/-- A cell inside the range of a value, behind its first cell, is a
continuation cell. -/
theorem Memory.Sound.follower {tm : TypeMap} {cells : List Cell} (h : Sound tm cells)
    {y x : Nat} {c cx : Cell} (hy : cells[y]? = some c) (hc : c.isValue)
    (h1 : y < x) (h2 : x < y + c.size tm) (hx : cells[x]? = some cx) :
    cx.content = .REFERENCED ∧ cx.type = .null := by
  obtain ⟨c', hc', hr⟩ := (h y c hy).2.2 hc (x - y) (by omega) (by omega)
  rw [show y + (x - y) = x by omega, hx] at hc'
  cases hc'
  exact hr

/-- The general step of the invariant: the cells that change are not behind
the first cell of an unchanged value, and each new cell is in order. -/
theorem Memory.Sound.modify {tm : TypeMap} {cells cells3 : List Cell} (h : Sound tm cells)
    (changed : Nat → Prop) (hsame : ∀ y, ¬ changed y → cells3[y]? = cells[y]?)
    (hfol : ∀ (y : Nat) (c : Cell), ¬ changed y → cells[y]? = some c → c.isValue →
      ∀ j, 1 ≤ j → j < c.size tm → ¬ changed (y + j))
    (hnew : ∀ (x : Nat) (c3 : Cell), changed x → cells3[x]? = some c3 →
      WellBacked c3.content c3.type c3.d_backupStack ∧
      (c3.scope ≠ "" → c3.isHead = true) ∧
      (c3.isValue → ∀ j, 1 ≤ j → j < c3.size tm →
        ∃ c, cells3[x + j]? = some c ∧ c.content = .REFERENCED ∧ c.type = .null)) :
    Sound tm cells3 := by
  intro y c hy
  by_cases hch : changed y
  · exact hnew y c hch hy
  · rw [hsame y hch] at hy
    obtain ⟨a1, a2, a3⟩ := h y c hy
    refine ⟨a1, a2, ?_⟩
    intro hc j hj1 hj2
    obtain ⟨c', hc', hr⟩ := a3 hc j hj1 hj2
    refine ⟨c', ?_, hr⟩
    rw [hsame _ (hfol y c hch hy hc j hj1 hj2)]
    exact hc'

/-- Cells that are not tagged referenced are not behind the first cell of a
value. -/
theorem Memory.Sound.not_behind {tm : TypeMap} {cells : List Cell} (h : Sound tm cells)
    (changed : Nat → Prop)
    (hch : ∀ x, changed x → ∀ c, cells[x]? = some c → c.content ≠ .REFERENCED) :
    ∀ (y : Nat) (c : Cell), ¬ changed y → cells[y]? = some c → c.isValue →
      ∀ j, 1 ≤ j → j < c.size tm → ¬ changed (y + j) := by
  intro y c _ hy hc j hj1 hj2 hcx
  obtain ⟨c', hc', hr, _⟩ := (h y c hy).2.2 hc j hj1 hj2
  exact hch _ hcx c' hc' hr

theorem Memory.Sound.init (tm : TypeMap) (sz : Nat) : Sound tm (Memory.init sz).d_memory := by
  intro i cell hc
  have hmem : cell ∈ (Memory.init sz).d_memory := List.getElem?_mem hc
  have : cell = Cell.mk0 := by
    simp only [Memory.init, List.mem_replicate] at hmem
    exact hmem.2
  subst this
  exact ⟨trivial, fun h => absurd rfl h, fun h => absurd h (Memory.Cell.not_value_of_empty rfl)⟩

/-- The layout invariant follows from the cell-wise one. -/
theorem Memory.Sound.layout {tm : TypeMap} {cells : List Cell} (h : Sound tm cells) :
    Layout tm cells := by
  refine ⟨fun i cell hc hh j hj1 hj2 => ?_, ?_⟩
  · obtain ⟨c, hc1, hr, _⟩ := (h i cell hc).2.2 (Or.inl hh) j hj1 hj2
    exact ⟨c, hc1, hr⟩
  · intro i j ci cj hi hj hci hcj hlt
    by_contra hcon
    have := h.follower hi (Or.inl hci) hlt (by omega) hj
    exact Memory.Cell.not_head_of_referenced this.1 hcj

/-! ## The invariant under `push`, `pop`, `markAsTemp` and `rename` -/

theorem Memory.getElem?_lt {cells : List Cell} {i : Nat} {c : Cell} (h : cells[i]? = some c) :
    i < cells.length := by
  by_contra hge
  rw [List.getElem?_eq_none (by omega)] at h
  cases h

/-- Replacing the first cell of a value by a first cell of the same type
whose saved records are in order keeps the invariant. -/
theorem Memory.Sound.set_head {tm : TypeMap} {cells : List Cell} (h : Sound tm cells)
    {a : Nat} {cell cell1 : Cell} (hc : cells[a]? = some cell) (hh : cell.isValue)
    (hty : cell1.type = cell.type)
    (hwb : WellBacked cell1.content cell1.type cell1.d_backupStack)
    (hsc : cell1.scope ≠ "" → cell1.isHead = true) : Sound tm (cells.set a cell1) := by
  have hlt := Memory.getElem?_lt hc
  refine h.modify (fun x => x = a) ?_ ?_ ?_
  · intro y hy
    exact List.getElem?_set_ne (fun e => hy e.symm)
  · intro y c _ hy hcv j hj1 hj2 hch
    obtain ⟨c', hc', hr, ht⟩ := (h y c hy).2.2 hcv j hj1 hj2
    rw [hch, hc] at hc'
    cases hc'
    exact Memory.Cell.not_value_of_cont hr ht hh
  · intro x c3 hx hc3
    subst hx
    rw [List.getElem?_set_self hlt] at hc3
    cases hc3
    refine ⟨hwb, hsc, ?_⟩
    intro _ j hj1 hj2
    have hsz : cell1.size tm = cell.size tm := by
      unfold Cell.size
      rw [hty]
    rw [hsz] at hj2
    obtain ⟨c', hc', hr⟩ := (h x cell hc).2.2 hh j hj1 hj2
    refine ⟨c', ?_, hr⟩
    rw [List.getElem?_set_ne (by omega)]
    exact hc'

theorem Memory.push_inv {m m1 : Memory} {addr : Int} (h : push m addr = .ok m1) :
    0 ≤ addr ∧ ∃ cell, m.d_memory[addr.toNat]? = some cell ∧
      m1 = { d_memory := m.d_memory.set addr.toNat cell.backup,
             d_protectedStack := addr :: m.d_protectedStack } := by
  unfold push at h
  split at h
  · cases h
  · rename_i hb
    cases hc : m.d_memory[addr.toNat]? with
    | none => rw [hc] at h; cases h
    | some cell =>
      rw [hc] at h
      cases h
      exact ⟨by omega, cell, rfl, rfl⟩

theorem Memory.Sound.push {tm : TypeMap} {m m1 : Memory} {addr : Int}
    (h : Sound tm m.d_memory) (hh : m.valueAt addr) (hp : Memory.push m addr = .ok m1) :
    Sound tm m1.d_memory := by
  obtain ⟨_, cell, hc, rfl⟩ := Memory.push_inv hp
  obtain ⟨_, cell', hc', hhead⟩ := hh
  rw [hc] at hc'
  cases hc'
  obtain ⟨wb, sc, _⟩ := h _ cell hc
  refine h.set_head hc hhead rfl ?_ ?_
  · refine ⟨rfl, rfl, ?_, wb⟩
    intro hs
    exact (Memory.Cell.isHead_iff cell).mp (sc hs)
  · intro _
    rfl

theorem Memory.pop_inv {m m1 : Memory} {a : Int} (h : pop m = .ok (a, m1)) :
    0 ≤ a ∧ ∃ (rest : List Int) (cell restored : Cell), m.d_protectedStack = a :: rest ∧
      m.d_memory[a.toNat]? = some cell ∧ cell.restore = .ok restored ∧
      m1 = { d_memory := m.d_memory.set a.toNat restored, d_protectedStack := rest } := by
  unfold pop at h
  cases hs : m.d_protectedStack with
  | nil => rw [hs] at h; cases h
  | cons addr rest =>
    rw [hs] at h
    simp only at h
    split at h
    · cases h
    · rename_i hb
      cases hc : cellAt m.d_memory addr.toNat with
      | error e => rw [hc] at h; cases h
      | ok cell =>
        rw [hc] at h
        simp only at h
        cases hr : cell.restore with
        | error e => rw [hr] at h; cases h
        | ok restored =>
          rw [hr] at h
          cases h
          exact ⟨by omega, rest, cell, restored, rfl, Memory.cellAt_some hc, hr, rfl⟩

theorem Memory.Sound.pop {tm : TypeMap} {m m1 : Memory} {a : Int}
    (h : Sound tm m.d_memory) (hp : Memory.pop m = .ok (a, m1)) : Sound tm m1.d_memory := by
  obtain ⟨_, rest, cell, restored, _, hc, hr, rfl⟩ := Memory.pop_inv hp
  obtain ⟨wb, _, _⟩ := h _ cell hc
  unfold Cell.restore at hr
  cases hst : cell.d_backupStack with
  | nil => rw [hst] at hr; cases hr
  | cons e stack =>
    rw [hst] at hr wb
    cases hr
    obtain ⟨hprot, hty, hsc, wb'⟩ := wb
    have hhead : cell.isHead = true := by
      rw [Memory.Cell.isHead_iff, hprot]
      simp
    refine h.set_head hc (Or.inl hhead) hty ?_ ?_
    · show WellBacked e.2.2.1 e.2.2.2 stack
      rw [hty]
      exact wb'
    · intro hs
      exact (Memory.Cell.isHead_iff _).mpr (hsc hs)

theorem Memory.Sound.markAsTemp {tm : TypeMap} {m m1 : Memory} {addr : Int}
    (h : Sound tm m.d_memory) (hh : m.valueAt addr) (hp : Memory.markAsTemp m addr = .ok m1) :
    Sound tm m1.d_memory := by
  obtain ⟨_, cell, hc, hhead⟩ := hh
  unfold Memory.markAsTemp at hp
  split at hp
  · cases hp
  · rw [hc] at hp
    simp only at hp
    split at hp
    · cases hp
    · rename_i hnp
      cases hp
      obtain ⟨wb, _, _⟩ := h _ cell hc
      have hnil := wb.nil_of_ne hnp
      refine h.set_head hc hhead rfl ?_ ?_
      · show WellBacked Content.TEMP cell.type cell.d_backupStack
        rw [hnil]
        trivial
      · intro _
        rfl

theorem Memory.Sound.rename {tm : TypeMap} {m m1 : Memory} {addr : Int} {ident scope : String}
    (h : Sound tm m.d_memory) (hh : m.valueAt addr)
    (hp : Memory.rename m addr ident scope = .ok m1) : Sound tm m1.d_memory := by
  obtain ⟨_, cell, hc, hhead⟩ := hh
  unfold Memory.rename at hp
  split at hp
  · cases hp
  · rw [hc] at hp
    cases hp
    obtain ⟨wb, _, _⟩ := h _ cell hc
    by_cases hprot : cell.content = .PROTECTED
    · refine h.set_head hc hhead rfl ?_ ?_
      · show WellBacked (if cell.content = .PROTECTED then cell.content else .NAMED)
          cell.type cell.d_backupStack
        rw [if_pos hprot]
        exact wb
      · intro _
        show Cell.isHead _ = true
        rw [Memory.Cell.isHead_iff]
        show (if cell.content = .PROTECTED then cell.content else Content.NAMED) = _ ∨ _
        rw [if_pos hprot, hprot]
        simp
    · have hnil := wb.nil_of_ne hprot
      refine h.set_head hc hhead rfl ?_ ?_
      · show WellBacked (if cell.content = .PROTECTED then cell.content else .NAMED)
          cell.type cell.d_backupStack
        rw [hnil]
        trivial
      · intro _
        show Cell.isHead _ = true
        rw [Memory.Cell.isHead_iff]
        show (if cell.content = .PROTECTED then cell.content else Content.NAMED) = _ ∨ _
        rw [if_neg hprot]
        simp

/-! ## The invariant under `allocate`, `getTemp` and `getTempBlock` -/

/-- What a successful run of the marking loop of `place` has done. -/
theorem Memory.markReferenced_inv (addr n : Nat) :
    ∀ (fuel i : Nat) (cells cells1 : List Cell),
      markReferenced addr n fuel i cells = .ok cells1 →
      i ≤ n ∧ cells1.length = cells.length ∧
      (∀ x, (x < addr + i ∨ addr + n ≤ x) → cells1[x]? = cells[x]?) ∧
      (∀ x, addr + i ≤ x → x < addr + n → ∃ cx, cells[x]? = some cx ∧
        cx.content ≠ .PROTECTED ∧
        cells1[x]? = some { cx.cleared with content := .REFERENCED }) := by
  intro fuel
  induction fuel with
  | zero =>
    intro i cells cells1 h
    rw [markReferenced] at h
    cases h
  | succ fuel ih =>
    intro i cells cells1 h
    rw [markReferenced] at h
    by_cases hin : i = n
    · rw [if_pos hin] at h
      cases h
      subst hin
      exact ⟨le_refl _, rfl, fun _ _ => rfl, fun x h1 h2 => by omega⟩
    · rw [if_neg hin] at h
      cases hc : cellAt cells (addr + i) with
      | error e => rw [hc] at h; cases h
      | ok cell =>
        rw [hc] at h
        simp only at h
        cases hcl : cell.clear with
        | error e => rw [hcl] at h; cases h
        | ok cell1 =>
          rw [hcl] at h
          simp only at h
          obtain ⟨hnp, rfl⟩ := Memory.Cell.clear_eq hcl
          have hcell := Memory.cellAt_some hc
          have hlt := Memory.getElem?_lt hcell
          obtain ⟨h1, h2, h3, h4⟩ := ih _ _ _ h
          refine ⟨by omega, by rw [h2, List.length_set], ?_, ?_⟩
          · intro x hx
            rw [h3 x (by omega), List.getElem?_set_ne (by omega)]
          · intro x hx1 hx2
            by_cases hxe : x = addr + i
            · subst hxe
              refine ⟨cell, hcell, hnp, ?_⟩
              rw [h3 _ (Or.inl (by omega)), List.getElem?_set_self hlt]
            · obtain ⟨cx, a1, a2, a3⟩ := h4 x (by omega) hx2
              rw [List.getElem?_set_ne (fun e => hxe e.symm)] at a1
              exact ⟨cx, a1, a2, a3⟩

/-- What a successful `place` of an integer type has done. -/
theorem Memory.place_int_inv {tm : TypeMap} {depth : Nat} {cells cells1 : List Cell}
    {ident scope : String} {N a : Nat}
    (h : place tm depth cells ident scope (.int N) a = .ok cells1) :
    1 ≤ N ∧ cells1.length = cells.length ∧
    (∀ x, (x < a ∨ a + N ≤ x) → cells1[x]? = cells[x]?) ∧
    (∃ c0, cells[a]? = some c0 ∧ c0.content ≠ .PROTECTED ∧
      cells1[a]? = some
        { identifier := ident, scope := scope,
          content := if scope.isEmpty then Content.REFERENCED
                     else if ident.isEmpty then Content.TEMP else Content.NAMED,
          type := TSType.int N, d_backupStack := c0.d_backupStack }) ∧
    (∀ x, a + 1 ≤ x → x < a + N → ∃ cx, cells[x]? = some cx ∧ cx.content ≠ .PROTECTED ∧
      cells1[x]? = some { cx.cleared with content := .REFERENCED }) := by
  unfold place at h
  cases hc : cellAt cells a with
  | error e => rw [hc] at h; cases h
  | ok cell =>
    rw [hc] at h
    simp only at h
    cases hcl : cell.clear with
    | error e => rw [hcl] at h; cases h
    | ok cell1 =>
      rw [hcl] at h
      simp only [TSType.isIntType, if_true] at h
      obtain ⟨hnp, rfl⟩ := Memory.Cell.clear_eq hcl
      have hcell := Memory.cellAt_some hc
      have hlt := Memory.getElem?_lt hcell
      obtain ⟨h1, h2, h3, h4⟩ := Memory.markReferenced_inv a _ _ _ _ _ h
      have hsz : TSType.size tm (TSType.int N) = N := rfl
      rw [hsz] at h1 h3 h4
      refine ⟨h1, by rw [h2, List.length_set], ?_, ⟨cell, hcell, hnp, ?_⟩, ?_⟩
      · intro x hx
        rw [h3 x (by omega), List.getElem?_set_ne (by omega)]
      · rw [h3 a (Or.inl (by omega)), List.getElem?_set_self hlt]
        rfl
      · intro x hx1 hx2
        obtain ⟨cx, a1, a2, a3⟩ := h4 x hx1 hx2
        rw [List.getElem?_set_ne (by omega)] at a1
        exact ⟨cx, a1, a2, a3⟩

/-- What a successful `findFree` has found. -/
theorem Memory.findFree_inv {m m1 : Memory} {sz a : Nat} (h : findFree m sz = .ok (a, m1)) :
    ∃ k, m1 = { m with d_memory := m.d_memory ++ List.replicate k Cell.mk0 } ∧
      ∀ i, i < sz → ∃ cell, m1.d_memory[a + i]? = some cell ∧ cell.empty = true := by
  unfold findFree at h
  cases hx : findFreeAux sz 3 m.d_memory with
  | error e => rw [hx] at h; cases h
  | ok r =>
    obtain ⟨a2, cells2⟩ := r
    rw [hx] at h
    cases h
    obtain ⟨k, hk, hscan⟩ := Memory.findFreeAux_inv sz 3 _ _ _ hx
    refine ⟨k, by rw [hk], ?_⟩
    unfold scan at hscan
    obtain ⟨_, hrun, _⟩ := Memory.scanFrom_some _ _ _ _ _ _ hscan
    intro i hi
    have := Memory.isFreeRun_true _ _ _ _ hrun i hi
    simpa using this

theorem Memory.Sound.grow {tm : TypeMap} {cells : List Cell} (h : Sound tm cells) (k : Nat) :
    Sound tm (cells ++ List.replicate k Cell.mk0) := by
  refine h.modify (fun x => cells.length ≤ x) ?_ ?_ ?_
  · intro y hy
    rw [List.getElem?_append_left (by omega)]
  · apply h.not_behind
    intro x hx c hc
    have := Memory.getElem?_lt hc
    omega
  · intro x c3 hx hc3
    rw [List.getElem?_append_right hx] at hc3
    have hmem : c3 ∈ List.replicate k Cell.mk0 := List.getElem?_mem hc3
    have : c3 = Cell.mk0 := (List.mem_replicate.mp hmem).2
    subst this
    exact ⟨trivial, fun h => absurd rfl h,
      fun h => absurd h (Memory.Cell.not_value_of_empty rfl)⟩

theorem Memory.Cell.content_of_empty {c : Cell} (h : c.empty = true) : c.content = .EMPTY := by
  unfold Cell.empty at h
  cases hc : c.content <;> simp [hc] at h
  rfl

theorem Memory.Sound.nil_of_empty {tm : TypeMap} {cells : List Cell} (h : Sound tm cells)
    {x : Nat} {c : Cell} (hc : cells[x]? = some c) (he : c.content = .EMPTY) :
    c.d_backupStack = [] :=
  (h x c hc).1.nil_of_ne (by rw [he]; decide)

/-- What a successful `allocate` of an integer type has done: nothing, when it
answers -1; otherwise the value lies on cells that were empty. -/
theorem Memory.allocate_int_inv {tm : TypeMap} {m m1 : Memory} {ident scope : String}
    {N : Nat} {r : Int} (h : allocate tm m ident scope (.int N) = .ok (r, m1)) :
    (r = -1 ∧ m1 = m) ∨
    ∃ (a k : Nat), r = (a : Int) ∧ 1 ≤ N ∧
      m1.d_protectedStack = m.d_protectedStack ∧
      m1.d_memory.length = m.d_memory.length + k ∧
      (∀ x, (x < a ∨ a + N ≤ x) →
        m1.d_memory[x]? = (m.d_memory ++ List.replicate k Cell.mk0)[x]?) ∧
      (∀ x, a ≤ x → x < a + N →
        ∃ cx, (m.d_memory ++ List.replicate k Cell.mk0)[x]? = some cx ∧
          cx.content = .EMPTY) ∧
      (∃ c0, (m.d_memory ++ List.replicate k Cell.mk0)[a]? = some c0 ∧
        m1.d_memory[a]? = some
          { identifier := ident, scope := scope,
            content := if scope.isEmpty then Content.REFERENCED
                       else if ident.isEmpty then Content.TEMP else Content.NAMED,
            type := TSType.int N, d_backupStack := c0.d_backupStack }) ∧
      (∀ x, a + 1 ≤ x → x < a + N →
        ∃ cx, (m.d_memory ++ List.replicate k Cell.mk0)[x]? = some cx ∧
          m1.d_memory[x]? = some { cx.cleared with content := .REFERENCED }) := by
  unfold allocate at h
  simp only [TSType.defined, Bool.not_true, Bool.false_eq_true, if_false] at h
  split at h
  · cases h
    exact Or.inl ⟨rfl, rfl⟩
  · right
    cases hf : findFree m (TSType.size tm (TSType.int N)) with
    | error e => rw [hf] at h; cases h
    | ok r1 =>
      obtain ⟨a, m2⟩ := r1
      rw [hf] at h
      simp only at h
      cases hpl : place tm tm.length m2.d_memory ident scope (.int N) a with
      | error e => rw [hpl] at h; cases h
      | ok cells =>
        rw [hpl] at h
        cases h
        obtain ⟨k, rfl, hfree⟩ := Memory.findFree_inv hf
        have hsz : TSType.size tm (TSType.int N) = N := rfl
        rw [hsz] at hfree
        obtain ⟨p1, p2, p3, p4, p5⟩ := Memory.place_int_inv hpl
        refine ⟨a, k, rfl, p1, rfl, ?_, p3, ?_, ?_, ?_⟩
        · show cells.length = _
          rw [p2]
          simp
        · intro x hx1 hx2
          obtain ⟨cell, hc, he⟩ := hfree (x - a) (by omega)
          rw [show a + (x - a) = x by omega] at hc
          exact ⟨cell, hc, Memory.Cell.content_of_empty he⟩
        · obtain ⟨c0, q1, _, q3⟩ := p4
          exact ⟨c0, q1, q3⟩
        · intro x hx1 hx2
          obtain ⟨cx, q1, _, q3⟩ := p5 x hx1 hx2
          exact ⟨cx, q1, q3⟩

theorem Memory.Sound.allocate {tm : TypeMap} {m m1 : Memory} {ident scope : String}
    {N : Nat} {r : Int} (h : Sound tm m.d_memory)
    (ha : Memory.allocate tm m ident scope (.int N) = .ok (r, m1)) :
    Sound tm m1.d_memory := by
  rcases Memory.allocate_int_inv ha with ⟨_, rfl⟩ | ⟨a, k, _, hN, _, _, hsame, hempty, hbase, hfol⟩
  · exact h
  · have h0 := h.grow k
    refine h0.modify (fun x => a ≤ x ∧ x < a + N) ?_ ?_ ?_
    · intro y hy
      exact hsame y (by omega)
    · apply h0.not_behind
      intro x hx c hc
      obtain ⟨cx, hcx, he⟩ := hempty x hx.1 hx.2
      rw [hc] at hcx
      cases hcx
      rw [he]
      decide
    · intro x c3 hx hc3
      by_cases hxa : x = a
      · subst hxa
        obtain ⟨c0, hc0, hc1⟩ := hbase
        rw [hc1] at hc3
        cases hc3
        obtain ⟨cx, hcx, he⟩ := hempty x (le_refl _) (by omega)
        rw [hc0] at hcx
        cases hcx
        refine ⟨?_, ?_, ?_⟩
        · show WellBacked _ _ c0.d_backupStack
          rw [h0.nil_of_empty hc0 he]
          trivial
        · intro hs
          have hne : scope.isEmpty = false := by
            cases hse : scope.isEmpty with
            | false => rfl
            | true => exact absurd ((String.isEmpty_iff scope).mp hse) hs
          show Cell.isHead _ = true
          rw [Memory.Cell.isHead_iff]
          show (if scope.isEmpty = true then Content.REFERENCED
            else if ident.isEmpty = true then Content.TEMP else Content.NAMED) = _ ∨ _
          rw [hne]
          cases ident.isEmpty <;> simp
        · intro _ j hj1 hj2
          have hj3 : j < N := hj2
          obtain ⟨cx, _, hc⟩ := hfol (x + j) (by omega) (by omega)
          exact ⟨_, hc, rfl, rfl⟩
      · obtain ⟨cx, hcx, hc⟩ := hfol x (by omega) hx.2
        rw [hc] at hc3
        cases hc3
        obtain ⟨cy, hcy, he⟩ := hempty x hx.1 hx.2
        rw [hcx] at hcy
        cases hcy
        refine ⟨?_, fun hs => absurd rfl hs,
          fun hh => absurd hh (Memory.Cell.not_value_of_cont rfl rfl)⟩
        show WellBacked _ _ cx.d_backupStack
        rw [h0.nil_of_empty hcx he]
        trivial

theorem Memory.Sound.getTemp {tm : TypeMap} {m m1 : Memory} {scope : String}
    {N : Nat} {r : Int} (h : Sound tm m.d_memory)
    (ha : Memory.getTemp tm m scope N = .ok (r, m1)) : Sound tm m1.d_memory := by
  have ha2 : Memory.allocate tm m "" scope (.int N) = .ok (r, m1) := ha
  exact Memory.Sound.allocate h ha2

/-- What a successful run of the loop of `getTempBlock` has done. -/
theorem Memory.getTempBlockLoop_inv (scope : String) (start : Nat) :
    ∀ (k i : Nat) (cells cells1 : List Cell),
      getTempBlockLoop scope start k i cells = .ok cells1 →
      cells1.length = cells.length ∧
      (∀ x, (x < start + i ∨ start + i + k ≤ x) → cells1[x]? = cells[x]?) ∧
      (∀ x, start + i ≤ x → x < start + i + k → ∃ cx, cells[x]? = some cx ∧
        cx.content ≠ .PROTECTED ∧
        cells1[x]? = some
          { cx.cleared with scope := scope, type := .int 1, content := .TEMP }) := by
  intro k
  induction k with
  | zero =>
    intro i cells cells1 h
    rw [getTempBlockLoop] at h
    cases h
    exact ⟨rfl, fun _ _ => rfl, fun x h1 h2 => by omega⟩
  | succ k ih =>
    intro i cells cells1 h
    rw [getTempBlockLoop] at h
    cases hc : cellAt cells (start + i) with
    | error e => rw [hc] at h; cases h
    | ok cell =>
      rw [hc] at h
      simp only at h
      cases hcl : cell.clear with
      | error e => rw [hcl] at h; cases h
      | ok cell1 =>
        rw [hcl] at h
        simp only at h
        obtain ⟨hnp, rfl⟩ := Memory.Cell.clear_eq hcl
        have hcell := Memory.cellAt_some hc
        have hlt := Memory.getElem?_lt hcell
        obtain ⟨h2, h3, h4⟩ := ih _ _ _ h
        refine ⟨by rw [h2, List.length_set], ?_, ?_⟩
        · intro x hx
          rw [h3 x (by omega), List.getElem?_set_ne (by omega)]
        · intro x hx1 hx2
          by_cases hxe : x = start + i
          · subst hxe
            refine ⟨cell, hcell, hnp, ?_⟩
            rw [h3 _ (Or.inl (by omega)), List.getElem?_set_self hlt]
          · obtain ⟨cx, a1, a2, a3⟩ := h4 x (by omega) (by omega)
            rw [List.getElem?_set_ne (fun e => hxe e.symm)] at a1
            exact ⟨cx, a1, a2, a3⟩

theorem Memory.Sound.getTempBlock {tm : TypeMap} {m m1 : Memory} {scope : String}
    {N : Nat} {r : Int} (h : Sound tm m.d_memory)
    (ha : Memory.getTempBlock m scope N = .ok (r, m1)) : Sound tm m1.d_memory := by
  unfold Memory.getTempBlock at ha
  cases hf : findFree m N with
  | error e => rw [hf] at ha; cases ha
  | ok r1 =>
    obtain ⟨a, m2⟩ := r1
    rw [hf] at ha
    simp only at ha
    cases hl : getTempBlockLoop scope a N 0 m2.d_memory with
    | error e => rw [hl] at ha; cases ha
    | ok cells =>
      rw [hl] at ha
      cases ha
      obtain ⟨k, rfl, hfree⟩ := Memory.findFree_inv hf
      obtain ⟨p2, p3, p4⟩ := Memory.getTempBlockLoop_inv scope a N 0 _ _ hl
      have h0 := h.grow k
      refine h0.modify (fun x => a ≤ x ∧ x < a + N) ?_ ?_ ?_
      · intro y hy
        exact p3 y (by omega)
      · apply h0.not_behind
        intro x hx c hc
        obtain ⟨cell, hcx, he⟩ := hfree (x - a) (by omega)
        rw [show a + (x - a) = x by omega] at hcx
        rw [hc] at hcx
        cases hcx
        rw [Memory.Cell.content_of_empty he]
        decide
      · intro x c3 hx hc3
        obtain ⟨cx, hcx, _, hc⟩ := p4 x (by omega) (by omega)
        rw [hc] at hc3
        cases hc3
        obtain ⟨cell, hcy, he⟩ := hfree (x - a) (by omega)
        rw [show a + (x - a) = x by omega] at hcy
        rw [hcx] at hcy
        cases hcy
        refine ⟨?_, fun _ => rfl, ?_⟩
        · show WellBacked _ _ cx.d_backupStack
          rw [h0.nil_of_empty hcx (Memory.Cell.content_of_empty he)]
          trivial
        · intro _ j hj1 hj2
          have hj3 : j < 1 := hj2
          omega

/-! ## The invariant under `freeTemps` and `freeLocals` -/

/-- The inner loop of `freeIf` on cells that are not protected: it returns,
and the cells of its range are cleared. -/
theorem Memory.clearFollowers_run (idx : Nat) :
    ∀ (k offset : Nat) (cells : List Cell),
      (∀ x, idx + offset ≤ x → x < idx + offset + k →
        ∃ cx, cells[x]? = some cx ∧ cx.content ≠ .PROTECTED) →
      ∃ cells1, clearFollowers idx k offset cells = .ok cells1 ∧
        cells1.length = cells.length ∧
        (∀ x, (x < idx + offset ∨ idx + offset + k ≤ x) → cells1[x]? = cells[x]?) ∧
        (∀ x, idx + offset ≤ x → x < idx + offset + k →
          ∃ cx, cells[x]? = some cx ∧ cells1[x]? = some cx.cleared) := by
  intro k
  induction k with
  | zero =>
    intro offset cells _
    exact ⟨cells, rfl, rfl, fun _ _ => rfl, fun x h1 h2 => by omega⟩
  | succ k ih =>
    intro offset cells hcells
    obtain ⟨cell, hcell, hnp⟩ := hcells (idx + offset) (le_refl _) (by omega)
    have hlt := Memory.getElem?_lt hcell
    have hrest : ∀ x, idx + (offset + 1) ≤ x → x < idx + (offset + 1) + k →
        ∃ cx, (cells.set (idx + offset) cell.cleared)[x]? = some cx ∧
          cx.content ≠ .PROTECTED := by
      intro x h1 h2
      obtain ⟨cx, a1, a2⟩ := hcells x (by omega) (by omega)
      exact ⟨cx, by rw [List.getElem?_set_ne (by omega)]; exact a1, a2⟩
    obtain ⟨cells1, h1, h2, h3, h4⟩ := ih (offset + 1) _ hrest
    refine ⟨cells1, ?_, by rw [h2, List.length_set], ?_, ?_⟩
    · rw [clearFollowers]
      simp only [cellAt, hcell, Memory.Cell.clear_ok hnp]
      exact h1
    · intro x hx
      rw [h3 x (by omega), List.getElem?_set_ne (by omega)]
    · intro x hx1 hx2
      by_cases hxe : x = idx + offset
      · subst hxe
        refine ⟨cell, hcell, ?_⟩
        rw [h3 _ (Or.inl (by omega)), List.getElem?_set_self hlt]
      · obtain ⟨cx, a1, a2⟩ := h4 x (by omega) (by omega)
        rw [List.getElem?_set_ne (fun e => hxe e.symm)] at a1
        exact ⟨cx, a1, a2⟩

/-- One round of `freeIf` on the first cell of a value that is not protected:
the inner loop returns, the cells of the value are cleared, every other cell
stays, and the invariant is kept. -/
theorem Memory.Sound.clearValue {tm : TypeMap} {cells : List Cell} (h : Sound tm cells)
    {idx : Nat} {cell : Cell} (hc : cells[idx]? = some cell) (hh : cell.isHead = true)
    (hnp : cell.content ≠ .PROTECTED) :
    ∃ cells2, clearFollowers idx (cell.size tm - 1) 1 cells = .ok cells2 ∧
      Sound tm (cells2.set idx cell.cleared) ∧
      (cells2.set idx cell.cleared).length = cells.length ∧
      (∀ x, (x < idx ∨ idx + max 1 (cell.size tm) ≤ x) →
        (cells2.set idx cell.cleared)[x]? = cells[x]?) ∧
      (∀ x, idx ≤ x → x < idx + max 1 (cell.size tm) →
        ∃ cx, cells[x]? = some cx ∧ cx.content ≠ .PROTECTED ∧
          (cells2.set idx cell.cleared)[x]? = some cx.cleared) := by
  have hlt := Memory.getElem?_lt hc
  have hfol : ∀ x, idx + 1 ≤ x → x < idx + 1 + (cell.size tm - 1) →
      ∃ cx, cells[x]? = some cx ∧ cx.content ≠ .PROTECTED := by
    intro x h1 h2
    obtain ⟨c', hc', hr, _⟩ := (h idx cell hc).2.2 (Or.inl hh) (x - idx) (by omega) (by omega)
    rw [show idx + (x - idx) = x by omega] at hc'
    exact ⟨c', hc', by rw [hr]; decide⟩
  obtain ⟨cells2, r1, r2, r3, r4⟩ := Memory.clearFollowers_run idx _ 1 cells hfol
  have hsame : ∀ x, (x < idx ∨ idx + max 1 (cell.size tm) ≤ x) →
      (cells2.set idx cell.cleared)[x]? = cells[x]? := by
    intro x hx
    rw [List.getElem?_set_ne (by omega), r3 x (by omega)]
  have hnew : ∀ x, idx ≤ x → x < idx + max 1 (cell.size tm) →
      ∃ cx, cells[x]? = some cx ∧ cx.content ≠ .PROTECTED ∧
        (cells2.set idx cell.cleared)[x]? = some cx.cleared := by
    intro x hx1 hx2
    by_cases hxe : x = idx
    · subst hxe
      exact ⟨cell, hc, hnp, by rw [List.getElem?_set_self (by rw [r2]; exact hlt)]⟩
    · obtain ⟨cx, a1, a2⟩ := r4 x (by omega) (by omega)
      obtain ⟨cx', b1, b2⟩ := hfol x (by omega) (by omega)
      rw [a1] at b1
      cases b1
      exact ⟨cx, a1, b2, by rw [List.getElem?_set_ne (fun e => hxe e.symm)]; exact a2⟩
  refine ⟨cells2, r1, ?_, by rw [List.length_set, r2], hsame, hnew⟩
  refine h.modify (fun x => idx ≤ x ∧ x < idx + max 1 (cell.size tm)) ?_ ?_ ?_
  · intro y hy
    exact hsame y (by omega)
  · intro y c hy hcy hhy j hj1 hj2 hch
    have hyi : y < idx := by omega
    have := h.follower hcy hhy hyi (by omega) hc
    exact Memory.Cell.not_head_of_referenced this.1 hh
  · intro x c3 hx hc3
    obtain ⟨cx, a1, a2, a3⟩ := hnew x hx.1 hx.2
    rw [a3] at hc3
    cases hc3
    refine ⟨?_, fun hs => absurd rfl hs,
      fun hhd => absurd hhd (Memory.Cell.not_value_of_empty rfl)⟩
    show WellBacked _ _ cx.d_backupStack
    rw [(h x cx a1).1.nil_of_ne a2]
    trivial

theorem Memory.Cell.cleared_cleared (c : Cell) : c.cleared.cleared = c.cleared := rfl

/-- The loop of `freeIf` from a tape in order, for a test that only first
cells can pass and no cleared cell passes: when it returns, the tape is in
order again, no cell from `idx` on passes the test, and a cell either is as it
was or has been cleared as part of a value whose first cell passed the
test. -/
theorem Memory.freeIfLoop_sound (tm : TypeMap) (pred : Cell → Bool)
    (hp1 : ∀ c : Cell, pred c = true → c.content = .TEMP ∨ c.scope ≠ "")
    (hp2 : ∀ c : Cell, c.content = .EMPTY → c.scope = "" → pred c = false) :
    ∀ (k idx : Nat) (cells cells1 : List Cell), Sound tm cells → idx + k = cells.length →
      freeIfLoop tm pred k idx cells = .ok cells1 →
      Sound tm cells1 ∧ cells1.length = cells.length ∧
      (∀ (x : Nat) (c : Cell), idx ≤ x → cells1[x]? = some c → pred c = false) ∧
      (∀ x, cells1[x]? = cells[x]? ∨
        ∃ (i : Nat) (c0 cx : Cell), idx ≤ i ∧ cells[i]? = some c0 ∧ pred c0 = true ∧
          c0.isHead = true ∧ i ≤ x ∧ x < i + max 1 (c0.size tm) ∧ cells[x]? = some cx ∧
          cells1[x]? = some cx.cleared) := by
  have hhead : ∀ (cells : List Cell), Sound tm cells → ∀ (i : Nat) (c : Cell),
      cells[i]? = some c → pred c = true → c.isHead = true := by
    intro cells hs i c hc hp
    rcases hp1 c hp with e | e
    · rw [Memory.Cell.isHead_iff, e]
      simp
    · exact (hs i c hc).2.1 e
  intro k
  induction k with
  | zero =>
    intro idx cells cells1 hs hk h
    rw [freeIfLoop] at h
    cases h
    refine ⟨hs, rfl, ?_, fun x => Or.inl rfl⟩
    intro x c hx hc
    have := Memory.getElem?_lt hc
    omega
  | succ k ih =>
    intro idx cells cells1 hs hk h
    rw [freeIfLoop] at h
    cases hc : cellAt cells idx with
    | error e => rw [hc] at h; cases h
    | ok cell =>
      rw [hc] at h
      simp only at h
      have hcell := Memory.cellAt_some hc
      by_cases hp : pred cell = true
      · rw [if_pos hp] at h
        have hh := hhead cells hs idx cell hcell hp
        cases hf : clearFollowers idx (cell.size tm - 1) 1 cells with
        | error e => rw [hf] at h; cases h
        | ok cells2 =>
          rw [hf] at h
          simp only at h
          cases hcl : cell.clear with
          | error e => rw [hcl] at h; cases h
          | ok cleared =>
            rw [hcl] at h
            simp only at h
            obtain ⟨hnp, rfl⟩ := Memory.Cell.clear_eq hcl
            obtain ⟨cells2', s1, s2, s3, s4, s5⟩ := hs.clearValue hcell hh hnp
            rw [hf] at s1
            cases s1
            obtain ⟨i1, i2, i3, i4⟩ := ih (idx + 1) _ _ s2 (by rw [s3]; omega) h
            refine ⟨i1, by rw [i2, s3], ?_, ?_⟩
            · intro x c hx hcx
              by_cases hxe : x = idx
              · subst hxe
                rcases i4 x with e | ⟨i, c0, cx, e1, _, _, _, e5, _, _, _⟩
                · rw [hcx] at e
                  obtain ⟨cx, a1, _, a3⟩ := s5 x (le_refl _) (by omega)
                  rw [a3] at e
                  cases e
                  exact hp2 _ rfl rfl
                · omega
              · exact i3 x c (by omega) hcx
            · intro x
              rcases i4 x with e | ⟨i, c0, cx, e1, e2, e3, e4, e5, e6, e7, e8⟩
              · by_cases hin : idx ≤ x ∧ x < idx + max 1 (cell.size tm)
                · right
                  obtain ⟨cx, a1, _, a3⟩ := s5 x hin.1 hin.2
                  exact ⟨idx, cell, cx, le_refl _, hcell, hp, hh, hin.1, hin.2, a1,
                    by rw [e, a3]⟩
                · left
                  rw [e, s4 x (by omega)]
              · right
                have hi_out : idx + max 1 (cell.size tm) ≤ i := by
                  by_contra hcon
                  obtain ⟨ci, a1, _, a3⟩ := s5 i (by omega) (by omega)
                  rw [a3] at e2
                  cases e2
                  rw [hp2 _ rfl rfl] at e3
                  cases e3
                rw [s4 i (by omega)] at e2
                rw [s4 x (by omega)] at e7
                exact ⟨i, c0, cx, by omega, e2, e3, e4, e5, e6, e7, e8⟩
      · rw [if_neg hp] at h
        obtain ⟨i1, i2, i3, i4⟩ := ih (idx + 1) _ _ hs (by omega) h
        refine ⟨i1, i2, ?_, ?_⟩
        · intro x c hx hcx
          by_cases hxe : x = idx
          · subst hxe
            rcases i4 x with e | ⟨i, c0, cx, e1, _, _, _, e5, _, _, _⟩
            · rw [hcx, hcell] at e
              cases e
              simpa using hp
            · omega
          · exact i3 x c (by omega) hcx
        · intro x
          rcases i4 x with e | ⟨i, c0, cx, e1, e2, e3, e4, e5, e6, e7, e8⟩
          · exact Or.inl e
          · exact Or.inr ⟨i, c0, cx, by omega, e2, e3, e4, e5, e6, e7, e8⟩

/-- The loop of `freeIf` returns when no cell that passes the test is
protected. -/
theorem Memory.freeIfLoop_ok (tm : TypeMap) (pred : Cell → Bool)
    (hp1 : ∀ c : Cell, pred c = true → c.content = .TEMP ∨ c.scope ≠ "")
    (hp3 : ∀ c : Cell, pred c = true → c.content ≠ .PROTECTED) :
    ∀ (k idx : Nat) (cells : List Cell), Sound tm cells → idx + k = cells.length →
      ∃ cells1, freeIfLoop tm pred k idx cells = .ok cells1 := by
  intro k
  induction k with
  | zero =>
    intro idx cells _ _
    exact ⟨cells, rfl⟩
  | succ k ih =>
    intro idx cells hs hk
    obtain ⟨cell, hcell⟩ : ∃ cell, cells[idx]? = some cell := by
      cases hc : cells[idx]? with
      | none =>
        rw [List.getElem?_eq_none_iff] at hc
        omega
      | some cell => exact ⟨cell, rfl⟩
    rw [freeIfLoop]
    simp only [cellAt, hcell]
    by_cases hp : pred cell = true
    · rw [if_pos hp]
      have hh : cell.isHead = true := by
        rcases hp1 cell hp with e | e
        · rw [Memory.Cell.isHead_iff, e]
          simp
        · exact (hs idx cell hcell).2.1 e
      obtain ⟨cells2, s1, s2, s3, _, _⟩ := hs.clearValue hcell hh (hp3 cell hp)
      simp only [s1, Memory.Cell.clear_ok (hp3 cell hp)]
      exact ih (idx + 1) _ s2 (by rw [s3]; omega)
    · rw [if_neg hp]
      exact ih (idx + 1) cells hs (by omega)

theorem Memory.Sound.freeTemps {tm : TypeMap} {m m1 : Memory} {scope : String}
    (h : Sound tm m.d_memory) (hf : Memory.freeTemps tm m scope = .ok m1) :
    Sound tm m1.d_memory := by
  unfold Memory.freeTemps freeIf at hf
  cases hl : freeIfLoop tm (fun cell => cell.content == .TEMP && cell.scope == scope)
      m.d_memory.length 0 m.d_memory with
  | error e => rw [hl] at hf; cases hf
  | ok cells =>
    rw [hl] at hf
    cases hf
    refine (Memory.freeIfLoop_sound tm _ ?_ ?_ _ _ _ _ h (by omega) hl).1
    · intro c hc
      simp only [Bool.and_eq_true, beq_iff_eq] at hc
      exact Or.inl hc.1
    · intro c hc _
      simp [hc]

theorem Memory.Sound.freeLocals {tm : TypeMap} {m m1 : Memory} {scope : String}
    (h : Sound tm m.d_memory) (hne : scope ≠ "")
    (hf : Memory.freeLocals tm m scope = .ok m1) : Sound tm m1.d_memory := by
  unfold Memory.freeLocals freeIf at hf
  cases hl : freeIfLoop tm (fun cell => cell.scope == scope) m.d_memory.length 0
      m.d_memory with
  | error e => rw [hl] at hf; cases hf
  | ok cells =>
    rw [hl] at hf
    cases hf
    refine (Memory.freeIfLoop_sound tm _ ?_ ?_ _ _ _ _ h (by omega) hl).1
    · intro c hc
      simp only [beq_iff_eq] at hc
      right
      rw [hc]
      exact hne
    · intro c _ hs
      simp only [beq_eq_false_iff_ne, ne_eq]
      rw [hs]
      exact fun e => hne e.symm

/-- Every reachable allocator state is in order. -/
theorem Memory.Reach.sound {tm : TypeMap} {m : Memory} (h : Reach tm m) :
    Sound tm m.d_memory := by
  induction h with
  | init sz => exact Memory.Sound.init tm sz
  | allocate _ ha ih => exact ih.allocate ha
  | getTemp _ ha ih => exact ih.getTemp ha
  | getTempBlock _ ha ih => exact ih.getTempBlock ha
  | push _ hh hp ih => exact ih.push hh hp
  | pop _ hp ih => exact ih.pop hp
  | freeTemps _ hf ih => exact ih.freeTemps hf
  | freeLocals _ hne hf ih => exact ih.freeLocals hne hf
  | markAsTemp _ hh hp ih => exact ih.markAsTemp hh hp
  | rename _ hh hp ih => exact ih.rename hh hp

/-! ## What `freeTemps` frees -/

/-- The ranges of two values do not meet. -/
theorem Memory.Sound.disjoint {tm : TypeMap} {cells : List Cell} (h : Sound tm cells)
    {i k x : Nat} {ci ck : Cell} (hi : cells[i]? = some ci) (hk : cells[k]? = some ck)
    (hci : ci.isValue) (hck : ck.isValue)
    (hxi : i ≤ x ∧ x < i + max 1 (ci.size tm)) (hxk : k ≤ x ∧ x < k + max 1 (ck.size tm)) :
    i = k := by
  by_contra hne
  rcases Nat.lt_or_gt_of_ne hne with hlt | hgt
  · have := h.follower hi hci hlt (by omega) hk
    exact Memory.Cell.not_value_of_cont this.1 this.2 hck
  · have := h.follower hk hck hgt (by omega) hi
    exact Memory.Cell.not_value_of_cont this.1 this.2 hci

/-- `freeTemps(s)` on a tape in order: it returns; afterwards the tape is in
order, no cell is a temporary of `s`, and a cell either is as it was or has
been cleared as part of a temporary of `s`. -/
theorem Memory.freeTemps_spec (tm : TypeMap) (m : Memory) (s : String)
    (h : Sound tm m.d_memory) :
    ∃ m1, freeTemps tm m s = .ok m1 ∧ Sound tm m1.d_memory ∧
      m1.d_memory.length = m.d_memory.length ∧
      m1.d_protectedStack = m.d_protectedStack ∧
      (∀ (x : Nat) (c : Cell), m1.d_memory[x]? = some c →
        ¬ (c.content = .TEMP ∧ c.scope = s)) ∧
      (∀ x, m1.d_memory[x]? = m.d_memory[x]? ∨
        ∃ (i : Nat) (c0 cx : Cell), m.d_memory[i]? = some c0 ∧ c0.content = .TEMP ∧
          c0.scope = s ∧ i ≤ x ∧ x < i + max 1 (c0.size tm) ∧ m.d_memory[x]? = some cx ∧
          m1.d_memory[x]? = some cx.cleared) := by
  have hp1 : ∀ c : Cell, (c.content == .TEMP && c.scope == s) = true →
      c.content = .TEMP ∨ c.scope ≠ "" := by
    intro c hc
    simp only [Bool.and_eq_true, beq_iff_eq] at hc
    exact Or.inl hc.1
  have hp2 : ∀ c : Cell, c.content = .EMPTY → c.scope = "" →
      (c.content == .TEMP && c.scope == s) = false := by
    intro c hc _
    simp [hc]
  have hp3 : ∀ c : Cell, (c.content == .TEMP && c.scope == s) = true →
      c.content ≠ .PROTECTED := by
    intro c hc
    simp only [Bool.and_eq_true, beq_iff_eq] at hc
    rw [hc.1]
    decide
  obtain ⟨cells1, hl⟩ := Memory.freeIfLoop_ok tm _ hp1 hp3 m.d_memory.length 0 m.d_memory h
    (by omega)
  obtain ⟨s1, s2, s3, s4⟩ := Memory.freeIfLoop_sound tm _ hp1 hp2 _ _ _ _ h (by omega) hl
  refine ⟨{ m with d_memory := cells1 }, ?_, s1, s2, rfl, ?_, ?_⟩
  · simp only [freeTemps, freeIf, hl]
  · intro x c hc hcon
    have := s3 x c (Nat.zero_le _) hc
    simp [hcon.1, hcon.2] at this
  · intro x
    rcases s4 x with e | ⟨i, c0, cx, _, e2, e3, _, e5, e6, e7, e8⟩
    · exact Or.inl e
    · simp only [Bool.and_eq_true, beq_iff_eq] at e3
      exact Or.inr ⟨i, c0, cx, e2, e3.1, e3.2, e5, e6, e7, e8⟩

/-! ## `push` and `pop` -/

theorem Memory.push_ok (m : Memory) (a : Int) (h0 : 0 ≤ a)
    (hlt : a.toNat < m.d_memory.length) :
    ∃ cell, m.d_memory[a.toNat]? = some cell ∧
      push m a = .ok { d_memory := m.d_memory.set a.toNat cell.backup,
                       d_protectedStack := a :: m.d_protectedStack } := by
  have hnot : ¬ (a < 0 ∨ (m.d_memory.length : Int) ≤ a) := by omega
  refine ⟨m.d_memory[a.toNat], List.getElem?_eq_getElem hlt, ?_⟩
  simp only [push, hnot, if_false, List.getElem?_eq_getElem hlt]

/-- `pop` undoes `push`. -/
theorem Memory.pop_push (m m1 : Memory) (a : Int) (h : push m a = .ok m1) :
    pop m1 = .ok (a, m) := by
  obtain ⟨h0, cell, hc, rfl⟩ := Memory.push_inv h
  have hlt := Memory.getElem?_lt hc
  have hnot : ¬ a < 0 := by omega
  simp only [pop, hnot, if_false, cellAt, List.getElem?_set_self hlt,
    Memory.Cell.backup_restore, List.set_set]
  have hset : m.d_memory.set a.toNat cell = m.d_memory := by
    apply List.ext_getElem?
    intro i
    by_cases hi : a.toNat = i
    · subst hi
      rw [List.getElem?_set_self hlt, hc]
    · rw [List.getElem?_set_ne hi]
  rw [hset]

theorem Memory.pushAll_snoc (m : Memory) (l : List Int) (a : Int) :
    pushAll m (l ++ [a]) =
      match pushAll m l with
      | .error e => .error e
      | .ok m1 => push m1 a := by
  induction l generalizing m with
  | nil =>
    simp only [List.nil_append, pushAll]
    cases push m a <;> rfl
  | cons b rest ih =>
    simp only [List.cons_append, pushAll]
    cases push m b with
    | error e => rfl
    | ok m1 => exact ih m1

theorem Memory.push_length {m m1 : Memory} {a : Int} (h : push m a = .ok m1) :
    m1.d_memory.length = m.d_memory.length := by
  obtain ⟨_, cell, _, rfl⟩ := Memory.push_inv h
  simp

/-- A protected cell stays protected under `push`. -/
theorem Memory.push_protected {m m1 : Memory} {a : Int} (h : push m a = .ok m1) :
    (∃ cell, m1.d_memory[a.toNat]? = some cell ∧ cell.content = .PROTECTED) ∧
    ∀ (x : Nat) (c : Cell), m.d_memory[x]? = some c → c.content = .PROTECTED →
      ∃ c1, m1.d_memory[x]? = some c1 ∧ c1.content = .PROTECTED := by
  obtain ⟨_, cell, hc, rfl⟩ := Memory.push_inv h
  have hlt := Memory.getElem?_lt hc
  refine ⟨⟨_, List.getElem?_set_self hlt, rfl⟩, ?_⟩
  intro x c hx hp
  by_cases hxa : a.toNat = x
  · subst hxa
    exact ⟨_, List.getElem?_set_self hlt, rfl⟩
  · exact ⟨c, by rw [List.getElem?_set_ne hxa]; exact hx, hp⟩

/-- After `push(a1)` .. `push(ak)` every cell among `a1 .. ak` is protected. -/
theorem Memory.pushAll_protected :
    ∀ (l : List Int) (m m1 : Memory), pushAll m l = .ok m1 →
      (∀ (x : Nat) (c : Cell), m.d_memory[x]? = some c → c.content = .PROTECTED →
        ∃ c1, m1.d_memory[x]? = some c1 ∧ c1.content = .PROTECTED) ∧
      ∀ a, a ∈ l → ∃ cell, m1.d_memory[a.toNat]? = some cell ∧ cell.content = .PROTECTED := by
  intro l
  induction l with
  | nil =>
    intro m m1 h
    cases h
    exact ⟨fun x c hx hp => ⟨c, hx, hp⟩, fun a ha => by cases ha⟩
  | cons b rest ih =>
    intro m m1 h
    rw [pushAll] at h
    cases hb : push m b with
    | error e => rw [hb] at h; cases h
    | ok m2 =>
      rw [hb] at h
      obtain ⟨k1, k2⟩ := ih m2 m1 h
      obtain ⟨p1, p2⟩ := Memory.push_protected hb
      refine ⟨?_, ?_⟩
      · intro x c hx hp
        obtain ⟨c2, hc2, hp2⟩ := p2 x c hx hp
        exact k1 x c2 hc2 hp2
      · intro a ha
        rcases List.mem_cons.mp ha with rfl | hr
        · obtain ⟨cell, hc, hp⟩ := p1
          exact k1 _ cell hc hp
        · exact k2 a hr

/-- The pushes return, and `j` pops after them return the last `j` addresses,
last first, and lead to the state the first `k - j` pushes lead to. -/
theorem Memory.pushAll_popN (m : Memory) (l : List Int)
    (hvalid : ∀ a, a ∈ l → 0 ≤ a ∧ a.toNat < m.d_memory.length) :
    ∃ m1, pushAll m l = .ok m1 ∧ m1.d_memory.length = m.d_memory.length ∧
      ∀ j, j ≤ l.length → ∃ mj, pushAll m (l.take (l.length - j)) = .ok mj ∧
        popN m1 j = .ok (l.reverse.take j, mj) := by
  induction l using List.reverseRecOn with
  | nil =>
    refine ⟨m, rfl, rfl, ?_⟩
    intro j hj
    have : j = 0 := by simpa using hj
    subst this
    exact ⟨m, rfl, rfl⟩
  | append_singleton l a ih =>
    obtain ⟨m1, h1, hlen, hpop⟩ := ih (fun b hb => hvalid b (List.mem_append_left _ hb))
    obtain ⟨ha0, halt⟩ := hvalid a (List.mem_append_right _ (List.mem_singleton_self a))
    obtain ⟨cell, _, hpush⟩ := Memory.push_ok m1 a ha0 (by rw [hlen]; exact halt)
    obtain ⟨m2, hm2⟩ : ∃ m2, push m1 a = .ok m2 := ⟨_, hpush⟩
    have hall : pushAll m (l ++ [a]) = .ok m2 := by
      rw [Memory.pushAll_snoc, h1]
      exact hm2
    refine ⟨m2, hall, by rw [Memory.push_length hm2, hlen], ?_⟩
    intro j hj
    cases j with
    | zero =>
      refine ⟨m2, ?_, rfl⟩
      simp only [Nat.sub_zero, List.take_length]
      exact hall
    | succ j =>
      have hj' : j ≤ l.length := by
        simp only [List.length_append, List.length_singleton] at hj
        omega
      obtain ⟨mj, q1, q2⟩ := hpop j hj'
      refine ⟨mj, ?_, ?_⟩
      · have : (l ++ [a]).length - (j + 1) = l.length - j := by
          simp only [List.length_append, List.length_singleton]
          omega
        rw [this, List.take_append_of_le_length (by omega)]
        exact q1
      · rw [popN, Memory.pop_push m1 m2 a hm2]
        simp only [q2, List.reverse_append, List.reverse_singleton, List.singleton_append,
          List.take_succ_cons]

/-! ## Inline fragments -/

/-- The validation of a text reads off the structure the parser finds: the
answer is that every region, the ones the text closes included, is neutral. -/
theorem Compiler.validateInlineBFLoop_spec : ∀ (code : Code) (p : Prog) (pending : List Prog),
    parseFrom code (.halt, []) = some (p, pending) →
    ∀ (cur : Int) (saved : List Int), pending.length ≤ saved.length →
      cur + code.length ≤ INT_MAX → INT_MIN ≤ cur - code.length →
      (∀ t, t ∈ saved → t + code.length ≤ INT_MAX ∧ INT_MIN ≤ t - code.length) →
      validateInlineBFLoop code cur saved = .ok (Prog.neutralChain p pending cur saved) := by
  intro code
  induction code with
  | nil =>
    intro p pending h cur saved _ _ _ _
    simp only [parseFrom, Option.some.injEq, Prod.mk.injEq] at h
    obtain ⟨rfl, rfl⟩ := h
    simp [validateInlineBFLoop, Prog.neutralChain, Prog.regionsNeutral, Prog.shift]
  | cons c cs ih =>
    intro p pending h cur saved hlen hmax hmin hsaved
    simp only [parseFrom] at h
    cases hcs : parseFrom cs (.halt, []) with
    | none => rw [hcs] at h; cases h
    | some st =>
      obtain ⟨p1, pend1⟩ := st
      rw [hcs] at h
      simp only [Option.bind_eq_bind, Option.some_bind] at h
      have hl : ((c :: cs).length : Int) = cs.length + 1 := by simp
      rw [hl] at hmax hmin
      have hsaved1 : ∀ t, t ∈ saved → t + cs.length ≤ INT_MAX ∧ INT_MIN ≤ t - cs.length := by
        intro t ht
        have := hsaved t ht
        rw [hl] at this
        constructor <;> omega
      unfold parseStep at h
      unfold validateInlineBFLoop
      by_cases h1 : c = '>'
      · subst h1
        simp only [if_true, Option.some.injEq, Prod.mk.injEq] at h
        obtain ⟨rfl, rfl⟩ := h
        have hno : ¬ cur + 1 > INT_MAX := by omega
        simp only [if_true, if_neg hno]
        rw [ih p1 pend1 hcs (cur + 1) saved hlen (by omega) (by omega) hsaved1]
        congr 1
        cases pend1 with
        | nil => simp [Prog.neutralChain, Prog.regionsNeutral, Prog.shift, add_assoc]
        | cons q r =>
          cases saved with
          | nil => rfl
          | cons top rest =>
            simp [Prog.neutralChain, Prog.regionsNeutral, Prog.shift, add_assoc]
      · by_cases h2 : c = '<'
        · subst h2
          simp only [if_neg h1, if_true, Option.some.injEq, Prod.mk.injEq] at h
          obtain ⟨rfl, rfl⟩ := h
          have hno : ¬ cur - 1 < INT_MIN := by omega
          simp only [if_neg h1, if_true, if_neg hno]
          rw [ih p1 pend1 hcs (cur - 1) saved hlen (by omega) (by omega) hsaved1]
          congr 1
          have e : cur - 1 + p1.shift = cur + (-1 + p1.shift) := by ring
          cases pend1 with
          | nil => simp [Prog.neutralChain, Prog.regionsNeutral, Prog.shift, e]
          | cons q r =>
            cases saved with
            | nil => rfl
            | cons top rest =>
              simp [Prog.neutralChain, Prog.regionsNeutral, Prog.shift, e]
        · by_cases h3 : c = '['
          · subst h3
            have n1 : ¬ '[' = '+' := by decide
            have n2 : ¬ '[' = '-' := by decide
            have n3 : ¬ '[' = ']' := by decide
            simp only [if_neg h1, if_neg h2, if_neg n1, if_neg n2, if_neg n3, if_true] at h
            cases pend1 with
            | nil => cases h
            | cons q r =>
              simp only [Option.some.injEq, Prod.mk.injEq] at h
              obtain ⟨rfl, rfl⟩ := h
              simp only [if_neg h1, if_neg h2, if_true]
              have hlen1 : (q :: r).length ≤ (cur :: saved).length := by
                simp only [List.length_cons]
                omega
              have hINT1 : (0 : Int) + cs.length ≤ INT_MAX := by
                have : (0 : Int) ≤ cs.length := Int.natCast_nonneg _
                unfold INT_MAX INT_MIN at *
                omega
              have hINT2 : INT_MIN ≤ (0 : Int) - cs.length := by
                unfold INT_MAX INT_MIN at *
                omega
              rw [ih p1 (q :: r) hcs 0 (cur :: saved) hlen1 hINT1 hINT2 (by
                intro t ht
                rcases List.mem_cons.1 ht with rfl | ht
                · constructor <;> omega
                · exact hsaved1 t ht)]
              congr 1
              cases r with
              | nil =>
                simp [Prog.neutralChain, Prog.regionsNeutral, Prog.shift, Bool.and_assoc]
                exact Bool.and_left_comm _ _ _
              | cons q2 r2 =>
                cases saved with
                | nil => simp at hlen
                | cons top rest =>
                  simp [Prog.neutralChain, Prog.regionsNeutral, Prog.shift, Bool.and_assoc]
                  exact Bool.and_left_comm _ _ _
          · by_cases h4 : c = ']'
            · subst h4
              have n1 : ¬ ']' = '+' := by decide
              have n2 : ¬ ']' = '-' := by decide
              simp only [if_neg h1, if_neg h2, if_neg n1, if_neg n2, if_true,
                Option.some.injEq, Prod.mk.injEq] at h
              obtain ⟨rfl, rfl⟩ := h
              simp only [if_neg h1, if_neg h2, if_neg h3, if_true]
              cases saved with
              | nil => simp at hlen
              | cons top rest =>
                have hlen1 : pend1.length ≤ rest.length := by
                  simp only [List.length_cons] at hlen
                  omega
                by_cases hc : cur = 0
                · subst hc
                  simp only [ne_eq, not_true_eq_false, if_false]
                  rw [ih p1 pend1 hcs top rest hlen1
                    (hsaved1 top (List.mem_cons_self _ _)).1
                    (hsaved1 top (List.mem_cons_self _ _)).2
                    (fun t ht => hsaved1 t (List.mem_cons_of_mem _ ht))]
                  simp [Prog.neutralChain, Prog.regionsNeutral, Prog.shift]
                · simp [hc, Prog.neutralChain, Prog.regionsNeutral, Prog.shift]
            · simp only [if_neg h1, if_neg h2, if_neg h3, if_neg h4]
              have key : ∀ k : Prog, (k.shift = p1.shift ∧ k.regionsNeutral = p1.regionsNeutral) →
                  Prog.neutralChain k pend1 cur saved = Prog.neutralChain p1 pend1 cur saved := by
                intro k hk
                cases pend1 with
                | nil => simp [Prog.neutralChain, hk.1, hk.2]
                | cons q r =>
                  cases saved with
                  | nil => rfl
                  | cons top rest => simp [Prog.neutralChain, hk.1, hk.2]
              simp only [if_neg h1, if_neg h2, if_neg h3, if_neg h4] at h
              by_cases h5 : c = '+'
              · simp only [if_pos h5, Option.some.injEq, Prod.mk.injEq] at h
                obtain ⟨rfl, rfl⟩ := h
                rw [ih p1 pend1 hcs cur saved hlen (by omega) (by omega) hsaved1]
                congr 1
                exact (key (Prog.inc p1) ⟨rfl, rfl⟩).symm
              · by_cases h6 : c = '-'
                · simp only [if_neg h5, if_pos h6, Option.some.injEq, Prod.mk.injEq] at h
                  obtain ⟨rfl, rfl⟩ := h
                  rw [ih p1 pend1 hcs cur saved hlen (by omega) (by omega) hsaved1]
                  congr 1
                  exact (key (Prog.dec p1) ⟨rfl, rfl⟩).symm
                · simp only [if_neg h5, if_neg h6, Option.some.injEq, Prod.mk.injEq] at h
                  obtain ⟨rfl, rfl⟩ := h
                  exact ih p1 pend1 hcs cur saved hlen (by omega) (by omega) hsaved1

/-- The answer of `validateInlineBF` on a well-bracketed fragment. -/
theorem Compiler.validateInlineBF_spec (code : Code) (p : Prog) (h : parse code = some p)
    (hlen : code.length < 2 ^ 31) :
    validateInlineBF code = .ok (p.regionsNeutral && decide (p.shift = 0)) := by
  have hp : parseFrom code (.halt, []) = some (p, []) := by
    unfold parse at h
    split at h
    · rename_i q hq
      cases h
      exact hq
    · cases h
  have hl : (code.length : Int) < 2 ^ 31 := by exact_mod_cast hlen
  unfold validateInlineBF
  rw [Compiler.validateInlineBFLoop_spec code p [] hp 0 [] (le_refl _)
    (by unfold INT_MAX; omega) (by unfold INT_MIN; omega) (by simp)]
  simp [Prog.neutralChain]

/-- What `inlineBF` does with the answer of the validation. -/
theorem Compiler.inlineBF_run (code : Code) (valid : Bool) (c : Compiler)
    (h : validateInlineBF code = .ok valid) :
    inlineBF code c =
      if valid then .ok (-1, { c with d_codeBuffer := c.d_codeBuffer ++ code })
      else .error .compileError := by
  cases valid <;> simp [inlineBF, h, errorIf, fail]

/-- `assignElement` on an array of 254 cells: the buffer size `254 + 2` is
truncated to 0 and the call does not return. -/
theorem Compiler.assignElement_254 (c : Compiler) (ident : String) (index rhs arr : Int)
    (haddr : addressOf ident c = .ok (arr, c))
    (hsz : Memory.sizeOf c.typeMap c.d_memory arr = .ok 254) :
    ∃ e, assignElement ident index rhs c = .error e := by
  obtain ⟨e, he⟩ := Compiler.allocateTemp_256 c
  refine ⟨e, ?_⟩
  simp [assignElement, haddr, Compiler.sizeOf, hsz, he]

/-! ## The cancellation of opposite commands -/

theorem noAdjacent_iff (up down : Char) (l : Code) :
    noAdjacent up down l = true ↔
      List.Chain' (fun a b => ¬ ((a = up ∧ b = down) ∨ (a = down ∧ b = up))) l := by
  induction l with
  | nil => simp [noAdjacent]
  | cons a l ih =>
    cases l with
    | nil => simp [noAdjacent]
    | cons b rest =>
      rw [List.chain'_cons, ← ih]
      simp only [noAdjacent, Bool.and_eq_true, Bool.not_eq_true', Bool.or_eq_false_iff,
        Bool.and_eq_false_imp, beq_iff_eq, beq_eq_false_iff_ne, ne_eq, not_or, not_and]

/-- A run of one symbol has no opposite neighbours. -/
theorem chain_replicate (up down x : Char) (hne : up ≠ down) (n : Nat) :
    List.Chain' (fun a b => ¬ ((a = up ∧ b = down) ∨ (a = down ∧ b = up)))
      (List.replicate n x) := by
  induction n with
  | zero => simp
  | succ n ih =>
    cases n with
    | zero => simp
    | succ k =>
      rw [List.replicate_succ, List.replicate_succ, List.chain'_cons]
      refine ⟨?_, by rw [← List.replicate_succ]; exact ih⟩
      rintro (⟨rfl, h⟩ | ⟨rfl, h⟩)
      · exact hne h
      · exact hne h.symm

theorem CancelInv.flush {up down : Char} {result : Code} (hne : up ≠ down)
    (h : CancelInv up down result) (count : Int) :
    List.Chain' (fun a b => ¬ ((a = up ∧ b = down) ∨ (a = down ∧ b = up)))
      (cancelFlush up down count result) ∧
    ∀ x, x ∈ (cancelFlush up down count result).getLast? →
      (x ≠ up ∧ x ≠ down) ∨ x = up ∨ x = down := by
  have junction : ∀ (n : Nat) (y : Char),
      List.Chain' (fun a b => ¬ ((a = up ∧ b = down) ∨ (a = down ∧ b = up)))
        (result ++ List.replicate n y) := by
    intro n y
    refine List.Chain'.append h.1 (chain_replicate up down y hne n) ?_
    intro x hx z _
    have := h.2 x hx
    rintro (⟨rfl, _⟩ | ⟨rfl, _⟩)
    · exact this.1 rfl
    · exact this.2 rfl
  unfold cancelFlush
  refine ⟨?_, fun x _ => ?_⟩
  · by_cases h1 : count > 0
    · have h2 : ¬ count < 0 := by omega
      simp only [if_pos h1, if_neg h2]
      exact junction _ _
    · by_cases h2 : count < 0
      · simp only [if_neg h1, if_pos h2]
        exact junction _ _
      · simp only [if_neg h1, if_neg h2]
        exact h.1
  · by_cases hu : x = up
    · exact Or.inr (Or.inl hu)
    · by_cases hd : x = down
      · exact Or.inr (Or.inr hd)
      · exact Or.inl ⟨hu, hd⟩

theorem CancelInv.snoc {up down : Char} {result : Code} (hne : up ≠ down)
    (h : CancelInv up down result) (count : Int) (c : Char) (hu : c ≠ up) (hd : c ≠ down) :
    CancelInv up down (cancelFlush up down count result ++ [c]) := by
  refine ⟨?_, ?_⟩
  · refine List.Chain'.append (h.flush hne count).1 (List.chain'_singleton c) ?_
    intro x _ z hz
    simp only [List.head?_cons, Option.mem_def, Option.some.injEq] at hz
    subst hz
    rintro (⟨_, rfl⟩ | ⟨_, rfl⟩)
    · exact hd rfl
    · exact hu rfl
  · intro x hx
    simp only [List.getLast?_append, List.getLast?_singleton, Option.mem_def] at hx
    have hx1 : some c = some x := hx
    cases hx1
    exact ⟨hu, hd⟩

theorem cancelFlush_length (up down : Char) (count : Int) (result : Code) :
    (cancelFlush up down count result).length = result.length + count.natAbs := by
  unfold cancelFlush
  by_cases h1 : count > 0
  · have h2 : ¬ count < 0 := by omega
    simp only [if_pos h1, if_neg h2, List.length_append, List.length_replicate]
    omega
  · by_cases h2 : count < 0
    · simp only [if_neg h1, if_pos h2, List.length_append, List.length_replicate]
      omega
    · simp only [if_neg h1, if_neg h2]
      omega

/-- A pass of `cancel` over an input that keeps the counter in range: it
returns a text without opposite neighbours that is not longer than what was
read. -/
theorem Compiler.cancelLoop_chain {up down : Char} (hne : up ≠ down) :
    ∀ (input : Code) (count : Int) (result : Code), CancelInv up down result →
      count + input.length ≤ INT_MAX → INT_MIN ≤ count - input.length →
      ∃ out, cancelLoop up down input count result = .ok out ∧
        List.Chain' (fun a b => ¬ ((a = up ∧ b = down) ∨ (a = down ∧ b = up))) out ∧
        out.length ≤ result.length + count.natAbs + input.length := by
  intro input
  induction input with
  | nil =>
    intro count result h _ _
    refine ⟨_, rfl, (h.flush hne count).1, ?_⟩
    rw [cancelFlush_length]
    simp
  | cons c rest ih =>
    intro count result h hmax hmin
    have hl : ((c :: rest).length : Int) = rest.length + 1 := by simp
    rw [hl] at hmax hmin
    unfold cancelLoop
    by_cases h1 : c = up
    · have hno : ¬ count + 1 > INT_MAX := by omega
      simp only [if_pos h1, if_neg hno]
      obtain ⟨out, ho, hc, hlen⟩ := ih (count + 1) result h (by omega) (by omega)
      refine ⟨out, ho, hc, ?_⟩
      simp only [List.length_cons]
      omega
    · by_cases h2 : c = down
      · have hno : ¬ count - 1 < INT_MIN := by omega
        simp only [if_neg h1, if_pos h2, if_neg hno]
        obtain ⟨out, ho, hc, hlen⟩ := ih (count - 1) result h (by omega) (by omega)
        refine ⟨out, ho, hc, ?_⟩
        simp only [List.length_cons]
        omega
      · simp only [if_neg h1, if_neg h2]
        have hr0 : (0 : Int) ≤ rest.length := Int.natCast_nonneg _
        obtain ⟨out, ho, hc, hlen⟩ := ih 0 _ (h.snoc hne count c h1 h2)
          (by unfold INT_MAX INT_MIN at *; omega) (by unfold INT_MAX INT_MIN at *; omega)
        refine ⟨out, ho, hc, ?_⟩
        have e1 : (cancelFlush up down count result ++ [c]).length =
            result.length + count.natAbs + 1 := by
          rw [List.length_append, cancelFlush_length]
          rfl
        have e2 : (c :: rest).length = rest.length + 1 := rfl
        have e3 : (0 : Int).natAbs = 0 := rfl
        rw [e1, e3] at hlen
        rw [e2]
        omega

/-- The text a pass of `cancel` returns has no `up` next to a `down`. -/
theorem Compiler.cancel_noAdjacent (input : Code) (up down : Char) (hne : up ≠ down)
    (hlen : input.length < 2 ^ 31) :
    ∃ out, cancel input up down = .ok out ∧ noAdjacent up down out = true ∧
      out.length ≤ input.length := by
  have hl : (input.length : Int) < 2 ^ 31 := by exact_mod_cast hlen
  obtain ⟨out, ho, hc, hlen2⟩ := Compiler.cancelLoop_chain hne input 0 []
    ⟨List.chain'_nil, by simp⟩ (by unfold INT_MAX; omega) (by unfold INT_MIN; omega)
  refine ⟨out, ho, (noAdjacent_iff up down out).2 hc, ?_⟩
  simpa using hlen2

/-! ## Array sizes -/

/-- The test `sz > MAX_ARRAY_SIZE` on a `uint8_t` never fires. -/
theorem Compiler.size_test_dead (n : Nat) : decide (n % 256 > MAX_ARRAY_SIZE) = false := by
  have : n % 256 < 256 := Nat.mod_lt _ (by decide)
  simp only [MAX_ARRAY_SIZE, decide_eq_false_iff_not]
  omega

/-- The loop of `arrayFromList` reads the first `k` elements only. -/
theorem Compiler.arrayListLoop_take (start : Int) :
    ∀ (k : Nat) (list : List Instruction) (idx : Nat),
      arrayListLoop start k (list.take k) idx = arrayListLoop start k list idx := by
  intro k
  induction k with
  | zero => intro list idx; rfl
  | succ k ih =>
    intro list idx
    cases list with
    | nil => rfl
    | cons e rest =>
      simp only [List.take_succ_cons, arrayListLoop, ih rest (idx + 1)]

/-- The loop of `arrayFromString` reads the first `k` bytes only. -/
theorem Compiler.arrayStringLoop_take (start : Int) :
    ∀ (k : Nat) (str : List Nat) (idx : Nat),
      arrayStringLoop start k (str.take k) idx = arrayStringLoop start k str idx := by
  intro k
  induction k with
  | zero => intro str idx; rfl
  | succ k ih =>
    intro str idx
    cases str with
    | nil => rfl
    | cons e rest =>
      simp only [List.take_succ_cons, arrayStringLoop, ih rest (idx + 1)]

/-- A literal array is compiled as the array of its first `size % 256`
elements. -/
theorem Compiler.arrayFromList_take (list : List Instruction) :
    arrayFromList list = arrayFromList (list.take (list.length % 256)) := by
  have hle : list.length % 256 ≤ list.length := Nat.mod_le _ _
  have hlen : (list.take (list.length % 256)).length = list.length % 256 := by
    rw [List.length_take]
    omega
  unfold arrayFromList
  simp only [hlen, Nat.mod_mod, Compiler.arrayListLoop_take]

/-- A string is compiled as the string of its first `size % 256`
characters. -/
theorem Compiler.arrayFromString_take (str : List Nat) :
    arrayFromString str = arrayFromString (str.take (str.length % 256)) := by
  have hle : str.length % 256 ≤ str.length := Nat.mod_le _ _
  have hlen : (str.take (str.length % 256)).length = str.length % 256 := by
    rw [List.length_take]
    omega
  unfold arrayFromString
  simp only [hlen, Nat.mod_mod, Compiler.arrayStringLoop_take]

/-! ## Cursor synchronisation of the emission primitives -/

theorem Bytes.const_zero : Bytes (fun _ => 0) := fun _ => by norm_num

theorem Compiler.Writes.inSync {x : Gen Code} {c : Compiler} {target : Int}
    (h : Writes x c target) : InSync x c := by
  obtain ⟨code, c1, hx, _, _, hp, sem⟩ := h
  obtain ⟨t0, r0, _⟩ := sem _ Bytes.const_zero
  refine ⟨code, c1, hx, r0.balanced, ?_⟩
  intro t hb
  obtain ⟨t1, r, _⟩ := sem t hb
  rw [hp]
  exact ⟨t1, r⟩

theorem Compiler.bf_movePtr_inSync (c : Compiler) (addr : Int) (h0 : 0 ≤ addr) :
    InSync (bf_movePtr addr) c :=
  ⟨_, _, Compiler.bf_movePtr_run h0 c, Balanced.mvCode _ _, fun t _ => ⟨t, Runs.mv t _ _⟩⟩

theorem Compiler.bf_setToValue_inSync (c : Compiler) (addr : Int) (v : Nat) (h0 : 0 ≤ addr) :
    InSync (bf_setToValue addr v) c := by
  refine ⟨_, _, Compiler.bf_setToValue_run h0 (Int.natCast_nonneg v) c, ?_, ?_⟩
  · exact (Runs.setToValue (fun _ => 0) c.d_pointer addr (v : Int).toNat Bytes.const_zero).balanced
  · intro t hb
    exact ⟨_, Runs.setToValue t c.d_pointer addr (v : Int).toNat hb⟩

/-- `bf_assign(lhs, rhs)` on allocated cells, equal or not: the text ends on
`lhs` and changes no other cell that was allocated before the call; when the
two cells differ, `lhs` receives the value of `rhs`. -/
theorem Compiler.bf_assign_any (c : Compiler) (lhs rhs : Int) (hr : c.Ready 1)
    (hl : c.Live lhs) (hrh : c.Live rhs) :
    ∃ code c1, bf_assign lhs rhs c = .ok (code, c1) ∧ c.Ext c1 ∧
      c1.d_codeBuffer = c.d_codeBuffer ∧ c1.d_pointer = lhs ∧
      ∀ t, Bytes t → ∃ t1, Runs code ⟨t, c.d_pointer⟩ ⟨t1, lhs⟩ ∧
        (∀ a, a ≠ lhs → (c.Live a ∨ ¬ c1.Live a) → t1 a = t a) ∧
        (lhs ≠ rhs → t1 lhs = t rhs) := by
  by_cases hne : lhs = rhs
  · subst hne
    obtain ⟨tmp, c1, hal, ht0, hext, hp, hcb, hfresh, hlive, _, _⟩ :=
      Compiler.allocateTemp_spec c 1 (by norm_num) (by norm_num) hr
    have hfr : ¬ c.Live tmp := by simpa using hfresh 0 (by norm_num)
    have hlv : c1.Live tmp := by simpa using hlive 0 (by norm_num)
    have h2 : tmp ≠ lhs := (hl.ne hfr).symm
    refine ⟨_, _, Compiler.bf_assign_run hl.nonneg hl.nonneg ht0 hal hp, hext, hcb, rfl, ?_⟩
    intro t hb
    refine ⟨_, Runs.assign_self c.d_pointer lhs tmp h2 t hb, ?_, fun h => absurd rfl h⟩
    intro a ha hla
    have hat : a ≠ tmp := by
      rcases hla with h | h
      · exact h.ne hfr
      · exact fun e => h (e ▸ hlv)
    rw [setCell_other _ _ hat, setCell_other _ _ ha]
  · obtain ⟨code, c1, h, e, hcb, hp, sem⟩ := Compiler.bf_assign_spec c lhs rhs hr hl hrh hne
    refine ⟨code, c1, h, e, hcb, hp, ?_⟩
    intro t hb
    obtain ⟨t1, r, v, f, _⟩ := sem t hb
    exact ⟨t1, r, f, fun _ => v⟩

/-- `bf_assign(lhs, rhs)` on allocated cells, equal or not. -/
theorem Compiler.bf_assign_writes (c : Compiler) (lhs rhs : Int) (hr : c.Ready 1)
    (hl : c.Live lhs) (hrh : c.Live rhs) : Writes (bf_assign lhs rhs) c lhs := by
  obtain ⟨code, c1, h, e, hcb, hp, sem⟩ := Compiler.bf_assign_any c lhs rhs hr hl hrh
  refine ⟨code, c1, h, e, hcb, hp, ?_⟩
  intro t hb
  obtain ⟨t1, r, f, _⟩ := sem t hb
  exact ⟨t1, r, f⟩

theorem Compiler.bf_addTo_writes (c : Compiler) (target rhs : Int) (hr : c.Ready 1)
    (ht : c.Live target) (hrh : c.Live rhs) : Writes (bf_addTo target rhs) c target := by
  obtain ⟨code, c1, h, e, hcb, hp, sem⟩ := Compiler.bf_addTo_spec c target rhs hr ht hrh
  refine ⟨code, c1, h, e, hcb, hp, ?_⟩
  intro t hb
  obtain ⟨t1, r, _, f⟩ := sem t hb
  exact ⟨t1, r, f⟩

/-- Drain the cell at `a` out of the cell at `b`. -/
theorem Runs.drain1Sub (a b : Int) (hab : a ≠ b) (t : Int → Nat) (ha : t a < 256)
    (hb : t b < 256) :
    Runs (loopC (['-'] ++ mvCode a b ++ ['-'] ++ mvCode b a)) ⟨t, a⟩
      ⟨setCell (setCell t b ((t b + 256 - t a) % 256)) a 0, a⟩ := by
  have hbal : Balanced (['-'] ++ mvCode a b ++ ['-'] ++ mvCode b a) :=
    (((Balanced.single (by decide) (by decide)).seq (Balanced.mvCode _ _)).seq
      (Balanced.single (by decide) (by decide))).seq (Balanced.mvCode _ _)
  generalize hn : t a = n
  induction n using Nat.strong_induction_on generalizing t with
  | _ n ih =>
    subst hn
    by_cases hz : t a = 0
    · have e : setCell (setCell t b ((t b + 256 - t a) % 256)) a 0 = t := by
        funext x
        simp only [setCell]
        split_ifs with h1 h2
        · subst h1; exact hz.symm
        · subst h2; rw [hz]; omega
        · rfl
      rw [e]
      exact Runs.loop_skip hbal hz
    · have r1 := Runs.dec ⟨t, a⟩
      have r2 := Runs.mv (setCell t a ((t a + 255) % 256)) a b
      have r3 := Runs.dec ⟨setCell t a ((t a + 255) % 256), b⟩
      have r4 := Runs.mv (setCell (setCell t a ((t a + 255) % 256)) b
        ((setCell t a ((t a + 255) % 256) b + 255) % 256)) b a
      have body := ((r1.append r2).append r3).append r4
      have hba : b ≠ a := fun h => hab h.symm
      rw [setCell_other _ _ hba] at body
      obtain ⟨t1, ht1⟩ : ∃ t1, t1 = setCell (setCell t a ((t a + 255) % 256)) b
          ((t b + 255) % 256) := ⟨_, rfl⟩
      rw [← ht1] at body
      have h1a : t1 a = t a - 1 := by
        rw [ht1, setCell_other _ _ hab, setCell_same]; omega
      have h1b : t1 b = (t b + 255) % 256 := by rw [ht1, setCell_same]
      have rest := ih (t a - 1) (by omega) t1 (by omega) (by rw [h1b]; omega) h1a
      have e : setCell (setCell t1 b ((t1 b + 256 - (t a - 1)) % 256)) a 0 =
          setCell (setCell t b ((t b + 256 - t a) % 256)) a 0 := by
        funext x
        simp only [setCell, h1b]
        split_ifs with h1 h2
        · rfl
        · omega
        · rw [ht1]; simp [setCell, h1, h2]
      rw [e] at rest
      exact Runs.loop_step hz body rest

theorem Compiler.bf_subtractFrom_writes (c : Compiler) (target rhs : Int) (hr : c.Ready 1)
    (ht : c.Live target) (hrh : c.Live rhs) : Writes (bf_subtractFrom target rhs) c target := by
  obtain ⟨tmp, c1, hal, ht0, e01, hp1, hcb1, hfresh, hlive, _, _⟩ :=
    Compiler.allocateTemp_spec c 1 (by norm_num) (by norm_num) hr
  have hfr : ¬ c.Live tmp := by simpa using hfresh 0 (by norm_num)
  have hlv : c1.Live tmp := by simpa using hlive 0 (by norm_num)
  obtain ⟨codeA, c2, hA, e12, hcb2, hp2, semA⟩ :=
    Compiler.bf_assign_spec c1 tmp rhs (e01.ready hr) hlv (e01.live hrh) (hrh.ne hfr).symm
  have heq : bf_subtractFrom target rhs c = .ok
      (codeA ++ mvCode tmp tmp ++
        loopC (['-'] ++ mvCode tmp target ++ ['-'] ++ mvCode target tmp) ++
        mvCode tmp target, { c2 with d_pointer := target }) := by
    simp [bf_subtractFrom, Compiler.validateAddr2_run ht.nonneg hrh.nonneg, hal, hA, hp2,
      Compiler.bf_movePtr_run ht.nonneg, Compiler.bf_movePtr_run ht0, loopC]
  refine ⟨_, _, heq, e01.trans e12, by rw [← hcb1, ← hcb2], rfl, ?_⟩
  intro t hb
  have htt : tmp ≠ target := (ht.ne hfr).symm
  rw [hp1] at semA
  obtain ⟨t1, r1, v1, f1, _⟩ := semA t hb
  have b1 : Bytes t1 := r1.bytes hb
  have r2 := Runs.mv t1 tmp tmp
  have r3 := Runs.drain1Sub tmp target htt t1 (b1 _) (b1 _)
  have r4 := Runs.mv (setCell (setCell t1 target ((t1 target + 256 - t1 tmp) % 256)) tmp 0)
    tmp target
  refine ⟨_, ((r1.append r2).append r3).append r4, ?_⟩
  intro a hat hla
  have ha : a ≠ tmp := by
    rcases hla with h | h
    · exact h.ne hfr
    · exact fun e => h (e ▸ e12.live hlv)
  rw [setCell_other _ _ ha, setCell_other _ _ hat,
    f1 a ha (Compiler.Ext.mid e01 (Compiler.Ext.refl c2) hla)]

/-- `bf_not(addr, result)` on allocated cells, equal or not. -/
theorem Compiler.bf_not_writes (c : Compiler) (addr result : Int) (hr : c.Ready 1)
    (ha : c.Live addr) (hres : c.Live result) : Writes (bf_not addr result) c result := by
  obtain ⟨tmp, c1, hal, ht0, e01, hp1, hcb1, hfresh, hlive, hnew, _⟩ :=
    Compiler.allocateTemp_spec c 1 (by norm_num) (by norm_num) hr
  have hfr : ¬ c.Live tmp := by simpa using hfresh 0 (by norm_num)
  have hlv : c1.Live tmp := by simpa using hlive 0 (by norm_num)
  obtain ⟨codeA, c2, hA, e12, hcb2, hp2, semA⟩ :=
    Compiler.bf_assign_spec { c1 with d_pointer := result } tmp addr (e01.ready hr) hlv
      (e01.live ha) (ha.ne hfr).symm
  have h0a := ha.nonneg
  have h0r := hres.nonneg
  have heq : bf_not addr result c = .ok
      (mvCode c.d_pointer result ++ ['[', '-', ']'] ++ List.replicate 1 '+' ++ codeA ++
        loopC (mvCode tmp result ++ ['[', '-', ']'] ++ List.replicate 0 '+' ++
          (mvCode result tmp ++ ['[', '-', ']'] ++ List.replicate 0 '+')) ++
        mvCode tmp result, { c2 with d_pointer := result }) := by
    simp [bf_not, Compiler.validateAddr2_run h0a h0r, hal, Compiler.bf_setToValue_run h0r,
      Compiler.bf_setToValue_run ht0, hA, hp1, hp2, Compiler.bf_movePtr_run h0r, loopC]
  have e02 : c.Ext c2 := e01.trans e12
  refine ⟨_, _, heq, e02, by rw [← hcb1, ← hcb2], rfl, ?_⟩
  intro t hb
  have r1 := Runs.setToValue t c.d_pointer result 1 hb
  have hb1 : Bytes (setCell t result 1) := hb.setCell _ (by norm_num)
  obtain ⟨t2, r2, v2, f2, _⟩ := semA _ hb1
  have hb2 : Bytes t2 := r2.bytes hb1
  have htr : tmp ≠ result := (hres.ne hfr).symm
  obtain ⟨t3, r3, _, _, f3⟩ := Runs.guard_set tmp result 0 (by norm_num) htr t2 hb2
  have r4 := Runs.mv t3 tmp result
  refine ⟨t3, ((r1.append r2).append r3).append r4, ?_⟩
  intro a har hla
  have hat : a ≠ tmp := by
    rcases hla with h | h
    · exact h.ne hfr
    · exact fun e => h (e ▸ e12.live hlv)
  rw [f3 a har hat, f2 a hat (Compiler.Ext.mid e01 (Compiler.Ext.refl c2) hla),
    setCell_other _ _ har]

/-- `bf_or(lhs, rhs, result)` on allocated cells, equal or not. -/
theorem Compiler.bf_or_writes (c : Compiler) (lhs rhs result : Int) (hr : c.Ready 1)
    (hl : c.Live lhs) (hrh : c.Live rhs) (hres : c.Live result) :
    Writes (bf_or lhs rhs result) c result := by
  obtain ⟨x, c1, halX, hX0, e01, hp1, hcb1, hfreshX, hliveX, _, _⟩ :=
    Compiler.allocateTemp_spec c 1 (by norm_num) (by norm_num) hr
  have hfrX : ¬ c.Live x := by simpa using hfreshX 0 (by norm_num)
  have hlvX : c1.Live x := by simpa using hliveX 0 (by norm_num)
  obtain ⟨y, c2, halY, hY0, e12, hp2, hcb2, hfreshY, hliveY, _, _⟩ :=
    Compiler.allocateTemp_spec c1 1 (by norm_num) (by norm_num) (e01.ready hr)
  have hfrY : ¬ c1.Live y := by simpa using hfreshY 0 (by norm_num)
  have hlvY : c2.Live y := by simpa using hliveY 0 (by norm_num)
  have e02 := e01.trans e12
  obtain ⟨codeA, c3, hA, e23, hcb3, hp3, semA⟩ :=
    Compiler.bf_assign_spec { c2 with d_pointer := result } x lhs (e02.ready hr)
      (e12.live hlvX) (e02.live hl) (hl.ne hfrX).symm
  have e03 := e02.trans e23
  obtain ⟨codeB, c4, hB, e34, hcb4, hp4, semB⟩ :=
    Compiler.bf_assign_spec { c3 with d_pointer := x } y rhs (e03.ready hr)
      (e23.live hlvY) (e03.live hrh) ((e01.live hrh).ne hfrY).symm
  have e04 := e03.trans e34
  have h0l := hl.nonneg
  have h0r := hrh.nonneg
  have h0x := hres.nonneg
  have heq : bf_or lhs rhs result c = .ok
      (mvCode c.d_pointer result ++ ['[', '-', ']'] ++ List.replicate 0 '+' ++ codeA ++
        loopC (mvCode x result ++ ['[', '-', ']'] ++ List.replicate 1 '+' ++
          (mvCode result x ++ ['[', '-', ']'] ++ List.replicate 0 '+')) ++
        codeB ++
        loopC (mvCode y result ++ ['[', '-', ']'] ++ List.replicate 1 '+' ++
          (mvCode result y ++ ['[', '-', ']'] ++ List.replicate 0 '+')) ++
        mvCode y result, { c4 with d_pointer := result }) := by
    simp [bf_or, Compiler.validateAddr3_run h0l h0r h0x, halX, halY,
      Compiler.bf_setToValue_run h0x, Compiler.bf_setToValue_run hX0,
      Compiler.bf_setToValue_run hY0, hA, hB, hp1, hp2, hp3, hp4,
      Compiler.bf_movePtr_run h0x, loopC]
  refine ⟨_, _, heq, e04, by rw [hcb4, hcb3, ← hcb1, ← hcb2], rfl, ?_⟩
  intro t hb
  have hXY : x ≠ y := hlvX.ne hfrY
  have hXr : x ≠ result := (hres.ne hfrX).symm
  have hYr : y ≠ result := ((e01.live hres).ne hfrY).symm
  have r1 := Runs.setToValue t c.d_pointer result 0 hb
  have hb1 : Bytes (setCell t result 0) := hb.setCell _ (by norm_num)
  obtain ⟨t2, r2, v2, f2, _⟩ := semA _ hb1
  have hb2 : Bytes t2 := r2.bytes hb1
  rw [hp3] at *
  obtain ⟨t3, r3, v3, z3, f3⟩ := Runs.guard_set x result 1 (by norm_num) hXr t2 hb2
  have hb3 : Bytes t3 := r3.bytes hb2
  obtain ⟨t4, r4, v4, f4, _⟩ := semB _ hb3
  have hb4 : Bytes t4 := r4.bytes hb3
  obtain ⟨t5, r5, v5, z5, f5⟩ := Runs.guard_set y result 1 (by norm_num) hYr t4 hb4
  have r6 := Runs.mv t5 y result
  refine ⟨t5, ((((((r1.append r2).append r3).append r4).append r5).append r6)), ?_⟩
  intro a har hla
  have haX : a ≠ x := by
    rcases hla with h | h
    · exact h.ne hfrX
    · exact fun e => h (e ▸ e34.live (e23.live (e12.live hlvX)))
  have haY : a ≠ y := by
    rcases hla with h | h
    · exact (e01.live h).ne hfrY
    · exact fun e => h (e ▸ e34.live (e23.live hlvY))
  rw [f5 a har haY, f4 a haY (Compiler.Ext.mid e03 (Compiler.Ext.refl c4) hla),
    f3 a har haX, f2 a haX (Compiler.Ext.mid e02 e34 hla), setCell_other _ _ har]

/-- `bf_equal(lhs, rhs, result)` on allocated cells, equal or not. -/
theorem Compiler.bf_equal_writes (c : Compiler) (lhs rhs result : Int) (hr : c.Ready 1)
    (hl : c.Live lhs) (hrh : c.Live rhs) (hres : c.Live result) :
    Writes (bf_equal lhs rhs result) c result := by
  obtain ⟨tmpL, c1, halL, hL0, e01, hp1, hcb1, hfreshL, hliveL, _, _⟩ :=
    Compiler.allocateTemp_spec c 1 (by norm_num) (by norm_num) hr
  have hfrL : ¬ c.Live tmpL := by simpa using hfreshL 0 (by norm_num)
  have hlvL : c1.Live tmpL := by simpa using hliveL 0 (by norm_num)
  obtain ⟨tmpR, c2, halR, hR0, e12, hp2, hcb2, hfreshR, hliveR, _, _⟩ :=
    Compiler.allocateTemp_spec c1 1 (by norm_num) (by norm_num) (e01.ready hr)
  have hfrR : ¬ c1.Live tmpR := by simpa using hfreshR 0 (by norm_num)
  have hlvR : c2.Live tmpR := by simpa using hliveR 0 (by norm_num)
  have e02 := e01.trans e12
  obtain ⟨codeA, c3, hA, e23, hcb3, hp3, semA⟩ :=
    Compiler.bf_assign_spec { c2 with d_pointer := result } tmpR rhs (e02.ready hr) hlvR
      (e02.live hrh) ((e01.live hrh).ne hfrR).symm
  have e03 := e02.trans e23
  obtain ⟨codeB, c4, hB, e34, hcb4, hp4, semB⟩ :=
    Compiler.bf_assign_spec c3 tmpL lhs (e03.ready hr) (e23.live (e12.live hlvL))
      (e03.live hl) (hl.ne hfrL).symm
  have e04 := e03.trans e34
  have h0l := hl.nonneg
  have h0r := hrh.nonneg
  have h0x := hres.nonneg
  have heq : bf_equal lhs rhs result c = .ok
      (mvCode c.d_pointer result ++ ['[', '-', ']'] ++ List.replicate 1 '+' ++ codeA ++ codeB ++
        loopC (mvCode tmpL tmpR ++ ['-'] ++ (mvCode tmpR tmpL ++ ['-'])) ++
        mvCode tmpL tmpR ++
        loopC (mvCode tmpR result ++ ['[', '-', ']'] ++ List.replicate 0 '+' ++
          (mvCode result tmpR ++ ['[', '-', ']'] ++ List.replicate 0 '+')) ++
        mvCode tmpR result, { c4 with d_pointer := result }) := by
    simp [bf_equal, Compiler.validateAddr3_run h0l h0r h0x, halL, halR,
      Compiler.bf_setToValue_run h0x, Compiler.bf_setToValue_run hR0, hA, hB, hp1, hp2, hp3, hp4,
      Compiler.bf_movePtr_run h0x, Compiler.bf_movePtr_run hR0, Compiler.bf_decr_run hR0,
      Compiler.bf_decr_run hL0, loopC]
  refine ⟨_, _, heq, e04, by rw [hcb4, hcb3, ← hcb1, ← hcb2], rfl, ?_⟩
  intro t hb
  have hLR : tmpL ≠ tmpR := hlvL.ne hfrR
  have hLx : tmpL ≠ result := (hres.ne hfrL).symm
  have hRx : tmpR ≠ result := ((e01.live hres).ne hfrR).symm
  have r1 := Runs.setToValue t c.d_pointer result 1 hb
  have hb1 : Bytes (setCell t result 1) := hb.setCell _ (by norm_num)
  obtain ⟨t2, r2, v2, f2, _⟩ := semA _ hb1
  have hb2 : Bytes t2 := r2.bytes hb1
  obtain ⟨t3, r3, v3, f3, _⟩ := semB _ hb2
  have hb3 : Bytes t3 := r3.bytes hb2
  rw [hp3] at r3
  have r4 := Runs.drainSub tmpL tmpR hLR t3 (hb3 _) (hb3 _)
  obtain ⟨t4, ht4⟩ : ∃ t4, t4 = setCell (setCell t3 tmpR ((t3 tmpR + 256 - t3 tmpL) % 256))
      tmpL 0 := ⟨_, rfl⟩
  rw [← ht4] at r4
  have hb4 : Bytes t4 := r4.bytes hb3
  have r5 := Runs.mv t4 tmpL tmpR
  obtain ⟨t5, r6, _, _, f5⟩ := Runs.guard_set tmpR result 0 (by norm_num) hRx t4 hb4
  have r7 := Runs.mv t5 tmpR result
  refine ⟨t5, ((((((r1.append r2).append r3).append r4).append r5).append r6).append r7), ?_⟩
  intro a har hla
  have haL : a ≠ tmpL := by
    rcases hla with h | h
    · exact h.ne hfrL
    · exact fun e => h (e ▸ e34.live (e23.live (e12.live hlvL)))
  have haR : a ≠ tmpR := by
    rcases hla with h | h
    · exact (e01.live h).ne hfrR
    · exact fun e => h (e ▸ e34.live (e23.live hlvR))
  rw [f5 a har haR, ht4, setCell_other _ _ haL, setCell_other _ _ haR,
    f3 a haL (Compiler.Ext.mid e03 (Compiler.Ext.refl c4) hla),
    f2 a haR (Compiler.Ext.mid e02 e34 hla), setCell_other _ _ har]

/-- `bf_and(lhs, rhs, result)` on allocated cells, equal or not. -/
theorem Compiler.bf_and_writes (c : Compiler) (lhs rhs result : Int) (hr : c.Ready 1)
    (hl : c.Live lhs) (hrh : c.Live rhs) (hres : c.Live result) :
    Writes (bf_and lhs rhs result) c result := by
  obtain ⟨x, c1, halX, hX0, e01, hp1, hcb1, hfreshX, hliveX, _, _⟩ :=
    Compiler.allocateTemp_spec c 1 (by norm_num) (by norm_num) hr
  have hfrX : ¬ c.Live x := by simpa using hfreshX 0 (by norm_num)
  have hlvX : c1.Live x := by simpa using hliveX 0 (by norm_num)
  obtain ⟨y, c2, halY, hY0, e12, hp2, hcb2, hfreshY, hliveY, _, _⟩ :=
    Compiler.allocateTemp_spec c1 1 (by norm_num) (by norm_num) (e01.ready hr)
  have hfrY : ¬ c1.Live y := by simpa using hfreshY 0 (by norm_num)
  have hlvY : c2.Live y := by simpa using hliveY 0 (by norm_num)
  have e02 := e01.trans e12
  obtain ⟨codeA, c3, hA, e23, hcb3, hp3, semA⟩ :=
    Compiler.bf_assign_spec { c2 with d_pointer := result } y rhs (e02.ready hr) hlvY
      (e02.live hrh) ((e01.live hrh).ne hfrY).symm
  have e03 := e02.trans e23
  obtain ⟨codeB, c4, hB, e34, hcb4, hp4, semB⟩ :=
    Compiler.bf_assign_spec c3 x lhs (e03.ready hr) (e23.live (e12.live hlvX))
      (e03.live hl) (hl.ne hfrX).symm
  have e04 := e03.trans e34
  have h0l := hl.nonneg
  have h0r := hrh.nonneg
  have h0x := hres.nonneg
  have heq : bf_and lhs rhs result c = .ok
      (mvCode c.d_pointer result ++ ['[', '-', ']'] ++ List.replicate 0 '+' ++ codeA ++ codeB ++
        loopC (mvCode x y ++
          loopC (mvCode y result ++ ['[', '-', ']'] ++ List.replicate 1 '+' ++
            (mvCode result y ++ ['[', '-', ']'] ++ List.replicate 0 '+')) ++
          (mvCode y x ++ ['[', '-', ']'] ++ List.replicate 0 '+')) ++
        mvCode x result, { c4 with d_pointer := result }) := by
    simp [bf_and, Compiler.validateAddr3_run h0l h0r h0x, halX, halY,
      Compiler.bf_setToValue_run h0x, Compiler.bf_setToValue_run hX0,
      Compiler.bf_setToValue_run hY0, hA, hB, hp1, hp2, hp3, hp4,
      Compiler.bf_movePtr_run h0x, Compiler.bf_movePtr_run hY0, loopC]
  refine ⟨_, _, heq, e04, by rw [hcb4, hcb3, ← hcb1, ← hcb2], rfl, ?_⟩
  intro t hb
  have hXY : x ≠ y := hlvX.ne hfrY
  have hXr : x ≠ result := (hres.ne hfrX).symm
  have hYr : y ≠ result := ((e01.live hres).ne hfrY).symm
  have r1 := Runs.setToValue t c.d_pointer result 0 hb
  have hb1 : Bytes (setCell t result 0) := hb.setCell _ (by norm_num)
  obtain ⟨t2, r2, v2, f2, _⟩ := semA _ hb1
  have hb2 : Bytes t2 := r2.bytes hb1
  obtain ⟨t3, r3, v3, f3, _⟩ := semB _ hb2
  have hb3 : Bytes t3 := r3.bytes hb2
  rw [hp3] at r3
  have body : ∀ s, Bytes s → ∃ s1,
      Runs (mvCode x y ++
          loopC (mvCode y result ++ ['[', '-', ']'] ++ List.replicate 1 '+' ++
            (mvCode result y ++ ['[', '-', ']'] ++ List.replicate 0 '+')) ++
          (mvCode y x ++ ['[', '-', ']'] ++ List.replicate 0 '+')) ⟨s, x⟩ ⟨s1, x⟩ ∧
        s1 x = 0 ∧ ∀ a, a ≠ result → a ≠ x → a ≠ y → s1 a = s a := by
    intro s hs
    have q1 := Runs.mv s x y
    obtain ⟨s2, q2, _, _, g2⟩ := Runs.guard_set y result 1 (by norm_num) hYr s hs
    have hs2 : Bytes s2 := q2.bytes hs
    have q3 := Runs.setToValue s2 y x 0 hs2
    refine ⟨_, (q1.append q2).append q3, by simp [setCell_same], ?_⟩
    intro a h1 h2 h3
    rw [setCell_other _ _ h2, g2 a h1 h3]
  obtain ⟨t4, r4, f4⟩ := Runs.if_at (body t3 hb3).choose_spec.1.balanced x
    (fun s => ∀ a, a ≠ result → a ≠ x → a ≠ y → s a = t3 a) t3
    (fun _ _ _ _ _ => rfl)
    (fun _ => by
      obtain ⟨s1, q, z, g⟩ := body t3 hb3
      exact ⟨s1, q, z, g⟩)
  have r5 := Runs.mv t4 x result
  refine ⟨t4, ((((r1.append r2).append r3).append r4).append r5), ?_⟩
  intro a har hla
  have haX : a ≠ x := by
    rcases hla with h | h
    · exact h.ne hfrX
    · exact fun e => h (e ▸ e34.live (e23.live (e12.live hlvX)))
  have haY : a ≠ y := by
    rcases hla with h | h
    · exact (e01.live h).ne hfrY
    · exact fun e => h (e ▸ e34.live (e23.live hlvY))
  rw [f4 a har haX haY, f3 a haX (Compiler.Ext.mid e03 (Compiler.Ext.refl c4) hla),
    f2 a haY (Compiler.Ext.mid e02 e34 hla), setCell_other _ _ har]

/-- `bf_greater(lhs, rhs, result)` on allocated cells, equal or not. -/
theorem Compiler.bf_greater_writes (c : Compiler) (lhs rhs result : Int) (hr : c.Ready 1)
    (hl : c.Live lhs) (hrh : c.Live rhs) (hres : c.Live result) :
    Writes (bf_greater lhs rhs result) c result := by
  obtain ⟨x, c1, halX, hX0, e01, hp1, hcb1, hfreshX, hliveX, _, _⟩ :=
    Compiler.allocateTemp_spec c 1 (by norm_num) (by norm_num) hr
  have hfrX : ¬ c.Live x := by simpa using hfreshX 0 (by norm_num)
  have hlvX : c1.Live x := by simpa using hliveX 0 (by norm_num)
  obtain ⟨y, c2, halY, hY0, e12, hp2, hcb2, hfreshY, hliveY, _, _⟩ :=
    Compiler.allocateTemp_spec c1 1 (by norm_num) (by norm_num) (e01.ready hr)
  have hfrY : ¬ c1.Live y := by simpa using hfreshY 0 (by norm_num)
  have hlvY : c2.Live y := by simpa using hliveY 0 (by norm_num)
  have e02 := e01.trans e12
  obtain ⟨tmp1, c3, hal1, h10, e23, hp3, hcb3, hfresh1, hlive1, _, _⟩ :=
    Compiler.allocateTemp_spec c2 1 (by norm_num) (by norm_num) (e02.ready hr)
  have hfr1 : ¬ c2.Live tmp1 := by simpa using hfresh1 0 (by norm_num)
  have hlv1 : c3.Live tmp1 := by simpa using hlive1 0 (by norm_num)
  have e03 := e02.trans e23
  obtain ⟨tmp2, c4, hal2, h20, e34, hp4, hcb4, hfresh2, hlive2, _, _⟩ :=
    Compiler.allocateTemp_spec c3 1 (by norm_num) (by norm_num) (e03.ready hr)
  have hfr2 : ¬ c3.Live tmp2 := by simpa using hfresh2 0 (by norm_num)
  have hlv2 : c4.Live tmp2 := by simpa using hlive2 0 (by norm_num)
  have e04 := e03.trans e34
  obtain ⟨codeA, c5, hA, e45, hcb5, hp5, semA⟩ :=
    Compiler.bf_assign_spec { c4 with d_pointer := result } y rhs (e04.ready hr)
      (e34.live (e23.live hlvY)) (e04.live hrh) ((e01.live hrh).ne hfrY).symm
  have e05 := e04.trans e45
  obtain ⟨codeB, c6, hB, e56, hcb6, hp6, semB⟩ :=
    Compiler.bf_assign_spec c5 x lhs (e05.ready hr)
      (e45.live (e34.live (e23.live (e12.live hlvX)))) (e05.live hl) (hl.ne hfrX).symm
  have e06 := e05.trans e56
  have h0l := hl.nonneg
  have h0r := hrh.nonneg
  have h0x := hres.nonneg
  have heq : bf_greater lhs rhs result c = .ok
      (mvCode c.d_pointer tmp1 ++ ['[', '-', ']'] ++ List.replicate 0 '+' ++
        (mvCode tmp1 tmp2 ++ ['[', '-', ']'] ++ List.replicate 0 '+') ++
        (mvCode tmp2 result ++ ['[', '-', ']'] ++ List.replicate 0 '+') ++ codeA ++ codeB ++
        loopC (mvCode x tmp1 ++ ['+'] ++ mvCode tmp1 y ++
          loopC (mvCode y tmp1 ++ ['[', '-', ']'] ++ List.replicate 0 '+' ++
            (mvCode tmp1 tmp2 ++ ['+']) ++ (mvCode tmp2 y ++ ['-'])) ++
          mvCode y tmp1 ++
          loopC (mvCode tmp1 result ++ ['+'] ++ (mvCode result tmp1 ++ ['-'])) ++
          mvCode tmp1 tmp2 ++
          loopC (mvCode tmp2 y ++ ['+'] ++ (mvCode y tmp2 ++ ['-'])) ++
          (mvCode tmp2 y ++ ['-']) ++ (mvCode y x ++ ['-'])) ++
        mvCode x result, { c6 with d_pointer := result }) := by
    simp [bf_greater, Compiler.validateAddr3_run h0l h0r h0x, halX, halY, hal1, hal2,
      Compiler.bf_setToValue_run h0x, Compiler.bf_setToValue_run h10,
      Compiler.bf_setToValue_run h20, hA, hB, hp1, hp2, hp3, hp4, hp5, hp6,
      Compiler.bf_movePtr_run h0x, Compiler.bf_movePtr_run hY0, Compiler.bf_movePtr_run h10,
      Compiler.bf_movePtr_run h20, Compiler.bf_incr_run h10, Compiler.bf_incr_run h20,
      Compiler.bf_incr_run h0x, Compiler.bf_incr_run hY0, Compiler.bf_decr_run hY0,
      Compiler.bf_decr_run h10, Compiler.bf_decr_run h20, Compiler.bf_decr_run hX0, loopC]
  refine ⟨_, _, heq, e06, by rw [hcb6, hcb5, ← hcb1, ← hcb2, ← hcb3, ← hcb4], rfl, ?_⟩
  intro t hb
  have l1X : c1.Live x := hlvX
  have l2X : c2.Live x := e12.live hlvX
  have l3X : c3.Live x := e23.live l2X
  have l3Y : c3.Live y := e23.live hlvY
  have l3r : c3.Live result := e03.live hres
  have l2r : c2.Live result := e02.live hres
  have l1r : c1.Live result := e01.live hres
  have hxy : x ≠ y := hlvX.ne hfrY
  have hx1 : x ≠ tmp1 := l2X.ne hfr1
  have hx2 : x ≠ tmp2 := l3X.ne hfr2
  have hxr : x ≠ result := (hres.ne hfrX).symm
  have hy1 : y ≠ tmp1 := hlvY.ne hfr1
  have hy2 : y ≠ tmp2 := l3Y.ne hfr2
  have hyr : y ≠ result := (l1r.ne hfrY).symm
  have h12 : tmp1 ≠ tmp2 := hlv1.ne hfr2
  have h1r : tmp1 ≠ result := (l2r.ne hfr1).symm
  have h2r : tmp2 ≠ result := (l3r.ne hfr2).symm
  have r1 := Runs.setToValue t c.d_pointer tmp1 0 hb
  obtain ⟨ta, hta⟩ : ∃ ta, ta = setCell t tmp1 (0 % 256) := ⟨_, rfl⟩
  rw [← hta] at r1
  have hba : Bytes ta := r1.bytes hb
  have r2 := Runs.setToValue ta tmp1 tmp2 0 hba
  obtain ⟨tb, htb⟩ : ∃ tb, tb = setCell ta tmp2 (0 % 256) := ⟨_, rfl⟩
  rw [← htb] at r2
  have hbb : Bytes tb := r2.bytes hba
  have r3 := Runs.setToValue tb tmp2 result 0 hbb
  obtain ⟨tc, htc⟩ : ∃ tc, tc = setCell tb result (0 % 256) := ⟨_, rfl⟩
  rw [← htc] at r3
  have hbc : Bytes tc := r3.bytes hbb
  obtain ⟨td, r4, v4, f4, _⟩ := semA _ hbc
  have hbd : Bytes td := r4.bytes hbc
  obtain ⟨te, r5, v5, f5, _⟩ := semB _ hbd
  have hbe : Bytes te := r5.bytes hbd
  rw [hp5] at r5
  have tcv : ∀ a, a ≠ tmp1 → a ≠ tmp2 → a ≠ result → tc a = t a := by
    intro a a1 a2 a3
    rw [htc, setCell_other _ _ a3, htb, setCell_other _ _ a2, hta, setCell_other _ _ a1]
  have tc1 : tc tmp1 = 0 := by
    rw [htc, setCell_other _ _ h1r, htb, setCell_other _ _ h12, hta, setCell_same]
  have tc2 : tc tmp2 = 0 := by
    rw [htc, setCell_other _ _ h2r, htb, setCell_same]
  have tcr : tc result = 0 := by rw [htc, setCell_same]
  have l4 : ∀ {a}, c3.Live a → c4.Live a := fun h => e34.live h
  have te1 : te tmp1 = 0 := by
    rw [f5 tmp1 hx1.symm (Or.inl (e45.live (l4 hlv1))),
      f4 tmp1 hy1.symm (Or.inl (l4 hlv1)), tc1]
  have te2 : te tmp2 = 0 := by
    rw [f5 tmp2 hx2.symm (Or.inl (e45.live hlv2)), f4 tmp2 hy2.symm (Or.inl hlv2), tc2]
  have ter : te result = 0 := by
    rw [f5 result hxr.symm (Or.inl (e45.live (l4 l3r))),
      f4 result hyr.symm (Or.inl (l4 l3r)), tcr]
  obtain ⟨tf, r6, _, f6⟩ := Runs.greater_loop x y tmp1 tmp2 result hxy hx1 hx2 hxr hy1 hy2 hyr
    h12 h1r h2r te hbe te1 te2 ter
  have r7 := Runs.mv tf x result
  refine ⟨tf, ((((((r1.append r2).append r3).append r4).append r5).append r6).append r7), ?_⟩
  intro a har hla
  have haX : a ≠ x := by
    rcases hla with h | h
    · exact h.ne hfrX
    · exact fun e => h (e ▸ e56.live (e45.live (l4 l3X)))
  have haY : a ≠ y := by
    rcases hla with h | h
    · exact (e01.live h).ne hfrY
    · exact fun e => h (e ▸ e56.live (e45.live (l4 l3Y)))
  have ha1 : a ≠ tmp1 := by
    rcases hla with h | h
    · exact (e02.live h).ne hfr1
    · exact fun e => h (e ▸ e56.live (e45.live (l4 hlv1)))
  have ha2 : a ≠ tmp2 := by
    rcases hla with h | h
    · exact (e03.live h).ne hfr2
    · exact fun e => h (e ▸ e56.live (e45.live hlv2))
  rw [f6 a haX haY ha1 ha2 har, f5 a haX (Compiler.Ext.mid e05 (Compiler.Ext.refl c6) hla),
    f4 a haY (Compiler.Ext.mid e04 e56 hla), tcv a ha1 ha2 har]

/-- `bf_greaterOrEqual(lhs, rhs, result)` on allocated cells, equal or not. -/
theorem Compiler.bf_greaterOrEqual_writes (c : Compiler) (lhs rhs result : Int)
    (hr : c.Ready 1) (hl : c.Live lhs) (hrh : c.Live rhs) (hres : c.Live result) :
    Writes (bf_greaterOrEqual lhs rhs result) c result := by
  obtain ⟨ie, c1, halE, hE0, e01, hp1, hcb1, hfreshE, hliveE, _, _⟩ :=
    Compiler.allocateTemp_spec c 1 (by norm_num) (by norm_num) hr
  have hfrE : ¬ c.Live ie := by simpa using hfreshE 0 (by norm_num)
  have hlvE : c1.Live ie := by simpa using hliveE 0 (by norm_num)
  obtain ⟨ig, c2, halG, hG0, e12, hp2, hcb2, hfreshG, hliveG, _, _⟩ :=
    Compiler.allocateTemp_spec c1 1 (by norm_num) (by norm_num) (e01.ready hr)
  have hfrG : ¬ c1.Live ig := by simpa using hfreshG 0 (by norm_num)
  have hlvG : c2.Live ig := by simpa using hliveG 0 (by norm_num)
  have e02 := e01.trans e12
  obtain ⟨codeA, c3, hA, e23, hcb3, hp3, semA⟩ :=
    Compiler.bf_equal_spec c2 lhs rhs ie (e02.ready hr) (e02.live hl) (e02.live hrh)
      (e12.live hlvE) (hl.ne hfrE) (hrh.ne hfrE)
  have e03 := e02.trans e23
  obtain ⟨codeB, c4, hB, e34, hcb4, hp4, semB⟩ :=
    Compiler.bf_greater_spec c3 lhs rhs ig (e03.ready hr) (e03.live hl) (e03.live hrh)
      (e23.live hlvG) ((e01.live hl).ne hfrG) ((e01.live hrh).ne hfrG)
  have e04 := e03.trans e34
  obtain ⟨codeC, c5, hC, e45, hcb5, hp5, semC⟩ :=
    Compiler.bf_or_spec c4 ie ig result (e04.ready hr) (e34.live (e23.live (e12.live hlvE)))
      (e34.live (e23.live hlvG)) (e04.live hres) (hres.ne hfrE).symm
      ((e01.live hres).ne hfrG).symm
  have e05 := e04.trans e45
  refine ⟨codeA ++ codeB ++ codeC ++ mvCode result result, { c5 with d_pointer := result },
    ?_, e05, by rw [← hcb1, ← hcb2, ← hcb3, ← hcb4, ← hcb5], rfl, ?_⟩
  · simp [bf_greaterOrEqual, Compiler.validateAddr3_run hl.nonneg hrh.nonneg hres.nonneg,
      halE, halG, hA, hB, hC, Compiler.bf_movePtr_run hres.nonneg, hp5]
  · intro t hb
    rw [hp2, hp1] at semA
    obtain ⟨t1, r1, _, f1⟩ := semA t hb
    rw [hp3] at semB
    obtain ⟨t2, r2, _, f2⟩ := semB t1 (r1.bytes hb)
    rw [hp4] at semC
    obtain ⟨t3, r3, _, f3⟩ := semC t2 ((r1.append r2).bytes hb)
    have r4 := Runs.mv t3 result result
    refine ⟨t3, ((r1.append r2).append r3).append r4, ?_⟩
    intro a har hla
    have haE : a ≠ ie := by
      rcases hla with h | h
      · exact h.ne hfrE
      · exact fun e => h (e ▸ e45.live (e34.live (e23.live (e12.live hlvE))))
    have haG : a ≠ ig := by
      rcases hla with h | h
      · exact (e01.live h).ne hfrG
      · exact fun e => h (e ▸ e45.live (e34.live (e23.live hlvG)))
    rw [f3 a har (Compiler.Ext.mid e04 (Compiler.Ext.refl c5) hla),
      f2 a haG (Compiler.Ext.mid e03 e45 hla),
      f1 a haE (Compiler.Ext.mid e02 (e34.trans e45) hla)]

/-- `bf_multiply(lhs, rhs, result)` on allocated cells, equal or not. -/
theorem Compiler.bf_multiply_writes (c : Compiler) (lhs rhs result : Int) (hr : c.Ready 1)
    (hl : c.Live lhs) (hrh : c.Live rhs) (hres : c.Live result) :
    Writes (bf_multiply lhs rhs result) c result := by
  obtain ⟨tmp, c1, hal, ht0, e01, hp1, hcb1, hfresh, hlive, _, _⟩ :=
    Compiler.allocateTemp_spec c 1 (by norm_num) (by norm_num) hr
  have hfr : ¬ c.Live tmp := by simpa using hfresh 0 (by norm_num)
  have hlv : c1.Live tmp := by simpa using hlive 0 (by norm_num)
  obtain ⟨codeA, c2, hA, e12, hcb2, hp2, semA⟩ :=
    Compiler.bf_assign_spec { c1 with d_pointer := result } tmp rhs (e01.ready hr) hlv
      (e01.live hrh) (hrh.ne hfr).symm
  have e02 := e01.trans e12
  obtain ⟨codeB, c3, hB, e23, hcb3, hp3, semB⟩ :=
    Compiler.bf_addTo_spec c2 result lhs (e02.ready hr) (e02.live hres) (e02.live hl)
  have e03 := e02.trans e23
  have h0l := hl.nonneg
  have h0r := hrh.nonneg
  have h0x := hres.nonneg
  have heq : bf_multiply lhs rhs result c = .ok
      (mvCode c.d_pointer result ++ ['[', '-', ']'] ++ List.replicate 0 '+' ++ codeA ++
        loopC (['-'] ++ codeB ++ mvCode result tmp) ++
        mvCode tmp result, { c3 with d_pointer := result }) := by
    simp [bf_multiply, Compiler.validateAddr3_run h0l h0r h0x, hal,
      Compiler.bf_setToValue_run h0x, hA, hB, hp1, hp2, hp3,
      Compiler.bf_movePtr_run h0x, Compiler.bf_movePtr_run ht0, loopC]
  refine ⟨_, _, heq, e03, by rw [hcb3, hcb2, ← hcb1], rfl, ?_⟩
  intro t hb
  have htr : tmp ≠ result := (hres.ne hfr).symm
  have r1 := Runs.setToValue t c.d_pointer result 0 hb
  have hb1 : Bytes (setCell t result 0) := hb.setCell _ (by norm_num)
  obtain ⟨t2, r2, _, f2, _⟩ := semA _ hb1
  have hb2 : Bytes t2 := r2.bytes hb1
  rw [hp2] at semB
  have body : ∀ s, Bytes s → s tmp ≠ 0 → ∃ s1,
      Runs (['-'] ++ codeB ++ mvCode result tmp) ⟨s, tmp⟩ ⟨s1, tmp⟩ ∧ Bytes s1 ∧
        s1 tmp < s tmp ∧
        ∀ a, a ≠ result → a ≠ tmp → (c2.Live a ∨ ¬ c3.Live a) → s1 a = s a := by
    intro s hs hnz
    have q1 := Runs.dec ⟨s, tmp⟩
    have hs1 : Bytes (setCell s tmp ((s tmp + 255) % 256)) :=
      hs.setCell _ (Nat.mod_lt _ (by norm_num))
    obtain ⟨s2, q2, _, g2⟩ := semB _ hs1
    have q3 := Runs.mv s2 result tmp
    have hst := hs tmp
    refine ⟨s2, (q1.append q2).append q3, q2.bytes hs1, ?_, ?_⟩
    · rw [g2 tmp htr (Or.inl (e12.live hlv)), setCell_same]
      omega
    · intro a h1 h2 h3
      rw [g2 a h1 h3, setCell_other _ _ h2]
  obtain ⟨s0, q0, _⟩ := body (setCell (fun _ => 0) tmp 1) (Bytes.const_zero.setCell _ (by norm_num))
    (by rw [setCell_same]; norm_num)
  obtain ⟨t3, r3, ⟨hb3, f3⟩, _⟩ := Runs.while_at q0.balanced tmp
    (fun s => Bytes s ∧ ∀ a, a ≠ result → a ≠ tmp → (c2.Live a ∨ ¬ c3.Live a) → s a = t2 a)
    (fun s => s tmp)
    (by
      rintro s ⟨hs, i1⟩ hnz
      obtain ⟨s1, q, hs1, hlt, g⟩ := body s hs hnz
      exact ⟨s1, q, ⟨hs1, fun a h1 h2 h3 => by rw [g a h1 h2 h3, i1 a h1 h2 h3]⟩, hlt⟩)
    t2 ⟨hb2, fun _ _ _ _ => rfl⟩
  have r4 := Runs.mv t3 tmp result
  refine ⟨t3, (((r1.append r2).append r3).append r4), ?_⟩
  intro a har hla
  have hat : a ≠ tmp := by
    rcases hla with h | h
    · exact h.ne hfr
    · exact fun e => h (e ▸ e23.live (e12.live hlv))
  rw [f3 a har hat (Compiler.Ext.mid e02 (Compiler.Ext.refl c3) hla),
    f2 a hat (Compiler.Ext.mid e01 e23 hla), setCell_other _ _ har]

/-! ## A text that does not terminate -/

theorem exec_append_inv {f : Nat} {p q : Prog} {s s2 : Machine}
    (h : exec f (p.append q) s = some s2) :
    ∃ s1, exec f p s = some s1 ∧ exec f q s1 = some s2 := by
  induction f generalizing p s with
  | zero => simp [exec] at h
  | succ f ih =>
    cases p with
    | halt =>
      simp only [Prog.append] at h
      exact ⟨s, rfl, h⟩
    | right k =>
      simp only [Prog.append, exec] at h ⊢
      obtain ⟨s1, h1, h2⟩ := ih h
      exact ⟨s1, h1, exec_succ h2⟩
    | left k =>
      simp only [Prog.append, exec] at h ⊢
      obtain ⟨s1, h1, h2⟩ := ih h
      exact ⟨s1, h1, exec_succ h2⟩
    | inc k =>
      simp only [Prog.append, exec] at h ⊢
      obtain ⟨s1, h1, h2⟩ := ih h
      exact ⟨s1, h1, exec_succ h2⟩
    | dec k =>
      simp only [Prog.append, exec] at h ⊢
      obtain ⟨s1, h1, h2⟩ := ih h
      exact ⟨s1, h1, exec_succ h2⟩
    | loop b k =>
      simp only [Prog.append, exec] at h ⊢
      by_cases hz : s.tape s.ptr = 0
      · rw [if_pos hz] at h ⊢
        obtain ⟨s1, h1, h2⟩ := ih h
        exact ⟨s1, h1, exec_succ h2⟩
      · rw [if_neg hz] at h ⊢
        cases hb : exec f b s with
        | none => rw [hb] at h; cases h
        | some sb =>
          rw [hb] at h
          simp only at h ⊢
          have h' : exec f ((Prog.loop b k).append q) sb = some s2 := h
          obtain ⟨s1, h1, h2⟩ := ih h'
          exact ⟨s1, h1, exec_succ h2⟩

/-- A loop whose body gives back the state it started from, entered on a
nonzero cell, does not terminate. -/
theorem exec_spin {b k : Prog} {s : Machine} (hnz : s.tape s.ptr ≠ 0)
    (hb : ∀ f s1, exec f b s = some s1 → s1 = s) : ∀ f, exec f (.loop b k) s = none := by
  intro f
  induction f with
  | zero => rfl
  | succ f ih =>
    simp only [exec, if_neg hnz]
    cases hbs : exec f b s with
    | none => rfl
    | some s1 =>
      have := hb f s1 hbs
      subst this
      exact ih

theorem mvCode_self (p : Int) : mvCode p p = [] := by
  simp [mvCode]

/-- The text `[-+]` entered on a nonzero byte does not terminate. -/
theorem Runs.spin (t : Int → Nat) (p : Int) (hb : t p < 256) (hnz : t p ≠ 0) (pre : Code)
    (s0 : Machine) (hpre : Runs pre s0 ⟨t, p⟩) (s1 : Machine) :
    ¬ Runs (pre ++ loopC ['-', '+']) s0 s1 := by
  intro h
  obtain ⟨pA, hpA, g, hg⟩ := Runs.iff_exec.mp hpre
  have hbody : parse ['-', '+'] = some (.dec (.inc .halt)) := by
    have := parse_append parse_dec parse_inc
    simpa [Prog.append] using this
  have hL := parse_loopC hbody
  obtain ⟨P, hP, f, hf⟩ := Runs.iff_exec.mp h
  rw [parse_append hpA hL] at hP
  cases hP
  obtain ⟨m, hm, hl⟩ := exec_append_inv hf
  have hmeq : m = ⟨t, p⟩ := exec_det hm hg
  subst hmeq
  have hspin := exec_spin (b := .dec (.inc .halt)) (k := .halt) (s := ⟨t, p⟩) hnz (by
    intro f s1 hs1
    match f, hs1 with
    | 0, hs1 => simp [exec] at hs1
    | 1, hs1 => simp [exec] at hs1
    | 2, hs1 => simp [exec] at hs1
    | f + 3, hs1 =>
      simp only [exec, Option.some.injEq] at hs1
      rw [← hs1]
      have e : setCell (setCell t p ((t p + 255) % 256)) p
          ((setCell t p ((t p + 255) % 256) p + 1) % 256) = t := by
        rw [setCell_setCell, setCell_same]
        have : ((t p + 255) % 256 + 1) % 256 = t p := by omega
        rw [this, setCell_self]
      simp only [e]) f
  rw [hspin] at hl
  cases hl

/-- `bf_addTo(target, rhs)` on a target that is the free cell the allocator
hands out next: the temporary is the target itself, and the text does not
terminate on a tape whose cell at `rhs` is nonzero. -/
theorem Compiler.bf_addTo_spins (c c1 : Compiler) (target rhs : Int) (hr : c.Ready 1)
    (hrh : c.Live rhs) (hal : allocateTemp 1 c = .ok (target, c1)) :
    ∃ code c2, bf_addTo target rhs c = .ok (code, c2) ∧
      ∀ t, Bytes t → t rhs ≠ 0 → ∀ s1, ¬ Runs code ⟨t, c.d_pointer⟩ s1 := by
  obtain ⟨tmp, c1', hal', ht0, e01, hp1, hcb1, hfresh, hlive, _, _⟩ :=
    Compiler.allocateTemp_spec c 1 (by norm_num) (by norm_num) hr
  rw [hal] at hal'
  cases hal'
  have hfr : ¬ c.Live target := by simpa using hfresh 0 (by norm_num)
  have hlv : c1.Live target := by simpa using hlive 0 (by norm_num)
  obtain ⟨codeA, c2, hA, e12, hcb2, hp2, semA⟩ :=
    Compiler.bf_assign_spec c1 target rhs (e01.ready hr) hlv (e01.live hrh) (hrh.ne hfr).symm
  have heq : bf_addTo target rhs c = .ok
      (codeA ++ loopC ['-', '+'], { c2 with d_pointer := target }) := by
    simp [bf_addTo, Compiler.validateAddr2_run ht0 hrh.nonneg, hal, hA, hp2,
      Compiler.bf_movePtr_run ht0, loopC, mvCode_self]
  refine ⟨_, _, heq, ?_⟩
  intro t hb hnz s1
  rw [hp1] at semA
  obtain ⟨t1, r1, v1, _, _⟩ := semA t hb
  have b1 : Bytes t1 := r1.bytes hb
  exact Runs.spin t1 target (b1 _) (by rw [v1]; exact hnz) codeA _ r1 s1

/-! ## The shapes `assign` accepts -/

theorem Memory.sizeOf_nonneg {tm : TypeMap} {m : Memory} {addr : Int} {n : Nat}
    (h : Memory.sizeOf tm m addr = .ok n) : 0 ≤ addr := by
  unfold Memory.sizeOf at h
  split at h
  · cases h
  · rename_i hne
    omega

/-- The loop of `bf_assign(dest, src, n)` on allocated cells, overlapping or
not: it returns, and its text terminates on the cursor. -/
theorem Compiler.bf_assignLoop_runs (dest src : Int) :
    ∀ (k idx : Nat) (acc : Code) (c : Compiler), c.Ready 1 →
      (∀ j : Nat, idx ≤ j → j < idx + k → c.Live (dest + j) ∧ c.Live (src + j)) →
      ∃ code c1, bf_assignLoop dest src k idx acc c = .ok (acc ++ code, c1) ∧ c.Ext c1 ∧
        c1.d_codeBuffer = c.d_codeBuffer ∧
        ∀ t, Bytes t → ∃ t1, Runs code ⟨t, c.d_pointer⟩ ⟨t1, c1.d_pointer⟩ := by
  intro k
  induction k with
  | zero =>
    intro idx acc c _ _
    refine ⟨[], c, by simp [bf_assignLoop], Compiler.Ext.refl c, rfl, ?_⟩
    intro t _
    exact ⟨t, Runs.nil _⟩
  | succ k ih =>
    intro idx acc c hr hlive
    obtain ⟨hl, hs⟩ := hlive idx (le_refl _) (by omega)
    obtain ⟨code1, c1, h1, e01, hcb1, hp1, sem1⟩ :=
      Compiler.bf_assign_writes c (dest + idx) (src + idx) hr hl hs
    obtain ⟨code2, c2, h2, e12, hcb2, sem2⟩ := ih (idx + 1) (acc ++ code1) c1 (e01.ready hr)
      (fun j a b => ⟨e01.live (hlive j (by omega) (by omega)).1,
        e01.live (hlive j (by omega) (by omega)).2⟩)
    refine ⟨code1 ++ code2, c2, ?_, e01.trans e12, by rw [hcb2, hcb1], ?_⟩
    · simp [bf_assignLoop, h1, h2]
    · intro t hb
      obtain ⟨t1, r1, _⟩ := sem1 t hb
      rw [← hp1] at r1
      obtain ⟨t2, r2⟩ := sem2 t1 (r1.bytes hb)
      exact ⟨t2, r1.append r2⟩

/-- The fill loop of `assign` on allocated cells: it returns; the text it
appends terminates on the cursor, and when the source cell is none of the
cells to fill, each of them receives its value. -/
theorem Compiler.assignFillLoop_spec (lhs rhs : Int) :
    ∀ (k idx : Nat) (c : Compiler), c.Ready 1 → c.Live rhs →
      (∀ j : Nat, idx ≤ j → j < idx + k → c.Live (lhs + j)) →
      ∃ code c1, assignFillLoop lhs rhs k idx c = .ok ((), c1) ∧ c.Ext c1 ∧
        c1.d_codeBuffer = c.d_codeBuffer ++ code ∧
        ∀ t, Bytes t → ∃ t1, Runs code ⟨t, c.d_pointer⟩ ⟨t1, c1.d_pointer⟩ ∧
          ((∀ j : Nat, idx ≤ j → j < idx + k → lhs + j ≠ rhs) →
            (∀ j : Nat, idx ≤ j → j < idx + k → t1 (lhs + j) = t rhs) ∧ t1 rhs = t rhs) ∧
          (∀ a, (∀ j : Nat, idx ≤ j → j < idx + k → a ≠ lhs + j) →
            (c.Live a ∨ ¬ c1.Live a) → t1 a = t a) := by
  intro k
  induction k with
  | zero =>
    intro idx c _ _ _
    refine ⟨[], c, rfl, Compiler.Ext.refl c, by simp, ?_⟩
    intro t _
    exact ⟨t, Runs.nil _, fun _ => ⟨fun j h1 h2 => by omega, rfl⟩, fun _ _ _ => rfl⟩
  | succ k ih =>
    intro idx c hr hrh hlive
    have hl := hlive idx (le_refl _) (by omega)
    obtain ⟨code1, c1, h1, e01, hcb1, hp1, sem1⟩ :=
      Compiler.bf_assign_any c (lhs + idx) rhs hr hl hrh
    obtain ⟨cA, hcA⟩ : ∃ s, s = { c1 with d_codeBuffer := c1.d_codeBuffer ++ code1 } := ⟨_, rfl⟩
    have e0A : c.Ext cA := by
      subst hcA
      exact ⟨e01.1, e01.2.1, e01.2.2.1, e01.2.2.2⟩
    have eA1 : cA.Ext c1 := by
      subst hcA
      exact ⟨rfl, rfl, le_refl _, fun a h => ⟨h, rfl⟩⟩
    have e1A : c1.Ext cA := by
      subst hcA
      exact ⟨rfl, rfl, le_refl _, fun a h => ⟨h, rfl⟩⟩
    obtain ⟨code2, c2, h2, eA2, hcb2, sem2⟩ := ih (idx + 1) cA (e0A.ready hr) (e0A.live hrh)
      (fun j a b => e0A.live (hlive j (by omega) (by omega)))
    have hpA : cA.d_pointer = lhs + idx := by
      subst hcA
      exact hp1
    refine ⟨code1 ++ code2, c2, ?_, e0A.trans eA2, ?_, ?_⟩
    · subst hcA
      simp only [assignFillLoop, Gen.run_bind, h1, Compiler.emit_run, h2]
    · rw [hcb2, hcA]
      simp only [hcb1, List.append_assoc]
    · intro t hb
      obtain ⟨t1, r1, f1, v1⟩ := sem1 t hb
      have hb1 := r1.bytes hb
      rw [hpA] at sem2
      obtain ⟨t2, r2, v2, f2⟩ := sem2 t1 hb1
      refine ⟨t2, r1.append r2, ?_, ?_⟩
      · intro hne
        have hrr : t1 rhs = t rhs :=
          f1 rhs (hne idx (le_refl _) (by omega)).symm (Or.inl hrh)
        obtain ⟨w1, w2⟩ := v2 (fun j a b => hne j (by omega) (by omega))
        refine ⟨?_, by rw [w2, hrr]⟩
        intro j hj1 hj2
        by_cases hji : j = idx
        · subst hji
          rw [f2 _ (fun i hi1 hi2 h => by
              have : (j : Int) = i := by omega
              omega) (Or.inl (e0A.live hl))]
          exact v1 (hne j (le_refl _) (by omega))
        · rw [w1 j (by omega) (by omega), hrr]
      · intro a ha hla
        rw [f2 a (fun j h1 h2 => ha j (by omega) (by omega))
            (Compiler.Ext.mid e0A (Compiler.Ext.refl c2) hla),
          f1 a (ha idx (le_refl _) (by omega))
            (Compiler.Ext.mid (Compiler.Ext.refl c) (e1A.trans eA2) hla)]

/-- The three cases of `assign(lhs, rhs)` on values of `L` and `R` allocated
cells. -/
theorem Compiler.assign_cases (c : Compiler) (lhs rhs : Int) (L R : Nat) (hr : c.Ready 1)
    (hsl : Memory.sizeOf c.typeMap c.d_memory lhs = .ok L)
    (hsr : Memory.sizeOf c.typeMap c.d_memory rhs = .ok R)
    (hll : ∀ j : Nat, j < L → c.Live (lhs + j)) (hlr : ∀ j : Nat, j < R → c.Live (rhs + j)) :
    ((L ≠ R ∧ ¬ (L > 1 ∧ R = 1)) → assign lhs rhs c = .error .compileError) ∧
    (L = R → ∃ code c1, bf_assignN lhs rhs L c = .ok (code, c1) ∧
      assign lhs rhs c = .ok (lhs, { c1 with d_codeBuffer := c.d_codeBuffer ++ code }) ∧
      ∀ t, Bytes t → ∃ t1, Runs code ⟨t, c.d_pointer⟩ ⟨t1, c1.d_pointer⟩ ∧
        ((∀ i j : Nat, i < L → j < L → lhs + i ≠ rhs + j) →
          ∀ j : Nat, j < L → t1 (lhs + j) = t (rhs + j))) ∧
    ((L > 1 ∧ R = 1) → ∃ code c1, assign lhs rhs c = .ok (lhs, c1) ∧
      c1.d_codeBuffer = c.d_codeBuffer ++ code ∧
      ∀ t, Bytes t → ∃ t1, Runs code ⟨t, c.d_pointer⟩ ⟨t1, c1.d_pointer⟩ ∧
        ((∀ j : Nat, j < L → lhs + j ≠ rhs) → ∀ j : Nat, j < L → t1 (lhs + j) = t rhs)) := by
  have hl0 := Memory.sizeOf_nonneg hsl
  have hr0 := Memory.sizeOf_nonneg hsr
  refine ⟨?_, ?_, ?_⟩
  · rintro ⟨h1, h2⟩
    simp [assign, Compiler.sizeOf, hsl, hsr, h1, h2, errorIf, fail]
  · intro hLR
    subst hLR
    obtain ⟨code, c1, h, e, hcb, sem⟩ := Compiler.bf_assignLoop_runs lhs rhs L 0 [] c hr
      (fun j _ hj => ⟨hll j (by omega), hlr j (by omega)⟩)
    have hN : bf_assignN lhs rhs L c = .ok (code, c1) := by
      simp [bf_assignN, Compiler.validateAddr2_run hl0 hr0, h]
    refine ⟨code, c1, hN, ?_, ?_⟩
    · have hne : ¬ (L > 1 ∧ L = 1) := by omega
      simp [assign, Compiler.sizeOf, hsl, hsr, hne, hN, hcb]
    · intro t hb
      by_cases hdis : ∀ i j : Nat, i < L → j < L → lhs + i ≠ rhs + j
      · obtain ⟨code', c1', h', _, _, sem'⟩ := Compiler.bf_assignN_spec c lhs rhs L hr hl0 hr0
          (fun j hj => ⟨hll j hj, hlr j hj⟩) hdis
        rw [hN] at h'
        cases h'
        obtain ⟨t1, r, v, _⟩ := sem' t hb
        exact ⟨t1, r, fun _ => v⟩
      · obtain ⟨t1, r⟩ := sem t hb
        exact ⟨t1, r, fun h => absurd h hdis⟩
  · rintro ⟨h1, h2⟩
    subst h2
    obtain ⟨code, c1, h, e, hcb, sem⟩ := Compiler.assignFillLoop_spec lhs rhs L 0 c hr
      (by simpa using hlr 0 (by norm_num)) (fun j _ hj => hll j (by omega))
    refine ⟨code, c1, ?_, hcb, ?_⟩
    · have hc : L > 1 ∧ 1 = 1 := ⟨h1, rfl⟩
      simp [assign, Compiler.sizeOf, hsl, hsr, h1, h]
    · intro t hb
      obtain ⟨t1, r, v, _⟩ := sem t hb
      refine ⟨t1, r, fun hne j hj => ?_⟩
      exact (v (fun j _ hj => hne j (by omega))).1 j (Nat.zero_le _) (by omega)

/-! ## Function calls and the call stack -/

theorem Compiler.StackNeutral.of_pure {α : Type} (a : α) : StackNeutral (pure a : Gen α) := by
  intro c b c1 h
  cases h
  rfl

theorem Compiler.StackNeutral.andThen {α β : Type} {x : Gen α} {f : α → Gen β}
    (hx : StackNeutral x) (hf : ∀ a, StackNeutral (f a)) : StackNeutral (x >>= f) := by
  intro c b c2 h
  rw [Gen.run_bind] at h
  cases hxc : x c with
  | error e => rw [hxc] at h; cases h
  | ok r =>
    obtain ⟨a, c1⟩ := r
    rw [hxc] at h
    rw [hf a c1 b c2 h, hx c a c1 hxc]

theorem Compiler.StackNeutral.of_fail {α : Type} (e : Err) : StackNeutral (fail e : Gen α) := by
  intro c a c1 h
  cases h

theorem Compiler.StackNeutral.of_errorIf (b : Bool) : StackNeutral (errorIf b) := by
  cases b
  · exact Compiler.StackNeutral.of_pure ()
  · exact Compiler.StackNeutral.of_fail _

theorem Compiler.StackNeutral.of_validateAddr (l : List Int) : StackNeutral (validateAddr l) := by
  unfold Compiler.validateAddr
  split_ifs
  · exact Compiler.StackNeutral.of_pure ()
  · exact Compiler.StackNeutral.of_fail _

theorem Compiler.StackNeutral.of_emit (ops : Code) : StackNeutral (emit ops) := by
  intro c a c1 h
  cases h
  rfl

theorem Compiler.StackNeutral.of_getPointer : StackNeutral getPointer := by
  intro c a c1 h
  cases h
  rfl

theorem Compiler.StackNeutral.of_setPointer (a : Int) : StackNeutral (setPointer a) := by
  intro c b c1 h
  cases h
  rfl

theorem Compiler.StackNeutral.of_sizeOf (a : Int) : StackNeutral (Compiler.sizeOf a) := by
  intro c b c1 h
  unfold Compiler.sizeOf at h
  split at h
  · cases h
  · cases h
    rfl

theorem Compiler.StackNeutral.of_allocateTemp (sz : Nat) : StackNeutral (allocateTemp sz) := by
  intro c a c1 h
  unfold Compiler.allocateTemp at h
  split at h
  · cases h
  · split at h
    · cases h
    · cases h
      rfl

theorem Compiler.StackNeutral.of_bf_movePtr (a : Int) : StackNeutral (bf_movePtr a) := by
  unfold Compiler.bf_movePtr
  exact (Compiler.StackNeutral.of_validateAddr _).andThen fun _ =>
    Compiler.StackNeutral.of_getPointer.andThen fun _ =>
      (Compiler.StackNeutral.of_setPointer _).andThen fun _ => Compiler.StackNeutral.of_pure _

theorem Compiler.StackNeutral.of_bf_assign (lhs rhs : Int) : StackNeutral (bf_assign lhs rhs) := by
  unfold Compiler.bf_assign
  refine (Compiler.StackNeutral.of_validateAddr _).andThen fun _ => ?_
  refine (Compiler.StackNeutral.of_allocateTemp _).andThen fun _ => ?_
  repeat' first
    | exact Compiler.StackNeutral.of_pure _
    | refine (Compiler.StackNeutral.of_bf_movePtr _).andThen fun _ => ?_

theorem Compiler.StackNeutral.of_bf_assignLoop (dest src : Int) :
    ∀ (k idx : Nat) (acc : Code), StackNeutral (bf_assignLoop dest src k idx acc) := by
  intro k
  induction k with
  | zero => intro idx acc; exact Compiler.StackNeutral.of_pure _
  | succ k ih =>
    intro idx acc
    unfold Compiler.bf_assignLoop
    exact (Compiler.StackNeutral.of_bf_assign _ _).andThen fun _ => ih _ _

theorem Compiler.StackNeutral.of_bf_assignN (dest src : Int) (n : Nat) :
    StackNeutral (bf_assignN dest src n) := by
  unfold Compiler.bf_assignN
  exact (Compiler.StackNeutral.of_validateAddr _).andThen fun _ =>
    Compiler.StackNeutral.of_bf_assignLoop _ _ _ _ _

theorem Compiler.StackNeutral.of_assignFillLoop (lhs rhs : Int) :
    ∀ (k idx : Nat), StackNeutral (assignFillLoop lhs rhs k idx) := by
  intro k
  induction k with
  | zero => intro idx; exact Compiler.StackNeutral.of_pure _
  | succ k ih =>
    intro idx
    unfold Compiler.assignFillLoop
    exact (Compiler.StackNeutral.of_bf_assign _ _).andThen fun _ =>
      (Compiler.StackNeutral.of_emit _).andThen fun _ => ih _

theorem Compiler.StackNeutral.of_assign (lhs rhs : Int) : StackNeutral (assign lhs rhs) := by
  unfold Compiler.assign
  refine (Compiler.StackNeutral.of_sizeOf _).andThen fun L => ?_
  refine (Compiler.StackNeutral.of_sizeOf _).andThen fun R => ?_
  dsimp only
  split_ifs
  · exact (Compiler.StackNeutral.of_assignFillLoop _ _ _ _).andThen fun _ =>
      Compiler.StackNeutral.of_pure _
  · exact (Compiler.StackNeutral.of_bf_assignN _ _ _).andThen fun _ =>
      (Compiler.StackNeutral.of_emit _).andThen fun _ => Compiler.StackNeutral.of_pure _
  · exact (Compiler.StackNeutral.of_errorIf _).andThen fun _ => Compiler.StackNeutral.of_pure _

theorem Compiler.StackNeutral.of_callArgs (func : BFXFunction) :
    ∀ (params : List String) (args : List Instruction),
      (∀ a, a ∈ args → StackNeutral a) → StackNeutral (callArgs func params args) := by
  intro params
  induction params with
  | nil =>
    intro args _
    unfold Compiler.callArgs
    exact Compiler.StackNeutral.of_pure _
  | cons p params ih =>
    intro args hargs
    cases args with
    | nil =>
      unfold Compiler.callArgs
      exact Compiler.StackNeutral.of_pure _
    | cons arg args =>
      unfold Compiler.callArgs
      refine (hargs arg (List.mem_cons_self _ _)).andThen fun argAddr => ?_
      refine (Compiler.StackNeutral.of_errorIf _).andThen fun _ => ?_
      refine (Compiler.StackNeutral.of_sizeOf _).andThen fun sz => ?_
      refine Compiler.StackNeutral.andThen ?_ fun paramAddr => ?_
      · intro c a c1 h
        dsimp only at h
        split at h
        · cases h
        · cases h
          rfl
      · refine (Compiler.StackNeutral.of_assign _ _).andThen fun _ => ?_
        exact ih args fun a ha => hargs a (List.mem_cons_of_mem _ ha)

theorem Compiler.StackNeutral.of_callReturn (func : BFXFunction) :
    StackNeutral (callReturn func) := by
  intro c a c1 h
  unfold Compiler.callReturn at h
  dsimp only at h
  split_ifs at h <;> (repeat' (split at h)) <;>
    first
      | (cases h; done)
      | (cases h; rfl)

/-- The three rejections of `call`. -/
theorem Compiler.call_rejects (fm : FunctionMap) (f : String) (args : List Instruction)
    (c : Compiler)
    (h : findFunction fm f = none ∨ f ∈ c.d_callStack ∨
      ∃ func, findFunction fm f = some func ∧ func.params.length ≠ args.length) :
    call fm f args c = .error .compileError := by
  cases hf : findFunction fm f with
  | none => simp [call, hf, errorIf, fail]
  | some func =>
    by_cases hin : f ∈ c.d_callStack
    · simp [call, hf, errorIf, fail, getCallStack, hin]
    · rcases h with h | h | ⟨func', h1, h2⟩
      · rw [hf] at h
        cases h
      · exact absurd h hin
      · rw [hf] at h1
        cases h1
        simp [call, hf, errorIf, fail, getCallStack, hin, h2]

/-- What a call that returns has done. -/
theorem Compiler.call_inv {fm : FunctionMap} {f : String} {args : List Instruction}
    {c c5 : Compiler} {r : Int} (h : call fm f args c = .ok (r, c5)) :
    ∃ func c1 rb c3, findFunction fm f = some func ∧ func.name = f ∧ f ∉ c.d_callStack ∧
      func.params.length = args.length ∧
      callArgs func func.params args c = .ok ((), c1) ∧
      func.body { c1 with d_callStack := c1.d_callStack ++ [f] } = .ok (rb, c3) ∧
      c3.d_callStack ≠ [] ∧
      callReturn func { c3 with d_callStack := c3.d_callStack.dropLast } = .ok (r, c5) := by
  cases hf : findFunction fm f with
  | none =>
    rw [Compiler.call_rejects fm f args c (Or.inl hf)] at h
    cases h
  | some func =>
    have hname : func.name = f := by
      have := List.find?_some hf
      simpa using this
    by_cases hin : f ∈ c.d_callStack
    · rw [Compiler.call_rejects fm f args c (Or.inr (Or.inl hin))] at h
      cases h
    · by_cases hlen : func.params.length = args.length
      · have hne : (func.params.length != args.length) = false := by simp [hlen]
        simp only [call, hf, Option.isNone_some, errorIf, Bool.false_eq_true, if_false,
          Gen.run_bind, Gen.run_pure, getCallStack, hin, decide_False, hne] at h
        cases h1 : callArgs func func.params args c with
        | error e => rw [h1] at h; cases h
        | ok r1 =>
          obtain ⟨⟨⟩, c1⟩ := r1
          rw [h1] at h
          simp only [pushCall, hname] at h
          cases h2 : func.body { c1 with d_callStack := c1.d_callStack ++ [f] } with
          | error e => rw [h2] at h; cases h
          | ok r2 =>
            obtain ⟨rb, c3⟩ := r2
            rw [h2] at h
            simp only [popCall] at h
            by_cases h3 : c3.d_callStack = []
            · rw [if_pos h3] at h
              cases h
            · rw [if_neg h3] at h
              exact ⟨func, c1, rb, c3, rfl, hname, hin, hlen, h1, h2, h3, h⟩
      · rw [Compiler.call_rejects fm f args c (Or.inr (Or.inr ⟨func, hf, hlen⟩))] at h
        cases h

/-- A call that returns leaves the call stack as it found it, provided its
argument thunks and the body of the function do. -/
theorem Compiler.StackNeutral.of_call (fm : FunctionMap) (f : String) (args : List Instruction)
    (hargs : ∀ a, a ∈ args → StackNeutral a)
    (hbody : ∀ func, func ∈ fm → StackNeutral func.body) :
    StackNeutral (Compiler.call fm f args) := by
  intro c r c5 h
  obtain ⟨func, c1, rb, c3, hf, _, _, _, h1, h2, _, h4⟩ := Compiler.call_inv h
  have hmem : func ∈ fm := List.mem_of_find?_eq_some hf
  have e1 := Compiler.StackNeutral.of_callArgs func func.params args hargs c () c1 h1
  have e3 := hbody func hmem _ rb c3 h2
  have e5 := Compiler.StackNeutral.of_callReturn func _ r c5 h4
  rw [e5]
  simp only [e3, List.dropLast_concat, e1]

theorem Compiler.StackNeutral.of_bf_setToValue (a v : Int) : StackNeutral (bf_setToValue a v) := by
  unfold Compiler.bf_setToValue
  exact (Compiler.StackNeutral.of_validateAddr _).andThen fun _ =>
    (Compiler.StackNeutral.of_bf_movePtr _).andThen fun _ => Compiler.StackNeutral.of_pure _

theorem Compiler.StackNeutral.of_constVal (num : Nat) : StackNeutral (constVal num) := by
  unfold Compiler.constVal
  exact (Compiler.StackNeutral.of_allocateTemp _).andThen fun _ =>
    (Compiler.StackNeutral.of_bf_setToValue _ _).andThen fun _ =>
      (Compiler.StackNeutral.of_emit _).andThen fun _ => Compiler.StackNeutral.of_pure _

/-! ## Programs of the same meaning -/

theorem halts_halt {s s1 : Machine} : Halts .halt s s1 ↔ s1 = s := by
  constructor
  · rintro ⟨f, h⟩
    cases f with
    | zero => simp [exec] at h
    | succ f =>
      simp only [exec, Option.some.injEq] at h
      exact h.symm
  · rintro rfl
    exact ⟨1, rfl⟩

theorem halts_right {k : Prog} {s s1 : Machine} :
    Halts (.right k) s s1 ↔ Halts k { s with ptr := s.ptr + 1 } s1 := by
  constructor
  · rintro ⟨f, h⟩
    cases f with
    | zero => simp [exec] at h
    | succ f => exact ⟨f, by simpa only [exec] using h⟩
  · rintro ⟨f, h⟩
    exact ⟨f + 1, by simpa only [exec] using h⟩

theorem halts_left {k : Prog} {s s1 : Machine} :
    Halts (.left k) s s1 ↔ Halts k { s with ptr := s.ptr - 1 } s1 := by
  constructor
  · rintro ⟨f, h⟩
    cases f with
    | zero => simp [exec] at h
    | succ f => exact ⟨f, by simpa only [exec] using h⟩
  · rintro ⟨f, h⟩
    exact ⟨f + 1, by simpa only [exec] using h⟩

theorem halts_inc {k : Prog} {s s1 : Machine} :
    Halts (.inc k) s s1 ↔
      Halts k { s with tape := setCell s.tape s.ptr ((s.tape s.ptr + 1) % 256) } s1 := by
  constructor
  · rintro ⟨f, h⟩
    cases f with
    | zero => simp [exec] at h
    | succ f => exact ⟨f, by simpa only [exec] using h⟩
  · rintro ⟨f, h⟩
    exact ⟨f + 1, by simpa only [exec] using h⟩

theorem halts_dec {k : Prog} {s s1 : Machine} :
    Halts (.dec k) s s1 ↔
      Halts k { s with tape := setCell s.tape s.ptr ((s.tape s.ptr + 255) % 256) } s1 := by
  constructor
  · rintro ⟨f, h⟩
    cases f with
    | zero => simp [exec] at h
    | succ f => exact ⟨f, by simpa only [exec] using h⟩
  · rintro ⟨f, h⟩
    exact ⟨f + 1, by simpa only [exec] using h⟩

/-- A loop whose body and continuation are replaced by programs that
terminate wherever they do, in the same states, terminates wherever it did. -/
theorem halts_loop_mono {b b1 k k1 : Prog}
    (hb : ∀ s s1, Bytes s.tape → Halts b s s1 → Halts b1 s s1)
    (hk : ∀ s s1, Bytes s.tape → Halts k s s1 → Halts k1 s s1) :
    ∀ (f : Nat) (s s1 : Machine), Bytes s.tape → exec f (.loop b k) s = some s1 →
      Halts (.loop b1 k1) s s1 := by
  intro f
  induction f with
  | zero => intro s s1 _ h; simp [exec] at h
  | succ f ih =>
    intro s s1 hs h
    simp only [exec] at h
    by_cases hz : s.tape s.ptr = 0
    · rw [if_pos hz] at h
      obtain ⟨g, hg⟩ := hk s s1 hs ⟨f, h⟩
      refine ⟨g + 1, ?_⟩
      simp only [exec, if_pos hz]
      exact hg
    · rw [if_neg hz] at h
      cases hx : exec f b s with
      | none => rw [hx] at h; cases h
      | some s2 =>
        rw [hx] at h
        obtain ⟨g1, hg1⟩ := hb s s2 hs ⟨f, hx⟩
        obtain ⟨g2, hg2⟩ := ih s2 s1 (exec_bytes hx hs) h
        refine ⟨max g1 g2 + 1, ?_⟩
        simp only [exec, if_neg hz]
        rw [exec_mono hg1 (le_max_left _ _)]
        exact exec_mono hg2 (le_max_right _ _)

theorem Prog.equiv_refl (p : Prog) : Prog.Equiv p p := fun _ _ _ => Iff.rfl

theorem Prog.equiv_symm {p q : Prog} (h : Prog.Equiv p q) : Prog.Equiv q p :=
  fun s s1 hs => (h s s1 hs).symm

theorem Prog.equiv_trans {p q r : Prog} (h1 : Prog.Equiv p q) (h2 : Prog.Equiv q r) :
    Prog.Equiv p r :=
  fun s s1 hs => (h1 s s1 hs).trans (h2 s s1 hs)

theorem Prog.equiv_right {k k1 : Prog} (h : Prog.Equiv k k1) :
    Prog.Equiv (.right k) (.right k1) := by
  intro s s1 hs
  rw [halts_right, halts_right]
  exact h _ s1 hs

theorem Prog.equiv_left {k k1 : Prog} (h : Prog.Equiv k k1) :
    Prog.Equiv (.left k) (.left k1) := by
  intro s s1 hs
  rw [halts_left, halts_left]
  exact h _ s1 hs

theorem Prog.equiv_inc {k k1 : Prog} (h : Prog.Equiv k k1) :
    Prog.Equiv (.inc k) (.inc k1) := by
  intro s s1 hs
  rw [halts_inc, halts_inc]
  exact h _ s1 (Bytes.setCell hs _ (Nat.mod_lt _ (by decide)))

theorem Prog.equiv_dec {k k1 : Prog} (h : Prog.Equiv k k1) :
    Prog.Equiv (.dec k) (.dec k1) := by
  intro s s1 hs
  rw [halts_dec, halts_dec]
  exact h _ s1 (Bytes.setCell hs _ (Nat.mod_lt _ (by decide)))

theorem Prog.equiv_loop {b b1 k k1 : Prog} (hb : Prog.Equiv b b1) (hk : Prog.Equiv k k1) :
    Prog.Equiv (.loop b k) (.loop b1 k1) := by
  intro s s1 hs
  constructor
  · rintro ⟨f, h⟩
    exact halts_loop_mono (fun s s1 h1 h2 => (hb s s1 h1).1 h2)
      (fun s s1 h1 h2 => (hk s s1 h1).1 h2) f s s1 hs h
  · rintro ⟨f, h⟩
    exact halts_loop_mono (fun s s1 h1 h2 => (hb s s1 h1).2 h2)
      (fun s s1 h1 h2 => (hk s s1 h1).2 h2) f s s1 hs h

/-- A move to the left followed by a move to the right does nothing. -/
theorem Prog.equiv_left_right (k : Prog) : Prog.Equiv (.left (.right k)) k := by
  intro s s1 _
  rw [halts_left, halts_right]
  have e : ({ ptr := s.ptr - 1 + 1, tape := s.tape } : Machine) = s := by
    cases s
    simp
  simp only [e]

/-- A move to the right followed by a move to the left does nothing. -/
theorem Prog.equiv_right_left (k : Prog) : Prog.Equiv (.right (.left k)) k := by
  intro s s1 _
  rw [halts_right, halts_left]
  have e : ({ ptr := s.ptr + 1 - 1, tape := s.tape } : Machine) = s := by
    cases s
    simp
  simp only [e]

/-- An increment followed by a decrement does nothing to a byte. -/
theorem Prog.equiv_inc_dec (k : Prog) : Prog.Equiv (.inc (.dec k)) k := by
  intro s s1 hs
  rw [halts_inc, halts_dec]
  have hv : ((s.tape s.ptr + 1) % 256 + 255) % 256 = s.tape s.ptr := by
    have := hs s.ptr
    omega
  have e : ({ ptr := s.ptr,
              tape := setCell (setCell s.tape s.ptr ((s.tape s.ptr + 1) % 256)) s.ptr
                ((setCell s.tape s.ptr ((s.tape s.ptr + 1) % 256) s.ptr + 255) % 256) } :
            Machine) = s := by
    rw [setCell_same, setCell_setCell, hv, setCell_self]
  simp only [e]

/-- A decrement followed by an increment does nothing to a byte. -/
theorem Prog.equiv_dec_inc (k : Prog) : Prog.Equiv (.dec (.inc k)) k := by
  intro s s1 hs
  rw [halts_dec, halts_inc]
  have hv : ((s.tape s.ptr + 255) % 256 + 1) % 256 = s.tape s.ptr := by
    have := hs s.ptr
    omega
  have e : ({ ptr := s.ptr,
              tape := setCell (setCell s.tape s.ptr ((s.tape s.ptr + 255) % 256)) s.ptr
                ((setCell s.tape s.ptr ((s.tape s.ptr + 255) % 256) s.ptr + 1) % 256) } :
            Machine) = s := by
    rw [setCell_same, setCell_setCell, hv, setCell_self]
  simp only [e]

/-! ## Parser outcomes of the same meaning -/

theorem forall2_equiv_refl (l : List Prog) : List.Forall₂ Prog.Equiv l l := by
  induction l with
  | nil => exact List.Forall₂.nil
  | cons a l ih => exact List.Forall₂.cons (Prog.equiv_refl a) ih

theorem forall2_equiv_trans {l1 l2 : List Prog} (h1 : List.Forall₂ Prog.Equiv l1 l2) :
    ∀ {l3 : List Prog}, List.Forall₂ Prog.Equiv l2 l3 → List.Forall₂ Prog.Equiv l1 l3 := by
  induction h1 with
  | nil => intro l3 h2; cases h2; exact List.Forall₂.nil
  | cons hab _ ih =>
    intro l3 h2
    cases h2 with
    | cons hbc hrest => exact List.Forall₂.cons (Prog.equiv_trans hab hbc) (ih hrest)

theorem parseRel_refl (X : Option (Prog × List Prog)) : ParseRel X X := by
  cases X with
  | none => trivial
  | some st => exact ⟨Prog.equiv_refl _, forall2_equiv_refl _⟩

theorem parseRel_symm {X Y : Option (Prog × List Prog)} (h : ParseRel X Y) : ParseRel Y X := by
  cases X with
  | none =>
    cases Y with
    | none => trivial
    | some _ => exact h.elim
  | some st =>
    cases Y with
    | none => exact h.elim
    | some st1 =>
      refine ⟨Prog.equiv_symm h.1, ?_⟩
      exact (List.Forall₂.flip h.2).imp (fun _ _ hab => Prog.equiv_symm hab)

theorem parseRel_trans {X Y Z : Option (Prog × List Prog)} (h1 : ParseRel X Y)
    (h2 : ParseRel Y Z) : ParseRel X Z := by
  cases X with
  | none =>
    cases Y with
    | none => exact h2
    | some _ => exact h1.elim
  | some st =>
    cases Y with
    | none => exact h1.elim
    | some st1 =>
      cases Z with
      | none => exact h2.elim
      | some st2 =>
        refine ⟨Prog.equiv_trans h1.1 h2.1, ?_⟩
        exact forall2_equiv_trans h1.2 h2.2

/-- One character read by the parser keeps the meaning of the outcome. -/
theorem parseStep_rel (c : Char) {st st1 : Prog × List Prog}
    (h : ParseRel (some st) (some st1)) : ParseRel (parseStep c st) (parseStep c st1) := by
  obtain ⟨p, stk⟩ := st
  obtain ⟨q, stk1⟩ := st1
  obtain ⟨hp, hs⟩ : Prog.Equiv p q ∧ List.Forall₂ Prog.Equiv stk stk1 := h
  unfold parseStep
  by_cases h1 : c = '>'
  · simp only [if_pos h1]
    exact ⟨Prog.equiv_right hp, hs⟩
  by_cases h2 : c = '<'
  · simp only [if_neg h1, if_pos h2]
    exact ⟨Prog.equiv_left hp, hs⟩
  by_cases h3 : c = '+'
  · simp only [if_neg h1, if_neg h2, if_pos h3]
    exact ⟨Prog.equiv_inc hp, hs⟩
  by_cases h4 : c = '-'
  · simp only [if_neg h1, if_neg h2, if_neg h3, if_pos h4]
    exact ⟨Prog.equiv_dec hp, hs⟩
  by_cases h5 : c = ']'
  · simp only [if_neg h1, if_neg h2, if_neg h3, if_neg h4, if_pos h5]
    exact ⟨Prog.equiv_refl _, List.Forall₂.cons hp hs⟩
  by_cases h6 : c = '['
  · simp only [if_neg h1, if_neg h2, if_neg h3, if_neg h4, if_neg h5, if_pos h6]
    cases hs with
    | nil => trivial
    | cons hq hr => exact ⟨Prog.equiv_loop hp hq, hr⟩
  · simp only [if_neg h1, if_neg h2, if_neg h3, if_neg h4, if_neg h5, if_neg h6]
    exact ⟨hp, hs⟩

theorem parseRel_bind_step (c : Char) {X Y : Option (Prog × List Prog)} (h : ParseRel X Y) :
    ParseRel (X.bind (parseStep c)) (Y.bind (parseStep c)) := by
  cases X with
  | none =>
    cases Y with
    | none => trivial
    | some _ => exact h.elim
  | some st =>
    cases Y with
    | none => exact h.elim
    | some st1 => exact parseStep_rel c h

/-- A text read in front of two outcomes of the same meaning gives outcomes
of the same meaning. -/
theorem parseFrom_rel (a : Code) : ∀ {X Y : Option (Prog × List Prog)}, ParseRel X Y →
    ParseRel (X.bind (parseFrom a)) (Y.bind (parseFrom a)) := by
  induction a with
  | nil =>
    intro X Y h
    have e : ∀ Z : Option (Prog × List Prog), Z.bind (parseFrom []) = Z := by
      intro Z
      cases Z <;> rfl
    rw [e, e]
    exact h
  | cons c cs ih =>
    intro X Y h
    have e : ∀ Z : Option (Prog × List Prog),
        Z.bind (parseFrom (c :: cs)) = (Z.bind (parseFrom cs)).bind (parseStep c) := by
      intro Z
      cases Z <;> rfl
    rw [e, e]
    exact parseRel_bind_step c (ih h)

/-- The same text in front of two texts whose outcomes have the same
meaning. -/
theorem parseFrom_rel_append (a : Code) {b b1 : Code} {st st1 : Prog × List Prog}
    (h : ParseRel (parseFrom b st) (parseFrom b1 st1)) :
    ParseRel (parseFrom (a ++ b) st) (parseFrom (a ++ b1) st1) := by
  rw [parseFrom_append, parseFrom_append]
  exact parseFrom_rel a h

/-- Two texts whose outcomes have the same meaning run alike on every
machine whose cells hold bytes. -/
theorem Runs.of_parseRel {a b : Code}
    (h : ParseRel (parseFrom a (.halt, [])) (parseFrom b (.halt, []))) (s s1 : Machine)
    (hs : Bytes s.tape) : Runs a s s1 → Runs b s s1 := by
  intro hr
  obtain ⟨p, hp, hf⟩ := Runs.iff_exec.mp hr
  rw [parse_eq_some] at hp
  rw [hp] at h
  cases hb : parseFrom b (.halt, []) with
  | none => rw [hb] at h; exact h.elim
  | some st1 =>
    obtain ⟨q, stk⟩ := st1
    rw [hb] at h
    obtain ⟨hq, hstk⟩ : Prog.Equiv p q ∧ List.Forall₂ Prog.Equiv [] stk := h
    cases hstk
    exact Runs.iff_exec.mpr ⟨q, parse_eq_some.mpr hb, (hq s s1 hs).1 hf⟩

/-! ## The rewrite of `cancelOppositeCommands` keeps the meaning -/

theorem cancelFlush_append (up down : Char) (count : Int) (result : Code) :
    cancelFlush up down count result = result ++ cancelFlush up down count [] := by
  unfold cancelFlush
  by_cases h1 : count > 0
  · have h2 : ¬ count < 0 := by omega
    simp [h1, h2]
  · by_cases h2 : count < 0
    · simp [h1, h2]
    · simp [h1, h2]

theorem cancelFlush_nonneg (up down : Char) {count : Int} (h : 0 ≤ count) :
    cancelFlush up down count [] = List.replicate count.toNat up := by
  unfold cancelFlush
  have h2 : ¬ count < 0 := by omega
  by_cases h1 : count > 0
  · simp [h1, h2]
  · have h0 : count = 0 := by omega
    subst h0
    simp

theorem cancelFlush_nonpos (up down : Char) {count : Int} (h : count ≤ 0) :
    cancelFlush up down count [] = List.replicate (-count).toNat down := by
  unfold cancelFlush
  have h1 : ¬ count > 0 := by omega
  by_cases h2 : count < 0
  · simp [h1, h2]
  · have h0 : count = 0 := by omega
    subst h0
    simp

/-- Counting one more `up` amounts to reading the `up` behind the run that
the counter stands for. -/
theorem cancelFlush_step_up {up down : Char}
    (hdu : ∀ X, ParseRel ((X.bind (parseStep up)).bind (parseStep down)) X)
    (count : Int) (rest : Code) (st : Prog × List Prog) :
    ParseRel (parseFrom (cancelFlush up down (count + 1) [] ++ rest) st)
      (parseFrom (cancelFlush up down count [] ++ up :: rest) st) := by
  by_cases h : 0 ≤ count
  · rw [cancelFlush_nonneg up down h, cancelFlush_nonneg up down (by omega : 0 ≤ count + 1)]
    have e : (count + 1).toNat = count.toNat + 1 := by omega
    rw [e, List.replicate_succ', List.append_assoc, List.singleton_append]
    exact parseRel_refl _
  · rw [cancelFlush_nonpos up down (by omega : count ≤ 0),
      cancelFlush_nonpos up down (by omega : count + 1 ≤ 0)]
    have e : (-count).toNat = (-(count + 1)).toNat + 1 := by omega
    rw [e, List.replicate_succ', List.append_assoc, List.singleton_append]
    apply parseFrom_rel_append
    exact parseRel_symm (hdu (parseFrom rest st))

/-- Counting one more `down` amounts to reading the `down` behind the run that
the counter stands for. -/
theorem cancelFlush_step_down {up down : Char}
    (hud : ∀ X, ParseRel ((X.bind (parseStep down)).bind (parseStep up)) X)
    (count : Int) (rest : Code) (st : Prog × List Prog) :
    ParseRel (parseFrom (cancelFlush up down (count - 1) [] ++ rest) st)
      (parseFrom (cancelFlush up down count [] ++ down :: rest) st) := by
  by_cases h : count ≤ 0
  · rw [cancelFlush_nonpos up down h, cancelFlush_nonpos up down (by omega : count - 1 ≤ 0)]
    have e : (-(count - 1)).toNat = (-count).toNat + 1 := by omega
    rw [e, List.replicate_succ', List.append_assoc, List.singleton_append]
    exact parseRel_refl _
  · rw [cancelFlush_nonneg up down (by omega : 0 ≤ count),
      cancelFlush_nonneg up down (by omega : 0 ≤ count - 1)]
    have e : count.toNat = (count - 1).toNat + 1 := by omega
    rw [e, List.replicate_succ', List.append_assoc, List.singleton_append]
    apply parseFrom_rel_append
    exact parseRel_symm (hud (parseFrom rest st))

/-- The text that the loop of `cancel` returns means what the text built so
far, the run the counter stands for and the rest of the input mean together,
provided `up` and `down` undo each other. -/
theorem Compiler.cancelLoop_sem {up down : Char}
    (hdu : ∀ X, ParseRel ((X.bind (parseStep up)).bind (parseStep down)) X)
    (hud : ∀ X, ParseRel ((X.bind (parseStep down)).bind (parseStep up)) X) :
    ∀ (input : Code) (count : Int) (result out : Code),
      cancelLoop up down input count result = .ok out →
      ∀ st : Prog × List Prog,
        ParseRel (parseFrom out st)
          (parseFrom (result ++ (cancelFlush up down count [] ++ input)) st) := by
  intro input
  induction input with
  | nil =>
    intro count result out h st
    unfold cancelLoop at h
    have e := Except.ok.inj h
    rw [← e, cancelFlush_append, List.append_nil]
    exact parseRel_refl _
  | cons c rest ih =>
    intro count result out h st
    unfold cancelLoop at h
    by_cases h1 : c = up
    · rw [if_pos h1] at h
      by_cases ho : count + 1 > INT_MAX
      · rw [if_pos ho] at h; cases h
      · rw [if_neg ho] at h
        subst h1
        exact parseRel_trans (ih (count + 1) result out h st)
          (parseFrom_rel_append result (cancelFlush_step_up hdu count rest st))
    · rw [if_neg h1] at h
      by_cases h2 : c = down
      · rw [if_pos h2] at h
        by_cases ho : count - 1 < INT_MIN
        · rw [if_pos ho] at h; cases h
        · rw [if_neg ho] at h
          subst h2
          exact parseRel_trans (ih (count - 1) result out h st)
            (parseFrom_rel_append result (cancelFlush_step_down hud count rest st))
      · rw [if_neg h2] at h
        have := ih 0 (cancelFlush up down count result ++ [c]) out h st
        have e0 : cancelFlush up down 0 [] = [] := by simp [cancelFlush]
        rw [e0, cancelFlush_append, List.nil_append, List.append_assoc, List.append_assoc,
          List.singleton_append] at this
        exact this

/-- One pass of `cancel` keeps the meaning of the text. -/
theorem Compiler.cancel_sem {up down : Char}
    (hdu : ∀ X, ParseRel ((X.bind (parseStep up)).bind (parseStep down)) X)
    (hud : ∀ X, ParseRel ((X.bind (parseStep down)).bind (parseStep up)) X)
    {input out : Code} (h : cancel input up down = .ok out) (st : Prog × List Prog) :
    ParseRel (parseFrom out st) (parseFrom input st) := by
  have := Compiler.cancelLoop_sem hdu hud input 0 [] out h st
  have e0 : cancelFlush up down 0 [] = [] := by simp [cancelFlush]
  rw [e0, List.nil_append, List.nil_append] at this
  exact this

/-- The text `<>` in front of a text does not change its meaning. -/
theorem parseRel_left_right (X : Option (Prog × List Prog)) :
    ParseRel ((X.bind (parseStep '>')).bind (parseStep '<')) X := by
  cases X with
  | none => trivial
  | some st => exact ⟨Prog.equiv_left_right st.1, forall2_equiv_refl st.2⟩

/-- The text `><` in front of a text does not change its meaning. -/
theorem parseRel_right_left (X : Option (Prog × List Prog)) :
    ParseRel ((X.bind (parseStep '<')).bind (parseStep '>')) X := by
  cases X with
  | none => trivial
  | some st => exact ⟨Prog.equiv_right_left st.1, forall2_equiv_refl st.2⟩

/-- The text `-+` in front of a text does not change its meaning. -/
theorem parseRel_dec_inc (X : Option (Prog × List Prog)) :
    ParseRel ((X.bind (parseStep '+')).bind (parseStep '-')) X := by
  cases X with
  | none => trivial
  | some st => exact ⟨Prog.equiv_dec_inc st.1, forall2_equiv_refl st.2⟩

/-- The text `+-` in front of a text does not change its meaning. -/
theorem parseRel_inc_dec (X : Option (Prog × List Prog)) :
    ParseRel ((X.bind (parseStep '-')).bind (parseStep '+')) X := by
  cases X with
  | none => trivial
  | some st => exact ⟨Prog.equiv_inc_dec st.1, forall2_equiv_refl st.2⟩

/-- Whatever `cancelOppositeCommands` returns runs like its input on every
machine whose cells hold bytes. -/
theorem Compiler.cancelOppositeCommands_sem {bf out : Code}
    (h : cancelOppositeCommands bf = .ok out) (s s1 : Machine) (hs : Bytes s.tape) :
    Runs out s s1 ↔ Runs bf s s1 := by
  unfold cancelOppositeCommands at h
  cases h1 : cancel bf '>' '<' with
  | error e => rw [h1] at h; cases h
  | ok mid =>
    rw [h1] at h
    have r1 := Compiler.cancel_sem parseRel_left_right parseRel_right_left h1 (.halt, [])
    have r2 := Compiler.cancel_sem parseRel_dec_inc parseRel_inc_dec h (.halt, [])
    have r := parseRel_trans r2 r1
    exact ⟨Runs.of_parseRel r s s1 hs, Runs.of_parseRel (parseRel_symm r) s s1 hs⟩

/-- On a text shorter than `2 ^ 31` characters `cancelOppositeCommands`
returns, and its output is not longer than the text. -/
theorem Compiler.cancelOppositeCommands_ok (bf : Code) (hlen : bf.length < 2 ^ 31) :
    ∃ out, cancelOppositeCommands bf = .ok out ∧ out.length ≤ bf.length := by
  obtain ⟨mid, h1, _, hl1⟩ := Compiler.cancel_noAdjacent bf '>' '<' (by decide) hlen
  obtain ⟨out, h2, _, hl2⟩ := Compiler.cancel_noAdjacent mid '+' '-' (by decide)
    (lt_of_le_of_lt hl1 hlen)
  refine ⟨out, ?_, le_trans hl2 hl1⟩
  unfold cancelOppositeCommands
  rw [h1]
  exact h2

/-- A run of `up` that takes the counter of `cancel` beyond the largest `int`
is not rewritten: the increment overflows. -/
theorem Compiler.cancelLoop_overflow (up down : Char) :
    ∀ (n : Nat) (count : Int) (result : Code), count ≤ INT_MAX → count + n > INT_MAX →
      cancelLoop up down (List.replicate n up) count result = .error .undefinedBehaviour := by
  intro n
  induction n with
  | zero =>
    intro count result h1 h2
    simp at h2
    omega
  | succ n ih =>
    intro count result h1 h2
    rw [List.replicate_succ]
    unfold cancelLoop
    rw [if_pos rfl]
    by_cases ho : count + 1 > INT_MAX
    · rw [if_pos ho]
    · rw [if_neg ho]
      apply ih (count + 1) result (by omega)
      push_cast at h2
      omega

/-- A text of more than `INT_MAX` moves to the right is not rewritten by
`cancelOppositeCommands`: the counter of the first pass overflows. -/
theorem Compiler.cancelOppositeCommands_overflow (n : Nat) (h : (n : Int) > INT_MAX) :
    cancelOppositeCommands (List.replicate n '>') = .error .undefinedBehaviour := by
  have h1 : cancel (List.replicate n '>') '>' '<' = .error .undefinedBehaviour := by
    unfold cancel
    exact Compiler.cancelLoop_overflow '>' '<' n 0 [] (by unfold INT_MAX; omega) (by omega)
  unfold cancelOppositeCommands
  rw [h1]

/-! ## Soundness of the inline check -/

/-- Whatever the validation answers, it answers what the structure of the
text says: no bound on the length of the text is needed when the loop is
known to have returned. -/
theorem Compiler.validateInlineBFLoop_sound : ∀ (code : Code) (p : Prog) (pending : List Prog),
    parseFrom code (.halt, []) = some (p, pending) →
    ∀ (cur : Int) (saved : List Int) (b : Bool), pending.length ≤ saved.length →
      validateInlineBFLoop code cur saved = .ok b →
      b = Prog.neutralChain p pending cur saved := by
  intro code
  induction code with
  | nil =>
    intro p pending h cur saved b _ hv
    simp only [parseFrom, Option.some.injEq, Prod.mk.injEq] at h
    obtain ⟨rfl, rfl⟩ := h
    unfold validateInlineBFLoop at hv
    have hb := Except.ok.inj hv
    subst hb
    simp [Prog.neutralChain, Prog.regionsNeutral, Prog.shift]
  | cons c cs ih =>
    intro p pending h cur saved b hlen hv
    simp only [parseFrom] at h
    cases hcs : parseFrom cs (.halt, []) with
    | none => rw [hcs] at h; cases h
    | some st =>
      obtain ⟨p1, pend1⟩ := st
      rw [hcs] at h
      simp only [Option.bind_eq_bind, Option.some_bind] at h
      unfold parseStep at h
      unfold validateInlineBFLoop at hv
      by_cases h1 : c = '>'
      · subst h1
        simp only [if_true, Option.some.injEq, Prod.mk.injEq] at h
        obtain ⟨rfl, rfl⟩ := h
        simp only [if_true] at hv
        by_cases hno : cur + 1 > INT_MAX
        · rw [if_pos hno] at hv; cases hv
        · rw [if_neg hno] at hv
          rw [ih p1 pend1 hcs (cur + 1) saved b hlen hv]
          cases pend1 with
          | nil => simp [Prog.neutralChain, Prog.regionsNeutral, Prog.shift, add_assoc]
          | cons q r =>
            cases saved with
            | nil => rfl
            | cons top rest =>
              simp [Prog.neutralChain, Prog.regionsNeutral, Prog.shift, add_assoc]
      · by_cases h2 : c = '<'
        · subst h2
          simp only [if_neg h1, if_true, Option.some.injEq, Prod.mk.injEq] at h
          obtain ⟨rfl, rfl⟩ := h
          simp only [if_neg h1, if_true] at hv
          by_cases hno : cur - 1 < INT_MIN
          · rw [if_pos hno] at hv; cases hv
          · rw [if_neg hno] at hv
            rw [ih p1 pend1 hcs (cur - 1) saved b hlen hv]
            have e : cur - 1 + p1.shift = cur + (-1 + p1.shift) := by ring
            cases pend1 with
            | nil => simp [Prog.neutralChain, Prog.regionsNeutral, Prog.shift, e]
            | cons q r =>
              cases saved with
              | nil => rfl
              | cons top rest =>
                simp [Prog.neutralChain, Prog.regionsNeutral, Prog.shift, e]
        · by_cases h3 : c = '['
          · subst h3
            have n1 : ¬ '[' = '+' := by decide
            have n2 : ¬ '[' = '-' := by decide
            have n3 : ¬ '[' = ']' := by decide
            simp only [if_neg h1, if_neg h2, if_neg n1, if_neg n2, if_neg n3, if_true] at h
            cases pend1 with
            | nil => cases h
            | cons q r =>
              simp only [Option.some.injEq, Prod.mk.injEq] at h
              obtain ⟨rfl, rfl⟩ := h
              simp only [if_neg h1, if_neg h2, if_true] at hv
              have hlen1 : (q :: r).length ≤ (cur :: saved).length := by
                simp only [List.length_cons]
                omega
              rw [ih p1 (q :: r) hcs 0 (cur :: saved) b hlen1 hv]
              cases r with
              | nil =>
                simp [Prog.neutralChain, Prog.regionsNeutral, Prog.shift, Bool.and_assoc]
                exact Bool.and_left_comm _ _ _
              | cons q2 r2 =>
                cases saved with
                | nil => simp at hlen
                | cons top rest =>
                  simp [Prog.neutralChain, Prog.regionsNeutral, Prog.shift, Bool.and_assoc]
                  exact Bool.and_left_comm _ _ _
          · by_cases h4 : c = ']'
            · subst h4
              have n1 : ¬ ']' = '+' := by decide
              have n2 : ¬ ']' = '-' := by decide
              simp only [if_neg h1, if_neg h2, if_neg n1, if_neg n2, if_true,
                Option.some.injEq, Prod.mk.injEq] at h
              obtain ⟨rfl, rfl⟩ := h
              simp only [if_neg h1, if_neg h2, if_neg h3, if_true] at hv
              cases saved with
              | nil => simp at hlen
              | cons top rest =>
                have hlen1 : pend1.length ≤ rest.length := by
                  simp only [List.length_cons] at hlen
                  omega
                by_cases hc : cur = 0
                · subst hc
                  simp only [ne_eq, not_true_eq_false, if_false] at hv
                  rw [ih p1 pend1 hcs top rest b hlen1 hv]
                  simp [Prog.neutralChain, Prog.regionsNeutral, Prog.shift]
                · have hne : cur ≠ 0 := hc
                  rw [if_pos hne] at hv
                  have hb := Except.ok.inj hv
                  subst hb
                  simp [hc, Prog.neutralChain, Prog.regionsNeutral, Prog.shift]
            · simp only [if_neg h1, if_neg h2, if_neg h3, if_neg h4] at hv
              have key : ∀ k : Prog, (k.shift = p1.shift ∧ k.regionsNeutral = p1.regionsNeutral) →
                  Prog.neutralChain k pend1 cur saved = Prog.neutralChain p1 pend1 cur saved := by
                intro k hk
                cases pend1 with
                | nil => simp [Prog.neutralChain, hk.1, hk.2]
                | cons q r =>
                  cases saved with
                  | nil => rfl
                  | cons top rest => simp [Prog.neutralChain, hk.1, hk.2]
              simp only [if_neg h1, if_neg h2, if_neg h3, if_neg h4] at h
              by_cases h5 : c = '+'
              · simp only [if_pos h5, Option.some.injEq, Prod.mk.injEq] at h
                obtain ⟨rfl, rfl⟩ := h
                rw [ih p1 pend1 hcs cur saved b hlen hv]
                exact (key (Prog.inc p1) ⟨rfl, rfl⟩).symm
              · by_cases h6 : c = '-'
                · simp only [if_neg h5, if_pos h6, Option.some.injEq, Prod.mk.injEq] at h
                  obtain ⟨rfl, rfl⟩ := h
                  rw [ih p1 pend1 hcs cur saved b hlen hv]
                  exact (key (Prog.dec p1) ⟨rfl, rfl⟩).symm
                · simp only [if_neg h5, if_neg h6, Option.some.injEq, Prod.mk.injEq] at h
                  obtain ⟨rfl, rfl⟩ := h
                  exact ih p1 pend1 hcs cur saved b hlen hv

/-- A well-bracketed fragment that `validateInlineBF` accepts has only neutral
regions and a neutral top level. -/
theorem Compiler.validateInlineBF_sound (code : Code) (p : Prog) (h : parse code = some p)
    (hv : validateInlineBF code = .ok true) : p.regionsNeutral = true ∧ p.shift = 0 := by
  have hp : parseFrom code (.halt, []) = some (p, []) := parse_eq_some.mp h
  unfold validateInlineBF at hv
  have hb := Compiler.validateInlineBFLoop_sound code p [] hp 0 [] true (le_refl _) hv
  simpa [Prog.neutralChain] using hb.symm

/-- A program whose regions are all neutral moves the data pointer by the net
displacement of its top level, however often its loops go round. -/
theorem exec_shift : ∀ (f : Nat) (p : Prog) (s s1 : Machine), p.regionsNeutral = true →
    exec f p s = some s1 → s1.ptr = s.ptr + p.shift := by
  intro f
  induction f with
  | zero => intro p s s1 _ h; simp [exec] at h
  | succ f ih =>
    intro p s s1 hn h
    cases p with
    | halt =>
      simp only [exec, Option.some.injEq] at h
      subst h
      simp [Prog.shift]
    | right k =>
      simp only [exec] at h
      have := ih k _ s1 (by simpa [Prog.regionsNeutral] using hn) h
      simp only [Prog.shift, this]
      ring
    | left k =>
      simp only [exec] at h
      have := ih k _ s1 (by simpa [Prog.regionsNeutral] using hn) h
      simp only [Prog.shift, this]
      ring
    | inc k =>
      simp only [exec] at h
      have := ih k _ s1 (by simpa [Prog.regionsNeutral] using hn) h
      simpa [Prog.shift] using this
    | dec k =>
      simp only [exec] at h
      have := ih k _ s1 (by simpa [Prog.regionsNeutral] using hn) h
      simpa [Prog.shift] using this
    | loop b k =>
      have hn1 : b.shift = 0 ∧ b.regionsNeutral = true ∧ k.regionsNeutral = true := by
        simpa [Prog.regionsNeutral, and_assoc] using hn
      simp only [exec] at h
      by_cases hz : s.tape s.ptr = 0
      · rw [if_pos hz] at h
        simpa [Prog.shift] using ih k s s1 hn1.2.2 h
      · rw [if_neg hz] at h
        cases hb : exec f b s with
        | none => rw [hb] at h; cases h
        | some s2 =>
          rw [hb] at h
          have e1 := ih b s s2 hn1.2.1 hb
          have e2 := ih (.loop b k) s2 s1 hn h
          rw [e2, e1, hn1.1]
          simp [Prog.shift]

/-- A fragment that `validateInlineBF` accepts, when its run terminates,
leaves the data pointer where it was. -/
theorem Runs.inline_neutral {code : Code} {s s1 : Machine}
    (hv : validateInlineBF code = .ok true) (hr : Runs code s s1) : s1.ptr = s.ptr := by
  obtain ⟨p, hp, f, hf⟩ := Runs.iff_exec.mp hr
  obtain ⟨hn, hs⟩ := Compiler.validateInlineBF_sound code p hp hv
  have := exec_shift f p s s1 hn hf
  rw [this, hs]
  simp

/-! ## A request longer than the tape -/

/-- Reading `d_memory[i]` at or behind the end of the tape. -/
theorem Memory.cellAt_outside {cells : List Cell} {i : Nat} (h : cells.length ≤ i) :
    cellAt cells i = .error .undefinedBehaviour := by
  unfold cellAt
  rw [List.getElem?_eq_none h]

/-- A window that sticks out of the tape is never found free: the inner loop
either meets an occupied cell inside the tape or reads the cell behind the
last one. -/
theorem Memory.isFreeRun_short (cells : List Cell) (start : Nat) :
    ∀ (n offset : Nat), start + offset ≤ cells.length → cells.length < start + offset + n →
      (isFreeRun cells start n offset = .ok false ∧ start + offset < cells.length) ∨
      isFreeRun cells start n offset = .error .undefinedBehaviour := by
  intro n
  induction n with
  | zero => intro offset h1 h2; omega
  | succ n ih =>
    intro offset h1 h2
    rw [isFreeRun]
    by_cases hlt : start + offset < cells.length
    · obtain ⟨cell, hcell⟩ : ∃ cell, cells[start + offset]? = some cell :=
        ⟨cells[start + offset], List.getElem?_eq_getElem hlt⟩
      have hc : cellAt cells (start + offset) = .ok cell := by
        unfold cellAt
        rw [hcell]
      rw [hc]
      by_cases he : cell.empty = true
      · simp only [he, Bool.not_true, Bool.false_eq_true, if_false]
        rcases ih (offset + 1) (by omega) (by omega) with ⟨h3, _⟩ | h3
        · exact Or.inl ⟨h3, hlt⟩
        · exact Or.inr h3
      · have he2 : cell.empty = false := by simpa using he
        simp only [he2, Bool.not_false, if_true]
        exact Or.inl ⟨trivial, hlt⟩
    · right
      rw [Memory.cellAt_outside (by omega)]

/-- The scan of a tape shorter than the request, with a loop bound behind the
end of the tape, walks off the tape. -/
theorem Memory.scanFrom_short (cells : List Cell) (sz bound : Nat) (hsz : cells.length < sz)
    (hb : cells.length < bound) :
    ∀ (fuel start : Nat), start ≤ cells.length → cells.length - start < fuel →
      scanFrom cells sz bound fuel start = .error .undefinedBehaviour := by
  intro fuel
  induction fuel with
  | zero => intro start _ h; omega
  | succ fuel ih =>
    intro start hs hf
    rw [scanFrom]
    have hne : start ≠ bound := by omega
    rw [if_neg hne]
    rcases Memory.isFreeRun_short cells start sz 0 (by omega) (by omega) with ⟨h1, h2⟩ | h1
    · rw [h1]
      exact ih (start + 1) (by omega) (by omega)
    · rw [h1]

/-- The loop bound of a request longer than the tape lies behind the tape. -/
theorem Memory.scanBound_wraps {len sz : Nat} (h : len < sz) (hint : sz < 2 ^ 31) :
    scanBound len sz = 2 ^ 64 - (sz - len) ∧ len < scanBound len sz := by
  unfold scanBound
  have hn : ¬ sz ≤ len := by omega
  rw [if_neg hn]
  have e1 : (2 : Nat) ^ 64 = 18446744073709551616 := by norm_num
  have e2 : (2 : Nat) ^ 31 = 2147483648 := by norm_num
  rw [e2] at hint
  rw [e1]
  exact ⟨rfl, by omega⟩

/-- On a tape shorter than the request `findFree` reads a cell outside the
tape. -/
theorem Memory.findFree_short (m : Memory) (sz : Nat) (hint : sz < 2 ^ 31)
    (h : m.d_memory.length < sz) : findFree m sz = .error .undefinedBehaviour := by
  have hs : scan m.d_memory sz = .error .undefinedBehaviour := by
    unfold scan
    exact Memory.scanFrom_short m.d_memory sz _ h (Memory.scanBound_wraps h hint).2
      (m.d_memory.length + 2) 0 (Nat.zero_le _) (by omega)
  unfold findFree
  rw [findFreeAux, hs]

/-! ## `place` and `allocate` on every type that can be laid out -/

theorem Memory.Unprotected.window {cells : List Cell} {addr n : Nat}
    (h : Unprotected cells addr n) {off k : Nat} (hk : off + k ≤ n) :
    Unprotected cells (addr + off) k := by
  refine ⟨by have := h.1; omega, fun j hj => ?_⟩
  obtain ⟨cell, hc, hnp⟩ := h.2 (off + j) (by omega)
  exact ⟨cell, by rw [Nat.add_assoc]; exact hc, hnp⟩

theorem Memory.Rewritten.same {cells : List Cell} {addr n : Nat}
    (h : Unprotected cells addr n) : Rewritten cells cells addr n :=
  ⟨rfl, fun _ _ => rfl, h.2⟩

theorem Memory.Rewritten.chain {c0 c1 c2 : List Cell} {addr n : Nat}
    (h1 : Rewritten c0 c1 addr n) (h2 : Rewritten c1 c2 addr n) : Rewritten c0 c2 addr n :=
  ⟨h2.1.trans h1.1, fun x hx => (h2.2.1 x hx).trans (h1.2.1 x hx), h2.2.2⟩

theorem Memory.Rewritten.unprotected {c0 c1 : List Cell} {addr n : Nat}
    (h : Rewritten c0 c1 addr n) (hlen : addr + n ≤ c0.length) : Unprotected c1 addr n :=
  ⟨by rw [h.1]; exact hlen, h.2.2⟩

/-- A window written anew inside a larger window of unprotected cells. -/
theorem Memory.Rewritten.widen {cells cells1 : List Cell} {addr n off k : Nat}
    (hu : Unprotected cells addr n) (hk : off + k ≤ n)
    (h : Rewritten cells cells1 (addr + off) k) : Rewritten cells cells1 addr n := by
  obtain ⟨hl, hout, hin⟩ := h
  refine ⟨hl, fun x hx => hout x (by omega), fun j hj => ?_⟩
  by_cases hj1 : off ≤ j ∧ j < off + k
  · obtain ⟨cell, hc, hnp⟩ := hin (j - off) (by omega)
    refine ⟨cell, ?_, hnp⟩
    have e : addr + off + (j - off) = addr + j := by omega
    rw [← e]
    exact hc
  · obtain ⟨cell, hc, hnp⟩ := hu.2 j hj
    refine ⟨cell, ?_, hnp⟩
    rw [hout (addr + j) (by omega)]
    exact hc

/-- The loop of `place` over the cells behind the first returns when none of
them is protected. -/
theorem Memory.markReferenced_np (addr n : Nat) :
    ∀ (fuel i : Nat) (cells : List Cell), i ≤ n → n - i < fuel → addr + n ≤ cells.length →
      (∀ j, i ≤ j → j < n → ∃ cell, cells[addr + j]? = some cell ∧
        cell.content ≠ .PROTECTED) →
      ∃ cells1, markReferenced addr n fuel i cells = .ok cells1 ∧
        cells1.length = cells.length ∧
        (∀ x, (x < addr + i ∨ addr + n ≤ x) → cells1[x]? = cells[x]?) ∧
        (∀ j, i ≤ j → j < n → ∃ cell, cells1[addr + j]? = some cell ∧
          cell.content = .REFERENCED) := by
  intro fuel
  induction fuel with
  | zero => intro i cells _ h; omega
  | succ fuel ih =>
    intro i cells hin hf hlen hemp
    rw [markReferenced]
    by_cases he : i = n
    · rw [if_pos he]
      exact ⟨cells, rfl, rfl, fun _ _ => rfl, fun j h1 h2 => by omega⟩
    · rw [if_neg he]
      obtain ⟨cell, hc, hnp⟩ := hemp i (le_refl _) (by omega)
      simp only [cellAt, hc, Cell.clear, if_neg hnp]
      obtain ⟨cells1, h1, h2, h3, h4⟩ := ih (i + 1)
        (cells.set (addr + i)
          { identifier := "", scope := "", content := .REFERENCED, type := .null,
            d_backupStack := cell.d_backupStack })
        (by omega) (by omega) (by simpa using hlen)
        (by
          intro j hj1 hj2
          obtain ⟨cj, hcj, hcje⟩ := hemp j (by omega) hj2
          refine ⟨cj, ?_, hcje⟩
          rw [List.getElem?_set_ne (by omega)]
          exact hcj)
      refine ⟨cells1, h1, by simpa using h2, ?_, ?_⟩
      · intro x hx
        rw [h3 x (by omega), List.getElem?_set_ne (by omega)]
      · intro j hj1 hj2
        by_cases hji : j = i
        · subst hji
          rw [h3 (addr + j) (by omega)]
          exact ⟨_, List.getElem?_set_self (by omega), rfl⟩
        · exact h4 j (by omega) hj2

/-- A record written at the head of a window of unprotected cells, followed by
the loop over the cells behind it. -/
theorem Memory.placeInt_ok (a k fuel : Nat) (cells : List Cell) (cell2 : Cell) (hk : 1 ≤ k)
    (hf : k ≤ fuel) (hu : Unprotected cells a k) (h2 : cell2.content ≠ .PROTECTED) :
    ∃ cells1, markReferenced a k fuel 1 (cells.set a cell2) = .ok cells1 ∧
      Rewritten cells cells1 a k := by
  obtain ⟨cells1, h1, hl, hout, hin⟩ := Memory.markReferenced_np a k fuel 1 (cells.set a cell2)
    hk (by omega) (by simp only [List.length_set]; exact hu.1)
    (by
      intro j hj1 hj2
      obtain ⟨cj, hcj, hnp⟩ := hu.2 j hj2
      exact ⟨cj, by rw [List.getElem?_set_ne (by omega)]; exact hcj, hnp⟩)
  refine ⟨cells1, h1, by rw [hl, List.length_set], ?_, ?_⟩
  · intro x hx
    rw [hout x (by omega), List.getElem?_set_ne (by omega)]
  · intro j hj
    by_cases hj0 : j = 0
    · subst hj0
      refine ⟨cell2, ?_, h2⟩
      rw [hout (a + 0) (by omega)]
      exact List.getElem?_set_self (by have := hu.1; omega)
    · obtain ⟨c, hc, hcr⟩ := hin j (by omega) hj
      exact ⟨c, hc, by rw [hcr]; decide⟩

/-- The fields of a struct laid out one after the other. -/
theorem Memory.foldFields_ok (g : List Cell → Field → Except Err (List Cell)) (addr n : Nat)
    (cells : List Cell) (hlen : addr + n ≤ cells.length) :
    ∀ (fields : List Field) (init : List Cell), Rewritten cells init addr n →
      (∀ f, f ∈ fields → ∀ cs, Unprotected cs addr n →
        ∃ cs1, g cs f = .ok cs1 ∧ Rewritten cs cs1 addr n) →
      ∃ cs1, fields.foldlM g init = .ok cs1 ∧ Rewritten cells cs1 addr n := by
  intro fields
  induction fields with
  | nil =>
    intro init hinit _
    exact ⟨init, rfl, hinit⟩
  | cons f rest ih =>
    intro init hinit hg
    obtain ⟨cs1, h1, h2⟩ := hg f (List.mem_cons_self _ _) init (hinit.unprotected hlen)
    obtain ⟨cs2, h3, h4⟩ := ih cs1 (hinit.chain h2)
      (fun f1 hf1 => hg f1 (List.mem_cons_of_mem _ hf1))
    refine ⟨cs2, ?_, h4⟩
    rw [List.foldlM_cons, h1]
    exact h3

/-- One level of `place`: a type that can be laid out is laid out on a window
of unprotected cells, provided the types one level down are. -/
theorem Memory.place_step (tm : TypeMap) (depth : Nat)
    (hrec : ∀ d, depth = d + 1 → ∀ (t : TSType) (cells : List Cell) (ident scope : String)
      (addr : Nat), t.placeable tm d = true → Unprotected cells addr (t.size tm) →
      ∃ cells1, place tm d cells ident scope t addr = .ok cells1 ∧
        Rewritten cells cells1 addr (t.size tm))
    (t : TSType) (cells : List Cell) (ident scope : String) (addr : Nat)
    (hp : t.placeable tm depth = true) (hu : Unprotected cells addr (t.size tm)) :
    ∃ cells1, place tm depth cells ident scope t addr = .ok cells1 ∧
      Rewritten cells cells1 addr (t.size tm) := by
  cases t with
  | null => simp [TSType.placeable] at hp
  | int k =>
    have hk : 1 ≤ k := by simpa [TSType.placeable] using hp
    have hsz : (TSType.int k).size tm = k := rfl
    rw [hsz] at hu ⊢
    obtain ⟨cell, hcell, hnp⟩ := hu.2 0 (by omega)
    simp only [Nat.add_zero] at hcell
    rw [place]
    simp only [cellAt, hcell, Cell.clear, if_neg hnp, TSType.isIntType, if_true, TSType.size]
    exact Memory.placeInt_ok addr k _ cells _ hk
      (by simp only [List.length_set]; have := hu.1; omega) hu
      (by dsimp only; split_ifs <;> decide)
  | struct name =>
    cases hl : tm.lookup name with
    | none => simp [TSType.placeable, hl] at hp
    | some d =>
      have hsz : (TSType.struct name).size tm = d.d_size := by simp [TSType.size, hl]
      rw [hsz] at hu ⊢
      have hraw := hp
      simp only [TSType.placeable, hl, Bool.and_eq_true, decide_eq_true_eq,
        List.all_eq_true] at hraw
      obtain ⟨hd1, hall⟩ := hraw
      have hfields : ∀ f, f ∈ d.d_fields → f.offset + f.type.size tm ≤ d.d_size ∧
          ((f.type.isStructType = true ∧
              ∃ dd, depth = dd + 1 ∧ TSType.placeable tm dd f.type = true) ∨
            (∃ k, f.type = .int k ∧ 1 ≤ k)) := by
        intro f hf
        obtain ⟨h1, h2⟩ := hall f hf
        refine ⟨h1, ?_⟩
        by_cases hs : f.type.isStructType = true
        · rw [if_pos hs] at h2
          cases depth with
          | zero => simp at h2
          | succ dd => exact Or.inl ⟨hs, dd, rfl, h2⟩
        · rw [if_neg hs] at h2
          cases hft : f.type with
          | int k =>
            rw [hft] at h2
            exact Or.inr ⟨k, rfl, by simpa using h2⟩
          | null => rw [hft] at h2; simp at h2
          | struct n => rw [hft] at hs; exact absurd rfl hs
      obtain ⟨cell, hcell, hnp⟩ := hu.2 0 (by omega)
      simp only [Nat.add_zero] at hcell
      have hcA : cellAt cells addr = .ok cell := by simp [cellAt, hcell]
      have hclr : cell.clear =
          .ok { cell with identifier := "", scope := "", content := .EMPTY, type := .null } := by
        simp [Cell.clear, hnp]
      have hI : (TSType.struct name).isIntType = false := rfl
      have hdef : (TSType.struct name).definition tm = some d := by
        simp [TSType.definition, hl]
      rw [place]
      simp only [hcA, hclr, hI, hdef, Bool.false_eq_true, if_false]
      have hinit : Rewritten cells (cells.set addr
          { identifier := ident, scope := scope,
            content := if scope.isEmpty = true then Content.REFERENCED
                       else if ident.isEmpty = true then Content.TEMP else Content.NAMED,
            type := TSType.struct name, d_backupStack := cell.d_backupStack }) addr d.d_size := by
        refine ⟨List.length_set _ _ _, fun x hx => List.getElem?_set_ne (by omega), ?_⟩
        intro j hj
        by_cases hj0 : j = 0
        · subst hj0
          refine ⟨_, List.getElem?_set_self (by have := hu.1; omega), ?_⟩
          dsimp only
          split_ifs <;> decide
        · obtain ⟨cj, hcj, hnpj⟩ := hu.2 j hj
          exact ⟨cj, by rw [List.getElem?_set_ne (by omega)]; exact hcj, hnpj⟩
      refine Memory.foldFields_ok _ addr d.d_size cells hu.1 d.d_fields _ hinit ?_
      intro f hf cs hcs
      obtain ⟨hin, hkind⟩ := hfields f hf
      rcases hkind with ⟨hs, dd, hdd, hpl⟩ | ⟨k, hft, hk⟩
      · subst hdd
        simp only [hs, if_true]
        obtain ⟨cs1, h1, h2⟩ := hrec dd rfl f.type cs "" "" (addr + f.offset) hpl
          (hcs.window hin)
        exact ⟨cs1, h1, Memory.Rewritten.widen hcs hin h2⟩
      · have hs : f.type.isStructType = false := by rw [hft]; rfl
        have hsz2 : f.type.size tm = k := by rw [hft]; rfl
        rw [hsz2] at hin
        have hw := hcs.window hin
        obtain ⟨fc, hfc, hfnp⟩ := hw.2 0 (by omega)
        simp only [Nat.add_zero] at hfc
        simp only [hs, Bool.false_eq_true, if_false, cellAt, hfc, Cell.clear, if_neg hfnp, hsz2]
        obtain ⟨cs1, h1, h2⟩ := Memory.placeInt_ok (addr + f.offset) k (cs.length + 1) cs
          { identifier := "", scope := "", content := Content.REFERENCED, type := f.type,
            d_backupStack := fc.d_backupStack } hk (by have := hw.1; omega) hw
          (fun h => Content.noConfusion h)
        exact ⟨cs1, h1, Memory.Rewritten.widen hcs hin h2⟩

/-- `place` returns on every type that can be laid out, when the cells of the
window are inside the tape and none of them is protected; it writes inside
the window only. -/
theorem Memory.place_ok (tm : TypeMap) : ∀ (depth : Nat) (t : TSType) (cells : List Cell)
    (ident scope : String) (addr : Nat), t.placeable tm depth = true →
    Unprotected cells addr (t.size tm) →
    ∃ cells1, place tm depth cells ident scope t addr = .ok cells1 ∧
      Rewritten cells cells1 addr (t.size tm) := by
  intro depth
  induction depth with
  | zero =>
    exact Memory.place_step tm 0 (fun d h => by omega)
  | succ n ih =>
    refine Memory.place_step tm (n + 1) (fun d h => ?_)
    have e : d = n := by omega
    subst e
    exact ih

/-- A type that can be laid out is defined and has at least one cell. -/
theorem TypeSystem.TSType.placeable_size {tm : TypeMap} {depth : Nat} {t : TSType}
    (h : t.placeable tm depth = true) : t.defined = true ∧ 1 ≤ t.size tm := by
  cases t with
  | null => simp [TSType.placeable] at h
  | int k => exact ⟨rfl, by simpa [TSType.placeable] using h⟩
  | struct name =>
    cases hl : tm.lookup name with
    | none => simp [TSType.placeable, hl] at h
    | some d =>
      simp only [TSType.placeable, hl, Bool.and_eq_true, decide_eq_true_eq] at h
      exact ⟨rfl, by simpa [TSType.size, hl] using h.1⟩

/-- `allocate(ident, scope, type)` for a type that can be laid out, on a tape
of at least `type.size()` cells, when the name is empty or not visible from
the scope: the call returns a non-negative address of `type.size()` cells
inside the tape it leaves. -/
theorem Memory.allocate_ok (tm : TypeMap) (m : Memory) (ident scope : String) (t : TSType)
    (hp : t.placeable tm tm.length = true) (hlen : t.size tm ≤ m.d_memory.length)
    (hfind : ident.isEmpty = true ∨ find m ident scope = -1) :
    ∃ (a k : Nat) (cells1 : List Cell),
      allocate tm m ident scope t =
        .ok ((a : Int), { d_memory := cells1, d_protectedStack := m.d_protectedStack }) ∧
      cells1.length = m.d_memory.length + k ∧ a + t.size tm ≤ cells1.length ∧
      (∀ x, (x < a ∨ a + t.size tm ≤ x) →
        cells1[x]? = (m.d_memory ++ List.replicate k Cell.mk0)[x]?) := by
  obtain ⟨hdef, hsz⟩ := TypeSystem.TSType.placeable_size hp
  obtain ⟨a, k, hff, hrun, _⟩ := Memory.findFree_spec m (t.size tm) hsz hlen
  have hu : Unprotected (m.d_memory ++ List.replicate k Cell.mk0) a (t.size tm) := by
    refine ⟨hrun.1, fun j hj => ?_⟩
    obtain ⟨cell, hc, he⟩ := hrun.2 j hj
    refine ⟨cell, hc, ?_⟩
    intro h
    simp [Cell.empty, h] at he
  obtain ⟨cells1, hpl, hl1, hout, _⟩ := Memory.place_ok tm tm.length t _ ident scope a hp hu
  refine ⟨a, k, cells1, ?_, by rw [hl1]; simp, by rw [hl1]; exact hrun.1, hout⟩
  unfold allocate
  simp only [hdef, Bool.not_true, Bool.false_eq_true, if_false, Memory.allocate_guard hfind, hff,
    hpl]

/-! ## Member functions that leave the stacks alone -/

theorem Compiler.kept_pure {α : Type} (a : α) : StacksKept (pure a : Gen α) := by
  intro c b c1 h
  cases h
  exact ⟨rfl, rfl⟩

theorem Compiler.kept_bind {α β : Type} {x : Gen α} {f : α → Gen β}
    (hx : StacksKept x) (hf : ∀ a, StacksKept (f a)) : StacksKept (x >>= f) := by
  intro c b c2 h
  rw [Gen.run_bind] at h
  cases hxc : x c with
  | error e => rw [hxc] at h; cases h
  | ok r =>
    obtain ⟨a, c1⟩ := r
    rw [hxc] at h
    obtain ⟨h1, h2⟩ := hx c a c1 hxc
    obtain ⟨h3, h4⟩ := hf a c1 b c2 h
    exact ⟨h3.trans h1, h4.trans h2⟩

theorem Compiler.kept_fail {α : Type} (e : Err) : StacksKept (fail e : Gen α) := by
  intro c a c1 h
  cases h

theorem Compiler.kept_errorIf (b : Bool) : StacksKept (errorIf b) := by
  cases b
  · exact Compiler.kept_pure ()
  · exact Compiler.kept_fail _

theorem Compiler.kept_validateAddr (l : List Int) : StacksKept (validateAddr l) := by
  unfold Compiler.validateAddr
  split_ifs
  · exact Compiler.kept_pure ()
  · exact Compiler.kept_fail _

theorem Compiler.kept_emit (ops : Code) : StacksKept (emit ops) := by
  intro c a c1 h
  cases h
  exact ⟨rfl, rfl⟩

theorem Compiler.kept_getPointer : StacksKept getPointer := by
  intro c a c1 h
  cases h
  exact ⟨rfl, rfl⟩

theorem Compiler.kept_setPointer (a : Int) : StacksKept (setPointer a) := by
  intro c b c1 h
  cases h
  exact ⟨rfl, rfl⟩

theorem Compiler.kept_sizeOf (a : Int) : StacksKept (Compiler.sizeOf a) := by
  intro c b c1 h
  unfold Compiler.sizeOf at h
  split at h
  · cases h
  · cases h
    exact ⟨rfl, rfl⟩

theorem Compiler.kept_allocateTemp (sz : Nat) : StacksKept (allocateTemp sz) :=
  fun _ _ _ h => Compiler.allocateTemp_frame h

theorem Compiler.kept_bf_movePtr (a : Int) : StacksKept (bf_movePtr a) := by
  unfold Compiler.bf_movePtr
  exact Compiler.kept_bind (Compiler.kept_validateAddr _) fun _ =>
    Compiler.kept_bind Compiler.kept_getPointer fun _ =>
      Compiler.kept_bind (Compiler.kept_setPointer _) fun _ => Compiler.kept_pure _

theorem Compiler.kept_bf_setToValue (a v : Int) : StacksKept (bf_setToValue a v) := by
  unfold Compiler.bf_setToValue
  refine Compiler.kept_bind (Compiler.kept_validateAddr _) fun _ => ?_
  exact Compiler.kept_bind (Compiler.kept_bf_movePtr _) fun _ => Compiler.kept_pure _

theorem Compiler.kept_bf_assign (lhs rhs : Int) : StacksKept (bf_assign lhs rhs) := by
  unfold Compiler.bf_assign
  refine Compiler.kept_bind (Compiler.kept_validateAddr _) fun _ => ?_
  refine Compiler.kept_bind (Compiler.kept_allocateTemp _) fun _ => ?_
  repeat' first
    | exact Compiler.kept_pure _
    | refine Compiler.kept_bind (Compiler.kept_bf_movePtr _) fun _ => ?_

theorem Compiler.kept_bf_assignLoop (dest src : Int) :
    ∀ (k idx : Nat) (acc : Code), StacksKept (bf_assignLoop dest src k idx acc) := by
  intro k
  induction k with
  | zero => intro idx acc; exact Compiler.kept_pure _
  | succ k ih =>
    intro idx acc
    unfold Compiler.bf_assignLoop
    exact Compiler.kept_bind (Compiler.kept_bf_assign _ _) fun _ => ih _ _

theorem Compiler.kept_bf_assignN (dest src : Int) (n : Nat) :
    StacksKept (bf_assignN dest src n) := by
  unfold Compiler.bf_assignN
  exact Compiler.kept_bind (Compiler.kept_validateAddr _) fun _ =>
    Compiler.kept_bf_assignLoop _ _ _ _ _

theorem Compiler.kept_assignFillLoop (lhs rhs : Int) :
    ∀ (k idx : Nat), StacksKept (assignFillLoop lhs rhs k idx) := by
  intro k
  induction k with
  | zero => intro idx; exact Compiler.kept_pure _
  | succ k ih =>
    intro idx
    unfold Compiler.assignFillLoop
    exact Compiler.kept_bind (Compiler.kept_bf_assign _ _) fun _ =>
      Compiler.kept_bind (Compiler.kept_emit _) fun _ => ih _

theorem Compiler.kept_assign (lhs rhs : Int) : StacksKept (assign lhs rhs) := by
  unfold Compiler.assign
  refine Compiler.kept_bind (Compiler.kept_sizeOf _) fun L => ?_
  refine Compiler.kept_bind (Compiler.kept_sizeOf _) fun R => ?_
  dsimp only
  split_ifs
  · exact Compiler.kept_bind (Compiler.kept_assignFillLoop _ _ _ _) fun _ =>
      Compiler.kept_pure _
  · exact Compiler.kept_bind (Compiler.kept_bf_assignN _ _ _) fun _ =>
      Compiler.kept_bind (Compiler.kept_emit _) fun _ => Compiler.kept_pure _
  · exact Compiler.kept_bind (Compiler.kept_errorIf _) fun _ => Compiler.kept_pure _

theorem Compiler.kept_constVal (num : Nat) : StacksKept (constVal num) := by
  unfold Compiler.constVal
  refine Compiler.kept_bind (Compiler.kept_allocateTemp _) fun _ => ?_
  exact Compiler.kept_bind (Compiler.kept_bf_setToValue _ _) fun _ =>
    Compiler.kept_bind (Compiler.kept_emit _) fun _ => Compiler.kept_pure _

theorem Compiler.kept_assignConst (x : Int) (v : Nat) : StacksKept (assignConst x v) := by
  unfold assignConst
  exact Compiler.kept_bind (Compiler.kept_constVal _) fun _ => Compiler.kept_assign _ _

/-! ## A statement `x = v;` as a branch of `ifStatement` -/

/-- What `sizeOf` answers depends on the record of the cell and on the
catalog only. -/
theorem Memory.sizeOf_of_cell {tm : TypeMap} {m m1 : Memory} {a : Int} {n : Nat}
    (h : Memory.sizeOf tm m a = .ok n)
    (he : m1.d_memory[a.toNat]? = m.d_memory[a.toNat]?) : Memory.sizeOf tm m1 a = .ok n := by
  unfold Memory.sizeOf at h ⊢
  by_cases h0 : a < 0 ∨ (m.d_memory.length : Int) ≤ a
  · rw [if_pos h0] at h
    cases h
  · rw [if_neg h0] at h
    cases hc : m.d_memory[a.toNat]? with
    | none => rw [hc] at h; cases h
    | some cell =>
      rw [hc] at h he
      have hlt : a.toNat < m1.d_memory.length := by
        by_contra hcon
        rw [List.getElem?_eq_none (by omega)] at he
        cases he
      have h1 : ¬ (a < 0 ∨ (m1.d_memory.length : Int) ≤ a) := by omega
      rw [if_neg h1, he]
      exact h

/-- The statement `x = v;` in a state in which `x` is an allocated variable of
one cell: it keeps every allocated cell other than `x`, and the allocator
state it leaves extends the one it found. -/
theorem Compiler.assignConst_keepsAt (c : Compiler) (x : Int) (v : Nat) (keep : List Int)
    (hr : c.Ready 1) (hx : c.Live x)
    (hsz : Memory.sizeOf c.typeMap c.d_memory x = .ok 1)
    (hk : ∀ a, a ∈ keep → c.Live a) (hxk : x ∉ keep) :
    KeepsAt (assignConst x v) keep c ∧
    ∀ r c1, assignConst x v c = .ok (r, c1) → c.Ext c1 := by
  obtain ⟨tmp, code1, c1, h1, e01, hcb1, l1, f1, hs1, sem1⟩ := Compiler.constVal_spec c v hr
  have hxt : x ≠ tmp := hx.ne f1
  obtain ⟨code2, c2, h2, e12, hcb2, sem2⟩ :=
    Compiler.assign_spec c1 x tmp 1 (e01.ready hr) hx.nonneg l1.nonneg
      (by rw [e01.sizeOf hx]; exact hsz) hs1
      (fun j hj => by
        have : j = 0 := by omega
        subst this
        simpa using And.intro (e01.live hx) l1)
      (fun i j hi hj => by
        have : i = 0 := by omega
        have : j = 0 := by omega
        subst_vars
        simpa using hxt)
  have e02 := e01.trans e12
  have heq : assignConst x v c = .ok (x, c2) := by
    simp only [assignConst, Gen.run_bind, h1, h2]
  obtain ⟨hst, hps⟩ := Compiler.kept_assignConst x v c x c2 heq
  refine ⟨⟨x, code1 ++ code2, c2, heq, ?_, e02.1, hst, hps, ?_, ?_⟩, ?_⟩
  · rw [hcb2, hcb1, List.append_assoc]
  · intro a ha
    exact (e02.2.2.2 a (hk a ha)).2
  · intro t hb
    obtain ⟨t1, run1, _, fr1⟩ := sem1 t hb
    obtain ⟨t2, run2, _, fr2⟩ := sem2 t1 (Runs.bytes run1 hb)
    refine ⟨t2, run1.append run2, ?_⟩
    intro a ha
    have hla := hk a ha
    have hax : a ≠ x := fun e => hxk (e ▸ ha)
    rw [fr2 a (fun j hj => by
        have : j = 0 := by omega
        subst this
        simpa using hax) (Or.inl (e01.live hla)), fr1 a (hla.ne f1)]
  · intro r c3 h3
    rw [heq] at h3
    cases h3
    exact e02

/-- `ifBetween` on valid addresses: the text `bf_setToValue(cond, 0)`, `]`,
`bf_movePtr(elseCond)`, `[` is appended and the cursor is on `elseCond`. -/
theorem Compiler.ifBetween_run (c : Compiler) (cond e : Int) (h0c : 0 ≤ cond) (h0e : 0 ≤ e) :
    ifBetween cond e c = .ok ((),
      { c with d_pointer := e,
               d_codeBuffer := c.d_codeBuffer ++
                 (mvCode c.d_pointer cond ++ ['[', '-', ']'] ++
                   List.replicate (0 : Int).toNat '+') ++ [']'] ++ mvCode cond e ++ ['['] }) := by
  simp only [ifBetween, Gen.run_bind, Compiler.bf_setToValue_run h0c (le_refl 0),
    Compiler.emit_run, Compiler.bf_movePtr_run h0e, Gen.run_pure]

/-- `ifEntry` on an allocated condition cell inside a function: it returns a
new cell for the negated condition; both condition cells are allocated in the
state it leaves, and every other allocated cell has kept its record. -/
theorem Compiler.ifEntry_spec (c1 : Compiler) (cond : Int) (hcs : c1.d_callStack ≠ [])
    (hlive : c1.Live cond) :
    ∃ (e : Int) (cA : Compiler), ifEntry cond c1 = .ok (e, cA) ∧ ¬ c1.Live e ∧
      cA.Live cond ∧ cA.Live e ∧ cA.d_callStack = c1.d_callStack ∧
      cA.typeMap = c1.typeMap ∧
      ∀ a, c1.Live a → a ≠ cond →
        cA.Live a ∧ cA.d_memory.d_memory[a.toNat]? = c1.d_memory.d_memory[a.toNat]? := by
  have hr1 : c1.Ready 1 := hlive.ready_one hcs
  obtain ⟨e, codeN, c2, hnot, e12, hcb2, hp2, hfr, hlv, _⟩ :=
    Compiler.logicalNot_spec c1 cond hr1 hlive
  have hne : cond ≠ e := hlive.ne hfr
  have h0c : 0 ≤ cond := hlive.nonneg
  have h0e : 0 ≤ e := hlv.nonneg
  have hnn : cond.toNat ≠ e.toNat := Compiler.toNat_ne h0c h0e hne
  obtain ⟨cc, c3, hpush1, hcc, hm3, hps3, hst3, hp3, hcs3, hcb3, htm3⟩ :=
    Compiler.pushStack_spec c2 cond (e12.live hlive)
  have hlv3 : c3.Live e := by
    apply hlv.of_cell
    rw [hm3, List.getElem?_set_ne hnn]
  obtain ⟨ce, c4, hpush2, hce, hm4, hps4, hst4, hp4, hcs4, hcb4, htm4⟩ :=
    Compiler.pushStack_spec c3 e hlv3
  have hlt3 : cond.toNat < c2.d_memory.d_memory.length :=
    (Memory.isLive_lt _ _ (e12.live hlive)).2
  have hlt4 : e.toNat < c3.d_memory.d_memory.length := (Memory.isLive_lt _ _ hlv3).2
  have hc4c : c4.d_memory.d_memory[cond.toNat]? = some cc.backup := by
    rw [hm4, List.getElem?_set_ne hnn.symm, hm3, List.getElem?_set_self hlt3]
  have hc4e : c4.d_memory.d_memory[e.toNat]? = some ce.backup := by
    rw [hm4, List.getElem?_set_self hlt4]
  refine ⟨e, { c4 with d_pointer := cond,
                       d_codeBuffer := c4.d_codeBuffer ++ mvCode c4.d_pointer cond ++ ['['] },
    ?_, hfr, ?_, ?_, ?_, ?_, ?_⟩
  · simp only [ifEntry, Gen.run_bind, hnot, hpush1, hpush2, Compiler.bf_movePtr_run h0c,
      Compiler.emit_run, Gen.run_pure]
  · show c4.d_memory.isLive cond = true
    rw [Memory.isLive_iff]
    exact ⟨h0c, _, hc4c, rfl⟩
  · show c4.d_memory.isLive e = true
    rw [Memory.isLive_iff]
    exact ⟨h0e, _, hc4e, rfl⟩
  · show c4.d_callStack = _
    rw [hcs4, hcs3, e12.1]
  · show c4.typeMap = _
    rw [htm4, htm3, e12.2.1]
  · intro a ha hac
    have hae : a ≠ e := ha.ne hfr
    have h0a : 0 ≤ a := ha.nonneg
    have n1 : cond.toNat ≠ a.toNat := Compiler.toNat_ne h0c h0a hac.symm
    have n2 : e.toNat ≠ a.toNat := Compiler.toNat_ne h0e h0a hae.symm
    have hrec : c4.d_memory.d_memory[a.toNat]? = c1.d_memory.d_memory[a.toNat]? := by
      rw [hm4, List.getElem?_set_ne n2, hm3, List.getElem?_set_ne n1]
      exact (e12.2.2.2 a ha).2
    exact ⟨ha.of_cell hrec, hrec⟩

/-- The statements `x = v;` and `x = w;` as the branches of an `if` whose
condition cell is not the variable `x`: in the states in which `ifStatement`
invokes them both keep the two condition cells. -/
theorem Compiler.assignConst_branches (c1 : Compiler) (cond x : Int) (v w : Nat)
    (hcs : c1.d_callStack ≠ []) (hlive : c1.Live cond) (hx : c1.Live x) (hxc : x ≠ cond)
    (hsz : Memory.sizeOf c1.typeMap c1.d_memory x = .ok 1) :
    (∀ e cA, ifEntry cond c1 = .ok (e, cA) → KeepsAt (assignConst x v) [cond, e] cA) ∧
    (∀ e cA rT cB cC, ifEntry cond c1 = .ok (e, cA) → assignConst x v cA = .ok (rT, cB) →
      ifBetween cond e cB = .ok ((), cC) → KeepsAt (assignConst x w) [cond, e] cC) := by
  obtain ⟨e0, cA0, hent, hfr, hlc, hle, hcsA, htmA, hrest⟩ :=
    Compiler.ifEntry_spec c1 cond hcs hlive
  obtain ⟨hxA, hxrec⟩ := hrest x hx hxc
  have hxe : x ≠ e0 := hx.ne hfr
  have hcsA1 : cA0.d_callStack ≠ [] := by rw [hcsA]; exact hcs
  have hszA : Memory.sizeOf cA0.typeMap cA0.d_memory x = .ok 1 := by
    rw [htmA]
    exact Memory.sizeOf_of_cell hsz hxrec
  have hkeepA : ∀ a, a ∈ [cond, e0] → cA0.Live a := by
    intro a ha
    simp only [List.mem_cons, List.mem_singleton, List.not_mem_nil, or_false] at ha
    rcases ha with rfl | rfl
    · exact hlc
    · exact hle
  have hnotin : x ∉ [cond, e0] := by
    simp only [List.mem_cons, List.mem_singleton, List.not_mem_nil, or_false, not_or]
    exact ⟨hxc, hxe⟩
  have kA := Compiler.assignConst_keepsAt cA0 x v [cond, e0] (hxA.ready_one hcsA1) hxA hszA
    hkeepA hnotin
  constructor
  · intro e cA h
    rw [hent] at h
    cases h
    exact kA.1
  · intro e cA rT cB cC h hB hC
    rw [hent] at h
    cases h
    have eAB := kA.2 rT cB hB
    rw [Compiler.ifBetween_run cB cond e0 hlc.nonneg hle.nonneg] at hC
    cases hC
    have hxB : cB.Live x := eAB.live hxA
    have hcsB : cB.d_callStack ≠ [] := by rw [eAB.1]; exact hcsA1
    have hszB : Memory.sizeOf cB.typeMap cB.d_memory x = .ok 1 := by
      rw [eAB.sizeOf hxA]
      exact hszA
    exact (Compiler.assignConst_keepsAt
      { cB with d_pointer := e0,
                d_codeBuffer := cB.d_codeBuffer ++
                  (mvCode cB.d_pointer cond ++ ['[', '-', ']'] ++
                    List.replicate (0 : Int).toNat '+') ++ [']'] ++ mvCode cond e0 ++ ['['] }
      x w [cond, e0] (Compiler.Live.ready_one (c := cB) hxB hcsB) hxB hszB
      (fun a ha => eAB.live (hkeepA a ha)) hnotin).1

/-- `ifStatement` is its condition, `ifEntry`, the true branch, `ifBetween`,
the false branch and `ifExit`, in this order. -/
theorem Compiler.ifStatement_eq (condition ifBody elseBody : Instruction) :
    ifStatement condition ifBody elseBody = (do
      let cond ← condition
      let elseCond ← ifEntry cond
      let _ ← ifBody
      ifBetween cond elseCond
      let _ ← elseBody
      ifExit elseCond) := by
  funext c
  simp only [ifStatement, ifEntry, ifBetween, ifExit, Gen.bind_assoc, Gen.pure_bind]

/-! ## The claims -/

/-- C1: for operand cells holding bytes `n` and `d` with `d ≠ 0`, the text
emitted by `divModPair(num, denom)`, run from the synthesizer's cursor on the
8-bit wrapping machine, terminates with the returned quotient cell holding
`n / d` and the returned remainder cell holding `n % d`; the two result cells
are distinct, and `n = 0` gives `(0, 0)`. -/
theorem divModPair_quotient_remainder (c : Compiler) (num denom : Int) (t : Int → Nat)
    (hr : c.Ready 4) (hn : c.Live num) (hd : c.Live denom) (hb : Bytes t)
    (hd0 : t denom ≠ 0) :
    ∃ q r code c1 t1, divModPair num denom c = .ok ((q, r), c1) ∧
      c1.d_codeBuffer = c.d_codeBuffer ++ code ∧ q ≠ r ∧
      Runs code ⟨t, c.d_pointer⟩ ⟨t1, c1.d_pointer⟩ ∧
      t1 q = t num / t denom ∧ t1 r = t num % t denom ∧
      (t num = 0 → t1 q = 0 ∧ t1 r = 0) := by
  obtain ⟨q, r, code, c1, h, _, hcb, _, _, _, _, hqr, sem⟩ :=
    Compiler.divModPair_spec c num denom hr hn hd
  obtain ⟨t1, run, vq, vr, _⟩ := sem t hb
  refine ⟨q, r, code, c1, t1, h, hcb, hqr, run, ?_, ?_, ?_⟩
  · rw [vq]
    by_cases h0 : t num = 0
    · simp [h0]
    · simp [h0, hd0]
  · rw [vr]
    by_cases h0 : t num = 0
    · simp [h0]
    · simp [h0, hd0]
  · intro h0
    rw [vq, vr]
    simp [h0]

theorem divModPair_quotient_remainder_witness :
    exampleState.Ready 4 ∧ exampleState.Live 0 ∧ exampleState.Live 1 ∧
    Bytes (tapeOf [7, 2]) ∧ tapeOf [7, 2] 1 ≠ 0 ∧
    tapeOf [7, 2] 0 / tapeOf [7, 2] 1 = 3 ∧ tapeOf [7, 2] 0 % tapeOf [7, 2] 1 = 1 ∧
    ∃ q r code c1 t1, divModPair 0 1 exampleState = .ok ((q, r), c1) ∧
      c1.d_codeBuffer = exampleState.d_codeBuffer ++ code ∧ q ≠ r ∧
      Runs code ⟨tapeOf [7, 2], exampleState.d_pointer⟩ ⟨t1, c1.d_pointer⟩ ∧
      t1 q = tapeOf [7, 2] 0 / tapeOf [7, 2] 1 ∧ t1 r = tapeOf [7, 2] 0 % tapeOf [7, 2] 1 ∧
      (tapeOf [7, 2] 0 = 0 → t1 q = 0 ∧ t1 r = 0) :=
  ⟨And.intro (by decide) (by decide), rfl, rfl, tapeOf_bytes _, by decide, by decide,
    by decide,
    divModPair_quotient_remainder exampleState 0 1 (tapeOf [7, 2])
      (And.intro (by decide) (by decide)) rfl rfl (tapeOf_bytes _) (by decide)⟩

/-- C2, counterexample: with `x` and `y` both holding 0, the text emitted by
`divModPair(x, y)` terminates with the quotient cell and the remainder cell
holding 0, and no run of it leaves 255 in the quotient cell. -/
theorem divModPair_zero_by_zero :
    ∃ q r code c1 t1, divModPair 0 1 exampleState = .ok ((q, r), c1) ∧
      c1.d_codeBuffer = exampleState.d_codeBuffer ++ code ∧
      tapeOf [0, 0] 0 = 0 ∧ tapeOf [0, 0] 1 = 0 ∧
      Runs code ⟨tapeOf [0, 0], exampleState.d_pointer⟩ ⟨t1, c1.d_pointer⟩ ∧
      t1 q = 0 ∧ t1 r = 0 ∧
      ∀ s, Runs code ⟨tapeOf [0, 0], exampleState.d_pointer⟩ s → s.tape q ≠ 255 := by
  obtain ⟨q, r, code, c1, h, _, hcb, _, _, _, _, _, sem⟩ :=
    Compiler.divModPair_spec exampleState 0 1 (And.intro (by decide) (by decide)) rfl rfl
  obtain ⟨t1, run, vq, vr, _⟩ := sem (tapeOf [0, 0]) (tapeOf_bytes _)
  have h0 : tapeOf [0, 0] 0 = 0 := by decide
  rw [if_pos h0] at vq vr
  refine ⟨q, r, code, c1, t1, h, hcb, h0, by decide, run, vq, vr, ?_⟩
  intro s hs
  have := Runs.det hs run
  subst this
  show t1 q ≠ 255
  rw [vq]
  decide

/-- C2, amended: for a denominator cell holding 0, the text emitted by
`divModPair(num, denom)` terminates with both result cells holding 255 when
the numerator is not 0, and with both holding 0 when the numerator is 0. -/
theorem divModPair_zero_denominator (c : Compiler) (num denom : Int) (t : Int → Nat)
    (hr : c.Ready 4) (hn : c.Live num) (hd : c.Live denom) (hb : Bytes t)
    (hd0 : t denom = 0) :
    ∃ q r code c1 t1, divModPair num denom c = .ok ((q, r), c1) ∧
      c1.d_codeBuffer = c.d_codeBuffer ++ code ∧
      Runs code ⟨t, c.d_pointer⟩ ⟨t1, c1.d_pointer⟩ ∧
      t1 q = (if t num = 0 then 0 else 255) ∧ t1 r = (if t num = 0 then 0 else 255) := by
  obtain ⟨q, r, code, c1, h, _, hcb, _, _, _, _, _, sem⟩ :=
    Compiler.divModPair_spec c num denom hr hn hd
  obtain ⟨t1, run, vq, vr, _⟩ := sem t hb
  refine ⟨q, r, code, c1, t1, h, hcb, run, ?_, ?_⟩
  · rw [vq]; simp [hd0]
  · rw [vr]; simp [hd0]

theorem divModPair_zero_denominator_witness :
    exampleState.Ready 4 ∧ exampleState.Live 0 ∧ exampleState.Live 1 ∧
    Bytes (tapeOf [7, 0]) ∧ tapeOf [7, 0] 1 = 0 ∧ tapeOf [7, 0] 0 = 7 ∧
    ∃ q r code c1 t1, divModPair 0 1 exampleState = .ok ((q, r), c1) ∧
      c1.d_codeBuffer = exampleState.d_codeBuffer ++ code ∧
      Runs code ⟨tapeOf [7, 0], exampleState.d_pointer⟩ ⟨t1, c1.d_pointer⟩ ∧
      t1 q = (if tapeOf [7, 0] 0 = 0 then 0 else 255) ∧
      t1 r = (if tapeOf [7, 0] 0 = 0 then 0 else 255) :=
  ⟨And.intro (by decide) (by decide), rfl, rfl, tapeOf_bytes _, by decide, by decide,
    divModPair_zero_denominator exampleState 0 1 (tapeOf [7, 0])
      (And.intro (by decide) (by decide)) rfl rfl (tapeOf_bytes _) (by decide)⟩

/-- C3, the failing case: the text emitted by `bf_assign(a, a)` terminates with
the cell at `a`, which is the source of the assignment, holding 0 whatever it
held before. -/
theorem bf_assign_same_cell (c : Compiler) (a : Int) (t : Int → Nat) (hr : c.Ready 1)
    (hl : c.Live a) (hb : Bytes t) :
    ∃ code c1 t1, bf_assign a a c = .ok (code, c1) ∧
      Runs code ⟨t, c.d_pointer⟩ ⟨t1, c1.d_pointer⟩ ∧ t1 a = 0 := by
  obtain ⟨code, c1, h, sem⟩ := Compiler.bf_assign_self c a hr hl
  obtain ⟨t1, run, v⟩ := sem t hb
  exact ⟨code, c1, t1, h, run, v⟩

theorem bf_assign_same_cell_witness :
    exampleState.Ready 1 ∧ exampleState.Live 0 ∧ Bytes (tapeOf [5]) ∧ tapeOf [5] 0 = 5 ∧
    ∃ code c1 t1, bf_assign 0 0 exampleState = .ok (code, c1) ∧
      Runs code ⟨tapeOf [5], exampleState.d_pointer⟩ ⟨t1, c1.d_pointer⟩ ∧ t1 0 = 0 :=
  ⟨And.intro (by decide) (by decide), rfl, tapeOf_bytes _, by decide,
    bf_assign_same_cell exampleState 0 (tapeOf [5]) (And.intro (by decide) (by decide)) rfl
      (tapeOf_bytes _)⟩

/-- C4: for two disjoint ranges of `n` allocated cells at `dest` and `src`, the
text emitted by `bf_assign(dest, src, n)` terminates with `dest + k` holding
the original value of `src + k` for every `k < n`, with every temporary (a
cell allocated during the call) at 0, and with every other cell unchanged. -/
theorem bf_assignN_copies (c : Compiler) (dest src : Int) (n : Nat) (t : Int → Nat)
    (hr : c.Ready 1) (hd0 : 0 ≤ dest) (hs0 : 0 ≤ src)
    (hlive : ∀ j : Nat, j < n → c.Live (dest + j) ∧ c.Live (src + j))
    (hdis : ∀ i j : Nat, i < n → j < n → dest + i ≠ src + j) (hb : Bytes t) :
    ∃ code c1 t1, bf_assignN dest src n c = .ok (code, c1) ∧
      Runs code ⟨t, c.d_pointer⟩ ⟨t1, c1.d_pointer⟩ ∧
      (∀ k : Nat, k < n → t1 (dest + k) = t (src + k)) ∧
      (∀ a, ¬ c.Live a → c1.Live a → t1 a = 0) ∧
      (∀ a, (∀ k : Nat, k < n → a ≠ dest + k) → (c.Live a ∨ ¬ c1.Live a) → t1 a = t a) := by
  obtain ⟨code, c1, h, _, _, sem⟩ := Compiler.bf_assignN_spec c dest src n hr hd0 hs0 hlive hdis
  obtain ⟨t1, run, v, f, z⟩ := sem t hb
  exact ⟨code, c1, t1, h, run, v, z, f⟩

theorem bf_assignN_copies_witness :
    exampleState.Ready 1 ∧ (0 : Int) ≤ 0 ∧ (0 : Int) ≤ 2 ∧
    (∀ j : Nat, j < 2 → exampleState.Live (0 + j) ∧ exampleState.Live (2 + j)) ∧
    (∀ i j : Nat, i < 2 → j < 2 → (0 : Int) + i ≠ 2 + j) ∧ Bytes (tapeOf [1, 2, 3, 4]) ∧
    ∃ code c1 t1, bf_assignN 0 2 2 exampleState = .ok (code, c1) ∧
      Runs code ⟨tapeOf [1, 2, 3, 4], exampleState.d_pointer⟩ ⟨t1, c1.d_pointer⟩ ∧
      (∀ k : Nat, k < 2 → t1 (0 + k) = tapeOf [1, 2, 3, 4] (2 + k)) ∧
      (∀ a, ¬ exampleState.Live a → c1.Live a → t1 a = 0) ∧
      (∀ a : Int, (∀ k : Nat, k < 2 → a ≠ 0 + k) → (exampleState.Live a ∨ ¬ c1.Live a) →
        t1 a = tapeOf [1, 2, 3, 4] a) :=
  ⟨And.intro (by decide) (by decide), by decide, by decide,
    fun j hj => by interval_cases j <;> exact And.intro rfl rfl,
    fun i j hi hj => by omega, tapeOf_bytes _,
    bf_assignN_copies exampleState 0 2 2 (tapeOf [1, 2, 3, 4])
      (And.intro (by decide) (by decide)) (by decide) (by decide)
      (fun j hj => by interval_cases j <;> exact And.intro rfl rfl)
      (fun i j hi hj => by omega) (tapeOf_bytes _)⟩

/-- C5: for all byte values held at `x` and `y`, the text emitted by
`equal(x, y)` terminates with the result cell holding 1 if the two values are
identical and 0 otherwise, and with the cells at `x` and `y` unchanged. -/
theorem equal_correct (c : Compiler) (x y : Int) (t : Int → Nat) (hr : c.Ready 1)
    (hx : c.Live x) (hy : c.Live y) (hb : Bytes t) :
    ∃ result code c1 t1, equal x y c = .ok (result, c1) ∧
      c1.d_codeBuffer = c.d_codeBuffer ++ code ∧
      Runs code ⟨t, c.d_pointer⟩ ⟨t1, c1.d_pointer⟩ ∧
      t1 result = (if t x = t y then 1 else 0) ∧ t1 x = t x ∧ t1 y = t y := by
  obtain ⟨result, code, c1, h, hcb, sem⟩ := Compiler.bf_equal_binSpec.computes c x y hr hx hy
  obtain ⟨t1, run, v, fx, fy⟩ := sem t hb
  exact ⟨result, code, c1, t1, h, hcb, run, v, fx, fy⟩

theorem equal_correct_witness :
    exampleState.Ready 1 ∧ exampleState.Live 0 ∧ exampleState.Live 1 ∧
    Bytes (tapeOf [9, 9]) ∧
    ∃ result code c1 t1, equal 0 1 exampleState = .ok (result, c1) ∧
      c1.d_codeBuffer = exampleState.d_codeBuffer ++ code ∧
      Runs code ⟨tapeOf [9, 9], exampleState.d_pointer⟩ ⟨t1, c1.d_pointer⟩ ∧
      t1 result = (if tapeOf [9, 9] 0 = tapeOf [9, 9] 1 then 1 else 0) ∧
      t1 0 = tapeOf [9, 9] 0 ∧ t1 1 = tapeOf [9, 9] 1 :=
  ⟨And.intro (by decide) (by decide), rfl, rfl, tapeOf_bytes _,
    equal_correct exampleState 0 1 (tapeOf [9, 9]) (And.intro (by decide) (by decide)) rfl rfl
      (tapeOf_bytes _)⟩

/-- C6: for all byte values `a` at `lhs` and `b` at `rhs`, the texts emitted by
`greater`, `less`, `greaterOrEqual`, `lessOrEqual` and `notEqual` terminate
with the result cell holding exactly 1 when `a > b`, `a < b`, `a ≥ b`,
`a ≤ b`, `a ≠ b` respectively, and exactly 0 otherwise. -/
theorem comparisons_correct (c : Compiler) (lhs rhs : Int) (t : Int → Nat) (hr : c.Ready 1)
    (hl : c.Live lhs) (hrh : c.Live rhs) (hb : Bytes t) :
    (∃ result code c1 t1, greater lhs rhs c = .ok (result, c1) ∧
      c1.d_codeBuffer = c.d_codeBuffer ++ code ∧
      Runs code ⟨t, c.d_pointer⟩ ⟨t1, c1.d_pointer⟩ ∧
      t1 result = (if t lhs > t rhs then 1 else 0)) ∧
    (∃ result code c1 t1, less lhs rhs c = .ok (result, c1) ∧
      c1.d_codeBuffer = c.d_codeBuffer ++ code ∧
      Runs code ⟨t, c.d_pointer⟩ ⟨t1, c1.d_pointer⟩ ∧
      t1 result = (if t lhs < t rhs then 1 else 0)) ∧
    (∃ result code c1 t1, greaterOrEqual lhs rhs c = .ok (result, c1) ∧
      c1.d_codeBuffer = c.d_codeBuffer ++ code ∧
      Runs code ⟨t, c.d_pointer⟩ ⟨t1, c1.d_pointer⟩ ∧
      t1 result = (if t lhs ≥ t rhs then 1 else 0)) ∧
    (∃ result code c1 t1, lessOrEqual lhs rhs c = .ok (result, c1) ∧
      c1.d_codeBuffer = c.d_codeBuffer ++ code ∧
      Runs code ⟨t, c.d_pointer⟩ ⟨t1, c1.d_pointer⟩ ∧
      t1 result = (if t lhs ≤ t rhs then 1 else 0)) ∧
    (∃ result code c1 t1, notEqual lhs rhs c = .ok (result, c1) ∧
      c1.d_codeBuffer = c.d_codeBuffer ++ code ∧
      Runs code ⟨t, c.d_pointer⟩ ⟨t1, c1.d_pointer⟩ ∧
      t1 result = (if t lhs ≠ t rhs then 1 else 0)) := by
  refine ⟨?_, ?_, ?_, ?_, ?_⟩
  · obtain ⟨result, code, c1, h, hcb, sem⟩ :=
      Compiler.bf_greater_binSpec.computes c lhs rhs hr hl hrh
    obtain ⟨t1, run, v, _, _⟩ := sem t hb
    exact ⟨result, code, c1, t1, h, hcb, run, v⟩
  · obtain ⟨result, code, c1, h, hcb, sem⟩ :=
      Compiler.bf_less_binSpec.computes c lhs rhs hr hl hrh
    obtain ⟨t1, run, v, _, _⟩ := sem t hb
    exact ⟨result, code, c1, t1, h, hcb, run, v⟩
  · obtain ⟨result, code, c1, h, hcb, sem⟩ :=
      Compiler.bf_greaterOrEqual_binSpec.computes c lhs rhs hr hl hrh
    obtain ⟨t1, run, v, _, _⟩ := sem t hb
    exact ⟨result, code, c1, t1, h, hcb, run, v⟩
  · obtain ⟨result, code, c1, h, hcb, sem⟩ :=
      Compiler.bf_lessOrEqual_binSpec.computes c lhs rhs hr hl hrh
    obtain ⟨t1, run, v, _, _⟩ := sem t hb
    exact ⟨result, code, c1, t1, h, hcb, run, v⟩
  · obtain ⟨result, code, c1, h, hcb, sem⟩ :=
      Compiler.bf_notEqual_binSpec.computes c lhs rhs hr hl hrh
    obtain ⟨t1, run, v, _, _⟩ := sem t hb
    refine ⟨result, code, c1, t1, h, hcb, run, ?_⟩
    rw [v]
    by_cases e : t lhs = t rhs <;> simp [e]

theorem comparisons_correct_witness :
    exampleState.Ready 1 ∧ exampleState.Live 0 ∧ exampleState.Live 1 ∧
    Bytes (tapeOf [200, 13]) ∧
    ((∃ result code c1 t1, greater 0 1 exampleState = .ok (result, c1) ∧
      c1.d_codeBuffer = exampleState.d_codeBuffer ++ code ∧
      Runs code ⟨tapeOf [200, 13], exampleState.d_pointer⟩ ⟨t1, c1.d_pointer⟩ ∧
      t1 result = (if tapeOf [200, 13] 0 > tapeOf [200, 13] 1 then 1 else 0)) ∧
    (∃ result code c1 t1, less 0 1 exampleState = .ok (result, c1) ∧
      c1.d_codeBuffer = exampleState.d_codeBuffer ++ code ∧
      Runs code ⟨tapeOf [200, 13], exampleState.d_pointer⟩ ⟨t1, c1.d_pointer⟩ ∧
      t1 result = (if tapeOf [200, 13] 0 < tapeOf [200, 13] 1 then 1 else 0)) ∧
    (∃ result code c1 t1, greaterOrEqual 0 1 exampleState = .ok (result, c1) ∧
      c1.d_codeBuffer = exampleState.d_codeBuffer ++ code ∧
      Runs code ⟨tapeOf [200, 13], exampleState.d_pointer⟩ ⟨t1, c1.d_pointer⟩ ∧
      t1 result = (if tapeOf [200, 13] 0 ≥ tapeOf [200, 13] 1 then 1 else 0)) ∧
    (∃ result code c1 t1, lessOrEqual 0 1 exampleState = .ok (result, c1) ∧
      c1.d_codeBuffer = exampleState.d_codeBuffer ++ code ∧
      Runs code ⟨tapeOf [200, 13], exampleState.d_pointer⟩ ⟨t1, c1.d_pointer⟩ ∧
      t1 result = (if tapeOf [200, 13] 0 ≤ tapeOf [200, 13] 1 then 1 else 0)) ∧
    (∃ result code c1 t1, notEqual 0 1 exampleState = .ok (result, c1) ∧
      c1.d_codeBuffer = exampleState.d_codeBuffer ++ code ∧
      Runs code ⟨tapeOf [200, 13], exampleState.d_pointer⟩ ⟨t1, c1.d_pointer⟩ ∧
      t1 result = (if tapeOf [200, 13] 0 ≠ tapeOf [200, 13] 1 then 1 else 0))) :=
  ⟨And.intro (by decide) (by decide), rfl, rfl, tapeOf_bytes _,
    comparisons_correct exampleState 0 1 (tapeOf [200, 13])
      (And.intro (by decide) (by decide)) rfl rfl (tapeOf_bytes _)⟩

/-- C7: for all `a` and `b`, the text emitted for
`assign(x, add(constVal(a), constVal(b)))`, with `x` an allocated one-cell
variable, terminates on every tape of bytes, the zero-initialised one
included, with the cell of `x` holding `(a + b) % 256`. -/
theorem assignSum_correct (c : Compiler) (x : Int) (a b : Nat) (t : Int → Nat)
    (hr : c.Ready 1) (hx : c.Live x)
    (hsz : Memory.sizeOf c.typeMap c.d_memory x = .ok 1) (hb : Bytes t) :
    ∃ code c1 t1, assignSum x a b c = .ok (x, c1) ∧
      c1.d_codeBuffer = c.d_codeBuffer ++ code ∧
      Runs code ⟨t, c.d_pointer⟩ ⟨t1, c1.d_pointer⟩ ∧ t1 x = (a + b) % 256 := by
  obtain ⟨code, c1, h, hcb, sem⟩ := Compiler.assignSum_spec c x a b hr hx hsz
  obtain ⟨t1, run, v⟩ := sem t hb
  exact ⟨code, c1, t1, h, hcb, run, v⟩

theorem assignSum_correct_witness :
    exampleState.Ready 1 ∧ exampleState.Live 0 ∧
    Memory.sizeOf exampleState.typeMap exampleState.d_memory 0 = .ok 1 ∧
    Bytes (fun _ => 0) ∧
    ∃ code c1 t1, assignSum 0 3 4 exampleState = .ok (0, c1) ∧
      c1.d_codeBuffer = exampleState.d_codeBuffer ++ code ∧
      Runs code ⟨fun _ => 0, exampleState.d_pointer⟩ ⟨t1, c1.d_pointer⟩ ∧ t1 0 = 7 :=
  ⟨And.intro (by decide) (by decide), rfl, rfl, fun _ => (by show (0 : Nat) < 256; decide),
    assignSum_correct exampleState 0 3 4 (fun _ => 0) (And.intro (by decide) (by decide)) rfl
      rfl (fun _ => (by show (0 : Nat) < 256; decide))⟩

/-- C8, the failing case: on an array of 254 cells `fetchElement` requests a
buffer of `254 + 2` cells through the `uint8_t` parameter of `allocateTemp`,
that is of 0 cells, and the call does not return: no text for the round trip
is emitted. -/
theorem fetchElement_size_254 (c : Compiler) (ident : String) (index arr : Int)
    (haddr : addressOf ident c = .ok (arr, c))
    (hsz : Memory.sizeOf c.typeMap c.d_memory arr = .ok 254) :
    ∃ e, fetchElement ident index c = .error e ∧
      applyUnaryFunctionToElement ident index (fun a => pure a) c = .error e := by
  obtain ⟨e, he⟩ := Compiler.fetchElement_254 c ident index arr haddr hsz
  refine ⟨e, he, ?_⟩
  simp [applyUnaryFunctionToElement, he]

set_option maxRecDepth 10000 in
theorem fetchElement_size_254_witness :
    addressOf "arr" (arrayState 254) = .ok (0, arrayState 254) ∧
    Memory.sizeOf (arrayState 254).typeMap (arrayState 254).d_memory 0 = .ok 254 ∧
    ∃ e, fetchElement "arr" 254 (arrayState 254) = .error e ∧
      applyUnaryFunctionToElement "arr" 254 (fun a => pure a) (arrayState 254) = .error e :=
  ⟨rfl, rfl, fetchElement_size_254 (arrayState 254) "arr" 254 0 rfl rfl⟩

/-- C9: for an array `arr` of `sz` allocated cells whose buffer request
`sz + 2` fits the `uint8_t` parameter of `allocateTemp` (so that the scratch
buffer has `sz + 2` cells), and an index cell holding `i < sz`, the text
emitted by `fetchElement(arr, index)` terminates with the returned cell
holding the original value of `arr[i]`, with every array cell and the index
cell unchanged, and with the data pointer on the synthesizer's cursor. -/
theorem fetchElement_correct (c : Compiler) (ident : String) (index arr : Int) (sz : Nat)
    (t : Int → Nat) (hr : c.Ready (sz + 2)) (haddr : addressOf ident c = .ok (arr, c))
    (hsz : Memory.sizeOf c.typeMap c.d_memory arr = .ok sz) (hbuf : sz + 2 < 256)
    (harr : ∀ j : Nat, j < sz → c.Live (arr + j)) (hidx : c.Live index) (hb : Bytes t)
    (hi : t index < sz) :
    ∃ ret code c1 t1, fetchElement ident index c = .ok (ret, c1) ∧
      c1.d_codeBuffer = c.d_codeBuffer ++ code ∧
      Runs code ⟨t, c.d_pointer⟩ ⟨t1, c1.d_pointer⟩ ∧
      t1 ret = t (arr + t index) ∧ (∀ j : Nat, j < sz → t1 (arr + j) = t (arr + j)) ∧
      t1 index = t index := by
  obtain ⟨ret, code, c1, h, _, hcb, _, _, sem⟩ :=
    Compiler.fetchElement_spec c ident index arr sz hr haddr hsz hbuf harr hidx
  obtain ⟨t1, run, v, f⟩ := sem t hb hi
  exact ⟨ret, code, c1, t1, h, hcb, run, v, fun j hj => f _ (Or.inl (harr j hj)),
    f _ (Or.inl hidx)⟩

theorem fetchElement_correct_witness :
    (arrayState 3).Ready (3 + 2) ∧ addressOf "arr" (arrayState 3) = .ok (0, arrayState 3) ∧
    Memory.sizeOf (arrayState 3).typeMap (arrayState 3).d_memory 0 = .ok 3 ∧ 3 + 2 < 256 ∧
    (∀ j : Nat, j < 3 → (arrayState 3).Live (0 + j)) ∧ (arrayState 3).Live 3 ∧
    Bytes (tapeOf [10, 20, 30, 2, 77]) ∧ tapeOf [10, 20, 30, 2, 77] 3 < 3 ∧
    tapeOf [10, 20, 30, 2, 77] (0 + tapeOf [10, 20, 30, 2, 77] 3) = 30 ∧
    ∃ ret code c1 t1, fetchElement "arr" 3 (arrayState 3) = .ok (ret, c1) ∧
      c1.d_codeBuffer = (arrayState 3).d_codeBuffer ++ code ∧
      Runs code ⟨tapeOf [10, 20, 30, 2, 77], (arrayState 3).d_pointer⟩ ⟨t1, c1.d_pointer⟩ ∧
      t1 ret = tapeOf [10, 20, 30, 2, 77] (0 + tapeOf [10, 20, 30, 2, 77] 3) ∧
      (∀ j : Nat, j < 3 → t1 (0 + j) = tapeOf [10, 20, 30, 2, 77] (0 + j)) ∧
      t1 3 = tapeOf [10, 20, 30, 2, 77] 3 :=
  ⟨And.intro (by decide) (by decide), rfl, rfl, by decide,
    fun j hj => by interval_cases j <;> rfl, rfl, tapeOf_bytes _, by decide, by decide,
    fetchElement_correct (arrayState 3) "arr" 3 0 3 (tapeOf [10, 20, 30, 2, 77])
      (And.intro (by decide) (by decide)) rfl rfl (by decide)
      (fun j hj => by interval_cases j <;> rfl) rfl (tapeOf_bytes _) (by decide)⟩

/-- C10: for an array `arr` of `sz` allocated cells whose buffer request
`sz + 2` fits the `uint8_t` parameter of `allocateTemp` (so that the scratch
buffer has `sz + 2` cells), an index cell holding `i < sz` that is not the
element `arr[i]` itself, and an `rhs` cell holding `v`, the text emitted by
`assignElement(arr, index, rhs)` terminates with `arr[i]` holding `v`, and
with every other array cell, the index cell and the `rhs` cell unchanged. -/
theorem assignElement_correct (c : Compiler) (ident : String) (index rhs arr : Int)
    (sz : Nat) (t : Int → Nat) (hr : c.Ready (sz + 2))
    (haddr : addressOf ident c = .ok (arr, c))
    (hsz : Memory.sizeOf c.typeMap c.d_memory arr = .ok sz) (hbuf : sz + 2 < 256)
    (harr : ∀ j : Nat, j < sz → c.Live (arr + j)) (hidx : c.Live index)
    (hrhs : c.Live rhs) (hb : Bytes t) (hi : t index < sz) (hne : index ≠ arr + t index) :
    ∃ code c1 t1, assignElement ident index rhs c = .ok (rhs, c1) ∧
      c1.d_codeBuffer = c.d_codeBuffer ++ code ∧
      Runs code ⟨t, c.d_pointer⟩ ⟨t1, c1.d_pointer⟩ ∧
      t1 (arr + t index) = t rhs ∧
      (∀ j : Nat, j < sz → j ≠ t index → t1 (arr + j) = t (arr + j)) ∧
      t1 index = t index ∧ t1 rhs = t rhs := by
  obtain ⟨code, c1, h, _, hcb, sem⟩ :=
    Compiler.assignElement_spec c ident index rhs arr sz hr haddr hsz (by omega) hbuf harr hidx
      hrhs
  obtain ⟨t1, run, v, f⟩ := sem t hb hi
  refine ⟨code, c1, t1, h, hcb, run, v, ?_, f _ (Or.inl hidx) hne, ?_⟩
  · intro j hj hji
    exact f _ (Or.inl (harr j hj)) (by omega)
  · by_cases e : rhs = arr + t index
    · rw [e, v, ← e]
    · exact f _ (Or.inl hrhs) e

theorem assignElement_correct_witness :
    (arrayState 3).Ready (3 + 2) ∧ addressOf "arr" (arrayState 3) = .ok (0, arrayState 3) ∧
    Memory.sizeOf (arrayState 3).typeMap (arrayState 3).d_memory 0 = .ok 3 ∧ 3 + 2 < 256 ∧
    (∀ j : Nat, j < 3 → (arrayState 3).Live (0 + j)) ∧ (arrayState 3).Live 3 ∧
    (arrayState 3).Live 4 ∧ Bytes (tapeOf [10, 20, 30, 2, 77]) ∧
    tapeOf [10, 20, 30, 2, 77] 3 < 3 ∧ (3 : Int) ≠ 0 + tapeOf [10, 20, 30, 2, 77] 3 ∧
    tapeOf [10, 20, 30, 2, 77] 4 = 77 ∧
    ∃ code c1 t1, assignElement "arr" 3 4 (arrayState 3) = .ok (4, c1) ∧
      c1.d_codeBuffer = (arrayState 3).d_codeBuffer ++ code ∧
      Runs code ⟨tapeOf [10, 20, 30, 2, 77], (arrayState 3).d_pointer⟩ ⟨t1, c1.d_pointer⟩ ∧
      t1 (0 + tapeOf [10, 20, 30, 2, 77] 3) = tapeOf [10, 20, 30, 2, 77] 4 ∧
      (∀ j : Nat, j < 3 → j ≠ tapeOf [10, 20, 30, 2, 77] 3 →
        t1 (0 + j) = tapeOf [10, 20, 30, 2, 77] (0 + j)) ∧
      t1 3 = tapeOf [10, 20, 30, 2, 77] 3 ∧ t1 4 = tapeOf [10, 20, 30, 2, 77] 4 :=
  ⟨And.intro (by decide) (by decide), rfl, rfl, by decide,
    fun j hj => by interval_cases j <;> rfl, rfl, rfl, tapeOf_bytes _, by decide, by decide,
    by decide,
    assignElement_correct (arrayState 3) "arr" 3 4 0 3 (tapeOf [10, 20, 30, 2, 77])
      (And.intro (by decide) (by decide)) rfl rfl (by decide)
      (fun j hj => by interval_cases j <;> rfl) rfl rfl (tapeOf_bytes _) (by decide)
      (by decide)⟩

/-! ## The allocator -/

/-- C13, the failing case: for the struct type `S` with one byte field at
offset 0, `allocate("s", "main", S)` on an empty tape of four cells returns
address 0, and the same call right after it returns the fresh address 1, not
the sentinel -1: `place` clears the base cell again when it lays out the
field at offset 0, so the name is not on the tape. -/
theorem allocate_twice_struct :
    ∃ m1 m2, allocate structMap (Memory.init 4) "s" "main" (.struct "S") = .ok (0, m1) ∧
      allocate structMap m1 "s" "main" (.struct "S") = .ok (1, m2) ∧
      find m1 "s" "main" = -1 :=
  ⟨_, _, rfl, rfl, rfl⟩

/-- C14, the failing case: `x` is allocated in scope `f` (address 0), then a
global `x` is allocated (address 1); after `freeLocals("f")` the call
`allocate("x", "f", 1)` returns -1, because the global cell is visible from
`f` under the prefix rule of `find`. -/
theorem freeLocals_allocate_global :
    (do
      let (a1, m1) ← allocate [] (Memory.init 4) "x" "f" (.int 1)
      let (a2, m2) ← allocate [] m1 "x" "" (.int 1)
      let m3 ← freeLocals [] m2 "f"
      let (a4, _) ← allocate [] m3 "x" "f" (.int 1)
      pure (a1, a2, a4) : Except Err (Int × Int × Int)) = .ok (0, 1, -1) :=
  rfl

/-- C14, amended: when `freeLocals(scope)` returns and, for a non-empty name,
no cell registered under another scope carries the name under a prefix of
`scope` (such as a global of that name), then `allocate(name, scope, t)` for
every type `t` that can be laid out (an integer type of at least one cell, or
a registered struct type of at least one cell whose fields lie inside it and
are of the same kind), with `t.size()` at most the tape length, succeeds: it
returns a non-negative address `a` of `t.size()` cells inside the tape; for an
integer type the cell at `a` carries the name and the scope. -/
theorem freeLocals_then_allocate (tm : TypeMap) (m m1 : Memory) (name scope : String)
    (t : TSType) (ht : t.placeable tm tm.length = true)
    (hlen : t.size tm ≤ m.d_memory.length)
    (hfree : freeLocals tm m scope = .ok m1)
    (hother : name.isEmpty = false → ∀ (i : Nat) (cell : Cell), m.d_memory[i]? = some cell →
      cell.Matches name scope → cell.scope = scope) :
    ∃ (a : Nat) (m2 : Memory),
      allocate tm m1 name scope t = .ok ((a : Int), m2) ∧
      a + t.size tm ≤ m2.d_memory.length ∧
      ∀ N, t = .int N → ∃ cell, m2.d_memory[a]? = some cell ∧
        cell.identifier = name ∧ cell.scope = scope := by
  obtain ⟨hl, _, hcells⟩ := Memory.freeLocals_spec tm m m1 scope hfree
  have hfind : name.isEmpty = true ∨ find m1 name scope = -1 := by
    cases hid : name.isEmpty with
    | true => exact Or.inl rfl
    | false =>
      right
      have hne : name ≠ "" := by
        intro h
        rw [h] at hid
        cases hid
      apply Memory.find_eq_of_none
      intro i cell hc hm
      rcases hcells i cell hc with e | ⟨e1, e2⟩
      · exact hne (hm.2.symm.trans e)
      · exact e2 (hother hid i cell e1 hm)
  obtain ⟨a, k, cells1, h, _, hin, _⟩ :=
    Memory.allocate_ok tm m1 name scope t ht (by rw [hl]; exact hlen) hfind
  refine ⟨a, _, h, hin, ?_⟩
  intro N hN
  subst hN
  have hN1 : 0 < N := by simpa [TSType.placeable] using ht
  obtain ⟨a2, k2, cells2, cell, h2, _, _, _, _, _, hcell, _, _⟩ :=
    Memory.allocate_int_ok tm m1 name scope N hN1 (by rw [hl]; exact hlen) hfind
  rw [h] at h2
  have e := Except.ok.inj h2
  have ea : a = a2 := by
    have := congrArg Prod.fst e
    simpa using this
  have em : cells1 = cells2 := by
    have := congrArg (fun r : Int × Memory => r.2.d_memory) e
    simpa using this
  subst ea em
  exact ⟨_, hcell, rfl, rfl⟩

/-- The struct type `P` of `pairMap`, three cells with a nested struct, after
the variable `x` of the function `f` has been released. -/
theorem freeLocals_then_allocate_witness :
    (TSType.struct "P").placeable pairMap pairMap.length = true ∧
    (TSType.struct "P").size pairMap ≤ localTape.d_memory.length ∧
    freeLocals pairMap localTape "f" = .ok (Memory.init 4) ∧
    ("x".isEmpty = false → ∀ (i : Nat) (cell : Cell), localTape.d_memory[i]? = some cell →
      cell.Matches "x" "f" → cell.scope = "f") ∧
    ∃ (a : Nat) (m2 : Memory),
      allocate pairMap (Memory.init 4) "x" "f" (.struct "P") = .ok ((a : Int), m2) ∧
      a + (TSType.struct "P").size pairMap ≤ m2.d_memory.length ∧
      ∀ N, TSType.struct "P" = .int N → ∃ cell, m2.d_memory[a]? = some cell ∧
        cell.identifier = "x" ∧ cell.scope = "f" :=
  have hother : "x".isEmpty = false → ∀ (i : Nat) (cell : Cell),
      localTape.d_memory[i]? = some cell → cell.Matches "x" "f" → cell.scope = "f" := by
    intro _ i cell h hm
    rcases i with _ | _ | _ | _ | i
    · cases h
      rfl
    · cases h
      exact absurd hm.2 (by decide)
    · cases h
      exact absurd hm.2 (by decide)
    · cases h
      exact absurd hm.2 (by decide)
    · cases h
  ⟨rfl, by decide, rfl, hother,
    freeLocals_then_allocate pairMap localTape (Memory.init 4) "x" "f" (.struct "P") rfl
      (by decide) rfl hother⟩

/-- C15: `find(identifier, scope)` returns -1 exactly when no cell of the
tape has the identifier and a recorded scope that is a prefix of the query
scope; otherwise it returns the index of such a cell, and no cell below that
index is one. -/
theorem find_lowest_match (m : Memory) (ident scope : String) :
    (find m ident scope = -1 ↔
      ¬ ∃ (i : Nat) (cell : Cell), m.d_memory[i]? = some cell ∧
          cell.identifier = ident ∧ cell.scope.toList <+: scope.toList) ∧
    (find m ident scope = -1 ∨
      ∃ (i : Nat) (cell : Cell), find m ident scope = (i : Int) ∧
        m.d_memory[i]? = some cell ∧
        cell.identifier = ident ∧ cell.scope.toList <+: scope.toList ∧
        ¬ ∃ (j : Nat) (c : Cell), j < i ∧ m.d_memory[j]? = some c ∧
            c.identifier = ident ∧ c.scope.toList <+: scope.toList) := by
  rcases Memory.find_spec m ident scope with ⟨h1, h2⟩ | ⟨i, hi, cell, hc, hm, hlow⟩
  · refine ⟨⟨fun _ => ?_, fun _ => h1⟩, Or.inl h1⟩
    rintro ⟨i, cell, hc, hid, hp⟩
    exact h2 i cell hc ⟨hp, hid⟩
  · refine ⟨⟨fun h => ?_, fun h => ?_⟩, Or.inr ⟨i, cell, hi, hc, hm.2, hm.1, ?_⟩⟩
    · rw [hi] at h
      omega
    · exact absurd ⟨i, cell, hc, hm.2, hm.1⟩ h
    · rintro ⟨j, c, hj, hcj, hid, hp⟩
      exact hlow j c hj hcj ⟨hp, hid⟩

/-- C16, the failing case: a temporary and then `x` are allocated in scope
`f` (addresses 0 and 1), the temporary is freed, and the global `x` is
allocated (address 0, the first free cell); `find("x", "f")` then returns 0,
the address of the global cell, not 1. -/
theorem find_global_below_local :
    (do
      let (t, m1) ← getTemp [] (Memory.init 4) "f" 1
      let (l, m2) ← allocate [] m1 "x" "f" (.int 1)
      let m3 ← freeTemps [] m2 "f"
      let (g, m4) ← allocate [] m3 "x" "" (.int 1)
      pure (t, l, g, find m4 "x" "f") : Except Err (Int × Int × Int × Int)) =
      .ok (0, 1, 0, 0) :=
  rfl

/-- C16, amended: when the cell at `g` carries identifier `x` under the global
scope, the cell at `l` carries `x` under scope `f`, and no other cell carries
`x` under a prefix of `f`, then `find(x, f)` returns the lower of the two
addresses: the cell registered under `f` exactly when it does not lie above
the global one. -/
theorem find_local_or_global (m : Memory) (x f : String) (g l : Nat) (cg cl : Cell)
    (hg : m.d_memory[g]? = some cg) (hl : m.d_memory[l]? = some cl)
    (hcg : cg.identifier = x ∧ cg.scope = "") (hcl : cl.identifier = x ∧ cl.scope = f)
    (honly : ∀ (i : Nat) (c : Cell), m.d_memory[i]? = some c → c.Matches x f →
      i = g ∨ i = l) :
    find m x f = ((min g l : Nat) : Int) ∧ (find m x f = (l : Int) ↔ l ≤ g) := by
  have mg : cg.Matches x f := ⟨by rw [hcg.2]; exact List.nil_prefix, hcg.1⟩
  have ml : cl.Matches x f := ⟨by rw [hcl.2], hcl.1⟩
  rcases Memory.find_spec m x f with ⟨_, h2⟩ | ⟨i, hi, cell, hc, hm, hlow⟩
  · exact absurd mg (h2 g cg hg)
  · have h1 : i ≤ g := by
      by_contra hlt
      exact hlow g cg (by omega) hg mg
    have h2 : i ≤ l := by
      by_contra hlt
      exact hlow l cl (by omega) hl ml
    have h3 := honly i cell hc hm
    have hmin : i = min g l := by omega
    refine ⟨by rw [hi, hmin], ?_⟩
    rw [hi]
    constructor
    · intro h
      omega
    · intro h
      have : i = l := by omega
      rw [this]

theorem find_local_or_global_witness :
    shadowTape.d_memory[1]? = some
      { identifier := "x", scope := "", content := .REFERENCED, type := .int 1,
        d_backupStack := [] } ∧
    shadowTape.d_memory[0]? = some
      { identifier := "x", scope := "f", content := .NAMED, type := .int 1,
        d_backupStack := [] } ∧
    (∀ (i : Nat) (c : Cell), shadowTape.d_memory[i]? = some c → c.Matches "x" "f" →
      i = 1 ∨ i = 0) ∧
    find shadowTape "x" "f" = ((min 1 0 : Nat) : Int) ∧
    (find shadowTape "x" "f" = ((0 : Nat) : Int) ↔ 0 ≤ 1) :=
  have honly : ∀ (i : Nat) (c : Cell), shadowTape.d_memory[i]? = some c →
      c.Matches "x" "f" → i = 1 ∨ i = 0 := by
    intro i c h _
    rcases i with _ | _ | i
    · exact Or.inr rfl
    · exact Or.inl rfl
    · cases h
  ⟨rfl, rfl, honly,
    find_local_or_global shadowTape "x" "f" 1 0 _ _ rfl rfl ⟨rfl, rfl⟩ ⟨rfl, rfl⟩ honly⟩

/-- C17, the failing case: for the struct type `S` with one byte field at
offset 0, `allocate("s", "main", S)` on an empty tape of four cells succeeds
with address 0, and afterwards the cell at 0 carries no identifier, no scope
and the type of the field instead of `S`. -/
theorem allocate_struct_layout :
    ∃ m1, allocate structMap (Memory.init 4) "s" "main" (.struct "S") = .ok (0, m1) ∧
      m1.d_memory[0]? = some
        { identifier := "", scope := "", content := .REFERENCED, type := .int 1,
          d_backupStack := [] } :=
  ⟨_, rfl, rfl⟩

/-- C18, the failing case: `getTemp("", 1)` on an empty tape of four cells
returns address 0 and `isTemp(0)` is false afterwards: `place` tags a cell of
the global scope as referenced. -/
theorem getTemp_global_scope :
    ∃ m1, getTemp [] (Memory.init 4) "" 1 = .ok (0, m1) ∧ isTemp m1 0 = .ok false :=
  ⟨_, rfl, rfl⟩

/-- C18, amended: on a tape of at least `size` cells and for `size ≥ 1`,
`getTemp(scope, size)` returns a non-negative address whose cell afterwards
has an empty identifier and the given scope; its content tag is the temporary
one, and `isTemp(address)` is true, exactly when the scope is not the global
scope, for which the tag is the referenced one. -/
theorem getTemp_layout (tm : TypeMap) (m : Memory) (scope : String) (size : Nat)
    (hsz : 1 ≤ size) (hlen : size ≤ m.d_memory.length) :
    ∃ (a : Nat) (m1 : Memory) (cell : Cell),
      getTemp tm m scope size = .ok ((a : Int), m1) ∧
      m1.d_memory[a]? = some cell ∧ cell.identifier = "" ∧ cell.scope = scope ∧
      cell.content = (if scope.isEmpty then Content.REFERENCED else Content.TEMP) ∧
      isTemp m1 a = .ok (!scope.isEmpty) := by
  obtain ⟨a, k, cells1, cell, h, _, hl1, hrun, _, _, hcell, _, _⟩ :=
    Memory.allocate_int_ok tm m "" scope size hsz hlen (Or.inl rfl)
  have he : "".isEmpty = true := rfl
  refine ⟨a, _, _, h, hcell, rfl, rfl, by simp [he], ?_⟩
  have hlt : a < cells1.length := by
    have := hrun.1
    simp only [List.length_append, List.length_replicate] at this
    omega
  have hnot : ¬ ((a : Int) < 0 ∨ (cells1.length : Int) ≤ (a : Int)) := by omega
  simp only [isTemp, hnot, if_false, Int.toNat_ofNat, hcell]
  cases scope.isEmpty <;> simp [he]

theorem getTemp_layout_witness :
    1 ≤ 2 ∧ 2 ≤ localTape.d_memory.length ∧
    ∃ (a : Nat) (m1 : Memory) (cell : Cell),
      getTemp [] localTape "f" 2 = .ok ((a : Int), m1) ∧
      m1.d_memory[a]? = some cell ∧ cell.identifier = "" ∧ cell.scope = "f" ∧
      cell.content = (if "f".isEmpty then Content.REFERENCED else Content.TEMP) ∧
      isTemp m1 a = .ok (!"f".isEmpty) :=
  ⟨by decide, by decide, getTemp_layout [] localTape "f" 2 (by decide) (by decide)⟩

/-- C19: for a tape of at least `size` cells and `size ≥ 1`, `findFree(size)`
returns an address `a` such that the cells `a .. a+size-1` lie inside the
resulting tape and are all empty, and no lower address starts such a run of
the resulting tape. -/
theorem findFree_first_fit (m : Memory) (size : Nat) (hsz : 1 ≤ size)
    (hlen : size ≤ m.d_memory.length) :
    ∃ (a : Nat) (m1 : Memory), findFree m size = .ok (a, m1) ∧
      FreeRun m1.d_memory a size ∧ ∀ b, b < a → ¬ FreeRun m1.d_memory b size := by
  obtain ⟨a, k, h, hrun, hmin⟩ := Memory.findFree_spec m size hsz hlen
  exact ⟨a, _, h, hrun, hmin⟩

theorem findFree_first_fit_witness :
    1 ≤ 2 ∧ 2 ≤ localTape.d_memory.length ∧
    ∃ (a : Nat) (m1 : Memory), findFree localTape 2 = .ok (a, m1) ∧
      FreeRun m1.d_memory a 2 ∧ ∀ b, b < a → ¬ FreeRun m1.d_memory b 2 :=
  ⟨by decide, by decide, findFree_first_fit localTape 2 (by decide) (by decide)⟩

/-- C20, the failing cases: on a tape of one empty cell `findFree(1)` returns
address 0 and the tape has two cells afterwards, although the tape held a run
of one empty cell; on a tape of one occupied cell `findFree(1)` returns
address 1 and the tape has three cells afterwards, two more than before. The
last window of the tape is never tested by the loop `start != size - sz`. -/
theorem findFree_growth :
    (FreeRun (Memory.init 1).d_memory 0 1 ∧
      findFree (Memory.init 1) 1 = .ok (0, Memory.init 2)) ∧
    ((∀ a, ¬ FreeRun [namedCell "x"] a 1) ∧
      findFree { d_memory := [namedCell "x"], d_protectedStack := [] } 1 =
        .ok (1, { d_memory := [namedCell "x", Cell.mk0, Cell.mk0],
                  d_protectedStack := [] })) := by
  refine ⟨⟨⟨by decide, ?_⟩, rfl⟩, ⟨?_, rfl⟩⟩
  · intro i hi
    have : i = 0 := by omega
    subst this
    exact ⟨_, rfl, rfl⟩
  · rintro a ⟨h1, h2⟩
    have : a = 0 := by
      simp only [List.length_singleton] at h1
      omega
    subst this
    obtain ⟨cell, hc, he⟩ := h2 0 (by decide)
    cases hc
    cases he

/-! ## Control flow -/

/-- C11: `ifStatement`, once its condition has returned the allocated cell
`cond`, for branch thunks that, in the states in which `ifStatement` invokes
them, keep `cond` and the cell `elseCond` of the negated condition intact and
the data pointer on the cursor: the call returns; the true branch is invoked
in the state `ifEntry` leaves and the false branch in the state `ifBetween`
leaves; the text appended after the condition's is the negation, a bracketed
region around the text `codeT` of the true branch guarded by `cond`, and a
bracketed region around the text `codeE` of the false branch guarded by
`elseCond`.  Run on any tape of bytes, the region of the true branch makes
exactly one round and that of the false branch none when `cond` holds a
nonzero value; when `cond` holds 0 the region of the true branch makes no
round and that of the false branch exactly one. -/
theorem ifStatement_branches (c c1 : Compiler) (condition ifBody elseBody : Instruction)
    (cond : Int) (hcond : condition c = .ok (cond, c1)) (hcs : c1.d_callStack ≠ [])
    (hlive : c1.Live cond)
    (hT : ∀ e cA, ifEntry cond c1 = .ok (e, cA) → KeepsAt ifBody [cond, e] cA)
    (hE : ∀ e cA rT cB cC, ifEntry cond c1 = .ok (e, cA) → ifBody cA = .ok (rT, cB) →
      ifBetween cond e cB = .ok ((), cC) → KeepsAt elseBody [cond, e] cC) :
    ∃ (elseCond rT rE : Int) (codeN codeT codeE : Code) (cA cB cC cD cF : Compiler),
      ifStatement condition ifBody elseBody c = .ok (-1, cF) ∧
      ifEntry cond c1 = .ok (elseCond, cA) ∧
      ifBody cA = .ok (rT, cB) ∧ cB.d_codeBuffer = cA.d_codeBuffer ++ codeT ∧
      ifBetween cond elseCond cB = .ok ((), cC) ∧
      elseBody cC = .ok (rE, cD) ∧ cD.d_codeBuffer = cC.d_codeBuffer ++ codeE ∧
      cF.d_codeBuffer = c1.d_codeBuffer ++ (codeN ++ mvCode elseCond cond ++
        loopC (codeT ++ (mvCode cB.d_pointer cond ++ ['[', '-', ']'])) ++
        mvCode cond elseCond ++
        loopC (codeE ++ (mvCode cD.d_pointer elseCond ++ ['[', '-', ']']))) ∧
      ∀ t, Bytes t → ∃ s1 s2 s3 s4 : Machine,
        Runs (codeN ++ mvCode elseCond cond) ⟨t, c1.d_pointer⟩ s1 ∧
        s1.tape cond = t cond ∧
        Rounds (codeT ++ (mvCode cB.d_pointer cond ++ ['[', '-', ']']))
          (if t cond = 0 then 0 else 1) s1 s2 ∧
        Runs (mvCode cond elseCond) s2 s3 ∧
        Rounds (codeE ++ (mvCode cD.d_pointer elseCond ++ ['[', '-', ']']))
          (if t cond = 0 then 1 else 0) s3 s4 ∧
        s4.ptr = cF.d_pointer := by
  have hr1 : c1.Ready 1 := hlive.ready_one hcs
  obtain ⟨e, codeN, c2, hnot, e12, hcb2, hp2, hfr, hlv, semN⟩ :=
    Compiler.logicalNot_spec c1 cond hr1 hlive
  have hne : cond ≠ e := hlive.ne hfr
  have h0c : 0 ≤ cond := hlive.nonneg
  have h0e : 0 ≤ e := hlv.nonneg
  have hnn : cond.toNat ≠ e.toNat := Compiler.toNat_ne h0c h0e hne
  -- the two pushes
  obtain ⟨cc, c3, hpush1, hcc, hm3, hps3, hst3, hp3, hcs3, hcb3, _⟩ :=
    Compiler.pushStack_spec c2 cond (e12.live hlive)
  have hlv3 : c3.Live e := by
    apply hlv.of_cell
    rw [hm3, List.getElem?_set_ne hnn]
  obtain ⟨ce, c4, hpush2, hce, hm4, hps4, hst4, hp4, hcs4, hcb4, _⟩ :=
    Compiler.pushStack_spec c3 e hlv3
  have hlt3 : cond.toNat < c2.d_memory.d_memory.length := (Memory.isLive_lt _ _ (e12.live hlive)).2
  have hlt4 : e.toNat < c3.d_memory.d_memory.length := (Memory.isLive_lt _ _ hlv3).2
  have hc4c : c4.d_memory.d_memory[cond.toNat]? = some cc.backup := by
    rw [hm4, List.getElem?_set_ne hnn.symm, hm3, List.getElem?_set_self hlt3]
  have hc4e : c4.d_memory.d_memory[e.toNat]? = some ce.backup := by
    rw [hm4, List.getElem?_set_self hlt4]
  -- the true branch
  obtain ⟨cA, hcA⟩ : ∃ s : Compiler, s =
      { c4 with d_pointer := cond,
                d_codeBuffer := c4.d_codeBuffer ++ mvCode c4.d_pointer cond ++ ['['] } :=
    ⟨_, rfl⟩
  have hentry : ifEntry cond c1 = .ok (e, cA) := by
    rw [hcA]
    simp only [ifEntry, Gen.run_bind, hnot, hpush1, hpush2, Compiler.bf_movePtr_run h0c,
      Compiler.emit_run, Gen.run_pure]
  obtain ⟨rT, codeT, cB, hB, hcbB, hcsB, hstB, hpsB, hcellB, semT⟩ := hT e cA hentry
  -- the false branch
  obtain ⟨cC, hcC⟩ : ∃ s : Compiler, s =
      { cB with d_pointer := e,
                d_codeBuffer := cB.d_codeBuffer ++
                  (mvCode cB.d_pointer cond ++ ['[', '-', ']'] ++
                    List.replicate (0 : Int).toNat '+') ++ [']'] ++ mvCode cond e ++ ['['] } :=
    ⟨_, rfl⟩
  have hBc : cB.d_memory.d_memory[cond.toNat]? = some cc.backup := by
    rw [hcellB cond (by simp), hcA]
    exact hc4c
  have hBe : cB.d_memory.d_memory[e.toNat]? = some ce.backup := by
    rw [hcellB e (by simp), hcA]
    exact hc4e
  have hbetween : ifBetween cond e cB = .ok ((), cC) := by
    rw [hcC]
    exact Compiler.ifBetween_run cB cond e h0c h0e
  obtain ⟨rE, codeE, cD, hD, hcbD, hcsD, hstD, hpsD, hcellD, semE⟩ :=
    hE e cA rT cB cC hentry hB hbetween
  -- the two pops
  have hDc : cD.d_memory.d_memory[cond.toNat]? = some cc.backup := by
    rw [hcellD cond (by simp), hcC]
    exact hBc
  have hDe : cD.d_memory.d_memory[e.toNat]? = some ce.backup := by
    rw [hcellD e (by simp), hcC]
    exact hBe
  obtain ⟨cE, hcE⟩ : ∃ s : Compiler, s =
      { cD with d_pointer := e,
                d_codeBuffer := cD.d_codeBuffer ++
                  (mvCode cD.d_pointer e ++ ['[', '-', ']'] ++
                    List.replicate (0 : Int).toNat '+') ++ [']'] } :=
    ⟨_, rfl⟩
  have hstE : cE.d_stack = e :: cond :: c2.d_stack := by
    rw [hcE]
    show cD.d_stack = _
    rw [hstD, hcC]
    show cB.d_stack = _
    rw [hstB, hcA]
    show c4.d_stack = _
    rw [hst4, hst3]
  have hpsE : cE.d_memory.d_protectedStack = e :: cond :: c2.d_memory.d_protectedStack := by
    rw [hcE]
    show cD.d_memory.d_protectedStack = _
    rw [hpsD, hcC]
    show cB.d_memory.d_protectedStack = _
    rw [hpsB, hcA]
    show c4.d_memory.d_protectedStack = _
    rw [hps4, hps3]
  obtain ⟨cF1, hpop1, hmF1, hpsF1, hstF1, hpF1, _, hcbF1, _⟩ :=
    Compiler.popStack_spec cE e (cond :: c2.d_stack) (cond :: c2.d_memory.d_protectedStack)
      ce hstE hpsE h0e (by rw [hcE]; exact hDe)
  obtain ⟨cF, hpop2, _, _, _, hpF, _, hcbF, _⟩ :=
    Compiler.popStack_spec cF1 cond c2.d_stack c2.d_memory.d_protectedStack cc hstF1 hpsF1
      h0c (by rw [hmF1, List.getElem?_set_ne hnn.symm, hcE]; exact hDc)
  refine ⟨e, rT, rE, codeN, codeT, codeE, cA, cB, cC, cD, cF, ?_, hentry, hB, hcbB, hbetween,
    hD, hcbD, ?_, ?_⟩
  · subst hcA hcC hcE
    simp only [ifStatement, Gen.run_bind, hcond, hnot, hpush1, hpush2,
      Compiler.bf_movePtr_run h0c, Compiler.bf_movePtr_run h0e, Compiler.emit_run, hB,
      Compiler.bf_setToValue_run h0c (le_refl 0), Compiler.bf_setToValue_run h0e (le_refl 0),
      hD, hpop1, hpop2, Gen.run_pure]
  · rw [hcbF, hcbF1, hcE]
    show cD.d_codeBuffer ++ _ ++ _ = _
    rw [hcbD, hcC]
    show cB.d_codeBuffer ++ _ ++ _ ++ _ ++ _ ++ _ ++ _ ++ _ = _
    rw [hcbB, hcA]
    show c4.d_codeBuffer ++ _ ++ _ ++ _ ++ _ ++ _ ++ _ ++ _ ++ _ ++ _ ++ _ = _
    rw [hcb4, hcb3, hcb2, hp4, hp3, hp2]
    simp [loopC]
  · intro t hb
    obtain ⟨tN, runN, vN, fN⟩ := semN t hb
    have hbN : Bytes tN := Runs.bytes runN hb
    have hpA : cA.d_pointer = cond := by rw [hcA]
    have hpC : cC.d_pointer = e := by rw [hcC]
    have hpFe : cF.d_pointer = e := by rw [hpF, hpF1, hcE]
    have hNc : tN cond = t cond := fN cond hlive
    have zT : ∀ tT : Int → Nat, Bytes tT →
        Runs (mvCode cB.d_pointer cond ++ ['[', '-', ']']) ⟨tT, cB.d_pointer⟩
          ⟨setCell tT cond 0, cond⟩ := by
      intro tT hbT
      simpa using Runs.setToValue tT cB.d_pointer cond 0 hbT
    have zE : ∀ tE : Int → Nat, Bytes tE →
        Runs (mvCode cD.d_pointer e ++ ['[', '-', ']']) ⟨tE, cD.d_pointer⟩
          ⟨setCell tE e 0, e⟩ := by
      intro tE hbE
      simpa using Runs.setToValue tE cD.d_pointer e 0 hbE
    by_cases hz : t cond = 0
    · rw [if_pos hz] at vN
      obtain ⟨tE, runE, _⟩ := semE tN hbN
      rw [hpC] at runE
      have hbE : Bytes tE := Runs.bytes runE hbN
      refine ⟨⟨tN, cond⟩, ⟨tN, cond⟩, ⟨tN, e⟩, ⟨setCell tE e 0, e⟩,
        runN.append (Runs.mv tN e cond), hNc, ?_, Runs.mv tN cond e, ?_, hpFe.symm⟩
      · rw [if_pos hz]
        exact ⟨by show tN cond = 0; rw [hNc, hz], rfl⟩
      · rw [if_pos hz]
        refine ⟨by show tN e ≠ 0; rw [vN]; norm_num, _, runE.append (zE tE hbE), ?_, rfl⟩
        show setCell tE e 0 e = 0
        rw [setCell_same]
    · rw [if_neg hz] at vN
      obtain ⟨tT, runT, keepT⟩ := semT tN hbN
      rw [hpA] at runT
      have hbT : Bytes tT := Runs.bytes runT hbN
      have hTe : tT e = 0 := by rw [keepT e (by simp), vN]
      refine ⟨⟨tN, cond⟩, ⟨setCell tT cond 0, cond⟩, ⟨setCell tT cond 0, e⟩,
        ⟨setCell tT cond 0, e⟩, runN.append (Runs.mv tN e cond), hNc, ?_,
        Runs.mv _ cond e, ?_, hpFe.symm⟩
      · rw [if_neg hz]
        refine ⟨by show tN cond ≠ 0; rw [hNc]; exact hz, _, runT.append (zT tT hbT), ?_, rfl⟩
        show setCell tT cond 0 cond = 0
        rw [setCell_same]
      · rw [if_neg hz]
        refine ⟨?_, rfl⟩
        show setCell tT cond 0 e = 0
        rw [setCell_other _ _ hne.symm, hTe]

/-- The statement `if (1) { x = 1; } else { x = 2; }` inside `main`, with
`x` at address 0: the condition puts the literal into the cell 4, and both
branches are statements `x = v;`. -/
theorem ifStatement_branches_witness :
    constVal 1 exampleState = .ok (4, condState) ∧
    condState.d_callStack ≠ [] ∧ condState.Live 4 ∧
    (∀ e cA, ifEntry 4 condState = .ok (e, cA) → KeepsAt (assignConst 0 1) [4, e] cA) ∧
    (∀ e cA rT cB cC, ifEntry 4 condState = .ok (e, cA) →
      assignConst 0 1 cA = .ok (rT, cB) → ifBetween 4 e cB = .ok ((), cC) →
      KeepsAt (assignConst 0 2) [4, e] cC) ∧
    ∃ (elseCond rT rE : Int) (codeN codeT codeE : Code) (cA cB cC cD cF : Compiler),
      ifStatement (constVal 1) (assignConst 0 1) (assignConst 0 2) exampleState =
        .ok (-1, cF) ∧
      ifEntry 4 condState = .ok (elseCond, cA) ∧
      assignConst 0 1 cA = .ok (rT, cB) ∧ cB.d_codeBuffer = cA.d_codeBuffer ++ codeT ∧
      ifBetween 4 elseCond cB = .ok ((), cC) ∧
      assignConst 0 2 cC = .ok (rE, cD) ∧ cD.d_codeBuffer = cC.d_codeBuffer ++ codeE ∧
      cF.d_codeBuffer = condState.d_codeBuffer ++ (codeN ++ mvCode elseCond 4 ++
        loopC (codeT ++ (mvCode cB.d_pointer 4 ++ ['[', '-', ']'])) ++
        mvCode 4 elseCond ++
        loopC (codeE ++ (mvCode cD.d_pointer elseCond ++ ['[', '-', ']']))) ∧
      ∀ t, Bytes t → ∃ s1 s2 s3 s4 : Machine,
        Runs (codeN ++ mvCode elseCond 4) ⟨t, condState.d_pointer⟩ s1 ∧
        s1.tape 4 = t 4 ∧
        Rounds (codeT ++ (mvCode cB.d_pointer 4 ++ ['[', '-', ']']))
          (if t 4 = 0 then 0 else 1) s1 s2 ∧
        Runs (mvCode 4 elseCond) s2 s3 ∧
        Rounds (codeE ++ (mvCode cD.d_pointer elseCond ++ ['[', '-', ']']))
          (if t 4 = 0 then 1 else 0) s3 s4 ∧
        s4.ptr = cF.d_pointer :=
  have hcs : condState.d_callStack ≠ [] := by decide
  have hb := Compiler.assignConst_branches condState 4 0 1 2 hcs rfl rfl (by decide) rfl
  ⟨rfl, hcs, rfl, hb.1, hb.2,
    ifStatement_branches exampleState condState (constVal 1) (assignConst 0 1)
      (assignConst 0 2) 4 rfl hcs rfl hb.1 hb.2⟩

/-- C12, the failing case: for `while (x)` and `for (init; x; increment)` on a
variable `x`, that is for a condition thunk that returns the address of `x`
both times, `cond1` and `cond2` are the same cell and the emitted assignment
is `bf_assign(x, x)`, which leaves 0 in `x`.  Entered with a nonzero `x`, and
with a body (and increment) that keeps `x`, so that the re-evaluated condition
is nonzero, the region is left after exactly one round, with 0 in `x`. -/
theorem loop_on_variable (c : Compiler) (x : Int)
    (init condition increment body : Instruction) (hcs : c.d_callStack ≠ []) (hx : c.Live x)
    (hc : ∀ s, condition s = .ok (x, s)) (hinit : Keeps init [x])
    (hincr : Keeps increment [x]) (hbody : Keeps body [x]) :
    (∃ (rB : Int) (codeB codeA : Code) (cA cB cB1 cF : Compiler),
      whileStatement condition body c = .ok (-1, cF) ∧
      body cA = .ok (rB, cB) ∧ cB.d_codeBuffer = cA.d_codeBuffer ++ codeB ∧
      bf_assign x x cB = .ok (codeA, cB1) ∧
      cF.d_codeBuffer = c.d_codeBuffer ++ (mvCode c.d_pointer x ++ loopC (codeB ++ codeA)) ∧
      cF.d_pointer = x ∧
      ∀ t, Bytes t → t x ≠ 0 → ∃ tB t1 : Int → Nat,
        Runs codeB ⟨t, x⟩ ⟨tB, cB.d_pointer⟩ ∧ tB x = t x ∧
        Runs codeA ⟨tB, cB.d_pointer⟩ ⟨t1, x⟩ ∧ t1 x = 0 ∧
        Rounds (codeB ++ codeA) 1 ⟨t, x⟩ ⟨t1, x⟩) ∧
    (∃ (rI rB : Int) (codeI codeB codeA : Code) (c0 cA cB cB1 cF : Compiler),
      forStatement init condition increment body c = .ok (-1, cF) ∧
      init c = .ok (rI, c0) ∧ c0.d_codeBuffer = c.d_codeBuffer ++ codeI ∧
      mergeInstructions body increment cA = .ok (rB, cB) ∧
      cB.d_codeBuffer = cA.d_codeBuffer ++ codeB ∧
      bf_assign x x cB = .ok (codeA, cB1) ∧
      cF.d_codeBuffer =
        c.d_codeBuffer ++ (codeI ++ mvCode c0.d_pointer x ++ loopC (codeB ++ codeA)) ∧
      cF.d_pointer = x ∧
      ∀ t, Bytes t → t x ≠ 0 → ∃ tI tB t1 : Int → Nat,
        Runs codeI ⟨t, c.d_pointer⟩ ⟨tI, c0.d_pointer⟩ ∧ tI x = t x ∧
        Runs codeB ⟨tI, x⟩ ⟨tB, cB.d_pointer⟩ ∧ tB x = t x ∧
        Runs codeA ⟨tB, cB.d_pointer⟩ ⟨t1, x⟩ ∧ t1 x = 0 ∧
        Rounds (codeB ++ codeA) 1 ⟨tI, x⟩ ⟨t1, x⟩) :=
  ⟨Compiler.whileStatement_variable c x condition body hcs hx hc hbody,
    Compiler.forStatement_variable c x init condition increment body hcs hx hc hinit hincr
      hbody⟩

theorem loop_on_variable_witness :
    exampleState.d_callStack ≠ [] ∧ exampleState.Live 0 ∧
    (∀ s, (pure 0 : Instruction) s = .ok (0, s)) ∧ Keeps (setThunk 2 1) [0] ∧
    Keeps (setThunk 3 2) [0] ∧ Keeps (setThunk 1 5) [0] ∧
    (∃ (rB : Int) (codeB codeA : Code) (cA cB cB1 cF : Compiler),
      whileStatement (pure 0) (setThunk 1 5) exampleState = .ok (-1, cF) ∧
      setThunk 1 5 cA = .ok (rB, cB) ∧ cB.d_codeBuffer = cA.d_codeBuffer ++ codeB ∧
      bf_assign 0 0 cB = .ok (codeA, cB1) ∧
      cF.d_codeBuffer =
        exampleState.d_codeBuffer ++
          (mvCode exampleState.d_pointer 0 ++ loopC (codeB ++ codeA)) ∧
      cF.d_pointer = 0 ∧
      ∀ t, Bytes t → t 0 ≠ 0 → ∃ tB t1 : Int → Nat,
        Runs codeB ⟨t, 0⟩ ⟨tB, cB.d_pointer⟩ ∧ tB 0 = t 0 ∧
        Runs codeA ⟨tB, cB.d_pointer⟩ ⟨t1, 0⟩ ∧ t1 0 = 0 ∧
        Rounds (codeB ++ codeA) 1 ⟨t, 0⟩ ⟨t1, 0⟩) ∧
    (∃ (rI rB : Int) (codeI codeB codeA : Code) (c0 cA cB cB1 cF : Compiler),
      forStatement (setThunk 2 1) (pure 0) (setThunk 3 2) (setThunk 1 5) exampleState =
        .ok (-1, cF) ∧
      setThunk 2 1 exampleState = .ok (rI, c0) ∧
      c0.d_codeBuffer = exampleState.d_codeBuffer ++ codeI ∧
      mergeInstructions (setThunk 1 5) (setThunk 3 2) cA = .ok (rB, cB) ∧
      cB.d_codeBuffer = cA.d_codeBuffer ++ codeB ∧
      bf_assign 0 0 cB = .ok (codeA, cB1) ∧
      cF.d_codeBuffer =
        exampleState.d_codeBuffer ++
          (codeI ++ mvCode c0.d_pointer 0 ++ loopC (codeB ++ codeA)) ∧
      cF.d_pointer = 0 ∧
      ∀ t, Bytes t → t 0 ≠ 0 → ∃ tI tB t1 : Int → Nat,
        Runs codeI ⟨t, exampleState.d_pointer⟩ ⟨tI, c0.d_pointer⟩ ∧ tI 0 = t 0 ∧
        Runs codeB ⟨tI, 0⟩ ⟨tB, cB.d_pointer⟩ ∧ tB 0 = t 0 ∧
        Runs codeA ⟨tB, cB.d_pointer⟩ ⟨t1, 0⟩ ∧ t1 0 = 0 ∧
        Rounds (codeB ++ codeA) 1 ⟨tI, 0⟩ ⟨t1, 0⟩) :=
  have hcs : exampleState.d_callStack ≠ [] := by decide
  have k1 : Keeps (setThunk 2 1) [0] :=
    Compiler.Keeps.setThunk (by decide) (by decide) (by decide)
  have k2 : Keeps (setThunk 3 2) [0] :=
    Compiler.Keeps.setThunk (by decide) (by decide) (by decide)
  have k3 : Keeps (setThunk 1 5) [0] :=
    Compiler.Keeps.setThunk (by decide) (by decide) (by decide)
  ⟨hcs, rfl, fun _ => rfl, k1, k2, k3,
    loop_on_variable exampleState 0 (setThunk 2 1) (pure 0) (setThunk 3 2) (setThunk 1 5) hcs
      rfl (fun _ => rfl) k1 k2 k3⟩

/-! ## The protect stack, the release of temporaries and the layout of the tape -/

/-- C21: `push` and `pop` are LIFO inverses.  For every tape and every list of
valid addresses (repetitions allowed) the pushes return; as many pops then
return the addresses in reverse order and give back the allocator exactly as
it was before the first push, so every cell has its identifier, scope, content
tag and type again.  In between, after `j` of the pops, the allocator is what
the pushes of the addresses not yet popped made of it, and each of these
addresses holds a cell with the protected tag. -/
theorem push_pop_lifo (m : Memory) (addrs : List Int)
    (hvalid : ∀ a, a ∈ addrs → 0 ≤ a ∧ a.toNat < m.d_memory.length) :
    ∃ m1, Memory.pushAll m addrs = .ok m1 ∧
      Memory.popN m1 addrs.length = .ok (addrs.reverse, m) ∧
      ∀ j, j ≤ addrs.length →
        ∃ mj, Memory.pushAll m (addrs.take (addrs.length - j)) = .ok mj ∧
          Memory.popN m1 j = .ok (addrs.reverse.take j, mj) ∧
          ∀ a, a ∈ addrs.take (addrs.length - j) →
            ∃ cell, mj.d_memory[a.toNat]? = some cell ∧ cell.content = .PROTECTED := by
  obtain ⟨m1, h1, _, h3⟩ := Memory.pushAll_popN m addrs hvalid
  refine ⟨m1, h1, ?_, ?_⟩
  · obtain ⟨mj, hmj, hpop⟩ := h3 addrs.length (le_refl _)
    simp only [Nat.sub_self, List.take_zero, Memory.pushAll] at hmj
    cases hmj
    rw [hpop, ← List.length_reverse addrs, List.take_length]
  · intro j hj
    obtain ⟨mj, hmj, hpop⟩ := h3 j hj
    exact ⟨mj, hmj, hpop, (Memory.pushAll_protected _ _ _ hmj).2⟩

/-- Three pushes, one address twice, on the tape `localTape`. -/
theorem push_pop_lifo_witness :
    (∀ a, a ∈ [(0 : Int), 2, 0] → 0 ≤ a ∧ a.toNat < localTape.d_memory.length) ∧
    ∃ m1, Memory.pushAll localTape [0, 2, 0] = .ok m1 ∧
      Memory.popN m1 [(0 : Int), 2, 0].length = .ok ([(0 : Int), 2, 0].reverse, localTape) ∧
      ∀ j, j ≤ [(0 : Int), 2, 0].length →
        ∃ mj, Memory.pushAll localTape ([(0 : Int), 2, 0].take ([(0 : Int), 2, 0].length - j))
            = .ok mj ∧
          Memory.popN m1 j = .ok ([(0 : Int), 2, 0].reverse.take j, mj) ∧
          ∀ a, a ∈ [(0 : Int), 2, 0].take ([(0 : Int), 2, 0].length - j) →
            ∃ cell, mj.d_memory[a.toNat]? = some cell ∧ cell.content = .PROTECTED :=
  ⟨by decide, push_pop_lifo localTape [0, 2, 0] (by decide)⟩

/-- C22, as stated, fails on a state the allocator reaches through an address
that `allocate` returned earlier: `a` and `b` of `f` are allocated at 0 and 1
and freed, a temporary of two cells of `f` takes the cells 0 and 1, and
`rename(1, "z", "g")` names the cell 1; `freeTemps("f")` then clears the named
cell of the other scope. -/
theorem freeTemps_clears_named :
    ∃ m1 m2 m3 m4 m5 m6 : Memory,
      Memory.allocate [] (Memory.init 4) "a" "f" (.int 1) = .ok (0, m1) ∧
      Memory.allocate [] m1 "b" "f" (.int 1) = .ok (1, m2) ∧
      Memory.freeLocals [] m2 "f" = .ok m3 ∧
      Memory.getTemp [] m3 "f" 2 = .ok (0, m4) ∧
      Memory.rename m4 1 "z" "g" = .ok m5 ∧
      Memory.freeTemps [] m5 "f" = .ok m6 ∧
      m5.d_memory[1]?.map (fun c => (c.identifier, c.scope, c.content)) =
        some ("z", "g", .NAMED) ∧
      m6.d_memory[1]?.map (fun c => (c.identifier, c.scope, c.content)) =
        some ("", "", .EMPTY) :=
  ⟨_, _, _, _, _, _, rfl, rfl, rfl, rfl, rfl, rfl, rfl, rfl⟩

/-- C22, amended: in every state reached from an all-empty tape by `allocate`,
`getTemp` and `getTempBlock` over integer types, `pop`, `freeTemps`,
`freeLocals` of non-empty scopes, and `push`, `markAsTemp` and `rename` at an
address whose cell starts a value at the time of the call (a cell tagged
named, temporary or protected, or the typed cell tagged referenced that starts
a value of the global scope), `freeTemps(s)` returns; afterwards no cell has
the temporary tag with scope `s`; every value that is tagged named or
protected, or is registered under a scope other than `s`, keeps its first cell
and its continuation cells; and a cell that does change lies in the range of a
temporary of scope `s` and is cleared. -/
theorem freeTemps_frame (tm : TypeMap) (m : Memory) (s : String) (h : Memory.Reach tm m) :
    ∃ m1, Memory.freeTemps tm m s = .ok m1 ∧
      (∀ (x : Nat) (c : Cell), m1.d_memory[x]? = some c →
        ¬ (c.content = .TEMP ∧ c.scope = s)) ∧
      (∀ (i : Nat) (c : Cell), m.d_memory[i]? = some c → c.isValue →
        (c.content = .NAMED ∨ c.content = .PROTECTED ∨ c.scope ≠ s) →
        ∀ x, i ≤ x → x < i + max 1 (c.size tm) → m1.d_memory[x]? = m.d_memory[x]?) ∧
      (∀ x, m1.d_memory[x]? = m.d_memory[x]? ∨
        ∃ i c0 cx, m.d_memory[i]? = some c0 ∧ c0.content = .TEMP ∧ c0.scope = s ∧
          i ≤ x ∧ x < i + max 1 (c0.size tm) ∧ m.d_memory[x]? = some cx ∧
          m1.d_memory[x]? = some cx.cleared) := by
  have hs := h.sound
  obtain ⟨m1, h1, _, _, _, h5, h6⟩ := Memory.freeTemps_spec tm m s hs
  refine ⟨m1, h1, h5, ?_, h6⟩
  intro i c hi hc hkeep x hx1 hx2
  rcases h6 x with heq | ⟨k, c0, cx, hk, hk1, hk2, hk3, hk4, _, _⟩
  · exact heq
  · exfalso
    have hc0 : c0.isValue := Or.inl ((Memory.Cell.isHead_iff c0).2 (Or.inr (Or.inl hk1)))
    have hik : i = k := hs.disjoint hi hk hc hc0 ⟨hx1, hx2⟩ ⟨hk3, hk4⟩
    subst hik
    rw [hi] at hk
    cases hk
    rcases hkeep with h' | h' | h'
    · rw [hk1] at h'
      cases h'
    · rw [hk1] at h'
      cases h'
    · exact h' hk2

/-- The release of the temporaries of `f` on the tape `tempTape`. -/
theorem freeTemps_frame_witness :
    Memory.Reach [] tempTape ∧
    ∃ m1, Memory.freeTemps [] tempTape "f" = .ok m1 ∧
      (∀ (x : Nat) (c : Cell), m1.d_memory[x]? = some c →
        ¬ (c.content = .TEMP ∧ c.scope = "f")) ∧
      (∀ (i : Nat) (c : Cell), tempTape.d_memory[i]? = some c → c.isValue →
        (c.content = .NAMED ∨ c.content = .PROTECTED ∨ c.scope ≠ "f") →
        ∀ x, i ≤ x → x < i + max 1 (c.size []) →
          m1.d_memory[x]? = tempTape.d_memory[x]?) ∧
      (∀ x, m1.d_memory[x]? = tempTape.d_memory[x]? ∨
        ∃ i c0 cx, tempTape.d_memory[i]? = some c0 ∧ c0.content = .TEMP ∧ c0.scope = "f" ∧
          i ≤ x ∧ x < i + max 1 (c0.size []) ∧ tempTape.d_memory[x]? = some cx ∧
          m1.d_memory[x]? = some cx.cleared) :=
  ⟨Memory.Reach.getTemp
      (Memory.Reach.allocate (Memory.Reach.init 4)
        (rfl : Memory.allocate [] (Memory.init 4) "x" "f" (.int 1) = .ok (0, localTape)))
      (rfl : Memory.getTemp [] localTape "f" 2 = .ok (1, tempTape)),
   freeTemps_frame [] tempTape "f"
    (Memory.Reach.getTemp
      (Memory.Reach.allocate (Memory.Reach.init 4)
        (rfl : Memory.allocate [] (Memory.init 4) "x" "f" (.int 1) = .ok (0, localTape)))
      (rfl : Memory.getTemp [] localTape "f" 2 = .ok (1, tempTape)))⟩

/-- C29, as stated, fails for `rename` at an address that `allocate` returned
earlier: `a` and `b` of `f` are allocated at 0 and 1 and freed, `y` of two
cells takes the cells 0 and 1, and `rename(1, "z", "f")` tags the second cell
of `y` named. -/
theorem rename_breaks_layout :
    ∃ m1 m2 m3 m4 m5 : Memory,
      Memory.allocate [] (Memory.init 4) "a" "f" (.int 1) = .ok (0, m1) ∧
      Memory.allocate [] m1 "b" "f" (.int 1) = .ok (1, m2) ∧
      Memory.freeLocals [] m2 "f" = .ok m3 ∧
      Memory.allocate [] m3 "y" "f" (.int 2) = .ok (0, m4) ∧
      Memory.rename m4 1 "z" "f" = .ok m5 ∧
      ¬ Memory.Layout [] m5.d_memory := by
  refine ⟨_, _, _, _, _, rfl, rfl, rfl, rfl, rfl, ?_⟩
  intro hL
  obtain ⟨c, hc, hr⟩ := hL.1 0 _ rfl rfl 1 (le_refl _) (by decide)
  cases hc
  cases hr

/-- C29, amended: in every state reached from an all-empty tape by `allocate`,
`getTemp` and `getTempBlock` over integer types, `pop`, `freeTemps`,
`freeLocals` of non-empty scopes, and `push`, `markAsTemp` and `rename` at an
address whose cell starts a value at the time of the call (a cell tagged
named, temporary or protected, or the typed cell tagged referenced that starts
a value of the global scope), every cell tagged named, temporary or protected
with type size `n` is followed by `n - 1` cells tagged referenced, and the
ranges of two such values do not overlap. -/
theorem reach_layout (tm : TypeMap) (m : Memory) (h : Memory.Reach tm m) :
    Memory.Layout tm m.d_memory :=
  h.sound.layout

/-- The layout of the tape `tempTape`. -/
theorem reach_layout_witness : Memory.Reach [] tempTape ∧ Memory.Layout [] tempTape.d_memory :=
  ⟨Memory.Reach.getTemp
      (Memory.Reach.allocate (Memory.Reach.init 4)
        (rfl : Memory.allocate [] (Memory.init 4) "x" "f" (.int 1) = .ok (0, localTape)))
      (rfl : Memory.getTemp [] localTape "f" 2 = .ok (1, tempTape)),
   reach_layout [] tempTape
    (Memory.Reach.getTemp
      (Memory.Reach.allocate (Memory.Reach.init 4)
        (rfl : Memory.allocate [] (Memory.init 4) "x" "f" (.int 1) = .ok (0, localTape)))
      (rfl : Memory.getTemp [] localTape "f" 2 = .ok (1, tempTape)))⟩

/-! ## Inline fragments and the final rewrite of the output -/

/-- C24, as stated, fails for a fragment that moves the pointer outside of
every bracketed region: in `[-]>` the only region has displacement zero, yet
`validateInlineBF` answers `false` and `inlineBF` reports a compile error. -/
theorem inlineBF_rejects_top_level :
    parse ['[', '-', ']', '>'] = some (.loop (.dec .halt) (.right .halt)) ∧
    (Prog.loop (.dec .halt) (.right .halt)).regionsNeutral = true ∧
    validateInlineBF ['[', '-', ']', '>'] = .ok false ∧
    inlineBF ['[', '-', ']', '>'] exampleState = .error .compileError :=
  ⟨rfl, rfl, rfl, rfl⟩

/-- C24, amended: for every bracket-balanced inline fragment (shorter than
`2 ^ 31` characters, the range of the counter), `validateInlineBF` accepts it
if and only if the net pointer displacement is zero within every bracketed
region and also over the part of the fragment outside of all brackets; an
accepted fragment is emitted unmodified by `inlineBF`, which returns -1, and
any other is answered `false` and reported as a compile error. -/
theorem inlineBF_accepts (code : Code) (p : Prog) (c : Compiler) (h : parse code = some p)
    (hlen : code.length < 2 ^ 31) :
    (validateInlineBF code = .ok true ↔ (p.regionsNeutral = true ∧ p.shift = 0)) ∧
    ((p.regionsNeutral = true ∧ p.shift = 0) →
      inlineBF code c = .ok (-1, { c with d_codeBuffer := c.d_codeBuffer ++ code })) ∧
    (¬ (p.regionsNeutral = true ∧ p.shift = 0) →
      validateInlineBF code = .ok false ∧ inlineBF code c = .error .compileError) := by
  have hv := Compiler.validateInlineBF_spec code p h hlen
  have hiff : (p.regionsNeutral && decide (p.shift = 0)) = true ↔
      (p.regionsNeutral = true ∧ p.shift = 0) := by simp
  refine ⟨?_, ?_, ?_⟩
  · rw [hv, ← hiff]
    constructor
    · intro e
      exact Except.ok.inj e
    · intro e
      rw [e]
  · intro hok
    rw [Compiler.inlineBF_run code _ c hv, if_pos (hiff.2 hok)]
  · intro hno
    have hf : (p.regionsNeutral && decide (p.shift = 0)) = false := by
      cases hb : (p.regionsNeutral && decide (p.shift = 0))
      · rfl
      · exact absurd (hiff.1 hb) hno
    rw [Compiler.inlineBF_run code _ c hv, hv, hf]
    exact ⟨rfl, rfl⟩

/-- The fragment `>[>+<-]<`, whose region and top level are both neutral. -/
theorem inlineBF_accepts_witness :
    parse ['>', '[', '>', '+', '<', '-', ']', '<'] =
      some (.right (.loop (.right (.inc (.left (.dec .halt)))) (.left .halt))) ∧
    ['>', '[', '>', '+', '<', '-', ']', '<'].length < 2 ^ 31 ∧
    (validateInlineBF ['>', '[', '>', '+', '<', '-', ']', '<'] = .ok true ↔
      ((Prog.right (.loop (.right (.inc (.left (.dec .halt)))) (.left .halt))).regionsNeutral
          = true ∧
        (Prog.right (.loop (.right (.inc (.left (.dec .halt)))) (.left .halt))).shift = 0)) ∧
    (((Prog.right (.loop (.right (.inc (.left (.dec .halt)))) (.left .halt))).regionsNeutral
          = true ∧
        (Prog.right (.loop (.right (.inc (.left (.dec .halt)))) (.left .halt))).shift = 0) →
      inlineBF ['>', '[', '>', '+', '<', '-', ']', '<'] exampleState =
        .ok (-1, { exampleState with
          d_codeBuffer :=
            exampleState.d_codeBuffer ++ ['>', '[', '>', '+', '<', '-', ']', '<'] })) ∧
    (¬ ((Prog.right (.loop (.right (.inc (.left (.dec .halt)))) (.left .halt))).regionsNeutral
          = true ∧
        (Prog.right (.loop (.right (.inc (.left (.dec .halt)))) (.left .halt))).shift = 0) →
      validateInlineBF ['>', '[', '>', '+', '<', '-', ']', '<'] = .ok false ∧
      inlineBF ['>', '[', '>', '+', '<', '-', ']', '<'] exampleState = .error .compileError) :=
  ⟨rfl, by decide,
   inlineBF_accepts ['>', '[', '>', '+', '<', '-', ']', '<'] _ exampleState rfl (by decide)⟩

/-- C25, as stated, fails when increments that cancel stand between opposite
moves: the pass over the moves comes first, so `>+-<` is rewritten to `><`. -/
theorem cancel_leaves_moves :
    cancelOppositeCommands ['>', '+', '-', '<'] = .ok ['>', '<'] ∧
    noAdjacent '>' '<' ['>', '<'] = false :=
  ⟨rfl, rfl⟩

/-- C25, amended: for every input string (shorter than `2 ^ 31` characters,
the range of the counter), `cancelOppositeCommands` returns; its output
contains no `+` immediately adjacent to a `-` (in either order), and the text
its first pass hands to the second contains no `>` immediately adjacent to a
`<` (in either order). -/
theorem cancel_no_opposite (bf : Code) (hlen : bf.length < 2 ^ 31) :
    ∃ mid out, cancel bf '>' '<' = .ok mid ∧ cancelOppositeCommands bf = .ok out ∧
      noAdjacent '>' '<' mid = true ∧ noAdjacent '+' '-' out = true := by
  obtain ⟨mid, h1, c1, l1⟩ := Compiler.cancel_noAdjacent bf '>' '<' (by decide) hlen
  obtain ⟨out, h2, c2, _⟩ := Compiler.cancel_noAdjacent mid '+' '-' (by decide)
    (lt_of_le_of_lt l1 hlen)
  refine ⟨mid, out, h1, ?_, c1, c2⟩
  simp only [cancelOppositeCommands, h1, h2]

/-- The text `+>><-+<-`. -/
theorem cancel_no_opposite_witness :
    ['+', '>', '>', '<', '-', '+', '<', '-'].length < 2 ^ 31 ∧
    ∃ mid out, cancel ['+', '>', '>', '<', '-', '+', '<', '-'] '>' '<' = .ok mid ∧
      cancelOppositeCommands ['+', '>', '>', '<', '-', '+', '<', '-'] = .ok out ∧
      noAdjacent '>' '<' mid = true ∧ noAdjacent '+' '-' out = true :=
  ⟨by decide, cancel_no_opposite ['+', '>', '>', '<', '-', '+', '<', '-'] (by decide)⟩

set_option maxRecDepth 10000 in
/-- C27, the failing cases: sizes travel as `uint8_t`, so the test
`sz > MAX_ARRAY_SIZE` never fires and a request above 255 is compiled with
the size modulo 256.  A literal array and a string are compiled as their first
`size % 256` elements, an array fill with its size modulo 256; the written
size 258 reaches the compiler as 2, and a declaration of that size, a fill of
that size and a string of 258 bytes (the letter `a`) each return a value of
2 cells. -/
theorem oversized_array_compiled :
    (∀ n : Nat, decide (n % 256 > MAX_ARRAY_SIZE) = false) ∧
    (∀ list : List Instruction,
      arrayFromList list = arrayFromList (list.take (list.length % 256))) ∧
    (∀ str : List Nat,
      arrayFromString str = arrayFromString (str.take (str.length % 256))) ∧
    (∀ sz val : Nat, arrayFromSizeStaticValue (sz + 256) val = arrayFromSizeStaticValue sz val) ∧
    (∀ (sz : Nat) (val : Int),
      arrayFromSizeDynamicValue (sz + 256) val = arrayFromSizeDynamicValue sz val) ∧
    lexNum 258 = 2 ∧
    (∃ a c1, Compiler.variable [] "v" (lexNum 258) false exampleState = .ok (a, c1) ∧
      Memory.sizeOf c1.typeMap c1.d_memory a = .ok 2) ∧
    (∃ a c1, arrayFromSizeStaticValue (lexNum 258) 7 exampleState = .ok (a, c1) ∧
      Memory.sizeOf c1.typeMap c1.d_memory a = .ok 2) ∧
    (∃ a c1, arrayFromString (List.replicate 258 97) exampleState = .ok (a, c1) ∧
      Memory.sizeOf c1.typeMap c1.d_memory a = .ok 2) :=
  ⟨Compiler.size_test_dead, Compiler.arrayFromList_take, Compiler.arrayFromString_take,
   fun sz val => by simp [arrayFromSizeStaticValue],
   fun sz val => by simp [arrayFromSizeDynamicValue],
   rfl, ⟨_, _, rfl, rfl⟩, ⟨_, _, rfl, rfl⟩, ⟨_, _, rfl, rfl⟩⟩

/-- C28, the failing cases: the buffer size `sz + 2` passes through the
`uint8_t` parameter of `allocateTemp`, so for `sz = 254` a buffer of 0 cells
is requested and for `sz = 255` one of 1 cell; on an array of 254 cells
neither `assignElement` nor `fetchElement` returns. -/
theorem assignElement_size_254 (c : Compiler) (ident : String) (index rhs arr : Int)
    (haddr : addressOf ident c = .ok (arr, c))
    (hsz : Memory.sizeOf c.typeMap c.d_memory arr = .ok 254) :
    allocateTemp (254 + 2) c = allocateTemp 0 c ∧
    allocateTemp (255 + 2) c = allocateTemp 1 c ∧
    (∃ e, assignElement ident index rhs c = .error e) ∧
    (∃ e, fetchElement ident index c = .error e) :=
  ⟨rfl, rfl, Compiler.assignElement_254 c ident index rhs arr haddr hsz,
   Compiler.fetchElement_254 c ident index arr haddr hsz⟩

set_option maxRecDepth 10000 in
/-- An array of 254 cells. -/
theorem assignElement_size_254_witness :
    addressOf "arr" (arrayState 254) = .ok (0, arrayState 254) ∧
    Memory.sizeOf (arrayState 254).typeMap (arrayState 254).d_memory 0 = .ok 254 ∧
    allocateTemp (254 + 2) (arrayState 254) = allocateTemp 0 (arrayState 254) ∧
    allocateTemp (255 + 2) (arrayState 254) = allocateTemp 1 (arrayState 254) ∧
    (∃ e, assignElement "arr" 254 255 (arrayState 254) = .error e) ∧
    (∃ e, fetchElement "arr" 254 (arrayState 254) = .error e) :=
  ⟨rfl, rfl, assignElement_size_254 (arrayState 254) "arr" 254 255 0 rfl rfl⟩

/-! ## Calls, the shapes of assignments and the cursor -/

/-- C23: `call(f, args)` is rejected with a compile error whenever `f` is
undeclared, occurs anywhere in the active call stack, or is given a number of
arguments that differs from its number of parameters.  When a call succeeds
(its argument thunks and the body of `f` leaving the call stack as they find
it, as every thunk built from the operations of the synthesizer does), the
call stack afterwards equals the call stack before it, so a name that was not
in the call stack before the call is not in it afterwards and a sibling can
be called next; `f` was not in the call stack, its body ran with `f` pushed on
top of it, and no name occurred twice there if none did before. -/
theorem call_stack_discipline (fm : FunctionMap) (f : String) (args : List Instruction)
    (c : Compiler) (hargs : ∀ a, a ∈ args → StackNeutral a)
    (hbody : ∀ func, func ∈ fm → StackNeutral func.body) :
    ((findFunction fm f = none ∨ f ∈ c.d_callStack ∨
        ∃ func, findFunction fm f = some func ∧ func.params.length ≠ args.length) →
      call fm f args c = .error .compileError) ∧
    (∀ r c1, call fm f args c = .ok (r, c1) →
      c1.d_callStack = c.d_callStack ∧ (∀ g, g ∉ c.d_callStack → g ∉ c1.d_callStack) ∧
      f ∉ c.d_callStack ∧
      ∃ func cB rb cB1, func ∈ fm ∧ func.name = f ∧ cB.d_callStack = c.d_callStack ++ [f] ∧
        (c.d_callStack.Nodup → cB.d_callStack.Nodup) ∧ func.body cB = .ok (rb, cB1)) := by
  refine ⟨Compiler.call_rejects fm f args c, ?_⟩
  intro r c1 h
  have hst := Compiler.StackNeutral.of_call fm f args hargs hbody c r c1 h
  obtain ⟨func, cA, rb, c3, hf, hname, hin, _, h1, h2, _, _⟩ := Compiler.call_inv h
  have eA := Compiler.StackNeutral.of_callArgs func func.params args hargs c () cA h1
  refine ⟨hst, fun g hg => by rw [hst]; exact hg, hin, func, _, rb, c3,
    List.mem_of_find?_eq_some hf, hname, ?_, ?_, h2⟩
  · simp only [eA]
  · intro hnd
    simp only [eA]
    rw [List.nodup_append]
    refine ⟨hnd, List.nodup_singleton f, ?_⟩
    intro a ha hb
    rw [List.mem_singleton] at hb
    subst hb
    exact hin ha

/-- Two siblings called in sequence inside `main`, and a direct and an
indirect recursion. -/
theorem call_stack_discipline_witness :
    (∀ a, a ∈ ([] : List Instruction) → StackNeutral a) ∧
    (∀ func, func ∈ siblingMap → StackNeutral func.body) ∧
    (((findFunction siblingMap "f" = none ∨ "f" ∈ exampleState.d_callStack ∨
        ∃ func, findFunction siblingMap "f" = some func ∧
          func.params.length ≠ ([] : List Instruction).length) →
      call siblingMap "f" [] exampleState = .error .compileError) ∧
    (∀ r c1, call siblingMap "f" [] exampleState = .ok (r, c1) →
      c1.d_callStack = exampleState.d_callStack ∧
      (∀ g, g ∉ exampleState.d_callStack → g ∉ c1.d_callStack) ∧
      "f" ∉ exampleState.d_callStack ∧
      ∃ func cB rb cB1, func ∈ siblingMap ∧ func.name = "f" ∧
        cB.d_callStack = exampleState.d_callStack ++ ["f"] ∧
        (exampleState.d_callStack.Nodup → cB.d_callStack.Nodup) ∧
        func.body cB = .ok (rb, cB1))) ∧
    (∃ c1, (do let _ ← call siblingMap "f" []; call siblingMap "g" []) exampleState =
        .ok (-1, c1) ∧ c1.d_callStack = exampleState.d_callStack) ∧
    call siblingMap "h" [] exampleState = .error .compileError ∧
    call siblingMap "f" [pure 0] exampleState = .error .compileError ∧
    call selfMap "f" [] exampleState = .error .compileError ∧
    call mutualMap "f" [] exampleState = .error .compileError :=
  ⟨fun a ha => absurd ha (List.not_mem_nil a),
   fun func hf => by
    simp only [siblingMap, List.mem_cons, List.mem_singleton, List.not_mem_nil, or_false] at hf
    rcases hf with rfl | rfl
    · exact Compiler.StackNeutral.of_constVal 1
    · exact Compiler.StackNeutral.of_pure _,
   call_stack_discipline siblingMap "f" [] exampleState
    (fun a ha => absurd ha (List.not_mem_nil a))
    (fun func hf => by
      simp only [siblingMap, List.mem_cons, List.mem_singleton, List.not_mem_nil,
        or_false] at hf
      rcases hf with rfl | rfl
      · exact Compiler.StackNeutral.of_constVal 1
      · exact Compiler.StackNeutral.of_pure _),
   ⟨_, rfl, rfl⟩, rfl, rfl, rfl, rfl⟩

/-- C26: `assign(lhs, rhs)` on values of `L` and `R` allocated cells is a
compile error exactly when `L` and `R` differ and it is not the fill case
(`L > 1` with `R = 1`).  When the sizes are equal it appends the text of the
cell-by-cell copy `bf_assign(lhs, rhs, L)`, which terminates on the cursor and,
the two ranges being disjoint, leaves in each of the `L` cells of `lhs` the
value of the matching cell of `rhs`; in the fill case it appends a text that
terminates on the cursor and, `rhs` being none of the cells of `lhs`, leaves
the value of `rhs` in each of the `L` cells.  On success it returns `lhs`. -/
theorem assign_shapes (c : Compiler) (lhs rhs : Int) (L R : Nat) (hr : c.Ready 1)
    (hsl : Memory.sizeOf c.typeMap c.d_memory lhs = .ok L)
    (hsr : Memory.sizeOf c.typeMap c.d_memory rhs = .ok R)
    (hll : ∀ j : Nat, j < L → c.Live (lhs + j)) (hlr : ∀ j : Nat, j < R → c.Live (rhs + j)) :
    (assign lhs rhs c = .error .compileError ↔ (L ≠ R ∧ ¬ (L > 1 ∧ R = 1))) ∧
    (L = R → ∃ code c1, bf_assignN lhs rhs L c = .ok (code, c1) ∧
      assign lhs rhs c = .ok (lhs, { c1 with d_codeBuffer := c.d_codeBuffer ++ code }) ∧
      ∀ t, Bytes t → ∃ t1, Runs code ⟨t, c.d_pointer⟩ ⟨t1, c1.d_pointer⟩ ∧
        ((∀ i j : Nat, i < L → j < L → lhs + i ≠ rhs + j) →
          ∀ j : Nat, j < L → t1 (lhs + j) = t (rhs + j))) ∧
    ((L > 1 ∧ R = 1) → ∃ code c1, assign lhs rhs c = .ok (lhs, c1) ∧
      c1.d_codeBuffer = c.d_codeBuffer ++ code ∧
      ∀ t, Bytes t → ∃ t1, Runs code ⟨t, c.d_pointer⟩ ⟨t1, c1.d_pointer⟩ ∧
        ((∀ j : Nat, j < L → lhs + j ≠ rhs) → ∀ j : Nat, j < L → t1 (lhs + j) = t rhs)) := by
  obtain ⟨h1, h2, h3⟩ := Compiler.assign_cases c lhs rhs L R hr hsl hsr hll hlr
  refine ⟨⟨?_, h1⟩, h2, h3⟩
  intro herr
  by_cases hfill : L > 1 ∧ R = 1
  · obtain ⟨_, _, hok, _⟩ := h3 hfill
    rw [hok] at herr
    cases herr
  · by_cases heq : L = R
    · obtain ⟨_, _, _, hok, _⟩ := h2 heq
      rw [hok] at herr
      cases herr
    · exact ⟨heq, hfill⟩

/-- The array of two cells at address 0 filled from the variable `v` at
address 3. -/
theorem assign_shapes_witness :
    (arrayState 2).Ready 1 ∧
    Memory.sizeOf (arrayState 2).typeMap (arrayState 2).d_memory 0 = .ok 2 ∧
    Memory.sizeOf (arrayState 2).typeMap (arrayState 2).d_memory 3 = .ok 1 ∧
    (∀ j : Nat, j < 2 → (arrayState 2).Live (0 + j)) ∧
    (∀ j : Nat, j < 1 → (arrayState 2).Live (3 + j)) ∧
    (assign 0 3 (arrayState 2) = .error .compileError ↔ (2 ≠ 1 ∧ ¬ (2 > 1 ∧ 1 = 1))) ∧
    (2 = 1 → ∃ code c1, bf_assignN 0 3 2 (arrayState 2) = .ok (code, c1) ∧
      assign 0 3 (arrayState 2) =
        .ok (0, { c1 with d_codeBuffer := (arrayState 2).d_codeBuffer ++ code }) ∧
      ∀ t, Bytes t → ∃ t1, Runs code ⟨t, (arrayState 2).d_pointer⟩ ⟨t1, c1.d_pointer⟩ ∧
        ((∀ i j : Nat, i < 2 → j < 2 → (0 : Int) + i ≠ 3 + j) →
          ∀ j : Nat, j < 2 → t1 (0 + j) = t (3 + j))) ∧
    ((2 > 1 ∧ 1 = 1) → ∃ code c1, assign 0 3 (arrayState 2) = .ok (0, c1) ∧
      c1.d_codeBuffer = (arrayState 2).d_codeBuffer ++ code ∧
      ∀ t, Bytes t → ∃ t1, Runs code ⟨t, (arrayState 2).d_pointer⟩ ⟨t1, c1.d_pointer⟩ ∧
        ((∀ j : Nat, j < 2 → (0 : Int) + j ≠ 3) → ∀ j : Nat, j < 2 → t1 (0 + j) = t 3)) :=
  ⟨And.intro (by decide) (by decide), rfl, rfl,
   fun j hj => by interval_cases j <;> rfl,
   fun j hj => by interval_cases j; rfl,
   assign_shapes (arrayState 2) 0 3 2 1 (And.intro (by decide) (by decide)) rfl rfl
    (fun j hj => by interval_cases j <;> rfl) (fun j hj => by interval_cases j; rfl)⟩

/-- The operands of an emission primitive have to be allocated cells, as they
are at every call inside the synthesizer: in `gapState` the cell 0 is free, so
the temporary of `bf_addTo(0, 1)` is the cell 0 itself; the text returned ends
in the loop `[-+]`, and run from the cursor on a tape whose cell 1 holds 1 it
does not terminate. -/
theorem addTo_unallocated_spins :
    ¬ gapState.Live 0 ∧ gapState.Live 1 ∧ Bytes (tapeOf [0, 1]) ∧
    ∃ code c1, bf_addTo 0 1 gapState = .ok (code, c1) ∧
      ∀ s1, ¬ Runs code ⟨tapeOf [0, 1], gapState.d_pointer⟩ s1 := by
  obtain ⟨code, c2, h, hspin⟩ := Compiler.bf_addTo_spins gapState _ 0 1
    (And.intro (by decide) (by decide)) rfl
    (rfl : allocateTemp 1 gapState = .ok (0, _))
  exact ⟨fun hl => Bool.false_ne_true hl, rfl, tapeOf_bytes _, code, c2, h,
    hspin (tapeOf [0, 1]) (tapeOf_bytes _) (by decide)⟩

/-- C30: cursor synchronisation.  In a state of the synthesizer in which a
function is being compiled, each emission primitive called on cells the
allocator has issued (which may coincide), and `bf_movePtr` and
`bf_setToValue` on any valid address, returns a bracket-balanced text that,
run on any tape of bytes from a data pointer equal to the cursor before the
call, terminates with the data pointer equal to the cursor after the call;
`bf_movePtr(addr)` returns exactly `|addr - cursor|` moves in a single
direction. -/
theorem primitives_in_sync (c : Compiler) (addr lhs rhs result : Int) (v : Nat)
    (hr : c.Ready 1) (h0 : 0 ≤ addr) (hl : c.Live lhs) (hrh : c.Live rhs)
    (hres : c.Live result) :
    bf_movePtr addr c =
      .ok (List.replicate (addr - c.d_pointer).natAbs (if c.d_pointer ≤ addr then '>' else '<'),
        { c with d_pointer := addr }) ∧
    InSync (bf_movePtr addr) c ∧ InSync (bf_setToValue addr v) c ∧
    InSync (bf_assign lhs rhs) c ∧ InSync (bf_addTo lhs rhs) c ∧
    InSync (bf_subtractFrom lhs rhs) c ∧ InSync (bf_multiply lhs rhs result) c ∧
    InSync (bf_not lhs result) c ∧ InSync (bf_and lhs rhs result) c ∧
    InSync (bf_or lhs rhs result) c ∧ InSync (bf_equal lhs rhs result) c ∧
    InSync (bf_greater lhs rhs result) c ∧ InSync (bf_greaterOrEqual lhs rhs result) c := by
  refine ⟨?_, Compiler.bf_movePtr_inSync c addr h0, Compiler.bf_setToValue_inSync c addr v h0,
    (Compiler.bf_assign_writes c lhs rhs hr hl hrh).inSync,
    (Compiler.bf_addTo_writes c lhs rhs hr hl hrh).inSync,
    (Compiler.bf_subtractFrom_writes c lhs rhs hr hl hrh).inSync,
    (Compiler.bf_multiply_writes c lhs rhs result hr hl hrh hres).inSync,
    (Compiler.bf_not_writes c lhs result hr hl hres).inSync,
    (Compiler.bf_and_writes c lhs rhs result hr hl hrh hres).inSync,
    (Compiler.bf_or_writes c lhs rhs result hr hl hrh hres).inSync,
    (Compiler.bf_equal_writes c lhs rhs result hr hl hrh hres).inSync,
    (Compiler.bf_greater_writes c lhs rhs result hr hl hrh hres).inSync,
    (Compiler.bf_greaterOrEqual_writes c lhs rhs result hr hl hrh hres).inSync⟩
  rw [Compiler.bf_movePtr_run h0 c]
  unfold mvCode
  by_cases hle : c.d_pointer ≤ addr
  · have h1 : addr - c.d_pointer ≥ 0 := by omega
    rw [if_pos h1, if_pos hle]
    congr 3
    omega
  · have h1 : ¬ addr - c.d_pointer ≥ 0 := by omega
    rw [if_neg h1, if_neg hle]
    congr 3
    omega

/-- The primitives on the variables `x`, `y` and `z` of `exampleState`, the
result cell being an operand as well. -/
theorem primitives_in_sync_witness :
    exampleState.Ready 1 ∧ (0 : Int) ≤ 5 ∧ exampleState.Live 0 ∧ exampleState.Live 1 ∧
    bf_movePtr 5 exampleState =
      .ok (List.replicate ((5 : Int) - exampleState.d_pointer).natAbs
          (if exampleState.d_pointer ≤ 5 then '>' else '<'),
        { exampleState with d_pointer := 5 }) ∧
    InSync (bf_movePtr 5) exampleState ∧ InSync (bf_setToValue 5 7) exampleState ∧
    InSync (bf_assign 0 1) exampleState ∧ InSync (bf_addTo 0 1) exampleState ∧
    InSync (bf_subtractFrom 0 1) exampleState ∧ InSync (bf_multiply 0 1 0) exampleState ∧
    InSync (bf_not 0 0) exampleState ∧ InSync (bf_and 0 1 0) exampleState ∧
    InSync (bf_or 0 1 0) exampleState ∧ InSync (bf_equal 0 1 0) exampleState ∧
    InSync (bf_greater 0 1 0) exampleState ∧ InSync (bf_greaterOrEqual 0 1 0) exampleState :=
  ⟨And.intro (by decide) (by decide), by decide, rfl, rfl,
   primitives_in_sync exampleState 5 0 1 0 7 (And.intro (by decide) (by decide)) (by decide)
    rfl rfl rfl⟩

/-! ## Claims C31 to C33 -/

/-- C31, as stated, fails on a text of `2 ^ 31` moves to the right: the text
runs (it moves the data pointer `2 ^ 31` cells to the right), but the counter
of `cancel` is an `int`, its last increment overflows, and
`cancelOppositeCommands` has no defined result. -/
theorem cancel_counter_overflows :
    cancelOppositeCommands (List.replicate (2 ^ 31) '>') = .error .undefinedBehaviour ∧
    Runs (List.replicate (2 ^ 31) '>') ⟨fun _ => 0, 0⟩
      ⟨fun _ => 0, 0 + ((2 ^ 31 : Nat) : Int)⟩ := by
  exact ⟨Compiler.cancelOppositeCommands_overflow (2 ^ 31) (by unfold INT_MAX; norm_num),
    Runs.replicate_right (2 ^ 31) (fun _ => 0) 0⟩

/-- C31, amended: for every primitive-op string `p` shorter than `2 ^ 31`
characters (the range of the counter) and every initial state of a machine
with 8-bit wrapping cells and a tape unbounded in both directions,
`cancelOppositeCommands` returns a string `q`; running `q` terminates if and
only if running `p` terminates, and then both end with the same tape contents
and the same data pointer. -/
theorem cancel_preserves_meaning (p : Code) (s : Machine) (hlen : p.length < 2 ^ 31)
    (hs : Bytes s.tape) :
    ∃ q, cancelOppositeCommands p = .ok q ∧
      ((∃ s1, Runs q s s1) ↔ (∃ s1, Runs p s s1)) ∧
      ∀ s1 s2, Runs q s s1 → Runs p s s2 → s1.tape = s2.tape ∧ s1.ptr = s2.ptr := by
  obtain ⟨q, hq, _⟩ := Compiler.cancelOppositeCommands_ok p hlen
  have sem := fun s1 => Compiler.cancelOppositeCommands_sem hq s s1 hs
  refine ⟨q, hq, ⟨?_, ?_⟩, ?_⟩
  · rintro ⟨s1, h⟩
    exact ⟨s1, (sem s1).1 h⟩
  · rintro ⟨s1, h⟩
    exact ⟨s1, (sem s1).2 h⟩
  · intro s1 s2 h1 h2
    have e := Runs.det ((sem s1).1 h1) h2
    rw [e]
    exact ⟨rfl, rfl⟩

/-- The text `>+-<[>-+<-]` on the machine `moveStart`. -/
theorem cancel_preserves_meaning_witness :
    ['>', '+', '-', '<', '[', '>', '-', '+', '<', '-', ']'].length < 2 ^ 31 ∧
    Bytes moveStart.tape ∧
    ∃ q, cancelOppositeCommands ['>', '+', '-', '<', '[', '>', '-', '+', '<', '-', ']'] = .ok q ∧
      ((∃ s1, Runs q moveStart s1) ↔
        (∃ s1, Runs ['>', '+', '-', '<', '[', '>', '-', '+', '<', '-', ']'] moveStart s1)) ∧
      ∀ s1 s2, Runs q moveStart s1 →
        Runs ['>', '+', '-', '<', '[', '>', '-', '+', '<', '-', ']'] moveStart s2 →
        s1.tape = s2.tape ∧ s1.ptr = s2.ptr :=
  ⟨by decide, fun a => by unfold moveStart; dsimp only; split <;> decide,
   cancel_preserves_meaning ['>', '+', '-', '<', '[', '>', '-', '+', '<', '-', ']'] moveStart
    (by decide) (fun a => by unfold moveStart; dsimp only; split <;> decide)⟩

/-- C32 (code defect): `findFree` is not in bounds on a tape shorter than the
request.  For a request of `sz` cells, `1 ≤ sz` within the range of an `int`:
on a tape of at least `sz` cells the call returns, the tape extended by a
number of cells; on a shorter tape, the empty one included, the loop bound
`d_memory.size() - sz` wraps around, the scan is not stopped at the end of
the tape, and a cell outside the tape is read. -/
theorem findFree_short_tape (m : Memory) (sz : Nat) (hsz : 1 ≤ sz) (hint : sz < 2 ^ 31) :
    (m.size < sz → m.findFree sz = .error .undefinedBehaviour) ∧
    (sz ≤ m.size → ∃ a k, m.findFree sz =
      .ok (a, { m with d_memory := m.d_memory ++ List.replicate k Cell.mk0 })) := by
  refine ⟨fun h => Memory.findFree_short m sz hint h, fun h => ?_⟩
  obtain ⟨a, k, hf, _, _⟩ := Memory.findFree_spec m sz hsz h
  exact ⟨a, k, hf⟩

/-- The request `findFree(1)` on the empty tape `Memory(0)`. -/
theorem findFree_short_tape_witness :
    (1 : Nat) ≤ 1 ∧ (1 : Nat) < 2 ^ 31 ∧ (Memory.init 0).size < 1 ∧
    (Memory.init 0).findFree 1 = .error .undefinedBehaviour :=
  ⟨by decide, by decide, by decide,
   (findFree_short_tape (Memory.init 0) 1 (by decide) (by decide)).1 (by decide)⟩

/-- C33: for every fragment that `validateInlineBF` accepts, every initial
tape and every pointer position, if the run of the fragment terminates (only
a bracket-balanced fragment has a run), the data pointer ends where it
started; `inlineBF` emits the fragment and leaves the cursor unchanged, so a
cursor that was equal to the data pointer before the fragment is equal to it
afterwards. -/
theorem inlineBF_keeps_pointer (code : Code) (c : Compiler) (s s1 : Machine)
    (hv : validateInlineBF code = .ok true) (hr : Runs code s s1) :
    s1.ptr = s.ptr ∧
    ∃ c1, inlineBF code c = .ok (-1, c1) ∧ c1.d_codeBuffer = c.d_codeBuffer ++ code ∧
      c1.d_pointer = c.d_pointer ∧ (s.ptr = c.d_pointer → s1.ptr = c1.d_pointer) := by
  have hp := Runs.inline_neutral hv hr
  refine ⟨hp, { c with d_codeBuffer := c.d_codeBuffer ++ code }, ?_, rfl, rfl, ?_⟩
  · rw [Compiler.inlineBF_run code true c hv, if_pos rfl]
  · intro h
    rw [hp, h]

/-- The fragment `[>+<-]` run on `moveStart`: two rounds of the loop. -/
theorem inlineBF_keeps_pointer_witness :
    Balanced moveLoop ∧ validateInlineBF moveLoop = .ok true ∧
    Runs moveLoop moveStart moveEnd ∧
    moveEnd.ptr = moveStart.ptr ∧
    ∃ c1, inlineBF moveLoop exampleState = .ok (-1, c1) ∧
      c1.d_codeBuffer = exampleState.d_codeBuffer ++ moveLoop ∧
      c1.d_pointer = exampleState.d_pointer ∧
      (moveStart.ptr = exampleState.d_pointer → moveEnd.ptr = c1.d_pointer) :=
  ⟨rfl, rfl, ⟨20, rfl⟩,
   inlineBF_keeps_pointer moveLoop exampleState moveStart moveEnd rfl ⟨20, rfl⟩⟩

end BrainFix
